import Mathlib

set_option maxRecDepth 100000

/-! The text-formatting engine of `base/Format.cpp`.

A shallow embedding of the template scanner (`FormatParser`), the primitive
renderer (`FormatBuilder`), the option parser (`StandardFormatter::parse`) and
the driver (`vformat_impl`, `vformat`), followed by theorems about them.

Conventions of the embedding:

* a string (`StringView`, the contents of a `StringBuilder`) is a `List Char`;
* `size_t` and `u64` are natural numbers, reduced modulo `2 ^ 64` wherever the
  C++ arithmetic can wrap;
* a function that mutates an object through a reference takes the object and
  returns the new one;
* a failed `VERIFY` (the fatal abort of the engine) is the result
  `Outcome.abort`; a loop of the source whose number of iterations is not fixed
  on entry is run with an iteration budget, and the result `Outcome.nofuel`,
  distinct from an abort, marks an exhausted budget.
-/

namespace Base

/-- Result of running a piece of the engine: a normal return, the fatal abort
of a failed `VERIFY`, or the exhaustion of the iteration budget of the model. -/
inductive Outcome (α : Type) where
  | ok (a : α) : Outcome α
  | abort : Outcome α
  | nofuel : Outcome α
deriving DecidableEq, Repr

/-- Modulus of `size_t` and `u64` arithmetic. -/
def SIZE_MOD : Nat := 2 ^ 64

/-- The sentinel `use_next_index = NumericLimits<size_t>::max()`. -/
def use_next_index : Nat := 2 ^ 64 - 1

/-! ## GenericLexer -/

/-- Modelled from the spec: the class `GenericLexer` (`base/GenericLexer.h`) that
`FormatParser` derives from is not among the sources.  It is the borrowed,
immutable template span together with a read position. -/
structure GenericLexer where
  m_input : List Char
  m_index : Nat
deriving DecidableEq, Repr

namespace GenericLexer

/-- Modelled from the spec: `GenericLexer::tell()`, the read position. -/
def tell (l : GenericLexer) : Nat := l.m_index

/-- Modelled from the spec: `GenericLexer::is_eof()`, the position is at or
past the end of the input. -/
def is_eof (l : GenericLexer) : Bool := decide (l.m_input.length ≤ l.m_index)

/-- Modelled from the spec: `GenericLexer::remaining()`, the input from the read
position on. -/
def remaining (l : GenericLexer) : List Char := l.m_input.drop l.m_index

/-- Modelled from the spec: `GenericLexer::peek(offset)`, the character `offset`
places after the read position, or NUL when that is past the end. -/
def peek (l : GenericLexer) (offset : Nat) : Char :=
  l.m_input.getD (l.m_index + offset) (Char.ofNat 0)

/-- Modelled from the spec: `GenericLexer::next_is(const char*)`, every character
of `expected` equals the character peeked at its offset. -/
def next_is_str (l : GenericLexer) (expected : List Char) : Bool :=
  (List.range expected.length).all (fun i => l.peek i == expected.getD i (Char.ofNat 0))

/-- Modelled from the spec: `GenericLexer::consume()`, asserts that the lexer is
not at the end, returns the current character and advances by one. -/
def consume (l : GenericLexer) : Outcome (Char × GenericLexer) :=
  if l.is_eof then .abort
  else .ok (l.peek 0, { l with m_index := l.m_index + 1 })

/-- Modelled from the spec: `GenericLexer::consume_specific(char)`.  The result is
`some` of the advanced lexer when the call returns true and `none` when it
returns false (the lexer is then unchanged). -/
def consume_specific (l : GenericLexer) (c : Char) : Option GenericLexer :=
  if l.peek 0 = c then some { l with m_index := l.m_index + 1 } else none

/-- Modelled from the spec: `GenericLexer::consume_specific(const char*)`, same
convention as `consume_specific`. -/
def consume_specific_str (l : GenericLexer) (s : List Char) : Option GenericLexer :=
  if l.next_is_str s then some { l with m_index := l.m_index + s.length } else none

end GenericLexer

/-- The predicate `is_any_of("{}")`. -/
def is_brace (c : Char) : Bool := c == '{' || c == '}'

/-- Modelled from the spec: `is_ascii_digit` of `base/CharacterTypes.h`. -/
def is_ascii_digit (c : Char) : Bool := decide ('0'.toNat ≤ c.toNat) && decide (c.toNat ≤ '9'.toNat)

/-- Modelled from the spec: `parse_ascii_digit` of `base/CharacterTypes.h`, the
value of a decimal digit character. -/
def parse_ascii_digit (c : Char) : Nat := c.toNat - '0'.toNat

/-- The call `StringView::substring_view(start, length)`. -/
def substring_view (s : List Char) (start length : Nat) : List Char :=
  (s.drop start).take length

/-! ## FormatParser -/

namespace FormatParser

/-- The loop of `FormatParser::consume_literal`; `begin` is the position on
entry.  Every iteration that does not return advances the lexer. -/
def consume_literal_loop (begin : Nat) : Nat → GenericLexer → Outcome (List Char × GenericLexer)
  | 0, _ => .nofuel
  | fuel + 1, l =>
    if l.is_eof then .ok (l.m_input.drop begin, l)
    else
      match l.consume_specific_str ['{', '{'] with
      | some l1 => consume_literal_loop begin fuel l1
      | none =>
        match l.consume_specific_str ['}', '}'] with
        | some l1 => consume_literal_loop begin fuel l1
        | none =>
          if is_brace (l.peek 0) then
            .ok (substring_view l.m_input begin (l.tell - begin), l)
          else
            match l.consume with
            | .ok (_, l1) => consume_literal_loop begin fuel l1
            | .abort => .abort
            | .nofuel => .nofuel

/-- The method `FormatParser::consume_literal`: returns the literal span and the
advanced lexer. -/
def consume_literal (l : GenericLexer) : Outcome (List Char × GenericLexer) :=
  consume_literal_loop l.tell (l.m_input.length - l.m_index + 1) l

/-- The loop of `FormatParser::consume_number`; `value` is a `size_t`, so the
multiplication and the addition wrap modulo `2 ^ 64`. -/
def consume_number_loop : Nat → GenericLexer → Nat → Bool → Outcome (Bool × Nat × GenericLexer)
  | 0, _, _, _ => .nofuel
  | fuel + 1, l, value, consumed_at_least_one =>
    if is_ascii_digit (l.peek 0) then
      match l.consume with
      | .ok (c, l1) =>
        consume_number_loop fuel l1 ((value * 10 % SIZE_MOD + parse_ascii_digit c) % SIZE_MOD) true
      | .abort => .abort
      | .nofuel => .nofuel
    else .ok (consumed_at_least_one, value, l)

/-- The method `FormatParser::consume_number`: the returned triple is the boolean
result, the value stored through the reference and the advanced lexer. -/
def consume_number (l : GenericLexer) : Outcome (Bool × Nat × GenericLexer) :=
  consume_number_loop (l.m_input.length - l.m_index + 1) l 0 false

/-- The structure `FormatParser::FormatSpecifier`. -/
structure FormatSpecifier where
  flags : List Char
  index : Nat
deriving DecidableEq, Repr

/-- The brace-depth loop of `FormatParser::consume_specifier`. -/
def consume_specifier_loop : Nat → GenericLexer → Nat → Outcome GenericLexer
  | 0, _, _ => .nofuel
  | fuel + 1, l, level =>
    if level > 0 then
      if l.is_eof then .abort
      else
        match l.consume_specific '{' with
        | some l1 => consume_specifier_loop fuel l1 (level + 1)
        | none =>
          match l.consume_specific '}' with
          | some l1 => consume_specifier_loop fuel l1 (level - 1)
          | none =>
            match l.consume with
            | .ok (_, l1) => consume_specifier_loop fuel l1 level
            | .abort => .abort
            | .nofuel => .nofuel
    else .ok l

/-- The method `FormatParser::consume_specifier`: `none` in the result stands for
the return value false, `some specifier` for true. -/
def consume_specifier (l : GenericLexer) : Outcome (Option FormatSpecifier × GenericLexer) :=
  if l.peek 0 = '}' then .abort
  else
    match l.consume_specific '{' with
    | none => .ok (none, l)
    | some l1 =>
      match consume_number l1 with
      | .ok (consumed, value, l2) =>
        let index := if consumed then value else use_next_index
        match l2.consume_specific ':' with
        | some l3 =>
          let begin := l3.tell
          match consume_specifier_loop (l3.m_input.length - l3.m_index + 1) l3 1 with
          | .ok l4 =>
            .ok (some ⟨substring_view l4.m_input begin (l4.tell - begin - 1), index⟩, l4)
          | .abort => .abort
          | .nofuel => .nofuel
        | none =>
          match l2.consume_specific '}' with
          | none => .abort
          | some l3 => .ok (some ⟨[], index⟩, l3)
      | .abort => .abort
      | .nofuel => .nofuel

/-- The method `FormatParser::consume_replacement_field`: `none` in the result
stands for the return value false, `some index` for true. -/
def consume_replacement_field (l : GenericLexer) : Outcome (Option Nat × GenericLexer) :=
  match l.consume_specific '{' with
  | none => .ok (none, l)
  | some l1 =>
    match consume_number l1 with
    | .ok (consumed, value, l2) =>
      let index := if consumed then value else use_next_index
      match l2.consume_specific '}' with
      | none => .abort
      | some l3 => .ok (some index, l3)
    | .abort => .abort
    | .nofuel => .nofuel

end FormatParser

/-! ## TypeErasedFormatParams -/

/-- Modelled from the spec: the class `TypeErasedFormatParams` of `base/Format.h`,
which is not among the sources: the ordered argument list and the auto-index
cursor.  `V` is the type of one type-erased parameter. -/
structure TypeErasedFormatParams (V : Type) where
  m_parameters : List V
  m_next_index : Nat
deriving DecidableEq, Repr

/-- Modelled from the spec: `take_next_index` returns the current cursor and then
increments it (a `size_t`, so modulo `2 ^ 64`). -/
def TypeErasedFormatParams.take_next_index {V : Type} (params : TypeErasedFormatParams V) :
    Nat × TypeErasedFormatParams V :=
  (params.m_next_index, { params with m_next_index := (params.m_next_index + 1) % SIZE_MOD })

/-- Modelled from the spec: the argument store built for one formatting call
holds the caller's arguments in order, with the cursor at 0. -/
def VariadicFormatParams {V : Type} (args : List V) : TypeErasedFormatParams V :=
  ⟨args, 0⟩

/-- The contents of a `StringBuilder`; a `FormatBuilder` is a reference to one. -/
abbrev StringBuilder := List Char

/-- Type of the render capability stored in a parameter, called in the source as
`parameter.formatter(params, builder, argparser, parameter.value)`: it receives
the argument store, the output and a parser over the options span, and returns
the store and the output as it leaves them. -/
abbrev FormatterFn (V : Type) :=
  TypeErasedFormatParams V → StringBuilder → GenericLexer → V →
    Outcome (TypeErasedFormatParams V × StringBuilder)

/-! ## FormatBuilder: padding and literals -/

namespace FormatBuilder

/-- The method `FormatBuilder::put_padding`: `amount` iterations, each appending
`fill`. -/
def put_padding (builder : StringBuilder) (fill : Char) : Nat → StringBuilder
  | 0 => builder
  | amount + 1 => put_padding (builder ++ [fill]) fill amount

/-- The loop of `FormatBuilder::put_literal` at index `i`. -/
def put_literal_loop (value : List Char) : Nat → Nat → StringBuilder → Outcome StringBuilder
  | 0, _, _ => .nofuel
  | fuel + 1, i, builder =>
    if i < value.length then
      let c := value.getD i (Char.ofNat 0)
      let i1 := if c = '{' ∨ c = '}' then i + 1 else i
      put_literal_loop value fuel (i1 + 1) (builder ++ [c])
    else .ok builder

/-- The method `FormatBuilder::put_literal`. -/
def put_literal (builder : StringBuilder) (value : List Char) : Outcome StringBuilder :=
  put_literal_loop value (value.length + 1) 0 builder

end FormatBuilder

/-! ## FormatBuilder: integers -/

/-- Modelled from the spec: the enumeration `FormatBuilder::Align` of
`base/Format.h`. -/
inductive Align where
  | Default | Left | Right | Center
deriving DecidableEq, Repr

/-- Modelled from the spec: the enumeration `FormatBuilder::SignMode` of
`base/Format.h`. -/
inductive SignMode where
  | OnlyIfNeeded | Always | Reserved
deriving DecidableEq, Repr

/-- Modelled from the spec: `ceil_div` of `base/StdLibExtras.h`, the quotient
rounded up. -/
def ceil_div (a b : Nat) : Nat :=
  if a % b ≠ 0 then a / b + 1 else a / b

/-- The local `Array<u8, 128> buffer` of `put_u64`, as the map from an index to
the entry stored there; an entry is `none` until it is written. -/
abbrev DigitBuffer := Nat → Option Char

/-- Capacity of the `Array<u8, 128>`. -/
def DigitBuffer.capacity : Nat := 128

/-- A fresh, unwritten `Array<u8, 128>`. -/
def DigitBuffer.fresh : DigitBuffer := fun _ => none

/-- The store `buffer[i] = c`; an index outside the array is reported as an
abort. -/
def DigitBuffer.write (buffer : DigitBuffer) (i : Nat) (c : Char) : Outcome DigitBuffer :=
  if i < DigitBuffer.capacity then .ok (fun j => if j = i then some c else buffer j) else .abort

/-- The load `buffer[i]`; an index outside the array and an entry that was never
written are reported as an abort. -/
def DigitBuffer.read (buffer : DigitBuffer) (i : Nat) : Outcome Char :=
  if i < DigitBuffer.capacity then
    match buffer i with
    | some c => .ok c
    | none => .abort
  else .abort

/-- The table `lowercase_lookup`. -/
def lowercase_lookup : List Char := "0123456789abcdef".toList

/-- The table `uppercase_lookup`. -/
def uppercase_lookup : List Char := "0123456789ABCDEF".toList

/-- The digit loop `while (value > 0)` of `convert_unsigned_to_string`. -/
def convert_digits_loop (base : Nat) (upper_case : Bool) :
    Nat → Nat → DigitBuffer → Nat → Outcome (Nat × DigitBuffer)
  | 0, _, _, _ => .nofuel
  | fuel + 1, value, buffer, used =>
    if value > 0 then
      let c :=
        if upper_case then uppercase_lookup.getD (value % base) (Char.ofNat 0)
        else lowercase_lookup.getD (value % base) (Char.ofNat 0)
      match DigitBuffer.write buffer used c with
      | .ok buffer1 => convert_digits_loop base upper_case fuel (value / base) buffer1 (used + 1)
      | .abort => .abort
      | .nofuel => .nofuel
    else .ok (used, buffer)

/-- The reversal loop `for (i = 0; i < used / 2; ++i) swap(...)` of
`convert_unsigned_to_string`; the first argument counts the iterations left. -/
def convert_swap_loop (used : Nat) : Nat → Nat → DigitBuffer → Outcome DigitBuffer
  | 0, _, buffer => .ok buffer
  | count + 1, i, buffer =>
    match DigitBuffer.read buffer i with
    | .ok a =>
      match DigitBuffer.read buffer (used - i - 1) with
      | .ok c =>
        match DigitBuffer.write buffer i c with
        | .ok buffer1 =>
          match DigitBuffer.write buffer1 (used - i - 1) a with
          | .ok buffer2 => convert_swap_loop used count (i + 1) buffer2
          | .abort => .abort
          | .nofuel => .nofuel
        | .abort => .abort
        | .nofuel => .nofuel
      | .abort => .abort
      | .nofuel => .nofuel
    | .abort => .abort
    | .nofuel => .nofuel

/-- The function `convert_unsigned_to_string`: the number of digits and the
buffer after the call.  A `u64` has at most 64 digits, which bounds the digit
loop. -/
def convert_unsigned_to_string (value : Nat) (buffer : DigitBuffer) (base : Nat)
    (upper_case : Bool) : Outcome (Nat × DigitBuffer) :=
  if base ≥ 2 ∧ base ≤ 16 then
    if value = 0 then
      match DigitBuffer.write buffer 0 '0' with
      | .ok buffer1 => .ok (1, buffer1)
      | .abort => .abort
      | .nofuel => .nofuel
    else
      match convert_digits_loop base upper_case 65 value buffer 0 with
      | .ok (used, buffer1) =>
        match convert_swap_loop used (used / 2) 0 buffer1 with
        | .ok buffer2 => .ok (used, buffer2)
        | .abort => .abort
        | .nofuel => .nofuel
      | .abort => .abort
      | .nofuel => .nofuel
  else .abort

namespace FormatBuilder

/-- The lambda `put_prefix` of `put_u64`: the sign, then the base marker. -/
def put_prefix (builder : StringBuilder) (base : Nat) ( use_prefix upper_case : Bool)
    (sign_mode : SignMode) (is_negative : Bool) : StringBuilder :=
  let builder1 :=
    if is_negative then builder ++ ['-']
    else if sign_mode = SignMode.Always then builder ++ ['+']
    else if sign_mode = SignMode.Reserved then builder ++ [' ']
    else builder
  if use_prefix then
    if base = 2 then
      if upper_case then builder1 ++ ['0', 'B'] else builder1 ++ ['0', 'b']
    else if base = 8 then builder1 ++ ['0']
    else if base = 16 then
      if upper_case then builder1 ++ ['0', 'X'] else builder1 ++ ['0', 'x']
    else builder1
  else builder1

/-- The lambda `put_digits` of `put_u64`: appends `buffer[i]` for the indices
`i` up to `used_by_digits`; the first argument counts the iterations left. -/
def put_digits (buffer : DigitBuffer) : Nat → Nat → StringBuilder → Outcome StringBuilder
  | 0, _, builder => .ok builder
  | count + 1, i, builder =>
    match DigitBuffer.read buffer i with
    | .ok c => put_digits buffer count (i + 1) (builder ++ [c])
    | .abort => .abort
    | .nofuel => .nofuel

/-- The method `FormatBuilder::put_u64`.  The parameter `use_prefix` is the
parameter `prefix` of the source. -/
def put_u64 (builder : StringBuilder) (value base : Nat) ( use_prefix upper_case zero_pad : Bool)
    (align : Align) (min_width : Nat) (fill : Char) (sign_mode : SignMode)
    (is_negative : Bool) : Outcome StringBuilder :=
  let align := if align = Align.Default then Align.Right else align
  match convert_unsigned_to_string value DigitBuffer.fresh base upper_case with
  | .ok (used_by_digits, buffer) =>
    let used_by_prefix :=
      if align = Align.Right ∧ zero_pad = true then 0
      else
        (if is_negative = true ∨ sign_mode ≠ SignMode.OnlyIfNeeded then 1 else 0) +
          (if use_prefix then
            (if base = 8 then 1 else if base = 16 then 2 else if base = 2 then 2 else 0)
          else 0)
    let used_by_field := used_by_prefix + used_by_digits
    let used_by_padding := max used_by_field min_width - used_by_field
    if align = Align.Left then
      let used_by_right_padding := used_by_padding
      match put_digits buffer used_by_digits 0
          ( put_prefix builder base use_prefix upper_case sign_mode is_negative) with
      | .ok builder1 => .ok (put_padding builder1 fill used_by_right_padding)
      | .abort => .abort
      | .nofuel => .nofuel
    else if align = Align.Center then
      let used_by_left_padding := used_by_padding / 2
      let used_by_right_padding := ceil_div used_by_padding 2
      match put_digits buffer used_by_digits 0
          ( put_prefix (put_padding builder fill used_by_left_padding) base use_prefix upper_case
            sign_mode is_negative) with
      | .ok builder1 => .ok (put_padding builder1 fill used_by_right_padding)
      | .abort => .abort
      | .nofuel => .nofuel
    else if align = Align.Right then
      let used_by_left_padding := used_by_padding
      if zero_pad then
        put_digits buffer used_by_digits 0
          (put_padding ( put_prefix builder base use_prefix upper_case sign_mode is_negative)
            '0' used_by_left_padding)
      else
        put_digits buffer used_by_digits 0
          ( put_prefix (put_padding builder fill used_by_left_padding) base use_prefix upper_case
            sign_mode is_negative)
    else .ok builder
  | .abort => .abort
  | .nofuel => .nofuel

/-- The method `FormatBuilder::put_i64`: the magnitude is the negated value
converted to `u64`, that is modulo `2 ^ 64`. -/
def put_i64 (builder : StringBuilder) (value : Int) (base : Nat) ( use_prefix upper_case zero_pad : Bool)
    (align : Align) (min_width : Nat) (fill : Char) (sign_mode : SignMode) :
    Outcome StringBuilder :=
  let is_negative : Bool := decide (value < 0)
  let value1 : Int := if is_negative then -value else value
  put_u64 builder (value1 % (2 ^ 64 : Int)).toNat base use_prefix upper_case zero_pad align min_width
    fill sign_mode is_negative

end FormatBuilder

/-! ## StandardFormatter -/

/-- Modelled from the spec: the enumeration `StandardFormatter::Mode` of
`base/Format.h`. -/
inductive Mode where
  | Default | Binary | BinaryUppercase | Decimal | Octal | Hexadecimal
  | HexadecimalUppercase | Character | String | Pointer | Float | Hexfloat
  | HexfloatUppercase | HexDump
deriving DecidableEq, Repr

/-- Modelled from the spec: the data members of `StandardFormatter`
(`base/Format.h`), the render directive of one field. -/
structure StandardFormatter where
  m_align : Align
  m_sign_mode : SignMode
  m_mode : Mode
  m_alternative_form : Bool
  m_fill : Char
  m_zero_pad : Bool
  m_width : Option Nat
  m_precision : Option Nat
deriving DecidableEq, Repr

/-- Modelled from the spec: the state of a freshly constructed
`StandardFormatter`: default alignment, sign only if needed, default mode, no
alternate form, fill `' '`, no zero padding, no width and no precision. -/
def StandardFormatter.initial : StandardFormatter :=
  ⟨Align.Default, SignMode.OnlyIfNeeded, Mode.Default, false, ' ', false, none, none⟩

namespace StandardFormatter

/-- The width and the precision of `StandardFormatter::parse` share this shape:
a nested replacement field dereferenced against the argument store, or else a
decimal number.  The result holds the new value of the member (`current` when
neither form is present), the store and the parser.  `to_size` is
`TypeErasedParameter::to_size` of `base/Format.h`, which is not among the
sources. -/
def parse_size {V : Type} (to_size : V → Outcome Nat) (params : TypeErasedFormatParams V)
    (parser : GenericLexer) (current : Option Nat) :
    Outcome (Option Nat × TypeErasedFormatParams V × GenericLexer) :=
  match FormatParser.consume_replacement_field parser with
  | .ok (some index, parser1) =>
    let resolved :=
      if index = use_next_index then params.take_next_index else (index, params)
    match resolved.2.m_parameters.get? resolved.1 with
    | none => .abort
    | some parameter =>
      match to_size parameter with
      | .ok size => .ok (some size, resolved.2, parser1)
      | .abort => .abort
      | .nofuel => .nofuel
  | .ok (none, parser1) =>
    match FormatParser.consume_number parser1 with
    | .ok (true, value, parser2) => .ok (some value, params, parser2)
    | .ok (false, _, parser2) => .ok (current, params, parser2)
    | .abort => .abort
    | .nofuel => .nofuel
  | .abort => .abort
  | .nofuel => .nofuel

/-- The chain of `consume_specific` calls that selects the mode in
`StandardFormatter::parse`. -/
def parse_mode (parser : GenericLexer) (current : Mode) : Mode × GenericLexer :=
  match parser.consume_specific 'b' with
  | some p => (Mode.Binary, p)
  | none =>
  match parser.consume_specific 'B' with
  | some p => (Mode.BinaryUppercase, p)
  | none =>
  match parser.consume_specific 'd' with
  | some p => (Mode.Decimal, p)
  | none =>
  match parser.consume_specific 'o' with
  | some p => (Mode.Octal, p)
  | none =>
  match parser.consume_specific 'x' with
  | some p => (Mode.Hexadecimal, p)
  | none =>
  match parser.consume_specific 'X' with
  | some p => (Mode.HexadecimalUppercase, p)
  | none =>
  match parser.consume_specific 'c' with
  | some p => (Mode.Character, p)
  | none =>
  match parser.consume_specific 's' with
  | some p => (Mode.String, p)
  | none =>
  match parser.consume_specific 'p' with
  | some p => (Mode.Pointer, p)
  | none =>
  match parser.consume_specific 'f' with
  | some p => (Mode.Float, p)
  | none =>
  match parser.consume_specific 'a' with
  | some p => (Mode.Hexfloat, p)
  | none =>
  match parser.consume_specific 'A' with
  | some p => (Mode.HexfloatUppercase, p)
  | none =>
  match parser.consume_specific_str ['h', 'e', 'x', '-', 'd', 'u', 'm', 'p'] with
  | some p => (Mode.HexDump, p)
  | none => (current, parser)

/-- The fill step of `StandardFormatter::parse`: when the character after the
next one is an alignment marker, the next character is asserted not to be a
brace and becomes the fill. -/
def parse_fill (self : StandardFormatter) (parser : GenericLexer) :
    Outcome (StandardFormatter × GenericLexer) :=
  if ['<', '^', '>'].contains (parser.peek 1) then
    if is_brace (parser.peek 0) then .abort
    else
      match parser.consume with
      | .ok (c, p) => .ok ({ self with m_fill := c }, p)
      | .abort => .abort
      | .nofuel => .nofuel
  else .ok (self, parser)

/-- The alignment step of `StandardFormatter::parse`. -/
def parse_align (self : StandardFormatter) (parser : GenericLexer) :
    StandardFormatter × GenericLexer :=
  match parser.consume_specific '<' with
  | some p => ({ self with m_align := Align.Left }, p)
  | none =>
  match parser.consume_specific '^' with
  | some p => ({ self with m_align := Align.Center }, p)
  | none =>
  match parser.consume_specific '>' with
  | some p => ({ self with m_align := Align.Right }, p)
  | none => (self, parser)

/-- The sign step of `StandardFormatter::parse`. -/
def parse_sign (self : StandardFormatter) (parser : GenericLexer) :
    StandardFormatter × GenericLexer :=
  match parser.consume_specific '-' with
  | some p => ({ self with m_sign_mode := SignMode.OnlyIfNeeded }, p)
  | none =>
  match parser.consume_specific '+' with
  | some p => ({ self with m_sign_mode := SignMode.Always }, p)
  | none =>
  match parser.consume_specific ' ' with
  | some p => ({ self with m_sign_mode := SignMode.Reserved }, p)
  | none => (self, parser)

/-- The alternate-form step of `StandardFormatter::parse`. -/
def parse_alternative_form (self : StandardFormatter) (parser : GenericLexer) :
    StandardFormatter × GenericLexer :=
  match parser.consume_specific '#' with
  | some p => ({ self with m_alternative_form := true }, p)
  | none => (self, parser)

/-- The zero-pad step of `StandardFormatter::parse`. -/
def parse_zero_pad (self : StandardFormatter) (parser : GenericLexer) :
    StandardFormatter × GenericLexer :=
  match parser.consume_specific '0' with
  | some p => ({ self with m_zero_pad := true }, p)
  | none => (self, parser)

/-- The precision step of `StandardFormatter::parse`: a `.` and then a size. -/
def parse_precision {V : Type} (to_size : V → Outcome Nat) (self : StandardFormatter)
    (params : TypeErasedFormatParams V) (parser : GenericLexer) :
    Outcome (StandardFormatter × TypeErasedFormatParams V × GenericLexer) :=
  match parser.consume_specific '.' with
  | some p =>
    match parse_size to_size params p self.m_precision with
    | .ok (precision, params1, parser1) =>
      .ok ({ self with m_precision := precision }, params1, parser1)
    | .abort => .abort
    | .nofuel => .nofuel
  | none => .ok (self, params, parser)

/-- The body of `StandardFormatter::parse` up to, and not including, its final
`VERIFY(parser.is_eof())`: each optional token is tried once, in order. -/
def parse_tokens {V : Type} (to_size : V → Outcome Nat) (self : StandardFormatter)
    (params : TypeErasedFormatParams V) (parser : GenericLexer) :
    Outcome (StandardFormatter × TypeErasedFormatParams V × GenericLexer) :=
  match parse_fill self parser with
  | .ok (self1, parser1) =>
    let align_step := parse_align self1 parser1
    let sign_step := parse_sign align_step.1 align_step.2
    let alt_step := parse_alternative_form sign_step.1 sign_step.2
    let zero_step := parse_zero_pad alt_step.1 alt_step.2
    match parse_size to_size params zero_step.2 zero_step.1.m_width with
    | .ok (width, params1, parser2) =>
      match parse_precision to_size { zero_step.1 with m_width := width } params1 parser2 with
      | .ok (self3, params2, parser3) =>
        let mode_step := parse_mode parser3 self3.m_mode
        .ok ({ self3 with m_mode := mode_step.1 }, params2, mode_step.2)
      | .abort => .abort
      | .nofuel => .nofuel
    | .abort => .abort
    | .nofuel => .nofuel
  | .abort => .abort
  | .nofuel => .nofuel

/-- The method `StandardFormatter::parse`: the tokens, then
`VERIFY(parser.is_eof())`. -/
def parse {V : Type} (to_size : V → Outcome Nat) (self : StandardFormatter)
    (params : TypeErasedFormatParams V) (parser : GenericLexer) :
    Outcome (StandardFormatter × TypeErasedFormatParams V × GenericLexer) :=
  match parse_tokens to_size self params parser with
  | .ok (self1, params1, parser1) =>
    if parser1.is_eof then .ok (self1, params1, parser1) else .abort
  | .abort => .abort
  | .nofuel => .nofuel

end StandardFormatter

/-! ## The driver -/

/-- The function `vformat_impl`.  The recursion of the source is bounded by the
first argument; the final state of the three objects passed by reference is
returned. -/
def vformat_impl {V : Type} (formatter : FormatterFn V) :
    Nat → TypeErasedFormatParams V → StringBuilder → GenericLexer →
      Outcome (TypeErasedFormatParams V × StringBuilder × GenericLexer)
  | 0, _, _, _ => .nofuel
  | fuel + 1, params, builder, parser =>
    match FormatParser.consume_literal parser with
    | .ok (literal, parser1) =>
      match FormatBuilder.put_literal builder literal with
      | .ok builder1 =>
        match FormatParser.consume_specifier parser1 with
        | .ok (none, parser2) =>
          if parser2.is_eof then .ok (params, builder1, parser2) else .abort
        | .ok (some specifier, parser2) =>
          let resolved :=
            if specifier.index = use_next_index then params.take_next_index
            else (specifier.index, params)
          match resolved.2.m_parameters.get? resolved.1 with
          | none => .abort
          | some parameter =>
            match formatter resolved.2 builder1 ⟨specifier.flags, 0⟩ parameter with
            | .ok (params2, builder2) => vformat_impl formatter fuel params2 builder2 parser2
            | .abort => .abort
            | .nofuel => .nofuel
        | .abort => .abort
        | .nofuel => .nofuel
      | .abort => .abort
      | .nofuel => .nofuel
    | .abort => .abort
    | .nofuel => .nofuel

/-- The function `vformat`: the output appended to `builder`.  Every recursive
call of `vformat_impl` follows a consumed field, so the length of the template
bounds the recursion. -/
def vformat {V : Type} (formatter : FormatterFn V) (builder : StringBuilder)
    (fmtstr : List Char) (params : TypeErasedFormatParams V) : Outcome StringBuilder :=
  match vformat_impl formatter (fmtstr.length + 1) params builder ⟨fmtstr, 0⟩ with
  | .ok (_, builder1, _) => .ok builder1
  | .abort => .abort
  | .nofuel => .nofuel

/-! ## Vocabulary of the statements -/

/-- The lexer over the input `pre ++ rest` that has read `pre`. -/
def lexer_at (pre rest : List Char) : GenericLexer := ⟨pre ++ rest, pre.length⟩

/-- Template text of a literal: the literal with every brace doubled.  The
templates made only of non-brace characters and doubled braces are exactly the
lists `escape s`. -/
def escape : List Char → List Char
  | [] => []
  | c :: s => if is_brace c then c :: c :: escape s else c :: escape s

/-- Decimal value of a digit string, without reduction. -/
def dec_value (ds : List Char) : Nat :=
  ds.foldl (fun v c => v * 10 + parse_ascii_digit c) 0

/-- Text of the index of a field: nothing for an automatic field, the decimal
numeral of `n` for the explicit index `n`. -/
def index_text : Option Nat → List Char
  | none => []
  | some n => Nat.toDigits 10 n

/-- A field without options followed by literal text: `index` is `none` for
`{}` and `some n` for `{n}`; `literal` is the text to be emitted after the
field. -/
structure FieldToken where
  index : Option Nat
  literal : List Char

/-- Template text of a field token: the field, with an explicit index written in
decimal, then the escaped literal. -/
def FieldToken.text (f : FieldToken) : List Char :=
  '{' :: (index_text f.index ++ '}' :: escape f.literal)

/-- Template text of a leading literal followed by field tokens. -/
def template_text (literal : List Char) (fields : List FieldToken) : List Char :=
  escape literal ++ fields.flatMap FieldToken.text

/-- What the spec asks of the driver on a list of field tokens, given the
rendering `render` of an argument: an automatic field takes the cursor and
advances it, an explicit one leaves it alone; the result is the final cursor
and the appended text, or `none` when an index is out of range. -/
def render_fields {V : Type} (render : V → List Char) (args : List V) :
    Nat → List FieldToken → Option (Nat × List Char)
  | cursor, [] => some (cursor, [])
  | cursor, f :: fs =>
    match args.get? (f.index.getD cursor) with
    | none => none
    | some v =>
      match render_fields render args (if f.index.isSome then cursor else cursor + 1) fs with
      | none => none
      | some (cursor1, out) => some (cursor1, render v ++ f.literal ++ out)

/-- Where `consume_literal` stops: at the end of the input, or at a brace that
is not followed by the same brace. -/
def stops_literal : List Char → Bool
  | [] => true
  | c :: r => is_brace c && !(r.head? == some c)

/-- Character of the digit `d`, from the lower-case or the upper-case table. -/
def digit_char (upper_case : Bool) (d : Nat) : Char :=
  (if upper_case then uppercase_lookup else lowercase_lookup).getD d (Char.ofNat 0)

/-- The canonical numeral of `value` in base `base`, most significant digit
first: `0` for zero, otherwise the digits without a leading zero. -/
def digit_text (base : Nat) (upper_case : Bool) (value : Nat) : List Char :=
  if value = 0 then ['0'] else ((Nat.digits base value).map (digit_char upper_case)).reverse

/-- The sign character: `-` for a negative value, else `+` for `Always`, a
blank for `Reserved` and nothing for `OnlyIfNeeded`. -/
def sign_text (sign_mode : SignMode) (is_negative : Bool) : List Char :=
  if is_negative then ['-']
  else
    match sign_mode with
    | SignMode.Always => ['+']
    | SignMode.Reserved => [' ']
    | SignMode.OnlyIfNeeded => []

/-- The base marker of the alternate form: `0x`/`0X` for base 16, `0b`/`0B` for
base 2, `0` for base 8, nothing for another base or when not requested. -/
def base_marker ( use_prefix : Bool) (base : Nat) (upper_case : Bool) : List Char :=
  if use_prefix then
    if base = 16 then (if upper_case then ['0', 'X'] else ['0', 'x'])
    else if base = 2 then (if upper_case then ['0', 'B'] else ['0', 'b'])
    else if base = 8 then ['0']
    else []
  else []

/-- The text that `put_u64` is to append, by alignment (`Default` standing for
`Right`): sign and base marker, digits and padding in the order of the branch
taken.  `pad` is the room that the field leaves below `min_width`, where the
field is the digits alone for `Right` with zero padding and sign, marker and
digits otherwise. -/
def u64_text (value base : Nat) ( use_prefix upper_case zero_pad : Bool) (align : Align)
    (min_width : Nat) (fill : Char) (sign_mode : SignMode) (is_negative : Bool) : List Char :=
  let digits := digit_text base upper_case value
  let affix := sign_text sign_mode is_negative ++ base_marker use_prefix base upper_case
  let pad := max (affix.length + digits.length) min_width - (affix.length + digits.length)
  match align with
  | Align.Left => affix ++ digits ++ List.replicate pad fill
  | Align.Center =>
    List.replicate (pad / 2) fill ++ affix ++ digits ++ List.replicate ((pad + 1) / 2) fill
  | _ =>
    if zero_pad then
      affix ++ List.replicate (max digits.length min_width - digits.length) '0' ++ digits
    else List.replicate pad fill ++ affix ++ digits

/-- Width of the sign: 1 unless the sign mode is `OnlyIfNeeded` and the value
is non-negative. -/
def sign_width (sign_mode : SignMode) (is_negative : Bool) : Nat :=
  if sign_mode = SignMode.OnlyIfNeeded ∧ is_negative = false then 0 else 1

/-- Width of the base marker: 1 for base 8, 2 for the bases 2 and 16 when the
marker is requested, else 0. -/
def marker_width ( use_prefix : Bool) (base : Nat) : Nat :=
  if use_prefix then (if base = 8 then 1 else if base = 2 ∨ base = 16 then 2 else 0) else 0

/-- Modelled from the spec: `TypeErasedParameter::to_size` of `base/Format.h`,
which is not among the sources, for an integer argument: the value as a size;
a negative value is fatal. -/
def integer_to_size (value : Int) : Outcome Nat :=
  if 0 ≤ value then .ok value.toNat else .abort

/-- Modelled from the spec: the base and the letter case that a mode selects for
an integer: `b`/`B` binary, `o` octal, `x`/`X` hexadecimal, `d` and no mode
letter decimal; the other modes are not integer modes. -/
def integer_base : Mode → Option (Nat × Bool)
  | Mode.Binary => some (2, false)
  | Mode.BinaryUppercase => some (2, true)
  | Mode.Octal => some (8, false)
  | Mode.Decimal => some (10, false)
  | Mode.Default => some (10, false)
  | Mode.Hexadecimal => some (16, false)
  | Mode.HexadecimalUppercase => some (16, true)
  | _ => none

/-- Modelled from the spec: the render capability of a signed integer argument
(`Formatter<T>::format` of `base/Format.h`, which is not among the sources): the
options span is parsed by `StandardFormatter::parse` and the value is rendered
by `put_i64` under the resulting directive, the width defaulting to 0.  A mode
that is not an integer mode is reported as an abort. -/
def format_integer : FormatterFn Int := fun params builder parser value =>
  match StandardFormatter.parse integer_to_size StandardFormatter.initial params parser with
  | .ok (directive, params1, _) =>
    match integer_base directive.m_mode with
    | some (base, upper_case) =>
      match FormatBuilder.put_i64 builder value base directive.m_alternative_form upper_case
          directive.m_zero_pad directive.m_align (directive.m_width.getD 0) directive.m_fill
          directive.m_sign_mode with
      | .ok builder1 => .ok (params1, builder1)
      | .abort => .abort
      | .nofuel => .nofuel
    | none => .abort
  | .abort => .abort
  | .nofuel => .nofuel

/-- The decimal rendering of an integer under the default directive: a minus
sign for a negative value, then the numeral of the magnitude. -/
def render_integer (value : Int) : List Char :=
  sign_text SignMode.OnlyIfNeeded (decide (value < 0)) ++
    digit_text 10 false ((if value < 0 then -value else value) % (2 ^ 64 : Int)).toNat

/-- Where the reading of a template stands, by the grammar of the spec: in the
text between fields, just after a `{` or a `}` met in the text, in a field
reading its index, or in the options of a field at a brace depth. -/
inductive ScanState where
  | text
  | opened
  | closed
  | index
  | options (depth : Nat)
deriving DecidableEq, Repr

/-- The template grammar of the spec as a recogniser, one character at a time.
In the text a brace is literal when it is doubled; a single `{` opens a field
and a single `}` is stray.  In a field, decimal digits form the index; `:`
opens the options at depth 1 and `}` closes the field; anything else, and the
end of the input, leave the field unterminated.  In the options `{` increments
the depth and `}` decrements it, the field ending when the depth reaches 0; the
end of the input leaves it unterminated.  The result is true when the whole
template is read with no stray `}` and no unterminated field. -/
def template_scan : ScanState → List Char → Bool
  | ScanState.text, [] => true
  | ScanState.text, c :: r =>
    if c = '{' then template_scan ScanState.opened r
    else if c = '}' then template_scan ScanState.closed r
    else template_scan ScanState.text r
  | ScanState.opened, [] => false
  | ScanState.opened, c :: r =>
    if c = '{' then template_scan ScanState.text r
    else if is_ascii_digit c then template_scan ScanState.index r
    else if c = ':' then template_scan (ScanState.options 1) r
    else if c = '}' then template_scan ScanState.text r
    else false
  | ScanState.closed, [] => false
  | ScanState.closed, c :: r =>
    if c = '}' then template_scan ScanState.text r else false
  | ScanState.index, [] => false
  | ScanState.index, c :: r =>
    if is_ascii_digit c then template_scan ScanState.index r
    else if c = ':' then template_scan (ScanState.options 1) r
    else if c = '}' then template_scan ScanState.text r
    else false
  | ScanState.options _, [] => false
  | ScanState.options depth, c :: r =>
    if c = '{' then template_scan (ScanState.options (depth + 1)) r
    else if c = '}' then
      (if depth ≤ 1 then template_scan ScanState.text r
      else template_scan (ScanState.options (depth - 1)) r)
    else template_scan (ScanState.options depth) r

/-- A template is well formed when the recogniser accepts it from the text
state. -/
def template_well_formed (fmtstr : List Char) : Bool := template_scan ScanState.text fmtstr

/-! ## FormatBuilder: strings and hex dumps -/

/-- The value `NumericLimits<size_t>::max()`. -/
def SIZE_MAX : Nat := 2 ^ 64 - 1

namespace FormatBuilder

/-- The method `FormatBuilder::put_string`. -/
def put_string (builder : StringBuilder) (value : List Char) (align : Align)
    (min_width max_width : Nat) (fill : Char) : StringBuilder :=
  let used_by_string := min max_width value.length
  let used_by_padding := max min_width used_by_string - used_by_string
  let value1 :=
    if used_by_string < value.length then substring_view value 0 used_by_string else value
  if align = Align.Left ∨ align = Align.Default then
    put_padding (builder ++ value1) fill used_by_padding
  else if align = Align.Center then
    let used_by_left_padding := used_by_padding / 2
    let used_by_right_padding := ceil_div used_by_padding 2
    put_padding (put_padding builder fill used_by_left_padding ++ value1) fill
      used_by_right_padding
  else if align = Align.Right then
    put_padding builder fill used_by_padding ++ value1
  else builder

/-- The loop `for (size_t j = i - width; j < i; ++j)` of the lambda
`put_char_view` of `put_hexdump`: the byte `bytes[j]` itself when it lies in
32..127 and `.` otherwise; the first argument counts the iterations left.  An
index outside `bytes` is reported as an abort. -/
def put_char_view_loop (bytes : List Nat) : Nat → Nat → StringBuilder → Outcome StringBuilder
  | 0, _, builder => .ok builder
  | count + 1, j, builder =>
    match bytes.get? j with
    | some ch =>
      put_char_view_loop bytes count (j + 1)
        (builder ++ [if ch ≥ 32 ∧ ch ≤ 127 then Char.ofNat ch else '.'])
    | none => .abort

/-- The lambda `put_char_view` of `put_hexdump`: four fill characters, then the
preview of the `width` bytes before index `i`.  It is called with `width ≤ i`
only, where `i - width` does not wrap. -/
def put_char_view (bytes : List Nat) (width : Nat) (fill : Char) (builder : StringBuilder)
    (i : Nat) : Outcome StringBuilder :=
  put_char_view_loop bytes (i - (i - width)) (i - width) (put_padding builder fill 4)

/-- The loop `for (size_t i = 0; i < bytes.size(); ++i)` of `put_hexdump`; the
first argument counts the iterations left.  The call of `put_u64` leaves the
fill, the sign mode and the sign to their defaults, which `base/Format.h` (not
among the sources) declares as `' '`, `OnlyIfNeeded` and non-negative. -/
def put_hexdump_loop (bytes : List Nat) (width : Nat) (fill : Char) :
    Nat → Nat → StringBuilder → Outcome StringBuilder
  | 0, _, builder => .ok builder
  | count + 1, i, builder =>
    let row_end : Outcome StringBuilder :=
      if width > 0 then
        if i % width = 0 ∧ i ≠ 0 then
          match put_char_view bytes width fill builder i with
          | .ok builder1 => put_literal builder1 ['\n']
          | .abort => .abort
          | .nofuel => .nofuel
        else .ok builder
      else .ok builder
    match row_end with
    | .ok builder1 =>
      match bytes.get? i with
      | some byte =>
        match put_u64 builder1 byte 16 false false true Align.Right 2 ' '
            SignMode.OnlyIfNeeded false with
        | .ok builder2 => put_hexdump_loop bytes width fill count (i + 1) builder2
        | .abort => .abort
        | .nofuel => .nofuel
      | none => .abort
    | .abort => .abort
    | .nofuel => .nofuel

/-- The method `FormatBuilder::put_hexdump`; a byte is a natural number below
256. -/
def put_hexdump (builder : StringBuilder) (bytes : List Nat) (width : Nat) (fill : Char) :
    Outcome StringBuilder :=
  match put_hexdump_loop bytes width fill bytes.length 0 builder with
  | .ok builder1 =>
    if width > 0 ∧ bytes.length ≠ 0 ∧ bytes.length % width = 0 then
      put_char_view bytes width fill builder1 bytes.length
    else .ok builder1
  | .abort => .abort
  | .nofuel => .nofuel

end FormatBuilder

/-! ## Reading numerals back -/

/-- Value of a digit character: 0..9 for `0`..`9`, 10..15 for `a`..`f` and
for `A`..`F`. -/
def digit_value (c : Char) : Nat :=
  if '0' ≤ c ∧ c ≤ '9' then c.toNat - '0'.toNat
  else if 'a' ≤ c ∧ c ≤ 'f' then c.toNat - 'a'.toNat + 10
  else if 'A' ≤ c ∧ c ≤ 'F' then c.toNat - 'A'.toNat + 10
  else 0

/-- The number that a numeral denotes in base `base`, most significant digit
first. -/
def read_numeral (base : Nat) (cs : List Char) : Nat :=
  cs.foldl (fun v c => v * base + digit_value c) 0

/-- The integer that a signed decimal numeral denotes: a leading `-` negates
the number denoted by the rest. -/
def read_signed_decimal (cs : List Char) : Int :=
  if cs.head? = some '-' then -(read_numeral 10 cs.tail : Int) else (read_numeral 10 cs : Int)

/-- The first `length` entries of a digit buffer. -/
def DigitBuffer.contents (buffer : DigitBuffer) (length : Nat) : List (Option Char) :=
  (List.range length).map buffer

/-! ## The type `double` -/

/-- A `double`, on the platforms of the repository an IEEE 754 binary64
number.  The smallest positive `double` is `2^(-1074)` and every finite
`double` is a whole number of these units, so a finite value is held as its
sign and its magnitude `scaled`, which stands for `scaled * 2^(-1074)`; the
two zeros are `finite false 0` and `finite true 0`. -/
inductive Double where
  | finite (negative : Bool) (scaled : Nat)
  | infinite (negative : Bool)
  | nan
deriving DecidableEq, Repr

namespace Double

/-- The number of binary digits of `n`, counted down in at most `fuel`
halvings. -/
def bit_length_loop : Nat → Nat → Nat
  | 0, _ => 0
  | fuel + 1, n => if n = 0 then 0 else bit_length_loop fuel (n / 2) + 1

/-- The number of binary digits of `n`: 0 for 0, and `k + 1` when
`2^k ≤ n < 2^(k+1)`. -/
def bit_length (n : Nat) : Nat := bit_length_loop n n

/-- The number of binary places that a magnitude has after the point: the
smallest positive `double` is `2^(-1074)`. -/
def PLACES : Nat := 1074

/-- The magnitude of `1.0`, which is `2^1074` units. -/
def ONE : Nat := 1 <<< PLACES

/-- The magnitude `2^1024` in units, which no finite `double` reaches. -/
def LIMIT : Nat := 1 <<< (PLACES + 1024)

/-- The unit in the last place of a magnitude: a `double` holds 53 significant
binary digits, so a magnitude of `b > 53` binary digits is a multiple of
`2^(b - 53)`. -/
def ulp (n : Nat) : Nat := 1 <<< (bit_length n - 53)

/-- The quotient `n / d` rounded to 53 significant binary digits, to nearest
and in a tie to the even neighbour, which is the rounding of every binary64
operation. -/
def round_scaled (n d : Nat) : Nat :=
  let step := d * ulp (n / d)
  let quotient := n / step
  let remainder := n % step
  if step < 2 * remainder ∨ (2 * remainder = step ∧ quotient % 2 = 1) then
    (quotient + 1) * ulp (n / d)
  else quotient * ulp (n / d)

/-- The magnitude next below the magnitude `n` among those that a `double`
holds, for `n` the magnitude of a `double` other than zero. -/
def pred (n : Nat) : Nat := n - ulp (n - 1)

/-- The `double` of a sign and a rounded magnitude: a magnitude of `2^1024`
or more overflows to an infinity. -/
def pack (negative : Bool) (scaled : Nat) : Double :=
  if scaled < LIMIT then finite negative scaled else infinite negative

/-- Whether the value is one that a `double` holds: a finite magnitude is below
`2^1024` and has at most 53 significant binary digits. -/
def is_double : Double → Bool
  | finite _ scaled => decide (scaled < LIMIT ∧ scaled % ulp scaled = 0)
  | infinite _ => true
  | nan => true

/-- The `double` nearest to the fraction `n / d`, which a decimal literal of
the source denotes. -/
def of_ratio (n d : Nat) : Double := pack false (round_scaled (n * ONE) d)

/-- The place of a value in the order of the `double`s, in units, with the
infinities beyond every finite value; a NaN has no place. -/
def rank : Double → Option Int
  | finite negative scaled => some (if negative then -(scaled : Int) else (scaled : Int))
  | infinite negative => some (if negative then -(LIMIT : Int) else (LIMIT : Int))
  | nan => none

/-- The comparison `a < b`, which is false when either side is a NaN. -/
def lt (a b : Double) : Bool :=
  match a.rank, b.rank with
  | some x, some y => decide (x < y)
  | _, _ => false

/-- The comparison `a <= b`, which is false when either side is a NaN. -/
def le (a b : Double) : Bool :=
  match a.rank, b.rank with
  | some x, some y => decide (x ≤ y)
  | _, _ => false

/-- The negation `-a`. -/
def neg : Double → Double
  | finite negative scaled => finite (!negative) scaled
  | infinite negative => infinite (!negative)
  | nan => nan

/-- The difference `a - b`, rounded. -/
def sub : Double → Double → Double
  | nan, _ => nan
  | _, nan => nan
  | infinite s, infinite t => if s = t then nan else infinite s
  | infinite s, finite _ _ => infinite s
  | finite _ _, infinite t => infinite (!t)
  | finite s n, finite t m =>
    let difference : Int :=
      (if s then -(n : Int) else (n : Int)) - (if t then -(m : Int) else (m : Int))
    if difference = 0 then finite (s && !t) 0
    else pack (decide (difference < 0)) (round_scaled difference.natAbs 1)

/-- The product `a * 10.0`, rounded. -/
def mul_ten : Double → Double
  | finite negative scaled => pack negative (round_scaled (scaled * 10) 1)
  | infinite negative => infinite negative
  | nan => nan

/-- The quotient `a / 10.0`, rounded. -/
def div_ten : Double → Double
  | finite negative scaled => pack negative (round_scaled scaled 10)
  | infinite negative => infinite negative
  | nan => nan

/-- The conversion of an `i64` to `double`, rounded. -/
def of_i64 (value : Int) : Double :=
  pack (decide (value < 0)) (round_scaled (value.natAbs * ONE) 1)

/-- The conversion `static_cast<i64>(a)`, which truncates toward zero.  When
the truncated value is not a value of `i64`, or `a` is not finite, C++ leaves
the conversion undefined; the code that GCC compiles for x86-64 uses the
instruction `cvttsd2si`, which then gives `-2^63`, and so does this
definition. -/
def to_i64 : Double → Int
  | finite negative scaled =>
    let whole : Int :=
      if negative then -((scaled / ONE : Nat) : Int) else ((scaled / ONE : Nat) : Int)
    if -(2 ^ 63) ≤ whole ∧ whole < 2 ^ 63 then whole else -(2 ^ 63)
  | infinite _ => -(2 ^ 63)
  | nan => -(2 ^ 63)

/-- The conversion `static_cast<u64>(a)`, which truncates toward zero.  When
the truncated value is not a value of `u64`, or `a` is not finite, C++ leaves
the conversion undefined; this definition follows the code that GCC compiles
for x86-64: a value that compares `>= 2^63` is lowered by `2^63`, converted as
for `i64`, and has the top bit of the result flipped, and any other value is
converted as for `i64` and read as an unsigned number. -/
def to_u64 (a : Double) : Nat :=
  if (of_ratio (2 ^ 63) 1).le a then
    (((a.sub (of_ratio (2 ^ 63) 1)).to_i64 + 2 ^ 63) % 2 ^ 64).toNat
  else (a.to_i64 % 2 ^ 64).toNat

end Double

/-! ## FormatBuilder: floating point -/

namespace FormatBuilder

/-- The loop `for (size_t i = 0; i < precision; ++i) epsilon /= 10.0;` of
`put_f64`; the first argument counts the iterations left. -/
def put_f64_epsilon : Nat → Double → Double
  | 0, epsilon => epsilon
  | count + 1, epsilon => put_f64_epsilon count epsilon.div_ten

/-- The loop `for (; visible_precision < precision; ++visible_precision)` of
`put_f64`; the first argument counts the iterations left, the result is the
final `value` and `visible_precision`. -/
def put_f64_loop : Nat → Double → Double → Nat → Double × Nat
  | 0, value, _, visible_precision => (value, visible_precision)
  | count + 1, value, epsilon, visible_precision =>
    if (value.sub (Double.of_i64 value.to_i64)).lt epsilon then (value, visible_precision)
    else put_f64_loop count value.mul_ten epsilon.mul_ten (visible_precision + 1)

/-- The block `if (precision > 0) { ... }` of `put_f64`, appending to the
local `string_builder`.  The calls of `put_u64` leave the fill, the sign mode
and the sign to their defaults, which `base/Format.h` (not among the sources)
declares as `' '`, `OnlyIfNeeded` and non-negative. -/
def put_f64_fraction (string_builder : StringBuilder) (value : Double) (base : Nat)
    (upper_case zero_pad : Bool) (precision : Nat) : Outcome StringBuilder :=
  let value1 := value.sub (Double.of_i64 value.to_i64)
  let epsilon := put_f64_epsilon precision (Double.of_ratio 1 2)
  match put_f64_loop precision value1 epsilon 0 with
  | (value2, visible_precision) =>
    let string_builder1 :=
      if zero_pad ∨ visible_precision > 0 then string_builder ++ ['.'] else string_builder
    let digits : Outcome StringBuilder :=
      if visible_precision > 0 then
        put_u64 string_builder1 value2.to_u64 base false upper_case true Align.Right
          visible_precision ' ' SignMode.OnlyIfNeeded false
      else .ok string_builder1
    match digits with
    | .ok string_builder2 =>
      if zero_pad ∧ precision - visible_precision > 0 then
        put_u64 string_builder2 0 base false false true Align.Right
          (precision - visible_precision) ' ' SignMode.OnlyIfNeeded false
      else .ok string_builder2
    | .abort => .abort
    | .nofuel => .nofuel

/-- The method `FormatBuilder::put_f64`: the number is built in a local
`string_builder`, which `put_string` then appends to the builder. -/
def put_f64 (builder : StringBuilder) (value : Double) (base : Nat) (upper_case zero_pad : Bool)
    (align : Align) (min_width precision : Nat) (fill : Char) (sign_mode : SignMode) :
    Outcome StringBuilder :=
  let is_negative : Bool := value.lt (Double.of_ratio 0 1)
  let value1 := if is_negative then value.neg else value
  match put_u64 [] value1.to_u64 base false upper_case false Align.Right 0 ' ' sign_mode
      is_negative with
  | .ok string_builder =>
    let number : Outcome StringBuilder :=
      if precision > 0 then put_f64_fraction string_builder value1 base upper_case zero_pad precision
      else .ok string_builder
    match number with
    | .ok string_builder1 =>
      .ok (put_string builder string_builder1 align min_width SIZE_MAX fill)
    | .abort => .abort
    | .nofuel => .nofuel
  | .abort => .abort
  | .nofuel => .nofuel

end FormatBuilder

/-! ## Vocabulary of the fractional digits -/

/-- The magnitude of a value as `put_f64` takes it: the value is negated when
it compares below zero. -/
def magnitude (value : Double) : Double :=
  if value.lt (Double.of_ratio 0 1) then value.neg else value

/-- The fraction of a value as `put_f64` takes it: the expression
`value - static_cast<i64>(value)`. -/
def fraction_part (value : Double) : Double := value.sub (Double.of_i64 value.to_i64)

/-- The variable `value` of `put_f64` after `k` iterations of the digit loop:
the fraction of the value, multiplied `k` times by `10.0`. -/
def scaled_fraction (value : Double) (k : Nat) : Double :=
  Nat.iterate Double.mul_ten k (fraction_part value)

/-- The fraction that remains after `k` fractional digits of `value`: the
fraction of the value that was multiplied `k` times by `10.0`. -/
def remaining_fraction (value : Double) (k : Nat) : Double :=
  fraction_part (scaled_fraction value k)

/-- The threshold that `put_f64` compares the remaining fraction with after `k`
fractional digits for the precision `precision`: `0.5`, divided `precision`
times by `10.0` and multiplied `k` times by `10.0`. -/
def stop_threshold (precision k : Nat) : Double :=
  Nat.iterate Double.mul_ten k (Nat.iterate Double.div_ten precision (Double.of_ratio 1 2))

/-! ## The render capability of a floating-point argument -/

/-- Modelled from the spec: `TypeErasedParameter::to_size` of `base/Format.h`,
which is not among the sources, for a floating-point argument: such an
argument is not a size, which is fatal. -/
def float_to_size (_ : Double) : Outcome Nat := .abort

/-- Modelled from the spec: the base and the letter case that a mode selects for
a floating-point argument: base 10 for the default mode and for `f`, base 16
for `a` and `A`. -/
def float_base : Mode → Option (Nat × Bool)
  | Mode.Default => some (10, false)
  | Mode.Float => some (10, false)
  | Mode.Hexfloat => some (16, false)
  | Mode.HexfloatUppercase => some (16, true)
  | _ => none

/-- Modelled from the spec: the render capability of a floating-point argument
(`Formatter<double>::format` of `base/Format.h`, which is not among the
sources): the options span is parsed by `StandardFormatter::parse` and the
value is rendered by `put_f64` under the resulting directive, the width
defaulting to 0 and the precision to `default_precision`, which the spec
leaves open.  A mode that is not a floating-point mode is reported as an
abort. -/
def format_float (default_precision : Nat) : FormatterFn Double :=
  fun params builder parser value =>
    match StandardFormatter.parse float_to_size StandardFormatter.initial params parser with
    | .ok (directive, params1, _) =>
      match float_base directive.m_mode with
      | some (base, upper_case) =>
        match FormatBuilder.put_f64 builder value base upper_case directive.m_zero_pad
            directive.m_align (directive.m_width.getD 0)
            (directive.m_precision.getD default_precision) directive.m_fill
            directive.m_sign_mode with
        | .ok builder1 => .ok (params1, builder1)
        | .abort => .abort
        | .nofuel => .nofuel
      | none => .abort
    | .abort => .abort
    | .nofuel => .nofuel

/-! ## Vocabulary of the options grammar -/

/-- A width or a precision as written in an options span: decimal digits, or a
nested field, `{n}` for `nested (some n)` and `{}` for `nested none`. -/
inductive SizeToken where
  | literal (value : Nat)
  | nested (index : Option Nat)
deriving DecidableEq, Repr

/-- Text of a size: the decimal numeral without leading zeros, or the nested
field. -/
def SizeToken.text : SizeToken → List Char
  | .literal value => Nat.toDigits 10 value
  | .nested index => '{' :: (index_text index ++ ['}'])

/-- A size that `size_t` holds; a nested index is below the sentinel
`use_next_index`. -/
def SizeToken.well_formed : SizeToken → Bool
  | .literal value => decide (value < SIZE_MOD)
  | .nested (some n) => decide (n < use_next_index)
  | .nested none => true

/-- The size that a token denotes against an argument store, with the store
afterwards: the number itself for digits; for `{n}` argument `n` as a
size; for `{}` the argument at the cursor as a size, the cursor advancing.
A missing argument is fatal, as is an argument that is not a size. -/
def resolve_size {V : Type} (to_size : V → Outcome Nat) (params : TypeErasedFormatParams V) :
    SizeToken → Outcome (Nat × TypeErasedFormatParams V)
  | .literal value => .ok (value, params)
  | .nested (some n) =>
    match params.m_parameters.get? n with
    | some parameter =>
      match to_size parameter with
      | .ok size => .ok (size, params)
      | .abort => .abort
      | .nofuel => .nofuel
    | none => .abort
  | .nested none =>
    match params.m_parameters.get? params.m_next_index with
    | some parameter =>
      match to_size parameter with
      | .ok size => .ok (size, params.take_next_index.2)
      | .abort => .abort
      | .nofuel => .nofuel
    | none => .abort

/-- The size after an optional token: `current` when the token is absent. -/
def resolve_optional {V : Type} (to_size : V → Outcome Nat) (params : TypeErasedFormatParams V)
    (current : Option Nat) : Option SizeToken → Outcome (Option Nat × TypeErasedFormatParams V)
  | none => .ok (current, params)
  | some token =>
    match resolve_size to_size params token with
    | .ok (size, params1) => .ok (some size, params1)
    | .abort => .abort
    | .nofuel => .nofuel

/-- The tokens of an options span, in the order of the grammar
`[[fill]align][sign][#][0][width][.precision][mode]`; an absent token is `none`
or `false`. -/
structure OptionTokens where
  fill : Option Char
  align : Option Align
  sign : Option SignMode
  alternative_form : Bool
  zero_pad : Bool
  width : Option SizeToken
  precision : Option SizeToken
  mode : Option Mode
deriving DecidableEq, Repr

/-- Text of the alignment: `<`, `^` or `>`. -/
def align_text : Option Align → List Char
  | some Align.Left => ['<']
  | some Align.Center => ['^']
  | some Align.Right => ['>']
  | _ => []

/-- Text of the sign mode: `-`, `+` or a blank. -/
def sign_mode_text : Option SignMode → List Char
  | some SignMode.OnlyIfNeeded => ['-']
  | some SignMode.Always => ['+']
  | some SignMode.Reserved => [' ']
  | none => []

/-- Text of a flag: the character when the flag is set. -/
def flag_text (flag : Bool) (c : Char) : List Char := if flag then [c] else []

/-- Text of an optional size, after the characters `lead`. -/
def size_text (lead : List Char) : Option SizeToken → List Char
  | some token => lead ++ token.text
  | none => []

/-- Text of the mode: its letter, or the keyword `hex-dump`. -/
def mode_text : Option Mode → List Char
  | some Mode.Binary => ['b']
  | some Mode.BinaryUppercase => ['B']
  | some Mode.Decimal => ['d']
  | some Mode.Octal => ['o']
  | some Mode.Hexadecimal => ['x']
  | some Mode.HexadecimalUppercase => ['X']
  | some Mode.Character => ['c']
  | some Mode.String => ['s']
  | some Mode.Pointer => ['p']
  | some Mode.Float => ['f']
  | some Mode.Hexfloat => ['a']
  | some Mode.HexfloatUppercase => ['A']
  | some Mode.HexDump => ['h', 'e', 'x', '-', 'd', 'u', 'm', 'p']
  | _ => []

/-- Text of the tokens after the fill, alignment, sign and flags. -/
def OptionTokens.size_mode_text (t : OptionTokens) : List Char :=
  size_text [] t.width ++ (size_text ['.'] t.precision ++ mode_text t.mode)

/-- The options span that writes the tokens in grammar order. -/
def OptionTokens.text (t : OptionTokens) : List Char :=
  t.fill.toList ++ (align_text t.align ++ (sign_mode_text t.sign ++
    (flag_text t.alternative_form '#' ++ (flag_text t.zero_pad '0' ++ t.size_mode_text))))

/-- Tokens that the grammar can write: a fill comes with an alignment and is
not a brace; `Default` is no alignment and no mode of its own; the sizes are
well formed and a width in digits is at least 1. -/
def OptionTokens.well_formed (t : OptionTokens) : Bool :=
  (match t.fill with
    | some c => !is_brace c && t.align.isSome
    | none => true) &&
  !(t.align == some Align.Default) && !(t.mode == some Mode.Default) &&
  (match t.width with
    | some token => token.well_formed && !(token == SizeToken.literal 0)
    | none => true) &&
  (match t.precision with
    | some token => token.well_formed
    | none => true)

/-- The directive that the tokens make of `self`, given the width and the
precision: a token that is present sets its member, an absent one leaves it. -/
def OptionTokens.directive (t : OptionTokens) (self : StandardFormatter)
    (width precision : Option Nat) : StandardFormatter :=
  ⟨t.align.getD self.m_align, t.sign.getD self.m_sign_mode, t.mode.getD self.m_mode,
    t.alternative_form || self.m_alternative_form, t.fill.getD self.m_fill,
    t.zero_pad || self.m_zero_pad, width, precision⟩

/-- The directive and the argument store that the tokens denote: the width is
resolved first, then the precision. -/
def read_options {V : Type} (to_size : V → Outcome Nat) (self : StandardFormatter)
    (params : TypeErasedFormatParams V) (t : OptionTokens) :
    Outcome (StandardFormatter × TypeErasedFormatParams V) :=
  match resolve_optional to_size params self.m_width t.width with
  | .ok (width, params1) =>
    match resolve_optional to_size params1 self.m_precision t.precision with
    | .ok (precision, params2) => .ok (t.directive self width precision, params2)
    | .abort => .abort
    | .nofuel => .nofuel
  | .abort => .abort
  | .nofuel => .nofuel

/-- The characters that can stand where the mode is read: the first character
of a mode, or NUL at the end of the span. -/
def mode_heads : List Char :=
  [Char.ofNat 0, 'b', 'B', 'd', 'o', 'x', 'X', 'c', 's', 'p', 'f', 'a', 'A', 'h']

/-- The characters that can stand where the precision is read. -/
def precision_heads : List Char := '.' :: mode_heads

/-- The characters that can stand where the width is read: a digit other than
`0`, the `{` of a nested field, or what can follow. -/
def width_heads : List Char :=
  ['1', '2', '3', '4', '5', '6', '7', '8', '9', '{'] ++ precision_heads

/-- The characters that can stand where the zero-pad flag is read. -/
def zero_pad_heads : List Char := '0' :: width_heads

/-- The characters that can stand where the alternate-form flag is read. -/
def alternative_form_heads : List Char := '#' :: zero_pad_heads

/-- The characters that can stand where the sign is read. -/
def sign_heads : List Char := ['-', '+', ' '] ++ alternative_form_heads

/-- The result of `StandardFormatter::parse` on the options span `text` when the
tokens denote `result`: the directive and the store of `result`, with the
parser at the end of the span. -/
def parse_result {V : Type} (text : List Char) :
    Outcome (StandardFormatter × TypeErasedFormatParams V) →
      Outcome (StandardFormatter × TypeErasedFormatParams V × GenericLexer)
  | .ok (directive, params) => .ok (directive, params, ⟨text, text.length⟩)
  | .abort => .abort
  | .nofuel => .nofuel

/-! ## Vocabulary of the scanner contracts -/

/-- The brace depth after reading `text` at depth `depth`: `{` increments and
`}` decrements; `none` when a `}` is met at depth 0. -/
def brace_depth : Nat → List Char → Option Nat
  | depth, [] => some depth
  | depth, c :: rest =>
    if c = '{' then brace_depth (depth + 1) rest
    else if c = '}' then (if depth = 0 then none else brace_depth (depth - 1) rest)
    else brace_depth depth rest

/-- An options text with balanced braces: every `}` closes an earlier `{` of
the text and every `{` is closed. -/
def balanced_braces (text : List Char) : Bool := brace_depth 0 text == some 0

/-- The index that a field with the index text `idx` carries: the sentinel
`use_next_index` (automatic) for no digits, else the decimal value as a
`size_t`. -/
def field_index (idx : List Char) : Nat :=
  if idx.isEmpty then use_next_index else dec_value idx % SIZE_MOD

/-- The result of a call that appends to `builder`, from the result of the same
call on the empty buffer: `builder` followed by what the call appends. -/
def appended_to (builder : StringBuilder) : Outcome StringBuilder → Outcome StringBuilder
  | .ok suffix => .ok (builder ++ suffix)
  | .abort => .abort
  | .nofuel => .nofuel

/-- The result `r` with `f` applied to the value of a normal return. -/
def Outcome.map {α β : Type} (f : α → β) : Outcome α → Outcome β
  | .ok a => .ok (f a)
  | .abort => .abort
  | .nofuel => .nofuel

/-- The two lower-case hexadecimal digits of a byte, high digit first. -/
def hex_byte (byte : Nat) : List Char :=
  [digit_char false (byte / 16), digit_char false (byte % 16)]

/-- The preview character of a byte: the byte itself when it lies in 32..127,
else `.`. -/
def preview_char (byte : Nat) : Char :=
  if 32 ≤ byte ∧ byte ≤ 127 then Char.ofNat byte else '.'

/-- The rows of `width` bytes of a byte sequence, the last one possibly
shorter; the first argument bounds the number of rows. -/
def hexdump_rows (width : Nat) : Nat → List Nat → List (List Nat)
  | 0, _ => []
  | fuel + 1, bytes =>
    if bytes.isEmpty then [] else bytes.take width :: hexdump_rows width fuel (bytes.drop width)

/-- Text of one row of a hexdump: the hexadecimal digits of its bytes, followed
for a full row by four fill characters and the preview of the bytes. -/
def hexdump_row_text (width : Nat) (fill : Char) (row : List Nat) : List Char :=
  row.flatMap hex_byte ++
    (if row.length = width then List.replicate 4 fill ++ row.map preview_char else [])

/-- What the spec asks `put_hexdump` to append: for a positive width the texts
of the rows joined by a newline, for the width 0 the hexadecimal digits
alone. -/
def hexdump_text (width : Nat) (fill : Char) (bytes : List Nat) : List Char :=
  if width = 0 then bytes.flatMap hex_byte
  else List.intercalate ['\n'] ((hexdump_rows width bytes.length bytes).map
    (hexdump_row_text width fill))

/-- What `put_literal` appends for a span: every character of the span except
the one that directly follows a brace it has appended. -/
def literal_text : List Char → List Char
  | [] => []
  | [c] => [c]
  | c :: d :: r => if is_brace c then c :: literal_text r else c :: literal_text (d :: r)

/-! ## String search (LibJS, `runtime/StringPrototype.cpp`) -/

/-- Modelled from the spec: the class `Utf16View` (`base/Utf16View.h`) is not
among the sources; a view is the list of its 16-bit code units, and two views
are equal when their code units are. -/
abbrev Utf16View := List Nat

/-- Modelled from the spec: `Utf16View::length_in_code_units()`. -/
def Utf16View.length_in_code_units (view : Utf16View) : Nat := view.length

/-- Modelled from the spec: `Utf16View::substring_view(offset, length)`, which
asserts that the span lies inside the view. -/
def Utf16View.substring_view (view : Utf16View) (code_unit_offset code_unit_length : Nat) :
    Outcome Utf16View :=
  if code_unit_offset + code_unit_length ≤ view.length then
    .ok ((view.drop code_unit_offset).take code_unit_length)
  else .abort

/-- The loop `for (size_t i = from_index; i <= string_length - search_length; ++i)`
of `string_index_of`.  The index never exceeds `string_length`, so the
increment does not wrap. -/
def string_index_of_loop (string search_value : Utf16View) (string_length search_length : Nat) :
    Nat → Nat → Outcome (Option Nat)
  | 0, _ => .nofuel
  | fuel + 1, i =>
    if i ≤ string_length - search_length then
      match Utf16View.substring_view string i search_length with
      | .ok candidate =>
        if candidate = search_value then .ok (some i)
        else string_index_of_loop string search_value string_length search_length fuel (i + 1)
      | .abort => .abort
      | .nofuel => .nofuel
    else .ok none

/-- The function `string_index_of` of `StringPrototype.cpp`: `none` is the empty
`Optional`.  The loop runs at most `string_length + 1` times. -/
def string_index_of (string search_value : Utf16View) (from_index : Nat) :
    Outcome (Option Nat) :=
  let string_length := Utf16View.length_in_code_units string
  let search_length := Utf16View.length_in_code_units search_value
  if search_length = 0 ∧ from_index ≤ string_length then .ok (some from_index)
  else if search_length > string_length then .ok none
  else
    string_index_of_loop string search_value string_length search_length (string_length + 2)
      from_index

/-- The needle occurs in the haystack at index `i`, as a run of code units. -/
def occurs_at (haystack needle : List Nat) (i : Nat) : Bool :=
  decide (i + needle.length ≤ haystack.length) &&
    decide ((haystack.drop i).take needle.length = needle)

/-- Modelled from the spec: the render capability that `base/Format.h`, which
is not among the sources, stores with an argument: a fresh `StandardFormatter`
parses the options span against the argument store, and the value is then
rendered under the resulting directive by `render`. -/
def standard_formatter {V : Type} (to_size : V → Outcome Nat)
    (render : StandardFormatter → V → StringBuilder → Outcome StringBuilder) : FormatterFn V :=
  fun params builder parser value =>
    match StandardFormatter.parse to_size StandardFormatter.initial params parser with
    | .ok (directive, params1, _) =>
      match render directive value builder with
      | .ok builder1 => .ok (params1, builder1)
      | .abort => .abort
      | .nofuel => .nofuel
    | .abort => .abort
    | .nofuel => .nofuel

end Base

/-! # Lemmas and theorems -/

namespace Base
open GenericLexer FormatParser FormatBuilder

/-! ## The lexer at a known position -/

theorem lexer_at_peek (pre rest : List Char) (k : Nat) :
    (lexer_at pre rest).peek k = rest.getD k (Char.ofNat 0) := by
  simp [lexer_at, GenericLexer.peek, List.getD_eq_getElem?_getD, List.getElem?_append_right]

theorem lexer_at_is_eof (pre rest : List Char) :
    (lexer_at pre rest).is_eof = rest.isEmpty := by
  cases rest <;> simp [lexer_at, GenericLexer.is_eof]

theorem lexer_at_snoc (pre : List Char) (c : Char) (rest : List Char) :
    (⟨pre ++ c :: rest, pre.length + 1⟩ : GenericLexer) = lexer_at (pre ++ [c]) rest := by
  simp [lexer_at]

theorem lexer_at_append (pre mid rest : List Char) :
    (⟨pre ++ (mid ++ rest), pre.length + mid.length⟩ : GenericLexer) = lexer_at (pre ++ mid) rest := by
  simp [lexer_at]

theorem lexer_at_consume (pre : List Char) (c : Char) (rest : List Char) :
    (lexer_at pre (c :: rest)).consume = .ok (c, lexer_at (pre ++ [c]) rest) := by
  have h := lexer_at_peek pre (c :: rest) 0
  have e := lexer_at_is_eof pre (c :: rest)
  simp only [GenericLexer.consume, e, h]
  simp [lexer_at]

theorem lexer_at_consume_specific_hit (pre : List Char) (c : Char) (rest : List Char) :
    (lexer_at pre (c :: rest)).consume_specific c = some (lexer_at (pre ++ [c]) rest) := by
  have h := lexer_at_peek pre (c :: rest) 0
  simp only [GenericLexer.consume_specific, h]
  simp [lexer_at]

theorem lexer_at_consume_specific_miss (pre : List Char) (c d : Char) (rest : List Char)
    (h : d ≠ c) : (lexer_at pre (d :: rest)).consume_specific c = none := by
  have hp := lexer_at_peek pre (d :: rest) 0
  simp only [GenericLexer.consume_specific, hp]
  simp [h]

theorem lexer_at_consume_specific_nil (pre : List Char) (c : Char) (h : c ≠ Char.ofNat 0) :
    (lexer_at pre []).consume_specific c = none := by
  have hp := lexer_at_peek pre [] 0
  simp only [GenericLexer.consume_specific, hp]
  simp [Ne.symm h]

theorem next_is_str_pair (l : GenericLexer) (a b : Char) :
    l.next_is_str [a, b] = (l.peek 0 == a && l.peek 1 == b) := by
  simp [GenericLexer.next_is_str, List.range_succ]


theorem lexer_at_consume_pair_hit (pre : List Char) (c : Char) (rest : List Char) :
    (lexer_at pre (c :: c :: rest)).consume_specific_str [c, c] =
      some (lexer_at (pre ++ [c, c]) rest) := by
  have h0 := lexer_at_peek pre (c :: c :: rest) 0
  have h1 := lexer_at_peek pre (c :: c :: rest) 1
  simp only [GenericLexer.consume_specific_str, next_is_str_pair, h0, h1]
  simp [lexer_at]

theorem lexer_at_consume_pair_miss (pre : List Char) (c : Char) (rest : List Char)
    (h : rest.getD 0 (Char.ofNat 0) ≠ c ∨ rest.getD 1 (Char.ofNat 0) ≠ c) :
    (lexer_at pre rest).consume_specific_str [c, c] = none := by
  have h0 := lexer_at_peek pre rest 0
  have h1 := lexer_at_peek pre rest 1
  simp only [GenericLexer.consume_specific_str, next_is_str_pair, h0, h1]
  simp only [List.getD_eq_getElem?_getD] at h ⊢
  rcases h with h | h <;> simp [h]

theorem consume_literal_loop_escape (s : List Char) :
    ∀ (pre rest : List Char) (start fuel : Nat), stops_literal rest = true →
      start ≤ pre.length → s.length < fuel →
      consume_literal_loop start fuel (lexer_at pre (escape s ++ rest)) =
        .ok (((pre ++ (escape s ++ rest)).drop start).take
              (pre.length + (escape s).length - start),
            lexer_at (pre ++ escape s) rest) := by
  induction s with
  | nil =>
    intro pre rest start fuel hstop hstart hfuel
    obtain ⟨fuel, rfl⟩ : ∃ f, fuel = f + 1 := ⟨fuel - 1, by simp at hfuel; omega⟩
    cases rest with
    | nil =>
      simp [consume_literal_loop, escape, lexer_at_is_eof]
      simp [lexer_at]
    | cons c r =>
      have hb : is_brace c = true := by
        simp [stops_literal] at hstop; exact hstop.1
      have hr : r.head? ≠ some c := by
        simp [stops_literal] at hstop; exact hstop.2
      have hr' : r.getD 0 (Char.ofNat 0) ≠ c := by
        cases r with
        | nil =>
          intro h; rw [← h] at hb; simp [is_brace] at hb
        | cons d r => simpa using hr
      have m1 : (lexer_at pre (c :: r)).consume_specific_str ['{', '{'] = none := by
        apply lexer_at_consume_pair_miss
        by_cases hc : c = '{'
        · right; subst hc; simpa using hr'
        · left; simpa using hc
      have m2 : (lexer_at pre (c :: r)).consume_specific_str ['}', '}'] = none := by
        apply lexer_at_consume_pair_miss
        by_cases hc : c = '}'
        · right; subst hc; simpa using hr'
        · left; simpa using hc
      simp [consume_literal_loop, escape, lexer_at_is_eof, m1, m2, lexer_at_peek, hb]
      all_goals simp [lexer_at, substring_view, GenericLexer.tell]
  | cons c s ih =>
    intro pre rest start fuel hstop hstart hfuel
    obtain ⟨fuel, rfl⟩ : ∃ f, fuel = f + 1 := ⟨fuel - 1, by simp at hfuel; omega⟩
    have hfuel' : s.length < fuel := by simp at hfuel; omega
    by_cases hb : is_brace c = true
    · have e : escape (c :: s) = c :: c :: escape s := by simp [escape, hb]
      rw [e]
      have hstart' : start ≤ (pre ++ [c, c]).length := by simp; omega
      have IH := ih (pre ++ [c, c]) rest start fuel hstop hstart' hfuel'
      by_cases hc : c = '{'
      · subst hc
        simp only [consume_literal_loop, lexer_at_is_eof, List.cons_append,
          lexer_at_consume_pair_hit]
        simp at IH ⊢
        rw [IH, show pre.length + 2 + (escape s).length - start =
          pre.length + ((escape s).length + 1 + 1) - start by omega]
      · have hc2 : c = '}' := by
          simp [is_brace] at hb; tauto
        subst hc2
        have m1 : (lexer_at pre ('}' :: '}' :: (escape s ++ rest))).consume_specific_str
            ['{', '{'] = none := by
          apply lexer_at_consume_pair_miss; left; simp
        simp only [consume_literal_loop, lexer_at_is_eof, List.cons_append, m1,
          lexer_at_consume_pair_hit]
        simp at IH ⊢
        rw [IH, show pre.length + 2 + (escape s).length - start =
          pre.length + ((escape s).length + 1 + 1) - start by omega]
    · have e : escape (c :: s) = c :: escape s := by simp [escape, hb]
      rw [e]
      have hstart' : start ≤ (pre ++ [c]).length := by simp; omega
      have IH := ih (pre ++ [c]) rest start fuel hstop hstart' hfuel'
      have hc1 : c ≠ '{' := by intro h; subst h; simp [is_brace] at hb
      have hc2 : c ≠ '}' := by intro h; subst h; simp [is_brace] at hb
      have m1 : (lexer_at pre (c :: (escape s ++ rest))).consume_specific_str
          ['{', '{'] = none := by
        apply lexer_at_consume_pair_miss; left; simpa using hc1
      have m2 : (lexer_at pre (c :: (escape s ++ rest))).consume_specific_str
          ['}', '}'] = none := by
        apply lexer_at_consume_pair_miss; left; simpa using hc2
      simp only [consume_literal_loop, lexer_at_is_eof, List.cons_append, m1, m2,
        lexer_at_peek, lexer_at_consume]
      simp [hb] at IH ⊢
      rw [IH, show pre.length + 1 + (escape s).length - start =
        pre.length + ((escape s).length + 1) - start by omega]


theorem escape_length_le (s : List Char) : s.length ≤ (escape s).length := by
  induction s with
  | nil => simp [escape]
  | cons c s ih => by_cases hb : is_brace c = true <;> simp [escape, hb] <;> omega

theorem getD_append_cons (pre : List Char) (c d : Char) (t : List Char) :
    (pre ++ c :: t).getD pre.length d = c := by
  rw [List.getD_eq_getElem?_getD, List.getElem?_append_right (le_refl _)]
  simp

theorem put_literal_loop_escape (s : List Char) :
    ∀ (pre : List Char) (fuel : Nat) (builder : StringBuilder), s.length < fuel →
      put_literal_loop (pre ++ escape s) fuel pre.length builder = .ok (builder ++ s) := by
  induction s with
  | nil =>
    intro pre fuel builder hfuel
    obtain ⟨fuel, rfl⟩ : ∃ f, fuel = f + 1 := ⟨fuel - 1, by simp at hfuel; omega⟩
    simp [put_literal_loop, escape]
  | cons c s ih =>
    intro pre fuel builder hfuel
    obtain ⟨fuel, rfl⟩ : ∃ f, fuel = f + 1 := ⟨fuel - 1, by simp at hfuel; omega⟩
    have hfuel' : s.length < fuel := by simp at hfuel; omega
    by_cases hb : is_brace c = true
    · have e : escape (c :: s) = c :: c :: escape s := by simp [escape, hb]
      have hc : c = '{' ∨ c = '}' := by simpa [is_brace] using hb
      have IH := ih (pre ++ [c, c]) fuel (builder ++ [c]) hfuel'
      rw [e]
      simp only [put_literal_loop, getD_append_cons]
      simp [hc] at IH ⊢
      exact IH
    · have e : escape (c :: s) = c :: escape s := by simp [escape, hb]
      have hc : ¬ (c = '{' ∨ c = '}') := by simpa [is_brace] using hb
      have IH := ih (pre ++ [c]) fuel (builder ++ [c]) hfuel'
      rw [e]
      simp only [put_literal_loop, getD_append_cons]
      simp [hc] at IH ⊢
      exact IH

theorem put_literal_escape (builder : StringBuilder) (s : List Char) :
    put_literal builder (escape s) = .ok (builder ++ s) := by
  have h := put_literal_loop_escape s [] ((escape s).length + 1) builder
    (by have := escape_length_le s; omega)
  simpa [put_literal] using h

theorem consume_literal_escape (pre s rest : List Char) (hstop : stops_literal rest = true) :
    consume_literal (lexer_at pre (escape s ++ rest)) =
      .ok (escape s, lexer_at (pre ++ escape s) rest) := by
  have h := consume_literal_loop_escape s pre rest pre.length
    ((escape s ++ rest).length + 1) hstop (le_refl _)
    (by have := escape_length_le s; simp; omega)
  simp only [consume_literal, GenericLexer.tell]
  have e1 : (lexer_at pre (escape s ++ rest)).m_index = pre.length := rfl
  have e2 : (lexer_at pre (escape s ++ rest)).m_input.length - pre.length + 1 =
      (escape s ++ rest).length + 1 := by simp [lexer_at]
  rw [e1, e2, h]
  simp

theorem consume_specifier_at_end (pre : List Char) :
    consume_specifier (lexer_at pre []) = .ok (none, lexer_at pre []) := by
  have hp := lexer_at_peek pre [] 0
  have hc := lexer_at_consume_specific_nil pre '{' (by decide)
  simp only [consume_specifier, hp, hc]
  simp

/-- C1. A template made only of non-brace characters and doubled braces is the
escaped form `escape s` of a text `s`; for every such template, every formatter
and every argument store, `vformat` returns normally and appends exactly `s`
(each doubled brace replaced by one brace).  The template `{{hi}}` yields
`{hi}`. -/
theorem vformat_escaped_literal {V : Type} (formatter : FormatterFn V)
    (builder : StringBuilder) (s : List Char) (params : TypeErasedFormatParams V) :
    vformat formatter builder (escape s) params = .ok (builder ++ s) ∧
    vformat formatter [] ['{', '{', 'h', 'i', '}', '}'] (VariadicFormatParams []) =
      .ok ['{', 'h', 'i', '}'] := by
  have key : ∀ (b : StringBuilder) (t : List Char) (ps : TypeErasedFormatParams V),
      vformat formatter b (escape t) ps = .ok (b ++ t) := by
    intro b t ps
    have h1 := consume_literal_escape [] t [] rfl
    have e : (⟨escape t, 0⟩ : GenericLexer) = lexer_at [] (escape t ++ []) := by
      simp [lexer_at]
    simp only [vformat, vformat_impl, e, h1, put_literal_escape, List.nil_append,
      consume_specifier_at_end, lexer_at_is_eof]
    simp
  exact ⟨key builder s params, key [] ['{', 'h', 'i', '}'] (VariadicFormatParams [])⟩

theorem consume_number_loop_digits (ds : List Char) :
    ∀ (pre rest : List Char) (fuel value : Nat) (flag : Bool),
      (∀ c ∈ ds, is_ascii_digit c = true) →
      is_ascii_digit (rest.getD 0 (Char.ofNat 0)) = false → ds.length < fuel →
      consume_number_loop fuel (lexer_at pre (ds ++ rest)) value flag =
        .ok (flag || !ds.isEmpty,
          ds.foldl (fun v c => (v * 10 % SIZE_MOD + parse_ascii_digit c) % SIZE_MOD) value,
          lexer_at (pre ++ ds) rest) := by
  induction ds with
  | nil =>
    intro pre rest fuel value flag _ hrest hfuel
    obtain ⟨fuel, rfl⟩ : ∃ f, fuel = f + 1 := ⟨fuel - 1, by simp at hfuel; omega⟩
    simp only [consume_number_loop, lexer_at_peek, List.nil_append, hrest]
    simp
  | cons d ds ih =>
    intro pre rest fuel value flag hds hrest hfuel
    obtain ⟨fuel, rfl⟩ : ∃ f, fuel = f + 1 := ⟨fuel - 1, by simp at hfuel; omega⟩
    have hd : is_ascii_digit d = true := hds d (by simp)
    have IH := ih (pre ++ [d]) rest fuel
      ((value * 10 % SIZE_MOD + parse_ascii_digit d) % SIZE_MOD) true
      (fun c hc => hds c (by simp [hc])) hrest (by simp at hfuel; omega)
    simp only [consume_number_loop, List.cons_append, lexer_at_peek, List.getD_cons_zero, hd,
      lexer_at_consume, if_true, IH]
    simp

theorem foldl_mod_eq (ds : List Char) : ∀ (v w : Nat), v % SIZE_MOD = w % SIZE_MOD →
    (ds.foldl (fun v c => (v * 10 % SIZE_MOD + parse_ascii_digit c) % SIZE_MOD) v) % SIZE_MOD =
      (ds.foldl (fun v c => v * 10 + parse_ascii_digit c) w) % SIZE_MOD := by
  induction ds with
  | nil => intro v w h; simpa using h
  | cons d ds ih =>
    intro v w h
    simp only [List.foldl_cons]
    apply ih
    simp only [SIZE_MOD] at h ⊢
    omega

theorem digitChar_is_digit (k : Nat) (hk : k < 10) :
    is_ascii_digit (Nat.digitChar k) = true ∧ parse_ascii_digit (Nat.digitChar k) = k := by
  interval_cases k <;> exact ⟨by decide, by decide⟩

theorem toDigitsCore_spec : ∀ (fuel n : Nat) (acc : List Char), n < fuel →
    ∃ X, Nat.toDigitsCore 10 fuel n acc = X ++ acc ∧ X ≠ [] ∧
      (∀ c ∈ X, is_ascii_digit c = true) ∧ dec_value X = n := by
  intro fuel
  induction fuel with
  | zero => intro n acc h; omega
  | succ fuel ih =>
    intro n acc h
    have hd := digitChar_is_digit (n % 10) (Nat.mod_lt _ (by decide))
    by_cases h0 : n / 10 = 0
    · refine ⟨[Nat.digitChar (n % 10)], ?_, by simp, ?_, ?_⟩
      · simp [Nat.toDigitsCore, h0]
      · intro c hc; simp at hc; subst hc; exact hd.1
      · simp [dec_value, hd.2]; omega
    · obtain ⟨X, hX, hne, hall, hval⟩ := ih (n / 10) (Nat.digitChar (n % 10) :: acc) (by omega)
      refine ⟨X ++ [Nat.digitChar (n % 10)], ?_, by simp, ?_, ?_⟩
      · simp [Nat.toDigitsCore, h0, hX]
      · intro c hc
        simp at hc
        rcases hc with hc | hc
        · exact hall c hc
        · subst hc; exact hd.1
      · simp only [dec_value] at hval ⊢
        simp [List.foldl_append, hval, hd.2]
        omega

theorem toDigits_spec (n : Nat) :
    Nat.toDigits 10 n ≠ [] ∧ (∀ c ∈ Nat.toDigits 10 n, is_ascii_digit c = true) ∧
      dec_value (Nat.toDigits 10 n) = n := by
  obtain ⟨X, hX, hne, hall, hval⟩ := toDigitsCore_spec (n + 1) n [] (by omega)
  simp only [List.append_nil] at hX
  simp only [Nat.toDigits, hX]
  exact ⟨hne, hall, hval⟩

theorem foldl_mod_lt (ds : List Char) : ∀ (v : Nat), v < SIZE_MOD →
    ds.foldl (fun v c => (v * 10 % SIZE_MOD + parse_ascii_digit c) % SIZE_MOD) v < SIZE_MOD := by
  induction ds with
  | nil => intro v h; simpa using h
  | cons d ds ih =>
    intro v _
    simp only [List.foldl_cons]
    exact ih _ (Nat.mod_lt _ (by decide))

theorem consume_number_digits (pre ds rest : List Char)
    (hds : ∀ c ∈ ds, is_ascii_digit c = true)
    (hrest : is_ascii_digit (rest.getD 0 (Char.ofNat 0)) = false) :
    consume_number (lexer_at pre (ds ++ rest)) =
      .ok (!ds.isEmpty, dec_value ds % SIZE_MOD, lexer_at (pre ++ ds) rest) := by
  have h := consume_number_loop_digits ds pre rest
    ((lexer_at pre (ds ++ rest)).m_input.length - (lexer_at pre (ds ++ rest)).m_index + 1)
    0 false hds hrest (by simp [lexer_at]; omega)
  have hv := foldl_mod_eq ds 0 0 rfl
  rw [Nat.mod_eq_of_lt (foldl_mod_lt ds 0 (by decide))] at hv
  simp only [consume_number, h, hv, dec_value]
  simp

theorem index_text_spec (idx : Option Nat) :
    (∀ c ∈ index_text idx, is_ascii_digit c = true) ∧
      (index_text idx).head? ≠ some '{' ∧
      (!(index_text idx).isEmpty) = idx.isSome ∧
      dec_value (index_text idx) = idx.getD 0 := by
  cases idx with
  | none => simp [index_text, dec_value]
  | some n =>
    obtain ⟨hne, hall, hval⟩ := toDigits_spec n
    refine ⟨hall, ?_, ?_, by simpa [index_text] using hval⟩
    · simp only [index_text]
      cases h : Nat.toDigits 10 n with
      | nil => simp
      | cons c t =>
        have := hall c (by simp [h])
        simp only [List.head?_cons, ne_eq, Option.some.injEq]
        intro hc; subst hc; revert this; decide
    · simp only [index_text]
      cases h : Nat.toDigits 10 n with
      | nil => exact absurd h hne
      | cons c t => simp

/-- The index that `consume_specifier` stores for a field whose index text is
`index_text idx`. -/
theorem consume_specifier_plain_field (pre : List Char) (idx : Option Nat) (rest : List Char) :
    consume_specifier (lexer_at pre ('{' :: (index_text idx ++ '}' :: rest))) =
      .ok (some ⟨[], match idx with
          | none => use_next_index
          | some n => n % SIZE_MOD⟩,
        lexer_at (pre ++ '{' :: (index_text idx ++ ['}'])) rest) := by
  obtain ⟨hall, _, hempty, hval⟩ := index_text_spec idx
  have hnum := consume_number_digits (pre ++ ['{']) (index_text idx) ('}' :: rest) hall
    (by rw [List.getD_cons_zero]; decide)
  simp only [consume_specifier, lexer_at_peek, List.getD_cons_zero,
    lexer_at_consume_specific_hit, hnum, hempty, hval]
  cases idx <;> simp <;> rw [lexer_at_consume_specific_miss _ ':' '}' _ (by decide)]

theorem template_text_cons (lit : List Char) (f : FieldToken) (fs : List FieldToken) :
    template_text lit (f :: fs) =
      escape lit ++ ('{' :: (index_text f.index ++ '}' :: template_text f.literal fs)) := by
  simp [template_text, FieldToken.text]

theorem stops_literal_field (idx : Option Nat) (rest : List Char) :
    stops_literal ('{' :: (index_text idx ++ '}' :: rest)) = true := by
  obtain ⟨_, hhead, _, _⟩ := index_text_spec idx
  cases h : index_text idx with
  | nil => simp [stops_literal, is_brace]
  | cons c t =>
    rw [h] at hhead
    simp only [List.head?_cons, ne_eq, Option.some.injEq] at hhead
    simp [stops_literal, is_brace, hhead]

theorem vformat_impl_fields {V : Type} (formatter : FormatterFn V) (render : V → List Char)
    (hpure : ∀ ps b v, formatter ps b ⟨[], 0⟩ v = .ok (ps, b ++ render v))
    (args : List V) (hargs : args.length < SIZE_MOD) :
    ∀ (fields : List FieldToken),
      (∀ f ∈ fields, ∀ n, f.index = some n → n < use_next_index) →
      ∀ (pre lit : List Char) (cursor : Nat) (builder : StringBuilder) (fuel : Nat),
        fields.length < fuel →
        vformat_impl formatter fuel ⟨args, cursor⟩ builder
            (lexer_at pre (template_text lit fields)) =
          match render_fields render args cursor fields with
          | some (c, out) =>
            .ok (⟨args, c⟩, builder ++ lit ++ out,
              lexer_at (pre ++ template_text lit fields) [])
          | none => .abort := by
  intro fields
  induction fields with
  | nil =>
    intro _ pre lit cursor builder fuel hfuel
    obtain ⟨fuel, rfl⟩ : ∃ f, fuel = f + 1 := ⟨fuel - 1, by simp at hfuel; omega⟩
    have e : template_text lit [] = escape lit := by simp [template_text]
    have h1 := consume_literal_escape pre lit [] rfl
    simp only [List.append_nil] at h1
    simp only [vformat_impl, e, h1, put_literal_escape,
      consume_specifier_at_end, lexer_at_is_eof, render_fields]
    simp
  | cons f fs ih =>
    intro hidx pre lit cursor builder fuel hfuel
    obtain ⟨fuel, rfl⟩ : ∃ f, fuel = f + 1 := ⟨fuel - 1, by simp at hfuel; omega⟩
    have hfuel' : fs.length < fuel := by simp at hfuel; omega
    have hidx' : ∀ g ∈ fs, ∀ n, g.index = some n → n < use_next_index :=
      fun g hg n hn => hidx g (by simp [hg]) n hn
    rw [template_text_cons]
    simp only [vformat_impl, consume_literal_escape _ _ _ (stops_literal_field _ _),
      put_literal_escape, consume_specifier_plain_field]
    cases hfi : f.index with
    | none =>
      simp only [render_fields, hfi, Option.getD_none, if_true,
        TypeErasedFormatParams.take_next_index]
      cases hget : args.get? cursor with
      | none => simp
      | some v =>
        have hlt : cursor < args.length := by
          rw [List.get?_eq_some] at hget; exact hget.1
        have hmod : (cursor + 1) % SIZE_MOD = cursor + 1 := Nat.mod_eq_of_lt (by omega)
        simp only [hpure, hmod, Option.isSome_none, Bool.false_eq_true, if_false]
        have IH := ih hidx' (pre ++ escape lit ++ '{' :: (index_text none ++ ['}'])) f.literal
          (cursor + 1) (builder ++ lit ++ render v) fuel hfuel'
        rw [IH]
        cases render_fields render args (cursor + 1) fs with
        | none => simp
        | some r => simp
    | some n =>
      have hn : n < use_next_index := hidx f (by simp) n hfi
      have hmod : n % SIZE_MOD = n := Nat.mod_eq_of_lt (by simp [use_next_index, SIZE_MOD] at hn ⊢; omega)
      have hne : ¬ (n = use_next_index) := by omega
      simp only [render_fields, hfi, Option.getD_some, hmod, hne, if_false]
      cases hget : args.get? n with
      | none => simp
      | some v =>
        simp only [hpure, Option.isSome_some, if_true]
        have IH := ih hidx' (pre ++ escape lit ++ '{' :: (index_text (some n) ++ ['}'])) f.literal
          cursor (builder ++ lit ++ render v) fuel hfuel'
        rw [IH]
        cases render_fields render args cursor fs with
        | none => simp
        | some r => simp

theorem put_padding_eq (n : Nat) : ∀ (builder : StringBuilder) (fill : Char),
    put_padding builder fill n = builder ++ List.replicate n fill := by
  induction n with
  | zero => intro b f; simp [put_padding]
  | succ n ih =>
    intro b f
    simp [put_padding, ih, List.replicate_succ]

theorem put_prefix_eq (builder : StringBuilder) (base : Nat) ( use_prefix upper_case : Bool)
    (sign_mode : SignMode) (is_negative : Bool) :
    put_prefix builder base use_prefix upper_case sign_mode is_negative =
      builder ++ sign_text sign_mode is_negative ++ base_marker use_prefix base upper_case := by
  cases is_negative <;> cases sign_mode <;> cases use_prefix <;> cases upper_case <;>
    simp [ put_prefix, sign_text, base_marker] <;>
    by_cases h2 : base = 2 <;> by_cases h8 : base = 8 <;> by_cases h16 : base = 16 <;>
    simp [h2, h8, h16]

theorem digits_length_le (base value : Nat) (hb : 2 ≤ base) (hv : value < 2 ^ 64) :
    (Nat.digits base value).length ≤ 64 := by
  by_cases h0 : value = 0
  · simp [h0]
  · rw [Nat.digits_len base value (by omega) h0]
    have h1 : value < base ^ 64 :=
      lt_of_lt_of_le hv (Nat.pow_le_pow_left hb 64)
    have := Nat.log_lt_of_lt_pow h0 h1
    omega

theorem convert_digits_loop_eq (base : Nat) (upper_case : Bool) (hb : 2 ≤ base) :
    ∀ (fuel value : Nat) (buffer : DigitBuffer) (used : Nat),
      (Nat.digits base value).length < fuel →
      used + (Nat.digits base value).length ≤ DigitBuffer.capacity →
      convert_digits_loop base upper_case fuel value buffer used =
        .ok (used + (Nat.digits base value).length,
          fun j =>
            if used ≤ j ∧ j < used + (Nat.digits base value).length then
              some (digit_char upper_case ((Nat.digits base value).getD (j - used) 0))
            else buffer j) := by
  intro fuel
  induction fuel with
  | zero => intro value buffer used h; omega
  | succ fuel ih =>
    intro value buffer used hfuel hcap
    by_cases h0 : value = 0
    · subst h0
      simp [convert_digits_loop]
      funext j
      rw [if_neg (by omega)]
    · have hpos : 0 < value := Nat.pos_of_ne_zero h0
      have hd := Nat.digits_def' (show 1 < base by omega) hpos
      rw [hd] at hfuel hcap
      simp only [List.length_cons] at hfuel hcap
      have IH := ih (value / base)
        (fun j => if j = used then some (digit_char upper_case (value % base)) else buffer j)
        (used + 1) (by omega) (by omega)
      have hw : used < DigitBuffer.capacity := by omega
      have hc : (if upper_case = true then uppercase_lookup.getD (value % base) (Char.ofNat 0)
          else lowercase_lookup.getD (value % base) (Char.ofNat 0)) =
          digit_char upper_case (value % base) := by
        cases upper_case <;> simp [digit_char]
      simp only [convert_digits_loop, hpos, gt_iff_lt, if_true, hc, DigitBuffer.write, hw, IH]
      rw [hd]
      simp only [List.length_cons]
      congr 1
      refine Prod.ext (by simp; omega) ?_
      funext j
      simp only
      by_cases hj : j = used
      · subst hj
        simp
      · by_cases hj2 : used + 1 ≤ j ∧ j < used + 1 + (Nat.digits base (value / base)).length
        · have hj3 : used ≤ j ∧ j < used + ((Nat.digits base (value / base)).length + 1) := by
            omega
          have hj4 : j - used = (j - (used + 1)) + 1 := by omega
          rw [if_pos hj2, if_pos hj3, hj4, List.getD_cons_succ]
        · have hj3 : ¬ (used ≤ j ∧ j < used + ((Nat.digits base (value / base)).length + 1)) := by
            omega
          rw [if_neg hj2, if_neg hj3, if_neg hj]

theorem convert_swap_loop_eq (used : Nat) (hused : used ≤ DigitBuffer.capacity) :
    ∀ (count i : Nat) (buffer : DigitBuffer), 2 * (i + count) ≤ used →
      (∀ j, j < used → ∃ c, buffer j = some c) →
      ∃ buffer1, convert_swap_loop used count i buffer = .ok buffer1 ∧
        ∀ j, buffer1 j =
          if (i ≤ j ∧ j < i + count) ∨ (used - i - count ≤ j ∧ j < used - i) then
            buffer (used - 1 - j)
          else buffer j := by
  intro count
  induction count with
  | zero =>
    intro i buffer _ _
    refine ⟨buffer, by simp [convert_swap_loop], ?_⟩
    intro j
    rw [if_neg (by omega)]
  | succ count ih =>
    intro i buffer hle hsome
    obtain ⟨a, ha⟩ := hsome i (by omega)
    obtain ⟨c, hc⟩ := hsome (used - i - 1) (by omega)
    have hi : i < DigitBuffer.capacity := by omega
    have hi2 : used - i - 1 < DigitBuffer.capacity := by omega
    let buffer2 : DigitBuffer := fun j =>
      if j = used - i - 1 then some a else if j = i then some c else buffer j
    have hsome2 : ∀ j, j < used → ∃ c, buffer2 j = some c := by
      intro j hj
      by_cases h1 : j = used - i - 1
      · exact ⟨a, by simp [buffer2, h1]⟩
      · by_cases h2 : j = i
        · subst h2
          exact ⟨c, by simp [buffer2, h1]⟩
        · obtain ⟨d, hd⟩ := hsome j hj
          exact ⟨d, by simp [buffer2, h1, h2, hd]⟩
    obtain ⟨buffer1, hrun, hval⟩ := ih (i + 1) buffer2 (by omega) hsome2
    refine ⟨buffer1, ?_, ?_⟩
    · simp only [convert_swap_loop, DigitBuffer.read, DigitBuffer.write, hi, hi2, if_true, ha, hc]
      exact hrun
    · intro j
      rw [hval j]
      by_cases h1 : (i + 1 ≤ j ∧ j < i + 1 + count) ∨
          (used - (i + 1) - count ≤ j ∧ j < used - (i + 1))
      · rw [if_pos h1, if_pos (by omega)]
        have e1 : used - 1 - j ≠ used - i - 1 := by omega
        have e2 : used - 1 - j ≠ i := by omega
        simp [buffer2, e1, e2]
      · rw [if_neg h1]
        by_cases h2 : j = i
        · subst h2
          rw [if_pos (by omega)]
          have e1 : j ≠ used - j - 1 := by omega
          have e3 : used - 1 - j = used - j - 1 := by omega
          simp [buffer2, e1, hc, e3]
        · by_cases h3 : j = used - i - 1
          · rw [if_pos (by omega)]
            have e3 : used - 1 - j = i := by omega
            simp [buffer2, h3, ha, e3]
            rw [← h3, e3, ha]
          · rw [if_neg (by omega)]
            simp [buffer2, h2, h3]

theorem put_digits_eq (buffer : DigitBuffer) (xs : List Char) :
    ∀ (i : Nat) (builder : StringBuilder), i + xs.length ≤ DigitBuffer.capacity →
      (∀ k, k < xs.length → buffer (i + k) = some (xs.getD k (Char.ofNat 0))) →
      put_digits buffer xs.length i builder = .ok (builder ++ xs) := by
  induction xs with
  | nil => intro i b _ _; simp [put_digits]
  | cons x xs ih =>
    intro i b hcap hbuf
    have h0 := hbuf 0 (by simp)
    simp only [Nat.add_zero, List.getD_cons_zero] at h0
    have hi : i < DigitBuffer.capacity := by simp at hcap; omega
    have IH := ih (i + 1) (b ++ [x]) (by simp at hcap; omega) (by
      intro k hk
      have := hbuf (k + 1) (by simp; omega)
      rw [List.getD_cons_succ] at this
      rw [← this]; congr 1; omega)
    simp only [List.length_cons, put_digits, DigitBuffer.read, hi, if_true, h0, IH]
    simp

theorem digit_text_length_le (base value : Nat) (upper_case : Bool) (hb : 2 ≤ base)
    (hv : value < 2 ^ 64) :
    (digit_text base upper_case value).length ≤ 64 ∧ 0 < (digit_text base upper_case value).length := by
  by_cases h0 : value = 0
  · simp [digit_text, h0]
  · have := digits_length_le base value hb hv
    have hd := Nat.digits_def' (show 1 < base by omega) (Nat.pos_of_ne_zero h0)
    have hpos : 0 < (Nat.digits base value).length := by rw [hd]; simp
    simp only [digit_text, h0, if_false, List.length_reverse, List.length_map]
    exact ⟨this, hpos⟩

theorem convert_unsigned_to_string_eq (value base : Nat) (upper_case : Bool)
    (buffer0 : DigitBuffer) (hv : value < 2 ^ 64) (hb : 2 ≤ base ∧ base ≤ 16) :
    ∃ buffer, convert_unsigned_to_string value buffer0 base upper_case =
        .ok ((digit_text base upper_case value).length, buffer) ∧
      ∀ k, k < (digit_text base upper_case value).length →
        buffer k = some ((digit_text base upper_case value).getD k (Char.ofNat 0)) := by
  by_cases h0 : value = 0
  · subst h0
    refine ⟨fun j => if j = 0 then some '0' else buffer0 j, ?_, ?_⟩
    · simp [convert_unsigned_to_string, hb, DigitBuffer.write, DigitBuffer.capacity, digit_text]
    · intro k hk
      simp [digit_text] at hk
      subst hk
      simp [digit_text]
  · have hlen := digits_length_le base value hb.1 hv
    have h1 := convert_digits_loop_eq base upper_case hb.1 65 value buffer0 0 (by omega)
      (by simp [DigitBuffer.capacity]; omega)
    simp only [Nat.zero_add, Nat.zero_le, true_and, Nat.sub_zero] at h1
    obtain ⟨buffer, hrun, hval⟩ := convert_swap_loop_eq (Nat.digits base value).length
      (by simp [DigitBuffer.capacity]; omega) ((Nat.digits base value).length / 2) 0
      (fun j =>
        if j < (Nat.digits base value).length then
          some (digit_char upper_case ((Nat.digits base value).getD j 0))
        else buffer0 j)
      (by omega) (by intro j hj; exact ⟨_, if_pos hj⟩)
    have hdl : (digit_text base upper_case value).length = (Nat.digits base value).length := by
      simp [digit_text, h0]
    refine ⟨buffer, ?_, ?_⟩
    · simp only [convert_unsigned_to_string, hb, h0, h1, hrun, hdl]
      simp
    · intro k hk
      rw [hdl] at hk
      rw [hval k]
      have hk2 : (Nat.digits base value).length - 1 - k < (Nat.digits base value).length := by
        omega
      have hget : (digit_text base upper_case value).getD k (Char.ofNat 0) =
          digit_char upper_case
            ((Nat.digits base value).getD ((Nat.digits base value).length - 1 - k) 0) := by
        simp only [digit_text, h0, if_false, List.getD_eq_getElem?_getD]
        rw [List.getElem?_reverse (by simpa using hk)]
        simp [List.getElem?_map, List.getElem?_eq_getElem hk2]
      rw [hget]
      by_cases hc : (0 ≤ k ∧ k < 0 + (Nat.digits base value).length / 2) ∨
          ((Nat.digits base value).length - 0 - (Nat.digits base value).length / 2 ≤ k ∧
            k < (Nat.digits base value).length - 0)
      · rw [if_pos hc, if_pos hk2]
      · rw [if_neg hc, if_pos hk]
        have : (Nat.digits base value).length - 1 - k = k := by omega
        rw [this]

theorem ceil_div_two (a : Nat) : ceil_div a 2 = (a + 1) / 2 := by
  simp only [ceil_div]
  split <;> omega

theorem sign_text_length (sign_mode : SignMode) (is_negative : Bool) :
    (sign_text sign_mode is_negative).length =
      if is_negative = true ∨ sign_mode ≠ SignMode.OnlyIfNeeded then 1 else 0 := by
  cases is_negative <;> cases sign_mode <;> simp [sign_text]

theorem base_marker_length ( use_prefix : Bool) (base : Nat) (upper_case : Bool) :
    (base_marker use_prefix base upper_case).length =
      if use_prefix = true then
        (if base = 8 then 1 else if base = 16 then 2 else if base = 2 then 2 else 0)
      else 0 := by
  cases use_prefix <;> cases upper_case <;> simp [base_marker] <;>
    by_cases h2 : base = 2 <;> by_cases h8 : base = 8 <;> by_cases h16 : base = 16 <;>
    simp [h2, h8, h16]

theorem put_u64_eq (builder : StringBuilder) (value base : Nat)
    ( use_prefix upper_case zero_pad : Bool) (align : Align) (min_width : Nat) (fill : Char)
    (sign_mode : SignMode) (is_negative : Bool) (hv : value < 2 ^ 64)
    (hb : 2 ≤ base ∧ base ≤ 16) :
    put_u64 builder value base use_prefix upper_case zero_pad align min_width fill sign_mode
        is_negative =
      .ok (builder ++ u64_text value base use_prefix upper_case zero_pad align min_width fill
        sign_mode is_negative) := by
  obtain ⟨buffer, hconv, hbuf⟩ :=
    convert_unsigned_to_string_eq value base upper_case DigitBuffer.fresh hv hb
  have hlen := (digit_text_length_le base value upper_case hb.1 hv).1
  have hdig : ∀ b : StringBuilder,
      put_digits buffer (digit_text base upper_case value).length 0 b =
        .ok (b ++ digit_text base upper_case value) := by
    intro b
    apply put_digits_eq
    · simp [DigitBuffer.capacity]; omega
    · intro k hk; simpa using hbuf k hk
  have hs := sign_text_length sign_mode is_negative
  have hm := base_marker_length use_prefix base upper_case
  simp only [put_u64, hconv, hdig, put_prefix_eq, put_padding_eq, ceil_div_two, ← hs, ← hm]
  cases align <;> cases zero_pad <;>
    simp [u64_text, List.append_assoc, Nat.add_assoc]

/-- C8. For every `put_u64` call on a 64-bit value with a base in 2..16,
alignment `Right` or `Default` and `zero_pad` set, the call returns normally
and the appended text is the sign character (if any), then the base marker (if
any), then `min_width - d` characters `'0'` (`d` the number of digits), then
the digits.  The fill character does not occur in the result.  The value 255
in base 16 with `min_width` 8 gives `000000ff`. -/
theorem put_u64_zero_pad_right (builder : StringBuilder) (value base : Nat)
    ( use_prefix upper_case : Bool) (align : Align) (min_width : Nat) (fill : Char)
    (sign_mode : SignMode) (is_negative : Bool) (hv : value < 2 ^ 64)
    (hb : 2 ≤ base ∧ base ≤ 16) (halign : align = Align.Right ∨ align = Align.Default) :
    put_u64 builder value base use_prefix upper_case true align min_width fill sign_mode
        is_negative =
      .ok (builder ++ sign_text sign_mode is_negative ++ base_marker use_prefix base upper_case ++
        List.replicate (min_width - (digit_text base upper_case value).length) '0' ++
        digit_text base upper_case value) ∧
    put_u64 [] 255 16 false false true Align.Right 8 ' ' SignMode.OnlyIfNeeded false =
      .ok ['0', '0', '0', '0', '0', '0', 'f', 'f'] := by
  refine ⟨?_, by decide⟩
  rw [put_u64_eq builder value base use_prefix upper_case true align min_width fill sign_mode
    is_negative hv hb]
  have hmax : max (digit_text base upper_case value).length min_width -
      (digit_text base upper_case value).length =
      min_width - (digit_text base upper_case value).length := by omega
  rcases halign with h | h <;> subst h <;> simp [u64_text, hmax]

/-- Witness of C8: the value 255 in base 16 with sign mode `Always`, alternate
form, upper case, `Default` alignment, fill `*` and `min_width` 10. -/
theorem put_u64_zero_pad_right_witness :
    (255 < 2 ^ 64 ∧ (2 ≤ 16 ∧ 16 ≤ 16) ∧ (Align.Default = Align.Right ∨ Align.Default = Align.Default)) ∧
    (put_u64 [] 255 16 true true true Align.Default 10 '*' SignMode.Always false =
      .ok ([] ++ sign_text SignMode.Always false ++ base_marker true 16 true ++
        List.replicate (10 - (digit_text 16 true 255).length) '0' ++
        digit_text 16 true 255) ∧
    put_u64 [] 255 16 false false true Align.Right 8 ' ' SignMode.OnlyIfNeeded false =
      .ok ['0', '0', '0', '0', '0', '0', 'f', 'f']) :=
  ⟨⟨by decide, by decide, Or.inr rfl⟩,
    put_u64_zero_pad_right [] 255 16 true true Align.Default 10 '*' SignMode.Always false
      (by decide) (by decide) (Or.inr rfl)⟩

theorem sign_text_length_width (sign_mode : SignMode) (is_negative : Bool) :
    (sign_text sign_mode is_negative).length = sign_width sign_mode is_negative := by
  cases is_negative <;> cases sign_mode <;> simp [sign_text, sign_width]

theorem base_marker_length_width ( use_prefix : Bool) (base : Nat) (upper_case : Bool) :
    (base_marker use_prefix base upper_case).length = marker_width use_prefix base := by
  cases use_prefix <;> cases upper_case <;> simp [base_marker, marker_width] <;>
    by_cases h2 : base = 2 <;> by_cases h8 : base = 8 <;> by_cases h16 : base = 16 <;>
    simp [h2, h8, h16]

/-- C9, counterexample.  The value 255 in base 16 with the base marker, zero
padding, alignment `Right` and `min_width` 8 is rendered `0x000000ff`: ten
characters, where the claim gives `max 8 (0 + 2 + 2) = 8`. -/
theorem put_u64_length_counterexample :
    put_u64 [] 255 16 true false true Align.Right 8 ' ' SignMode.OnlyIfNeeded false =
      .ok ['0', 'x', '0', '0', '0', '0', '0', '0', 'f', 'f'] ∧
    ['0', 'x', '0', '0', '0', '0', '0', '0', 'f', 'f'].length ≠
      max 8 (sign_width SignMode.OnlyIfNeeded false + marker_width true 16 + ['f', 'f'].length) := by
  decide

/-- C9, amended.  For every `put_u64` call on a 64-bit value with a base in
2..16, the call returns normally and appends `out` with: for alignment `Right`
or `Default` with `zero_pad` set, `out.length = s + m + max min_width d`, the
zero padding filling the gap that the digits alone leave below `min_width`;
in every other combination `out.length = max min_width (s + m + d)`.  Here `s`
is the sign width, `m` the base-marker width and `d` the digit count. -/
theorem put_u64_length (builder : StringBuilder) (value base : Nat)
    ( use_prefix upper_case zero_pad : Bool) (align : Align) (min_width : Nat) (fill : Char)
    (sign_mode : SignMode) (is_negative : Bool) (hv : value < 2 ^ 64)
    (hb : 2 ≤ base ∧ base ≤ 16) :
    ∃ out, put_u64 builder value base use_prefix upper_case zero_pad align min_width fill
        sign_mode is_negative = .ok (builder ++ out) ∧
      out.length =
        if (align = Align.Right ∨ align = Align.Default) ∧ zero_pad = true then
          sign_width sign_mode is_negative + marker_width use_prefix base +
            max min_width (digit_text base upper_case value).length
        else
          max min_width (sign_width sign_mode is_negative + marker_width use_prefix base +
            (digit_text base upper_case value).length) := by
  refine ⟨_, put_u64_eq builder value base use_prefix upper_case zero_pad align min_width fill
    sign_mode is_negative hv hb, ?_⟩
  have hs := sign_text_length_width sign_mode is_negative
  have hm := base_marker_length_width use_prefix base upper_case
  cases align <;> cases zero_pad <;>
    simp [u64_text, hs, hm] <;> omega

/-- Witness of C9 (amended): the value 255 in base 16 with the base marker, zero
padding, `Right` alignment and `min_width` 8. -/
theorem put_u64_length_witness :
    (255 < 2 ^ 64 ∧ (2 ≤ 16 ∧ 16 ≤ 16)) ∧
    ∃ out, put_u64 [] 255 16 true false true Align.Right 8 ' ' SignMode.OnlyIfNeeded false =
        .ok ([] ++ out) ∧
      out.length =
        if (Align.Right = Align.Right ∨ Align.Right = Align.Default) ∧ true = true then
          sign_width SignMode.OnlyIfNeeded false + marker_width true 16 +
            max 8 (digit_text 16 false 255).length
        else
          max 8 (sign_width SignMode.OnlyIfNeeded false + marker_width true 16 +
            (digit_text 16 false 255).length) :=
  ⟨⟨by decide, by decide⟩,
    put_u64_length [] 255 16 true false true Align.Right 8 ' ' SignMode.OnlyIfNeeded false
      (by decide) (by decide)⟩

/-- C10, counterexample.  The value 5 in base 2 with the base marker, upper
case, zero padding, alignment `Default` and `min_width` 6 is rendered
`0B000101`: the marker `0B` is followed by the padding `000`, not by the digits
`101`, and the marker immediately followed by the digits occurs nowhere in the
output. -/
theorem put_u64_marker_counterexample :
    put_u64 [] 5 2 true true true Align.Default 6 ' ' SignMode.OnlyIfNeeded false =
      .ok ['0', 'B', '0', '0', '0', '1', '0', '1'] ∧
    ¬ (['0', 'B'] ++ ['1', '0', '1'] <:+: ['0', 'B', '0', '0', '0', '1', '0', '1']) := by
  decide

/-- C10, amended.  For every `put_u64` call on a 64-bit value with a base in
2..16, the call returns normally and appends: fill padding, the sign, the base
marker, `'0'` padding, the digits, fill padding; the `'0'` padding is empty
unless the alignment is `Right` or `Default` and `zero_pad` is set, so that in
every other case the marker stands immediately before the digits.  The marker
is `0x`/`0X` for base 16 and `0b`/`0B` for base 2 (upper case iff `upper_case`),
`0` for base 8, empty for any other base, and empty when the marker is not
requested.  The value 255 in base 16 with the marker and width 0 gives `0xff`. -/
theorem put_u64_marker (builder : StringBuilder) (value base : Nat)
    ( use_prefix upper_case zero_pad : Bool) (align : Align) (min_width : Nat) (fill : Char)
    (sign_mode : SignMode) (is_negative : Bool) (hv : value < 2 ^ 64)
    (hb : 2 ≤ base ∧ base ≤ 16) :
    (∃ left zeros right : Nat,
      put_u64 builder value base use_prefix upper_case zero_pad align min_width fill sign_mode
          is_negative =
        .ok (builder ++ List.replicate left fill ++ sign_text sign_mode is_negative ++
          base_marker use_prefix base upper_case ++ List.replicate zeros '0' ++
          digit_text base upper_case value ++ List.replicate right fill) ∧
      (¬ ((align = Align.Right ∨ align = Align.Default) ∧ zero_pad = true) → zeros = 0)) ∧
    (base_marker use_prefix base upper_case =
      if use_prefix = true ∧ base = 16 then (if upper_case then ['0', 'X'] else ['0', 'x'])
      else if use_prefix = true ∧ base = 2 then (if upper_case then ['0', 'B'] else ['0', 'b'])
      else if use_prefix = true ∧ base = 8 then ['0']
      else []) ∧
    put_u64 [] 255 16 true false false Align.Default 0 ' ' SignMode.OnlyIfNeeded false =
      .ok ['0', 'x', 'f', 'f'] := by
  refine ⟨?_, ?_, by decide⟩
  · rw [put_u64_eq builder value base use_prefix upper_case zero_pad align min_width fill
      sign_mode is_negative hv hb]
    cases align <;> cases zero_pad
    case Left.false | Left.true =>
      exact ⟨0, 0, _, by simp [u64_text]; rfl, fun _ => rfl⟩
    case Center.false | Center.true =>
      exact ⟨_, 0, _, by simp [u64_text]; rfl, fun _ => rfl⟩
    case Default.false | Right.false =>
      exact ⟨_, 0, 0, by simp [u64_text]; rfl, fun _ => rfl⟩
    case Default.true | Right.true =>
      exact ⟨0, _, 0, by simp [u64_text]; rfl, fun h => absurd (by simp) h⟩
  · cases use_prefix <;> simp [base_marker]

/-- Witness of C10 (amended): the value 5 in base 2, upper case, with the
marker, zero padding, `Default` alignment and `min_width` 6. -/
theorem put_u64_marker_witness :
    (5 < 2 ^ 64 ∧ (2 ≤ 2 ∧ 2 ≤ 16)) ∧
    ((∃ left zeros right : Nat,
      put_u64 [] 5 2 true true true Align.Default 6 ' ' SignMode.OnlyIfNeeded false =
        .ok ([] ++ List.replicate left ' ' ++ sign_text SignMode.OnlyIfNeeded false ++
          base_marker true 2 true ++ List.replicate zeros '0' ++
          digit_text 2 true 5 ++ List.replicate right ' ') ∧
      (¬ ((Align.Default = Align.Right ∨ Align.Default = Align.Default) ∧ true = true) →
        zeros = 0)) ∧
    (base_marker true 2 true =
      if true = true ∧ 2 = 16 then (if true then ['0', 'X'] else ['0', 'x'])
      else if true = true ∧ 2 = 2 then (if true then ['0', 'B'] else ['0', 'b'])
      else if true = true ∧ 2 = 8 then ['0']
      else []) ∧
    put_u64 [] 255 16 true false false Align.Default 0 ' ' SignMode.OnlyIfNeeded false =
      .ok ['0', 'x', 'f', 'f']) :=
  ⟨⟨by decide, by decide⟩,
    put_u64_marker [] 5 2 true true true Align.Default 6 ' ' SignMode.OnlyIfNeeded false
      (by decide) (by decide)⟩

theorem parse_empty {V : Type} (to_size : V → Outcome Nat) (self : StandardFormatter)
    (params : TypeErasedFormatParams V) :
    StandardFormatter.parse to_size self params ⟨[], 0⟩ = .ok (self, params, ⟨[], 0⟩) := by
  rfl

theorem put_i64_eq (builder : StringBuilder) (value : Int) (base : Nat)
    ( use_prefix upper_case zero_pad : Bool) (align : Align) (min_width : Nat) (fill : Char)
    (sign_mode : SignMode) (hb : 2 ≤ base ∧ base ≤ 16) :
    put_i64 builder value base use_prefix upper_case zero_pad align min_width fill sign_mode =
      .ok (builder ++ u64_text ((if value < 0 then -value else value) % (2 ^ 64 : Int)).toNat
        base use_prefix upper_case zero_pad align min_width fill sign_mode (decide (value < 0))) := by
  have hlt : ((if value < 0 then -value else value) % (2 ^ 64 : Int)).toNat < 2 ^ 64 := by
    have h1 := Int.emod_lt_of_pos (if value < 0 then -value else value)
      (show (0 : Int) < 2 ^ 64 by norm_num)
    have h2 := Int.emod_nonneg (if value < 0 then -value else value)
      (show (2 ^ 64 : Int) ≠ 0 by norm_num)
    omega
  have h := put_u64_eq builder _ base use_prefix upper_case zero_pad align min_width fill
    sign_mode (decide (value < 0)) hlt hb
  simp only [put_i64]
  simpa using h

theorem format_integer_empty (params : TypeErasedFormatParams Int) (builder : StringBuilder)
    (value : Int) :
    format_integer params builder ⟨[], 0⟩ value = .ok (params, builder ++ render_integer value) := by
  simp only [format_integer, parse_empty, StandardFormatter.initial, integer_base,
    put_i64_eq _ _ 10 _ _ _ _ _ _ _ (by decide)]
  simp [u64_text, render_integer, base_marker]

theorem fields_length_le (fields : List FieldToken) :
    fields.length ≤ (fields.flatMap FieldToken.text).length := by
  induction fields with
  | nil => simp
  | cons f fs ih =>
    simp only [List.flatMap_cons, List.length_append, List.length_cons, FieldToken.text]
    omega

theorem vformat_fields {V : Type} (formatter : FormatterFn V) (render : V → List Char)
    (hpure : ∀ ps b v, formatter ps b ⟨[], 0⟩ v = .ok (ps, b ++ render v))
    (args : List V) (hargs : args.length < SIZE_MOD) (fields : List FieldToken)
    (hidx : ∀ f ∈ fields, ∀ n, f.index = some n → n < use_next_index)
    (lit : List Char) (cursor : Nat) (builder : StringBuilder) :
    vformat_impl formatter ((template_text lit fields).length + 1) ⟨args, cursor⟩ builder
        ⟨template_text lit fields, 0⟩ =
      match render_fields render args cursor fields with
      | some (c, out) =>
        .ok (⟨args, c⟩, builder ++ lit ++ out, lexer_at (template_text lit fields) [])
      | none => .abort := by
  have h := vformat_impl_fields formatter render hpure args hargs fields hidx [] lit cursor
    builder ((template_text lit fields).length + 1)
    (by have := fields_length_le fields; simp only [template_text, List.length_append]; omega)
  simpa [lexer_at] using h

theorem render_fields_auto {V : Type} (render : V → List Char) (args : List V)
    (lits : List (List Char)) : ∀ (cursor : Nat), cursor + lits.length ≤ args.length →
    render_fields render args cursor (lits.map (fun l => ⟨none, l⟩)) =
      some (cursor + lits.length,
        ((args.drop cursor).zip lits).flatMap (fun p => render p.1 ++ p.2)) := by
  induction lits with
  | nil => intro cursor _; simp [render_fields]
  | cons l ls ih =>
    intro cursor h
    have hc : cursor < args.length := by simp at h; omega
    have IH := ih (cursor + 1) (by simp at h; omega)
    have hd : args.drop cursor = args[cursor] :: args.drop (cursor + 1) :=
      List.drop_eq_getElem_cons hc
    simp only [List.map_cons, render_fields, Option.getD_none, List.get?_eq_getElem?,
      List.getElem?_eq_getElem hc, Option.isSome_none, Bool.false_eq_true, if_false, IH, hd]
    simp only [List.zip_cons_cons, List.flatMap_cons, List.length_cons, List.append_assoc,
      Nat.add_assoc, Nat.add_comm 1]

/-- C2. Let every formatter, called with an empty options span, append the
rendering `render v` of its argument and leave the argument store as it is.
Then for every template `lit0 {} lit1 {} ... {} litm` whose fields are all
`{}`, with at least `m` arguments (fewer than `2 ^ 64`), a call of `vformat`
with a fresh store (cursor 0) returns normally, the k-th field is rendered
from argument k, and the cursor ends at `m`. -/
theorem vformat_auto_fields {V : Type} (formatter : FormatterFn V) (render : V → List Char)
    (hpure : ∀ ps b v, formatter ps b ⟨[], 0⟩ v = .ok (ps, b ++ render v))
    (args : List V) (hargs : args.length < SIZE_MOD) (builder : StringBuilder)
    (lit0 : List Char) (lits : List (List Char)) (hlen : lits.length ≤ args.length) :
    vformat formatter builder (template_text lit0 (lits.map (fun l => ⟨none, l⟩)))
        (VariadicFormatParams args) =
      .ok (builder ++ lit0 ++ (args.zip lits).flatMap (fun p => render p.1 ++ p.2)) ∧
    ∃ parser, vformat_impl formatter
        ((template_text lit0 (lits.map (fun l => ⟨none, l⟩))).length + 1)
        (VariadicFormatParams args) builder
        ⟨template_text lit0 (lits.map (fun l => ⟨none, l⟩)), 0⟩ =
      .ok (⟨args, lits.length⟩,
        builder ++ lit0 ++ (args.zip lits).flatMap (fun p => render p.1 ++ p.2), parser) := by
  have h := vformat_fields formatter render hpure args hargs (lits.map (fun l => ⟨none, l⟩))
    (by intro f hf n hn; simp at hf; obtain ⟨l, _, rfl⟩ := hf; simp at hn) lit0 0 builder
  rw [render_fields_auto render args lits 0 (by omega)] at h
  simp only [Nat.zero_add, List.drop_zero] at h
  refine ⟨?_, _, h⟩
  simp only [vformat, VariadicFormatParams, h]

/-- Witness of C2: the template `{}-{}` with the integer arguments 1 and 2 under
the integer formatter yields `1-2`. -/
theorem vformat_auto_fields_witness :
    ((∀ (ps : TypeErasedFormatParams Int) (b : StringBuilder) (v : Int),
        format_integer ps b ⟨[], 0⟩ v = .ok (ps, b ++ render_integer v)) ∧
      [(1 : Int), 2].length < SIZE_MOD ∧ [['-'], ([] : List Char)].length ≤ [(1 : Int), 2].length) ∧
    (vformat format_integer [] (template_text [] ([['-'], []].map (fun l => ⟨none, l⟩)))
        (VariadicFormatParams [1, 2]) =
      .ok ([] ++ [] ++ ([(1 : Int), 2].zip [['-'], []]).flatMap
        (fun p => render_integer p.1 ++ p.2)) ∧
    ∃ parser, vformat_impl format_integer
        ((template_text [] ([['-'], []].map (fun l => ⟨none, l⟩))).length + 1)
        (VariadicFormatParams [1, 2]) []
        ⟨template_text [] ([['-'], []].map (fun l => ⟨none, l⟩)), 0⟩ =
      .ok (⟨[1, 2], [['-'], ([] : List Char)].length⟩,
        [] ++ [] ++ ([(1 : Int), 2].zip [['-'], []]).flatMap
          (fun p => render_integer p.1 ++ p.2), parser)) ∧
    template_text [] ([['-'], []].map (fun l => ⟨none, l⟩)) = ['{', '}', '-', '{', '}'] ∧
    vformat format_integer [] ['{', '}', '-', '{', '}'] (VariadicFormatParams [1, 2]) =
      .ok ['1', '-', '2'] :=
  ⟨⟨format_integer_empty, by decide, by decide⟩,
    vformat_auto_fields format_integer render_integer format_integer_empty [1, 2] (by decide)
      [] [] [['-'], []] (by decide),
    by decide, by decide⟩

theorem render_fields_explicit {V : Type} (render : V → List Char) (args : List V)
    (fs : List (Fin args.length × List Char)) (cursor : Nat) :
    render_fields render args cursor (fs.map (fun p => ⟨some p.1.val, p.2⟩)) =
      some (cursor, fs.flatMap (fun p => render (args.get p.1) ++ p.2)) := by
  induction fs with
  | nil => simp [render_fields]
  | cons p ps ih =>
    simp only [List.map_cons, render_fields, Option.getD_some, List.get?_eq_getElem?,
      List.getElem?_eq_getElem p.1.isLt, Option.isSome_some, if_true, ih]
    simp

/-- C3. Let every formatter, called with an empty options span, append the
rendering `render v` of its argument and leave the argument store as it is.
Then for every template `lit0 {n1} lit1 ... {nm} litm` whose fields carry
explicit decimal indices below the argument count (itself below `2 ^ 64`),
`vformat` returns normally and each field `{n}` is rendered from argument `n`,
whatever its position.  For every two arguments `a`, `b` the template
`{1}-{0}` yields the rendering of `b`, then `-`, then the rendering of `a`. -/
theorem vformat_explicit_fields {V : Type} (formatter : FormatterFn V) (render : V → List Char)
    (hpure : ∀ ps b v, formatter ps b ⟨[], 0⟩ v = .ok (ps, b ++ render v))
    (args : List V) (hargs : args.length < SIZE_MOD) (builder : StringBuilder)
    (lit0 : List Char) (fs : List (Fin args.length × List Char)) (a b : V) :
    vformat formatter builder (template_text lit0 (fs.map (fun p => ⟨some p.1.val, p.2⟩)))
        (VariadicFormatParams args) =
      .ok (builder ++ lit0 ++ fs.flatMap (fun p => render (args.get p.1) ++ p.2)) ∧
    vformat formatter builder ['{', '1', '}', '-', '{', '0', '}'] (VariadicFormatParams [a, b]) =
      .ok (builder ++ render b ++ ['-'] ++ render a) := by
  have key : ∀ (xs : List V), xs.length < SIZE_MOD → ∀ (l0 : List Char)
      (gs : List (Fin xs.length × List Char)),
      vformat formatter builder (template_text l0 (gs.map (fun p => ⟨some p.1.val, p.2⟩)))
          (VariadicFormatParams xs) =
        .ok (builder ++ l0 ++ gs.flatMap (fun p => render (xs.get p.1) ++ p.2)) := by
    intro xs hxs l0 gs
    have h := vformat_fields formatter render hpure xs hxs
      (gs.map (fun p => ⟨some p.1.val, p.2⟩))
      (by
        intro f hf n hn
        simp only [List.mem_map] at hf
        obtain ⟨p, _, rfl⟩ := hf
        simp only [Option.some.injEq] at hn
        have := p.1.isLt
        simp only [SIZE_MOD] at hxs
        simp only [use_next_index]
        omega) l0 0 builder
    rw [render_fields_explicit] at h
    simp only [vformat, VariadicFormatParams, h]
  refine ⟨key args hargs lit0 fs, ?_⟩
  have h2 := key [a, b] (by simp [SIZE_MOD]) [] [(⟨1, by simp⟩, ['-']), (⟨0, by simp⟩, [])]
  have e : template_text []
      ([((⟨1, by simp⟩ : Fin [a, b].length), ['-']), (⟨0, by simp⟩, [])].map
        (fun p => ⟨some p.1.val, p.2⟩)) = ['{', '1', '}', '-', '{', '0', '}'] := by
    have t1 : Nat.toDigits 10 1 = ['1'] := by decide
    have t0 : Nat.toDigits 10 0 = ['0'] := by decide
    simp [template_text, FieldToken.text, index_text, escape, is_brace, t0, t1]
  rw [e] at h2
  rw [h2]
  simp

/-- Witness of C3: the template `{1}-{0}` with the integer arguments 1 and 2
under the integer formatter yields `2-1`. -/
theorem vformat_explicit_fields_witness :
    ((∀ (ps : TypeErasedFormatParams Int) (b : StringBuilder) (v : Int),
        format_integer ps b ⟨[], 0⟩ v = .ok (ps, b ++ render_integer v)) ∧
      [(1 : Int), 2].length < SIZE_MOD) ∧
    (vformat format_integer []
        (template_text [] ([((⟨1, by decide⟩ : Fin [(1 : Int), 2].length), ['-']),
          (⟨0, by decide⟩, [])].map (fun p => ⟨some p.1.val, p.2⟩)))
        (VariadicFormatParams [1, 2]) =
      .ok ([] ++ [] ++ [((⟨1, by decide⟩ : Fin [(1 : Int), 2].length), ['-']),
          (⟨0, by decide⟩, [])].flatMap (fun p => render_integer ([(1 : Int), 2].get p.1) ++ p.2)) ∧
    vformat format_integer [] ['{', '1', '}', '-', '{', '0', '}'] (VariadicFormatParams [1, 2]) =
      .ok ([] ++ render_integer 2 ++ ['-'] ++ render_integer 1)) ∧
    vformat format_integer [] ['{', '1', '}', '-', '{', '0', '}'] (VariadicFormatParams [1, 2]) =
      .ok ['2', '-', '1'] :=
  ⟨⟨format_integer_empty, by decide⟩,
    vformat_explicit_fields format_integer render_integer format_integer_empty [1, 2]
      (by decide) [] [] [(⟨1, by decide⟩, ['-']), (⟨0, by decide⟩, [])] 1 2,
    by decide⟩

theorem render_fields_cursor {V : Type} (render : V → List Char) (args : List V)
    (fields : List FieldToken) : ∀ (cursor c : Nat) (out : List Char),
    render_fields render args cursor fields = some (c, out) →
      c = cursor + (fields.filter (fun f => f.index.isNone)).length := by
  induction fields with
  | nil =>
    intro cursor c out h
    simp [render_fields] at h
    simp [h.1]
  | cons f fs ih =>
    intro cursor c out h
    simp only [render_fields] at h
    cases hget : args.get? (f.index.getD cursor) with
    | none => rw [hget] at h; simp at h
    | some v =>
      rw [hget] at h
      simp only at h
      cases hrest : render_fields render args (if f.index.isSome then cursor else cursor + 1) fs with
      | none => rw [hrest] at h; simp at h
      | some r =>
        obtain ⟨c1, out1⟩ := r
        rw [hrest] at h
        simp only [Option.some.injEq, Prod.mk.injEq] at h
        obtain ⟨rfl, _⟩ := h
        have IH := ih _ c1 out1 hrest
        cases hfi : f.index with
        | none => simp [hfi] at IH ⊢; omega
        | some n => simp [hfi] at IH ⊢; omega

/-- C4, counterexample.  The field `{18446744073709551615}` carries explicit
index digits whose value is `2 ^ 64 - 1`, a value of `size_t`; with the single
integer argument 7 the driver renders it from argument 0 and leaves the cursor
at 1, and in `{18446744073709551615}{}` with the arguments 7 and 8 the field
`{}` resolves to argument 1. -/
theorem explicit_sentinel_index_counterexample :
    (match vformat_impl format_integer 23 (VariadicFormatParams [7]) []
        ⟨['{', '1', '8', '4', '4', '6', '7', '4', '4', '0', '7', '3', '7', '0', '9', '5', '5',
          '1', '6', '1', '5', '}'], 0⟩ with
      | .ok (params, builder, _) => some (params.m_next_index, builder)
      | _ => none) = some (1, ['7']) ∧
    vformat format_integer []
        ['{', '1', '8', '4', '4', '6', '7', '4', '4', '0', '7', '3', '7', '0', '9', '5', '5',
          '1', '6', '1', '5', '}', '{', '}'] (VariadicFormatParams [7, 8]) = .ok ['7', '8'] := by
  decide

/-- C4, amended.  Let every formatter, called with an empty options span,
append the rendering `render v` of its argument and leave the argument store
as it is.  For every template of option-free fields whose explicit indices
are all below `2 ^ 64 - 1` (the value that the driver reserves for "next
index"), the driver does what `render_fields` describes: an explicit field
leaves the cursor alone, an automatic field takes the cursor and advances it
by one; on a normal return the cursor has advanced by the number of automatic
fields.  In `{1}{}` the field `{}` resolves to argument 0. -/
theorem vformat_mixed_fields {V : Type} (formatter : FormatterFn V) (render : V → List Char)
    (hpure : ∀ ps b v, formatter ps b ⟨[], 0⟩ v = .ok (ps, b ++ render v))
    (args : List V) (hargs : args.length < SIZE_MOD) (builder : StringBuilder)
    (lit0 : List Char) (fields : List FieldToken)
    (hidx : ∀ f ∈ fields, ∀ n, f.index = some n → n < 2 ^ 64 - 1) (cursor : Nat) (a b : V) :
    (vformat_impl formatter ((template_text lit0 fields).length + 1) ⟨args, cursor⟩ builder
        ⟨template_text lit0 fields, 0⟩ =
      match render_fields render args cursor fields with
      | some (c, out) =>
        .ok (⟨args, c⟩, builder ++ lit0 ++ out, lexer_at (template_text lit0 fields) [])
      | none => .abort) ∧
    (∀ c out, render_fields render args cursor fields = some (c, out) →
      c = cursor + (fields.filter (fun f => f.index.isNone)).length) ∧
    vformat formatter builder ['{', '1', '}', '{', '}'] (VariadicFormatParams [a, b]) =
      .ok (builder ++ render b ++ render a) := by
  refine ⟨vformat_fields formatter render hpure args hargs fields hidx lit0 cursor builder,
    render_fields_cursor render args fields cursor, ?_⟩
  have h := vformat_fields formatter render hpure [a, b] (by simp [SIZE_MOD])
    [⟨some 1, []⟩, ⟨none, []⟩]
    (by
      intro f hf n hn
      simp only [List.mem_cons, List.mem_singleton, List.not_mem_nil, or_false] at hf
      rcases hf with rfl | rfl
      · simp only [Option.some.injEq] at hn; subst hn; decide
      · simp at hn) [] 0 builder
  have t1 : Nat.toDigits 10 1 = ['1'] := by decide
  have e : template_text [] [⟨some 1, []⟩, ⟨none, []⟩] = ['{', '1', '}', '{', '}'] := by
    simp [template_text, FieldToken.text, index_text, escape, t1]
  rw [e] at h
  simp only [vformat, VariadicFormatParams, h]
  simp [render_fields]

/-- Witness of C4 (amended): the template `{1}{}` with the integer arguments 1
and 2 under the integer formatter yields `21`, with the cursor at 1. -/
theorem vformat_mixed_fields_witness :
    ((∀ (ps : TypeErasedFormatParams Int) (b : StringBuilder) (v : Int),
        format_integer ps b ⟨[], 0⟩ v = .ok (ps, b ++ render_integer v)) ∧
      [(1 : Int), 2].length < SIZE_MOD ∧
      (∀ f ∈ [(⟨some 1, []⟩ : FieldToken), ⟨none, []⟩], ∀ n, f.index = some n → n < 2 ^ 64 - 1)) ∧
    ((vformat_impl format_integer
        ((template_text [] [⟨some 1, []⟩, ⟨none, []⟩]).length + 1) ⟨[1, 2], 0⟩ []
        ⟨template_text [] [⟨some 1, []⟩, ⟨none, []⟩], 0⟩ =
      match render_fields render_integer [(1 : Int), 2] 0 [⟨some 1, []⟩, ⟨none, []⟩] with
      | some (c, out) =>
        .ok (⟨[1, 2], c⟩, [] ++ [] ++ out,
          lexer_at (template_text [] [⟨some 1, []⟩, ⟨none, []⟩]) [])
      | none => .abort) ∧
    (∀ c out, render_fields render_integer [(1 : Int), 2] 0 [⟨some 1, []⟩, ⟨none, []⟩] =
        some (c, out) →
      c = 0 + ([(⟨some 1, []⟩ : FieldToken), ⟨none, []⟩].filter (fun f => f.index.isNone)).length) ∧
    vformat format_integer [] ['{', '1', '}', '{', '}'] (VariadicFormatParams [1, 2]) =
      .ok ([] ++ render_integer 2 ++ render_integer 1)) ∧
    vformat format_integer [] ['{', '1', '}', '{', '}'] (VariadicFormatParams [1, 2]) =
      .ok ['2', '1'] :=
  ⟨⟨format_integer_empty, by decide, by
      intro f hf n hn
      simp only [List.mem_cons, List.mem_singleton, List.not_mem_nil, or_false] at hf
      rcases hf with rfl | rfl
      · simp only [Option.some.injEq] at hn; subst hn; decide
      · simp at hn⟩,
    vformat_mixed_fields format_integer render_integer format_integer_empty [1, 2] (by decide)
      [] [] [⟨some 1, []⟩, ⟨none, []⟩] (by
        intro f hf n hn
        simp only [List.mem_cons, List.mem_singleton, List.not_mem_nil, or_false] at hf
        rcases hf with rfl | rfl
        · simp only [Option.some.injEq] at hn; subst hn; decide
        · simp at hn) 0 1 2,
    by decide⟩

theorem render_fields_out_of_range {V : Type} (render : V → List Char) (args : List V)
    (fs1 : List FieldToken) (f : FieldToken) (fs2 : List FieldToken) :
    ∀ (cursor c : Nat) (out : List Char), render_fields render args cursor fs1 = some (c, out) →
      args.length ≤ f.index.getD c →
      render_fields render args cursor (fs1 ++ f :: fs2) = none := by
  induction fs1 with
  | nil =>
    intro cursor c out h hle
    simp only [render_fields, Option.some.injEq, Prod.mk.injEq] at h
    obtain ⟨rfl, _⟩ := h
    have : args.get? (f.index.getD cursor) = none := by
      rw [List.get?_eq_none]; exact hle
    simp only [List.nil_append, render_fields]
    rw [this]
  | cons g gs ih =>
    intro cursor c out h hle
    rw [List.cons_append]
    simp only [render_fields] at h ⊢
    cases hget : args.get? (g.index.getD cursor) with
    | none => rw [hget] at h; try simp at h
    | some v =>
      rw [hget] at h
      simp only at h ⊢
      cases hrest : render_fields render args (if g.index.isSome then cursor else cursor + 1) gs with
      | none => rw [hrest] at h; simp at h
      | some r =>
        obtain ⟨c1, out1⟩ := r
        rw [hrest] at h
        simp only [Option.some.injEq, Prod.mk.injEq] at h
        obtain ⟨rfl, _⟩ := h
        rw [ih _ c1 out1 hrest hle]

/-- C5. Whenever an activation of the driver, in any state, finds after the
literal a field whose resolved index (the cursor for an automatic field, the
explicit index otherwise) is at least the number of arguments, it aborts: no
output is returned.  In particular, with formatters that render their argument
on an empty options span, a template of option-free fields aborts as soon as
the fields before the offending one have been resolved; and the template `{5}`
with two arguments aborts under every formatter. -/
theorem vformat_impl_index_out_of_range {V : Type} (formatter : FormatterFn V) (fuel : Nat)
    (params : TypeErasedFormatParams V) (builder : StringBuilder) (parser : GenericLexer)
    (literal : List Char) (parser1 : GenericLexer) (builder1 : StringBuilder)
    (specifier : FormatSpecifier) (parser2 : GenericLexer)
    (hlit : consume_literal parser = .ok (literal, parser1))
    (hput : put_literal builder literal = .ok builder1)
    (hspec : consume_specifier parser1 = .ok (some specifier, parser2))
    (hidx : params.m_parameters.length ≤
      (if specifier.index = use_next_index then params.m_next_index else specifier.index)) :
    vformat_impl formatter (fuel + 1) params builder parser = .abort ∧
    (∀ (render : V → List Char) (args : List V) (lit0 : List Char)
        (fs1 : List FieldToken) (f : FieldToken) (fs2 : List FieldToken) (c : Nat)
        (out : List Char) (b : StringBuilder),
      (∀ ps b v, formatter ps b ⟨[], 0⟩ v = .ok (ps, b ++ render v)) →
      args.length < SIZE_MOD →
      (∀ g ∈ fs1 ++ f :: fs2, ∀ n, g.index = some n → n < 2 ^ 64 - 1) →
      render_fields render args 0 fs1 = some (c, out) →
      args.length ≤ f.index.getD c →
      vformat formatter b (template_text lit0 (fs1 ++ f :: fs2)) (VariadicFormatParams args) =
        .abort) ∧
    (∀ (b : StringBuilder) (x y : V),
      vformat formatter b ['{', '5', '}'] (VariadicFormatParams [x, y]) = .abort) := by
  refine ⟨?_, ?_, ?_⟩
  · simp only [vformat_impl, hlit, hput, hspec]
    have hnone : (if specifier.index = use_next_index then params.take_next_index
        else (specifier.index, params)).2.m_parameters.get?
        (if specifier.index = use_next_index then params.take_next_index
          else (specifier.index, params)).1 = none := by
      rw [List.get?_eq_none]
      by_cases h : specifier.index = use_next_index
      · simpa [h, TypeErasedFormatParams.take_next_index] using hidx
      · simpa [h] using hidx
    rw [hnone]
  · intro render args lit0 fs1 f fs2 c out b hpure hargs hsent hres hle
    have h := vformat_fields formatter render hpure args hargs (fs1 ++ f :: fs2) hsent lit0 0 b
    rw [render_fields_out_of_range render args fs1 f fs2 0 c out hres hle] at h
    simp only [vformat, VariadicFormatParams, h]
  · intro b x y
    rfl

/-- Witness of C5: the template `{5}` with the two integer arguments 1 and 2;
after the empty literal the field has the explicit index 5. -/
theorem vformat_impl_index_out_of_range_witness :
    (consume_literal ⟨['{', '5', '}'], 0⟩ = .ok ([], ⟨['{', '5', '}'], 0⟩) ∧
      put_literal [] [] = .ok [] ∧
      consume_specifier ⟨['{', '5', '}'], 0⟩ = .ok (some ⟨[], 5⟩, ⟨['{', '5', '}'], 3⟩) ∧
      (VariadicFormatParams [(1 : Int), 2]).m_parameters.length ≤
        (if (⟨[], 5⟩ : FormatSpecifier).index = use_next_index then
          (VariadicFormatParams [(1 : Int), 2]).m_next_index
        else (⟨[], 5⟩ : FormatSpecifier).index)) ∧
    vformat_impl format_integer (3 + 1) (VariadicFormatParams [1, 2]) []
      ⟨['{', '5', '}'], 0⟩ = .abort ∧
    vformat format_integer [] ['{', '5', '}'] (VariadicFormatParams [1, 2]) = .abort :=
  ⟨⟨by decide, by decide, by decide, by decide⟩,
    (vformat_impl_index_out_of_range format_integer 3 (VariadicFormatParams [1, 2]) []
      ⟨['{', '5', '}'], 0⟩ [] ⟨['{', '5', '}'], 0⟩ [] ⟨[], 5⟩ ⟨['{', '5', '}'], 3⟩
      (by decide) (by decide) (by decide) (by decide)).1,
    by decide⟩

theorem consume_same_input (l l1 : GenericLexer) (c : Char) (h : l.consume = .ok (c, l1)) :
    l1.m_input = l.m_input := by
  simp only [GenericLexer.consume] at h
  split at h
  · simp at h
  · simp only [Outcome.ok.injEq, Prod.mk.injEq] at h
    rw [← h.2]

theorem consume_specific_same_input (l l1 : GenericLexer) (c : Char)
    (h : l.consume_specific c = some l1) : l1.m_input = l.m_input := by
  simp only [GenericLexer.consume_specific] at h
  split at h
  · simp only [Option.some.injEq] at h
    rw [← h]
  · simp at h

theorem consume_specific_str_same_input (l l1 : GenericLexer) (s : List Char)
    (h : l.consume_specific_str s = some l1) : l1.m_input = l.m_input := by
  simp only [GenericLexer.consume_specific_str] at h
  split at h
  · simp only [Option.some.injEq] at h
    rw [← h]
  · simp at h

theorem consume_number_loop_same_input : ∀ (fuel : Nat) (l : GenericLexer) (value : Nat)
    (flag : Bool) (r : Bool × Nat × GenericLexer),
    consume_number_loop fuel l value flag = .ok r → r.2.2.m_input = l.m_input := by
  intro fuel
  induction fuel with
  | zero => intro l value flag r h; simp [consume_number_loop] at h
  | succ fuel ih =>
    intro l value flag r h
    simp only [consume_number_loop] at h
    split at h
    · cases hc : l.consume with
      | ok p =>
        obtain ⟨c, l1⟩ := p
        rw [hc] at h
        have := ih l1 _ _ r h
        rw [this, consume_same_input l l1 c hc]
      | abort => rw [hc] at h; simp at h
      | nofuel => rw [hc] at h; simp at h
    · simp only [Outcome.ok.injEq] at h
      rw [← h]

theorem consume_number_same_input (l : GenericLexer) (r : Bool × Nat × GenericLexer)
    (h : consume_number l = .ok r) : r.2.2.m_input = l.m_input :=
  consume_number_loop_same_input _ l 0 false r h

theorem consume_replacement_field_same_input (l : GenericLexer)
    (r : Option Nat × GenericLexer) (h : consume_replacement_field l = .ok r) :
    r.2.m_input = l.m_input := by
  simp only [consume_replacement_field] at h
  cases h1 : l.consume_specific '{' with
  | none =>
    rw [h1] at h
    simp only [Outcome.ok.injEq] at h
    rw [← h]
  | some l1 =>
    rw [h1] at h
    simp only at h
    cases h2 : consume_number l1 with
    | ok p =>
      obtain ⟨consumed, value, l2⟩ := p
      rw [h2] at h
      simp only at h
      cases h3 : l2.consume_specific '}' with
      | none => rw [h3] at h; simp at h
      | some l3 =>
        rw [h3] at h
        simp only [Outcome.ok.injEq] at h
        rw [← h]
        simp only
        rw [consume_specific_same_input l2 l3 _ h3,
          consume_number_same_input l1 _ h2, consume_specific_same_input l l1 _ h1]
    | abort => rw [h2] at h; simp at h
    | nofuel => rw [h2] at h; simp at h

theorem parse_size_same_input {V : Type} (to_size : V → Outcome Nat)
    (params : TypeErasedFormatParams V) (parser : GenericLexer) (current : Option Nat)
    (r : Option Nat × TypeErasedFormatParams V × GenericLexer)
    (h : StandardFormatter.parse_size to_size params parser current = .ok r) :
    r.2.2.m_input = parser.m_input := by
  simp only [StandardFormatter.parse_size] at h
  cases h1 : consume_replacement_field parser with
  | ok p =>
    obtain ⟨oi, parser1⟩ := p
    have e1 := consume_replacement_field_same_input parser _ h1
    simp only at e1
    rw [h1] at h
    cases oi with
    | some index =>
      simp only at h
      split at h
      · simp at h
      · split at h
        · simp only [Outcome.ok.injEq] at h
          rw [← h]; exact e1
        · simp at h
        · simp at h
    | none =>
      simp only at h
      cases h2 : consume_number parser1 with
      | ok q =>
        obtain ⟨b, value, parser2⟩ := q
        have e2 := consume_number_same_input parser1 _ h2
        simp only at e2
        rw [h2] at h
        cases b <;> simp only [Outcome.ok.injEq] at h <;> rw [← h] <;>
          simp only <;> rw [e2, e1]
      | abort => rw [h2] at h; simp at h
      | nofuel => rw [h2] at h; simp at h
  | abort => rw [h1] at h; simp at h
  | nofuel => rw [h1] at h; simp at h

theorem parse_mode_same_input (parser : GenericLexer) (current : Mode) :
    (StandardFormatter.parse_mode parser current).2.m_input = parser.m_input := by
  simp only [StandardFormatter.parse_mode]
  repeat' split
  all_goals first
    | rfl
    | (rename_i p h; exact consume_specific_same_input _ _ _ h)
    | (rename_i p h; exact consume_specific_str_same_input _ _ _ h)

theorem parse_fill_same_input (self : StandardFormatter) (parser : GenericLexer)
    (r : StandardFormatter × GenericLexer) (h : StandardFormatter.parse_fill self parser = .ok r) :
    r.2.m_input = parser.m_input := by
  simp only [StandardFormatter.parse_fill] at h
  split at h
  · split at h
    · simp at h
    · cases hc : parser.consume with
      | ok p =>
        obtain ⟨c, p1⟩ := p
        rw [hc] at h
        simp only [Outcome.ok.injEq] at h
        rw [← h]
        exact consume_same_input parser p1 c hc
      | abort => rw [hc] at h; simp at h
      | nofuel => rw [hc] at h; simp at h
  · simp only [Outcome.ok.injEq] at h
    rw [← h]

theorem parse_align_same_input (self : StandardFormatter) (parser : GenericLexer) :
    (StandardFormatter.parse_align self parser).2.m_input = parser.m_input := by
  simp only [StandardFormatter.parse_align]
  repeat' split
  all_goals first
    | rfl
    | (rename_i p h; exact consume_specific_same_input _ _ _ h)

theorem parse_sign_same_input (self : StandardFormatter) (parser : GenericLexer) :
    (StandardFormatter.parse_sign self parser).2.m_input = parser.m_input := by
  simp only [StandardFormatter.parse_sign]
  repeat' split
  all_goals first
    | rfl
    | (rename_i p h; exact consume_specific_same_input _ _ _ h)

theorem parse_alternative_form_same_input (self : StandardFormatter) (parser : GenericLexer) :
    (StandardFormatter.parse_alternative_form self parser).2.m_input = parser.m_input := by
  simp only [StandardFormatter.parse_alternative_form]
  split
  · rename_i p h; exact consume_specific_same_input _ _ _ h
  · rfl

theorem parse_zero_pad_same_input (self : StandardFormatter) (parser : GenericLexer) :
    (StandardFormatter.parse_zero_pad self parser).2.m_input = parser.m_input := by
  simp only [StandardFormatter.parse_zero_pad]
  split
  · rename_i p h; exact consume_specific_same_input _ _ _ h
  · rfl

theorem parse_precision_same_input {V : Type} (to_size : V → Outcome Nat)
    (self : StandardFormatter) (params : TypeErasedFormatParams V) (parser : GenericLexer)
    (r : StandardFormatter × TypeErasedFormatParams V × GenericLexer)
    (h : StandardFormatter.parse_precision to_size self params parser = .ok r) :
    r.2.2.m_input = parser.m_input := by
  simp only [StandardFormatter.parse_precision] at h
  cases h1 : parser.consume_specific '.' with
  | none =>
    rw [h1] at h
    simp only [Outcome.ok.injEq] at h
    rw [← h]
  | some p =>
    rw [h1] at h
    simp only at h
    cases h2 : StandardFormatter.parse_size to_size params p self.m_precision with
    | ok q =>
      obtain ⟨precision, params1, parser1⟩ := q
      have e := parse_size_same_input to_size params p _ _ h2
      simp only at e
      rw [h2] at h
      simp only [Outcome.ok.injEq] at h
      rw [← h]
      simp only
      rw [e, consume_specific_same_input parser p _ h1]
    | abort => rw [h2] at h; simp at h
    | nofuel => rw [h2] at h; simp at h

theorem parse_tokens_same_input {V : Type} (to_size : V → Outcome Nat)
    (self : StandardFormatter) (params : TypeErasedFormatParams V) (parser : GenericLexer)
    (r : StandardFormatter × TypeErasedFormatParams V × GenericLexer)
    (h : StandardFormatter.parse_tokens to_size self params parser = .ok r) :
    r.2.2.m_input = parser.m_input := by
  simp only [StandardFormatter.parse_tokens] at h
  split at h
  · rename_i self1 parser1 h1
    have e1 := parse_fill_same_input self parser _ h1
    simp only at e1 h
    split at h
    · rename_i width params1 parser2 h2
      have e2 := parse_size_same_input to_size _ _ _ _ h2
      simp only at e2
      split at h
      · rename_i self3 params2 parser3 h3
        have e3 := parse_precision_same_input to_size _ _ _ _ h3
        simp only at e3
        simp only [Outcome.ok.injEq] at h
        rw [← h]
        simp only
        rw [parse_mode_same_input, e3, e2, parse_zero_pad_same_input,
          parse_alternative_form_same_input, parse_sign_same_input, parse_align_same_input, e1]
      · simp at h
      · simp at h
    · simp at h
    · simp at h
  · simp at h
  · simp at h

/-- C7. `StandardFormatter::parse` returns normally only with the whole options
span consumed: on a normal return the parser still holds the options span it
was given and stands at its end; and whenever the optional tokens, tried once
each in the fixed order fill/align, sign, `#`, `0`, width, `.`precision, mode,
leave a character unread, `parse` aborts.  The options `dd`, `#+` and `5 `
abort, while `*^10` and `#010x` are accepted. -/
theorem parse_consumes_all {V : Type} (to_size : V → Outcome Nat) (self : StandardFormatter)
    (params : TypeErasedFormatParams V) (parser : GenericLexer) :
    (∀ self1 params1 parser1,
      StandardFormatter.parse to_size self params parser = .ok (self1, params1, parser1) →
        parser1.m_input = parser.m_input ∧ parser1.is_eof = true) ∧
    (∀ self1 params1 parser1,
      StandardFormatter.parse_tokens to_size self params parser = .ok (self1, params1, parser1) →
        parser1.is_eof = false →
        StandardFormatter.parse to_size self params parser = .abort) ∧
    (StandardFormatter.parse integer_to_size StandardFormatter.initial (VariadicFormatParams [])
        ⟨['d', 'd'], 0⟩ = .abort ∧
      StandardFormatter.parse integer_to_size StandardFormatter.initial (VariadicFormatParams [])
        ⟨['#', '+'], 0⟩ = .abort ∧
      StandardFormatter.parse integer_to_size StandardFormatter.initial (VariadicFormatParams [])
        ⟨['5', ' '], 0⟩ = .abort) ∧
    (StandardFormatter.parse integer_to_size StandardFormatter.initial (VariadicFormatParams [])
        ⟨['*', '^', '1', '0'], 0⟩ =
        .ok (⟨Align.Center, SignMode.OnlyIfNeeded, Mode.Default, false, '*', false, some 10,
          none⟩, VariadicFormatParams [], ⟨['*', '^', '1', '0'], 4⟩) ∧
      StandardFormatter.parse integer_to_size StandardFormatter.initial (VariadicFormatParams [])
        ⟨['#', '0', '1', '0', 'x'], 0⟩ =
        .ok (⟨Align.Default, SignMode.OnlyIfNeeded, Mode.Hexadecimal, true, ' ', true, some 10,
          none⟩, VariadicFormatParams [], ⟨['#', '0', '1', '0', 'x'], 5⟩)) := by
  refine ⟨?_, ?_, by decide, by decide⟩
  · intro self1 params1 parser1 h
    simp only [StandardFormatter.parse] at h
    split at h
    · rename_i s p l ht
      split at h
      · rename_i heof
        simp only [Outcome.ok.injEq, Prod.mk.injEq] at h
        obtain ⟨_, _, rfl⟩ := h
        exact ⟨parse_tokens_same_input to_size self params parser _ ht, heof⟩
      · simp at h
    · simp at h
    · simp at h
  · intro self1 params1 parser1 ht heof
    simp only [StandardFormatter.parse, ht, heof]
    simp

theorem put_literal_loop_total (value : List Char) : ∀ (fuel i : Nat) (builder : StringBuilder),
    value.length - i < fuel → ∃ b, put_literal_loop value fuel i builder = .ok b := by
  intro fuel
  induction fuel with
  | zero => intro i b h; omega
  | succ fuel ih =>
    intro i b h
    simp only [put_literal_loop]
    split
    · exact ih _ _ (by split <;> omega)
    · exact ⟨b, rfl⟩

theorem put_literal_total (builder : StringBuilder) (value : List Char) :
    ∃ b, put_literal builder value = .ok b :=
  put_literal_loop_total value _ 0 builder (by omega)

theorem stops_literal_cons (c : Char) (r : List Char) (hb : is_brace c = true)
    (hr : r.getD 0 (Char.ofNat 0) ≠ c) : stops_literal (c :: r) = true := by
  cases r with
  | nil => simp [stops_literal, hb]
  | cons d r => simp at hr; simp [stops_literal, hb, hr]

theorem consume_literal_loop_scan : ∀ (fuel : Nat) (rest pre : List Char) (start : Nat),
    rest.length < fuel →
    ∃ lit pre1 rest1, consume_literal_loop start fuel (lexer_at pre rest) =
        .ok (lit, lexer_at pre1 rest1) ∧
      pre ++ rest = pre1 ++ rest1 ∧ rest1.length ≤ rest.length ∧
      stops_literal rest1 = true ∧
      template_scan ScanState.text rest = template_scan ScanState.text rest1 := by
  intro fuel
  induction fuel with
  | zero => intro rest pre start h; omega
  | succ fuel ih =>
    intro rest pre start hfuel
    cases rest with
    | nil =>
      exact ⟨(lexer_at pre []).m_input.drop start, pre, [],
        by simp [consume_literal_loop, lexer_at_is_eof], rfl, le_refl _, rfl, rfl⟩
    | cons c r =>
      by_cases hpair : r.getD 0 (Char.ofNat 0) = c ∧ is_brace c = true
      · -- a doubled brace
        obtain ⟨hr, hb⟩ := hpair
        obtain ⟨r1, rfl⟩ : ∃ r1, r = c :: r1 := by
          cases r with
          | nil =>
            simp at hr
            rw [← hr] at hb
            simp [is_brace] at hb
          | cons d r1 => simp at hr; exact ⟨r1, by rw [hr]⟩
        obtain ⟨lit, pre1, rest1, hrun, happ, hlen, hstop, hscan⟩ :=
          ih r1 (pre ++ [c, c]) start (by simp at hfuel; omega)
        have hc : c = '{' ∨ c = '}' := by simpa [is_brace] using hb
        refine ⟨lit, pre1, rest1, ?_, by simpa using happ, by simp; omega, hstop, ?_⟩
        · rcases hc with rfl | rfl
          · simp only [consume_literal_loop, lexer_at_is_eof, lexer_at_consume_pair_hit]
            simpa using hrun
          · have m1 : (lexer_at pre ('}' :: '}' :: r1)).consume_specific_str ['{', '{'] = none := by
              apply lexer_at_consume_pair_miss; left; simp
            simp only [consume_literal_loop, lexer_at_is_eof, m1, lexer_at_consume_pair_hit]
            simpa using hrun
        · rcases hc with rfl | rfl
          · simp [template_scan, hscan]
          · simp [template_scan, hscan]
      · by_cases hb : is_brace c = true
        · -- a single brace: the literal ends here
          have hr : r.getD 0 (Char.ofNat 0) ≠ c := fun h => hpair ⟨h, hb⟩
          have m1 : (lexer_at pre (c :: r)).consume_specific_str ['{', '{'] = none := by
            apply lexer_at_consume_pair_miss
            by_cases hc : c = '{'
            · right; subst hc; simpa using hr
            · left; simpa using hc
          have m2 : (lexer_at pre (c :: r)).consume_specific_str ['}', '}'] = none := by
            apply lexer_at_consume_pair_miss
            by_cases hc : c = '}'
            · right; subst hc; simpa using hr
            · left; simpa using hc
          refine ⟨substring_view (lexer_at pre (c :: r)).m_input start
            ((lexer_at pre (c :: r)).tell - start), pre, c :: r, ?_, rfl, le_refl _,
            stops_literal_cons c r hb hr, rfl⟩
          simp [consume_literal_loop, lexer_at_is_eof, m1, m2, lexer_at_peek, hb]
        · -- an ordinary character
          have hc1 : c ≠ '{' := by intro h; subst h; simp [is_brace] at hb
          have hc2 : c ≠ '}' := by intro h; subst h; simp [is_brace] at hb
          have m1 : (lexer_at pre (c :: r)).consume_specific_str ['{', '{'] = none := by
            apply lexer_at_consume_pair_miss; left; simpa using hc1
          have m2 : (lexer_at pre (c :: r)).consume_specific_str ['}', '}'] = none := by
            apply lexer_at_consume_pair_miss; left; simpa using hc2
          obtain ⟨lit, pre1, rest1, hrun, happ, hlen, hstop, hscan⟩ :=
            ih r (pre ++ [c]) start (by simp at hfuel; omega)
          refine ⟨lit, pre1, rest1, ?_, by simpa using happ, by simp; omega, hstop, ?_⟩
          · simp only [consume_literal_loop, lexer_at_is_eof, m1, m2, lexer_at_peek,
              lexer_at_consume]
            simpa [hb] using hrun
          · simp [template_scan, hc1, hc2, hscan]

theorem consume_specifier_loop_scan : ∀ (fuel : Nat) (rest pre : List Char) (level : Nat),
    1 ≤ level → rest.length < fuel →
    (consume_specifier_loop fuel (lexer_at pre rest) level = .abort ∧
      template_scan (ScanState.options level) rest = false) ∨
    (∃ pre1 rest1, consume_specifier_loop fuel (lexer_at pre rest) level =
        .ok (lexer_at pre1 rest1) ∧
      rest1.length < rest.length ∧ pre ++ rest = pre1 ++ rest1 ∧
      template_scan (ScanState.options level) rest = template_scan ScanState.text rest1) := by
  intro fuel
  induction fuel with
  | zero => intro rest pre level _ h; omega
  | succ fuel ih =>
    intro rest pre level hlevel hfuel
    have hpos : level > 0 := hlevel
    cases rest with
    | nil =>
      left
      simp [consume_specifier_loop, hpos, lexer_at_is_eof, template_scan]
    | cons c r =>
      have hfuel' : r.length < fuel := by simp at hfuel; omega
      by_cases hc1 : c = '{'
      · subst hc1
        have IH := ih r (pre ++ ['{']) (level + 1) (by omega) hfuel'
        have hs : template_scan (ScanState.options level) ('{' :: r) =
            template_scan (ScanState.options (level + 1)) r := by simp [template_scan]
        have hrun : consume_specifier_loop (fuel + 1) (lexer_at pre ('{' :: r)) level =
            consume_specifier_loop fuel (lexer_at (pre ++ ['{']) r) (level + 1) := by
          simp [consume_specifier_loop, hpos, lexer_at_is_eof, lexer_at_consume_specific_hit]
        rw [hs, hrun]
        rcases IH with ⟨h1, h2⟩ | ⟨pre1, rest1, h1, h2, h3, h4⟩
        · exact Or.inl ⟨h1, h2⟩
        · exact Or.inr ⟨pre1, rest1, h1, by simp; omega, by simpa using h3, h4⟩
      · by_cases hc2 : c = '}'
        · subst hc2
          have hrun : consume_specifier_loop (fuel + 1) (lexer_at pre ('}' :: r)) level =
              consume_specifier_loop fuel (lexer_at (pre ++ ['}']) r) (level - 1) := by
            simp [consume_specifier_loop, hpos, lexer_at_is_eof, lexer_at_consume_specific_hit,
              lexer_at_consume_specific_miss _ '{' '}' _ (by decide)]
          rw [hrun]
          by_cases hl : level ≤ 1
          · have hl0 : level - 1 = 0 := by omega
            obtain ⟨f, rfl⟩ : ∃ f, fuel = f + 1 := ⟨fuel - 1, by omega⟩
            right
            refine ⟨pre ++ ['}'], r, ?_, by simp, by simp, ?_⟩
            · rw [hl0]; simp [consume_specifier_loop]
            · simp [template_scan, hl]
          · have IH := ih r (pre ++ ['}']) (level - 1) (by omega) hfuel'
            have hs : template_scan (ScanState.options level) ('}' :: r) =
                template_scan (ScanState.options (level - 1)) r := by
              simp [template_scan, hl]
            rw [hs]
            rcases IH with ⟨h1, h2⟩ | ⟨pre1, rest1, h1, h2, h3, h4⟩
            · exact Or.inl ⟨h1, h2⟩
            · exact Or.inr ⟨pre1, rest1, h1, by simp; omega, by simpa using h3, h4⟩
        · have IH := ih r (pre ++ [c]) level hlevel hfuel'
          have hs : template_scan (ScanState.options level) (c :: r) =
              template_scan (ScanState.options level) r := by simp [template_scan, hc1, hc2]
          have hrun : consume_specifier_loop (fuel + 1) (lexer_at pre (c :: r)) level =
              consume_specifier_loop fuel (lexer_at (pre ++ [c]) r) level := by
            simp [consume_specifier_loop, hpos, lexer_at_is_eof, lexer_at_consume,
              lexer_at_consume_specific_miss _ '{' c _ hc1,
              lexer_at_consume_specific_miss _ '}' c _ hc2]
          rw [hs, hrun]
          rcases IH with ⟨h1, h2⟩ | ⟨pre1, rest1, h1, h2, h3, h4⟩
          · exact Or.inl ⟨h1, h2⟩
          · exact Or.inr ⟨pre1, rest1, h1, by simp; omega, by simpa using h3, h4⟩

theorem digit_prefix (r : List Char) :
    ∃ ds r2, r = ds ++ r2 ∧ (∀ c ∈ ds, is_ascii_digit c = true) ∧
      is_ascii_digit (r2.getD 0 (Char.ofNat 0)) = false := by
  induction r with
  | nil => exact ⟨[], [], rfl, by simp, by decide⟩
  | cons c r ih =>
    by_cases hc : is_ascii_digit c = true
    · obtain ⟨ds, r2, h1, h2, h3⟩ := ih
      refine ⟨c :: ds, r2, by simp [h1], ?_, h3⟩
      intro d hd
      simp at hd
      rcases hd with rfl | hd
      · exact hc
      · exact h2 d hd
    · exact ⟨[], c :: r, rfl, by simp, by simpa using hc⟩

theorem template_scan_index_digits (ds r2 : List Char)
    (hds : ∀ c ∈ ds, is_ascii_digit c = true) :
    template_scan ScanState.index (ds ++ r2) = template_scan ScanState.index r2 := by
  induction ds with
  | nil => rfl
  | cons d ds ih =>
    have hd := hds d (by simp)
    simp only [List.cons_append, template_scan, hd, if_true]
    exact ih (fun c hc => hds c (by simp [hc]))

theorem template_scan_opened (r : List Char) (h : r.getD 0 (Char.ofNat 0) ≠ '{') :
    template_scan ScanState.opened r = template_scan ScanState.index r := by
  cases r with
  | nil => rfl
  | cons c r =>
    have hc : c ≠ '{' := by simpa using h
    simp [template_scan, hc]

theorem consume_specifier_scan (pre r : List Char) (hr : r.getD 0 (Char.ofNat 0) ≠ '{') :
    (consume_specifier (lexer_at pre ('{' :: r)) = .abort ∧
      template_scan ScanState.text ('{' :: r) = false) ∨
    (∃ spec pre1 rest1, consume_specifier (lexer_at pre ('{' :: r)) =
        .ok (some spec, lexer_at pre1 rest1) ∧
      rest1.length < ('{' :: r).length ∧ pre ++ '{' :: r = pre1 ++ rest1 ∧
      template_scan ScanState.text ('{' :: r) = template_scan ScanState.text rest1) := by
  obtain ⟨ds, r2, rfl, hds, hr2⟩ := digit_prefix r
  have hs : template_scan ScanState.text ('{' :: (ds ++ r2)) =
      template_scan ScanState.index r2 := by
    have : template_scan ScanState.text ('{' :: (ds ++ r2)) =
        template_scan ScanState.opened (ds ++ r2) := by simp [template_scan]
    rw [this, template_scan_opened _ hr, template_scan_index_digits ds r2 hds]
  have hnum := consume_number_digits (pre ++ ['{']) ds r2 hds hr2
  have hpre : (lexer_at pre ('{' :: (ds ++ r2))).peek 0 = '{' := by
    rw [lexer_at_peek]; rfl
  have hstart : ∀ r2', consume_number (lexer_at (pre ++ ['{']) (ds ++ r2')) =
        .ok (!ds.isEmpty, dec_value ds % SIZE_MOD, lexer_at (pre ++ ['{'] ++ ds) r2') →
      consume_specifier (lexer_at pre ('{' :: (ds ++ r2'))) =
      match (lexer_at (pre ++ ['{'] ++ ds) r2').consume_specific ':' with
      | some l3 =>
        match consume_specifier_loop (l3.m_input.length - l3.m_index + 1) l3 1 with
        | .ok l4 =>
          .ok (some ⟨substring_view l4.m_input l3.tell (l4.tell - l3.tell - 1),
            if (!ds.isEmpty) = true then dec_value ds % SIZE_MOD else use_next_index⟩, l4)
        | .abort => .abort
        | .nofuel => .nofuel
      | none =>
        match (lexer_at (pre ++ ['{'] ++ ds) r2').consume_specific '}' with
        | none => .abort
        | some l3 =>
          .ok (some ⟨[], if (!ds.isEmpty) = true then dec_value ds % SIZE_MOD
            else use_next_index⟩, l3) := by
    intro r2' hn
    have hp : (lexer_at pre ('{' :: (ds ++ r2'))).peek 0 = '{' := by
      rw [lexer_at_peek]; rfl
    simp only [consume_specifier, hp, lexer_at_consume_specific_hit, hn]
    rw [if_neg (by decide)]
    try rfl
  rw [hs, hstart r2 hnum]
  cases r2 with
  | nil =>
    left
    rw [lexer_at_consume_specific_nil _ ':' (by decide),
      lexer_at_consume_specific_nil _ '}' (by decide)]
    exact ⟨rfl, rfl⟩
  | cons c r3 =>
    have hcd : is_ascii_digit c = false := by simpa using hr2
    by_cases hc1 : c = ':'
    · subst hc1
      rw [lexer_at_consume_specific_hit]
      have hscan : template_scan ScanState.index (':' :: r3) =
          template_scan (ScanState.options 1) r3 := by
        simp [template_scan, hcd]
      have hfuel : (lexer_at (pre ++ ['{'] ++ ds ++ [':']) r3).m_input.length -
          (lexer_at (pre ++ ['{'] ++ ds ++ [':']) r3).m_index + 1 = r3.length + 1 := by
        simp [lexer_at]
        omega
      rw [hscan]
      simp only [hfuel]
      rcases consume_specifier_loop_scan (r3.length + 1) r3 (pre ++ ['{'] ++ ds ++ [':']) 1
        (le_refl _) (by omega) with ⟨h1, h2⟩ | ⟨pre1, rest1, h1, h2, h3, h4⟩
      · left
        rw [h1]
        exact ⟨rfl, h2⟩
      · right
        rw [h1]
        exact ⟨_, pre1, rest1, rfl, by simp; omega, by simpa using h3, h4⟩
    · by_cases hc2 : c = '}'
      · subst hc2
        rw [lexer_at_consume_specific_miss _ ':' '}' _ (by decide),
          lexer_at_consume_specific_hit]
        right
        refine ⟨_, _, r3, rfl, by simp; omega, by simp, ?_⟩
        simp [template_scan, hcd]
      · left
        rw [lexer_at_consume_specific_miss _ ':' c _ hc1,
          lexer_at_consume_specific_miss _ '}' c _ hc2]
        refine ⟨rfl, ?_⟩
        simp [template_scan, hcd, hc1, hc2]

theorem consume_literal_scan (rest pre : List Char) :
    ∃ lit pre1 rest1, consume_literal (lexer_at pre rest) = .ok (lit, lexer_at pre1 rest1) ∧
      pre ++ rest = pre1 ++ rest1 ∧ rest1.length ≤ rest.length ∧
      stops_literal rest1 = true ∧
      template_scan ScanState.text rest = template_scan ScanState.text rest1 := by
  have h := consume_literal_loop_scan (rest.length + 1) rest pre (lexer_at pre rest).tell
    (by omega)
  have e : (lexer_at pre rest).m_input.length - (lexer_at pre rest).m_index + 1 =
      rest.length + 1 := by simp [lexer_at]
  simpa only [consume_literal, e] using h

theorem vformat_impl_scan {V : Type} (formatter : FormatterFn V)
    (hterm : ∀ ps b l v, formatter ps b l v ≠ .nofuel) :
    ∀ (fuel : Nat) (rest pre : List Char) (params : TypeErasedFormatParams V)
      (builder : StringBuilder), rest.length < fuel →
      vformat_impl formatter fuel params builder (lexer_at pre rest) ≠ .nofuel ∧
      (template_scan ScanState.text rest = false →
        vformat_impl formatter fuel params builder (lexer_at pre rest) = .abort) ∧
      (∀ ps b l, vformat_impl formatter fuel params builder (lexer_at pre rest) = .ok (ps, b, l) →
        l = lexer_at (pre ++ rest) []) := by
  intro fuel
  induction fuel with
  | zero => intro rest pre params builder h; omega
  | succ fuel ih =>
    intro rest pre params builder hfuel
    obtain ⟨lit, pre1, rest1, hlit, happ, hlen, hstop, hscan⟩ := consume_literal_scan rest pre
    obtain ⟨b1, hput⟩ := put_literal_total builder lit
    rw [hscan, happ]
    simp only [vformat_impl, hlit, hput]
    cases rest1 with
    | nil =>
      simp only [consume_specifier_at_end, lexer_at_is_eof, List.isEmpty_nil, if_true,
        List.append_nil]
      refine ⟨by simp, by simp [template_scan], ?_⟩
      intro ps b l h
      simp only [Outcome.ok.injEq, Prod.mk.injEq] at h
      exact h.2.2.symm
    | cons c r =>
      have hb : is_brace c = true := by
        simp [stops_literal] at hstop; exact hstop.1
      have hr : r.getD 0 (Char.ofNat 0) ≠ c := by
        cases r with
        | nil => intro h; rw [← h] at hb; simp [is_brace] at hb
        | cons d r => simp [stops_literal] at hstop; simpa using hstop.2
      have hc : c = '{' ∨ c = '}' := by simpa [is_brace] using hb
      rcases hc with rfl | rfl
      · rcases consume_specifier_scan pre1 r hr with ⟨h1, h2⟩ | ⟨spec, pre2, rest2, h1, h2, h3, h4⟩
        · simp only [h1]
          exact ⟨by simp, by simp, by simp⟩
        · simp only [h1]
          rw [h4, h3]
          cases hget : (if spec.index = use_next_index then params.take_next_index
              else (spec.index, params)).2.m_parameters.get?
              (if spec.index = use_next_index then params.take_next_index
                else (spec.index, params)).1 with
          | none => exact ⟨by simp, by simp, by simp⟩
          | some v =>
            simp only
            cases hfmt : formatter (if spec.index = use_next_index then params.take_next_index
                else (spec.index, params)).2 b1 ⟨spec.flags, 0⟩ v with
            | ok p =>
              obtain ⟨ps2, b2⟩ := p
              simp only
              exact ih rest2 pre2 ps2 b2 (by simp only [List.length_cons] at h2 hlen; omega)
            | abort => exact ⟨by simp, by simp, by simp⟩
            | nofuel => exact absurd hfmt (hterm _ _ _ _)
      · have hp : (lexer_at pre1 ('}' :: r)).peek 0 = '}' := by
          rw [lexer_at_peek]; rfl
        simp only [consume_specifier, hp, if_true]
        exact ⟨by simp, by simp, by simp⟩

/-- C6. Let the formatters terminate.  For every template that the grammar
rejects (`template_well_formed` is false: reading it meets, at top level, a
stray unescaped `}`, or a `{` whose field is not terminated, by the end of the
input before the closing `}` at depth 0 or by an index followed by neither `:`
nor `}`), `vformat` aborts.  Whenever the driver returns normally, its parser
stands at the end of the template.  The templates `a}b`, `{`, `{0`, `{0x}`,
`{:{}` and `{0:{}` are rejected and `a{{b}}{0:{}}c` is accepted. -/
theorem vformat_malformed_aborts {V : Type} (formatter : FormatterFn V)
    (hterm : ∀ ps b l v, formatter ps b l v ≠ .nofuel) (builder : StringBuilder)
    (fmtstr : List Char) (params : TypeErasedFormatParams V) :
    (template_well_formed fmtstr = false →
      vformat formatter builder fmtstr params = .abort) ∧
    (∀ ps b l, vformat_impl formatter (fmtstr.length + 1) params builder ⟨fmtstr, 0⟩ =
        .ok (ps, b, l) → l.m_input = fmtstr ∧ l.is_eof = true) ∧
    (template_well_formed ['a', '}', 'b'] = false ∧
      template_well_formed ['{'] = false ∧
      template_well_formed ['{', '0'] = false ∧
      template_well_formed ['{', '0', 'x', '}'] = false ∧
      template_well_formed ['{', ':', '{', '}'] = false ∧
      template_well_formed ['{', '0', ':', '{', '}'] = false ∧
      template_well_formed ['a', '{', '{', 'b', '}', '}', '{', '0', ':', '{', '}', '}', 'c'] =
        true) := by
  have key := vformat_impl_scan formatter hterm (fmtstr.length + 1) fmtstr [] params builder
    (by omega)
  have e : lexer_at [] fmtstr = ⟨fmtstr, 0⟩ := by simp [lexer_at]
  rw [e] at key
  obtain ⟨hno, habort, hok⟩ := key
  refine ⟨?_, ?_, by decide⟩
  · intro hwf
    simp only [vformat, habort hwf]
  · intro ps b l h
    have := hok ps b l h
    subst this
    simp [lexer_at, GenericLexer.is_eof]

/-- Witness of C6: the formatter that appends nothing and the template `a}b`
with its stray `}`. -/
theorem vformat_malformed_aborts_witness :
    (∀ (ps : TypeErasedFormatParams Unit) (b : StringBuilder) (l : GenericLexer) (v : Unit),
      (fun ps b _ _ => Outcome.ok (ps, b) : FormatterFn Unit) ps b l v ≠ .nofuel) ∧
    template_well_formed ['a', '}', 'b'] = false ∧
    vformat (fun ps b _ _ => Outcome.ok (ps, b) : FormatterFn Unit) [] ['a', '}', 'b']
      (VariadicFormatParams [()]) = .abort :=
  ⟨fun _ _ _ _ h => Outcome.noConfusion h, by decide,
    (vformat_malformed_aborts (fun ps b _ _ => Outcome.ok (ps, b) : FormatterFn Unit)
      (fun _ _ _ _ h => Outcome.noConfusion h) [] ['a', '}', 'b']
      (VariadicFormatParams [()])).1 (by decide)⟩

/-! ## C11: the sign character -/

/-- C11. For every value below `2^64` and every base in 2..16, `put_u64` appends
fill padding, the sign, and then the base marker, the zero padding, the digits
and fill padding.  The sign is one character when `is_negative` holds or the
sign mode is not `OnlyIfNeeded`, and is empty otherwise: it is `-` whenever
`is_negative` holds, in every sign mode, else `+` for `Always` and a blank for
`Reserved`.  With the sign mode `Always` the value 5 gives `+5` and the value
-5 gives `-5`. -/
theorem put_u64_sign (builder : StringBuilder) (value base : Nat)
    ( use_prefix upper_case zero_pad : Bool) (align : Align) (min_width : Nat) (fill : Char)
    (sign_mode : SignMode) (is_negative : Bool) (hv : value < 2 ^ 64)
    (hb : 2 ≤ base ∧ base ≤ 16) :
    (∃ (left : Nat) (tail : List Char),
      put_u64 builder value base use_prefix upper_case zero_pad align min_width fill sign_mode
          is_negative =
        .ok (builder ++ List.replicate left fill ++ sign_text sign_mode is_negative ++ tail) ∧
      ∃ zeros right : Nat,
        tail = base_marker use_prefix base upper_case ++ List.replicate zeros '0' ++
          digit_text base upper_case value ++ List.replicate right fill) ∧
    ((sign_text sign_mode is_negative).length =
      if is_negative = true ∨ sign_mode ≠ SignMode.OnlyIfNeeded then 1 else 0) ∧
    (is_negative = true → sign_text sign_mode is_negative = ['-']) ∧
    (is_negative = false → sign_mode = SignMode.Always →
      sign_text sign_mode is_negative = ['+']) ∧
    (is_negative = false → sign_mode = SignMode.Reserved →
      sign_text sign_mode is_negative = [' ']) ∧
    put_u64 [] 5 10 false false false Align.Default 0 ' ' SignMode.Always false =
      .ok ['+', '5'] ∧
    put_i64 [] (-5) 10 false false false Align.Default 0 ' ' SignMode.Always =
      .ok ['-', '5'] := by
  refine ⟨?_, ?_, ?_, ?_, ?_, by decide, by decide⟩
  · rw [put_u64_eq builder value base use_prefix upper_case zero_pad align min_width fill
      sign_mode is_negative hv hb]
    cases align <;> cases zero_pad
    case Left.false | Left.true =>
      exact ⟨0, _, by simp [u64_text]; rfl, 0, _, by simp; rfl⟩
    case Center.false | Center.true =>
      exact ⟨_, _, by simp [u64_text]; rfl, 0, _, by simp; rfl⟩
    case Default.false | Right.false =>
      exact ⟨_, _, by simp [u64_text]; rfl, 0, 0, by simp⟩
    case Default.true | Right.true =>
      exact ⟨0, _, by simp [u64_text]; rfl, _, 0, by simp; rfl⟩
  · cases is_negative <;> cases sign_mode <;> simp [sign_text]
  · intro h; simp [sign_text, h]
  · intro h1 h2; simp [sign_text, h1, h2]
  · intro h1 h2; simp [sign_text, h1, h2]

/-- Witness of C11: the value 7 in base 10, `Center` alignment in a field of
width 6 filled with `*`, sign mode `Reserved`, negative. -/
theorem put_u64_sign_witness :
    (7 < 2 ^ 64 ∧ (2 ≤ 10 ∧ 10 ≤ 16)) ∧
    ((∃ (left : Nat) (tail : List Char),
      put_u64 [] 7 10 false false false Align.Center 6 '*' SignMode.Reserved true =
        .ok ([] ++ List.replicate left '*' ++ sign_text SignMode.Reserved true ++ tail) ∧
      ∃ zeros right : Nat,
        tail = base_marker false 10 false ++ List.replicate zeros '0' ++
          digit_text 10 false 7 ++ List.replicate right '*') ∧
    ((sign_text SignMode.Reserved true).length =
      if true = true ∨ SignMode.Reserved ≠ SignMode.OnlyIfNeeded then 1 else 0) ∧
    (true = true → sign_text SignMode.Reserved true = ['-']) ∧
    (true = false → SignMode.Reserved = SignMode.Always →
      sign_text SignMode.Reserved true = ['+']) ∧
    (true = false → SignMode.Reserved = SignMode.Reserved →
      sign_text SignMode.Reserved true = [' ']) ∧
    put_u64 [] 5 10 false false false Align.Default 0 ' ' SignMode.Always false =
      .ok ['+', '5'] ∧
    put_i64 [] (-5) 10 false false false Align.Default 0 ' ' SignMode.Always =
      .ok ['-', '5']) :=
  ⟨by decide, put_u64_sign [] 7 10 false false false Align.Center 6 '*' SignMode.Reserved true
    (by decide) (by decide)⟩

/-! ## C14 and C15: strings and centring -/

/-- The padding counts of a field: nothing before and `pad` after for `Left`
and `Default`, `pad / 2` before and the rest after for `Center`, `pad` before
and nothing after for `Right`. -/
theorem put_string_eq (builder : StringBuilder) (value : List Char) (align : Align)
    (min_width max_width : Nat) (fill : Char) :
    put_string builder value align min_width max_width fill =
      builder ++
        List.replicate
          (match align with
            | Align.Center =>
              (max min_width (min max_width value.length) - min max_width value.length) / 2
            | Align.Right =>
              max min_width (min max_width value.length) - min max_width value.length
            | _ => 0) fill ++
        value.take (min max_width value.length) ++
        List.replicate
          (match align with
            | Align.Center =>
              (max min_width (min max_width value.length) - min max_width value.length + 1) / 2
            | Align.Right => 0
            | _ => max min_width (min max_width value.length) - min max_width value.length)
          fill := by
  have htake : (if max_width < value.length
      then substring_view value 0 (min max_width value.length) else value) =
      value.take (min max_width value.length) := by
    split
    · simp [substring_view]
    · rename_i h
      have : min max_width value.length = value.length := by omega
      rw [this, List.take_length]
  cases align <;> simp [put_string, htake, put_padding_eq, ceil_div_two]

/-- C14. For every value, alignment, `min_width`, `max_width` and fill,
`put_string` appends `L` copies of the fill, then the first
`min(max_width, len(value))` characters of the value, then `R` copies of the
fill, where `pad = max(min_width, used) - used` and `(L, R)` is `(0, pad)` for
`Left` and `Default`, `(pad / 2, (pad + 1) / 2)` for `Center` and `(pad, 0)` for
`Right`; the appended length is `max(min_width, min(max_width, len(value)))`. -/
theorem put_string_layout (builder : StringBuilder) (value : List Char) (align : Align)
    (min_width max_width : Nat) (fill : Char) :
    ∃ (left right : Nat) (appended : List Char),
      put_string builder value align min_width max_width fill = builder ++ appended ∧
      appended = List.replicate left fill ++ value.take (min max_width value.length) ++
        List.replicate right fill ∧
      (left, right) =
        (match align with
          | Align.Left => (0, max min_width (min max_width value.length) -
              min max_width value.length)
          | Align.Default => (0, max min_width (min max_width value.length) -
              min max_width value.length)
          | Align.Center =>
            ((max min_width (min max_width value.length) - min max_width value.length) / 2,
              (max min_width (min max_width value.length) - min max_width value.length + 1) / 2)
          | Align.Right => (max min_width (min max_width value.length) -
              min max_width value.length, 0)) ∧
      (max min_width (min max_width value.length) - min max_width value.length + 1) / 2 =
        ceil_div (max min_width (min max_width value.length) - min max_width value.length) 2 ∧
      appended.length = max min_width (min max_width value.length) := by
  cases align
  all_goals
    refine ⟨_, _, _, ?_, rfl, rfl, (ceil_div_two _).symm, ?_⟩
    · rw [put_string_eq]; simp only [List.append_assoc]
    · simp <;> omega

/-- C15. With `Center` alignment, `put_string` and `put_u64` both append
`p / 2` fill characters before the field and `(p + 1) / 2` after it, where `p`
is the total padding: the room that the field (the truncated string; the sign,
base marker and digits) leaves below `min_width`.  The two sides sum to `p` and
the trailing side is the larger by at most one; `p = 8` splits 4/4 and `p = 7`
splits 3/4.  The string `ab` with fill `*`, `Center` and `min_width` 10 gives
`****ab****`. -/
theorem center_padding_split (builder : StringBuilder) (value : List Char)
    (min_width max_width : Nat) (fill : Char) (number base : Nat)
    ( use_prefix upper_case zero_pad : Bool) (sign_mode : SignMode) (is_negative : Bool)
    (hv : number < 2 ^ 64) (hb : 2 ≤ base ∧ base ≤ 16) :
    (∃ p field, field = value.take (min max_width value.length) ∧
      p = max min_width field.length - field.length ∧
      put_string builder value Align.Center min_width max_width fill =
        builder ++ List.replicate (p / 2) fill ++ field ++
          List.replicate (ceil_div p 2) fill ∧
      p / 2 + ceil_div p 2 = p ∧ p / 2 ≤ ceil_div p 2 ∧ ceil_div p 2 ≤ p / 2 + 1) ∧
    (∃ p field, field = sign_text sign_mode is_negative ++
        base_marker use_prefix base upper_case ++ digit_text base upper_case number ∧
      p = max min_width field.length - field.length ∧
      put_u64 builder number base use_prefix upper_case zero_pad Align.Center min_width fill
          sign_mode is_negative =
        .ok (builder ++ List.replicate (p / 2) fill ++ field ++
          List.replicate (ceil_div p 2) fill) ∧
      p / 2 + ceil_div p 2 = p ∧ p / 2 ≤ ceil_div p 2 ∧ ceil_div p 2 ≤ p / 2 + 1) ∧
    (8 / 2 = 4 ∧ ceil_div 8 2 = 4 ∧ 7 / 2 = 3 ∧ ceil_div 7 2 = 4) ∧
    put_string [] ['a', 'b'] Align.Center 10 SIZE_MAX '*' =
      ['*', '*', '*', '*', 'a', 'b', '*', '*', '*', '*'] := by
  refine ⟨⟨_, _, rfl, rfl, ?_, ?_, ?_, ?_⟩, ⟨_, _, rfl, rfl, ?_, ?_, ?_, ?_⟩,
    by decide, by decide⟩
  · rw [put_string_eq, ceil_div_two]
    simp [List.length_take]
  · rw [ceil_div_two]; omega
  · rw [ceil_div_two]; omega
  · rw [ceil_div_two]; omega
  · rw [put_u64_eq builder number base use_prefix upper_case zero_pad Align.Center min_width
      fill sign_mode is_negative hv hb, ceil_div_two]
    simp [u64_text, Nat.add_assoc, max_comm]
  · rw [ceil_div_two]; omega
  · rw [ceil_div_two]; omega
  · rw [ceil_div_two]; omega

/-- Witness of C15: the string `hello` cut to 3 characters and the number 255 in base 16
with its marker, each in a field of width 9. -/
theorem center_padding_split_witness :
    (255 < 2 ^ 64 ∧ (2 ≤ 16 ∧ 16 ≤ 16)) ∧
    put_string [] ['h', 'e', 'l', 'l', 'o'] Align.Center 9 3 '*' =
      ['*', '*', '*', 'h', 'e', 'l', '*', '*', '*'] ∧
    put_u64 [] 255 16 true false false Align.Center 9 '*' SignMode.OnlyIfNeeded false =
      .ok ['*', '*', '0', 'x', 'f', 'f', '*', '*', '*'] ∧
    ((∃ p field, field = ['h', 'e', 'l', 'l', 'o'].take (min 3 ['h', 'e', 'l', 'l', 'o'].length) ∧
      p = max 9 field.length - field.length ∧
      put_string [] ['h', 'e', 'l', 'l', 'o'] Align.Center 9 3 '*' =
        [] ++ List.replicate (p / 2) '*' ++ field ++
          List.replicate (ceil_div p 2) '*' ∧
      p / 2 + ceil_div p 2 = p ∧ p / 2 ≤ ceil_div p 2 ∧ ceil_div p 2 ≤ p / 2 + 1) ∧
    (∃ p field, field = sign_text SignMode.OnlyIfNeeded false ++
        base_marker true 16 false ++ digit_text 16 false 255 ∧
      p = max 9 field.length - field.length ∧
      put_u64 [] 255 16 true false false Align.Center 9 '*' SignMode.OnlyIfNeeded false =
        .ok ([] ++ List.replicate (p / 2) '*' ++ field ++
          List.replicate (ceil_div p 2) '*') ∧
      p / 2 + ceil_div p 2 = p ∧ p / 2 ≤ ceil_div p 2 ∧ ceil_div p 2 ≤ p / 2 + 1) ∧
    (8 / 2 = 4 ∧ ceil_div 8 2 = 4 ∧ 7 / 2 = 3 ∧ ceil_div 7 2 = 4) ∧
    put_string [] ['a', 'b'] Align.Center 10 SIZE_MAX '*' =
      ['*', '*', '*', '*', 'a', 'b', '*', '*', '*', '*']) :=
  ⟨by decide, by decide, by decide,
    center_padding_split [] ['h', 'e', 'l', 'l', 'o'] 9 3 '*' 255 16 true false false
      SignMode.OnlyIfNeeded false (by decide) (by decide)⟩

/-! ## C12: the canonical numeral -/

theorem digit_value_digit_char (upper_case : Bool) (d : Nat) (hd : d < 16) :
    digit_value (digit_char upper_case d) = d := by
  interval_cases d <;> cases upper_case <;> decide

theorem read_numeral_digits (base : Nat) (upper_case : Bool) :
    ∀ (ds : List Nat), (∀ d ∈ ds, d < 16) →
      read_numeral base ((ds.map (digit_char upper_case)).reverse) = Nat.ofDigits base ds := by
  intro ds
  induction ds with
  | nil => intro _; simp [read_numeral]
  | cons d ds ih =>
    intro h
    have h1 := ih (fun x hx => h x (List.mem_cons_of_mem _ hx))
    simp only [read_numeral] at h1
    simp only [read_numeral, List.map_cons, List.reverse_cons, List.foldl_append,
      List.foldl_cons, List.foldl_nil, h1, Nat.ofDigits_cons,
      digit_value_digit_char upper_case d (h d (List.mem_cons_self _ _))]
    ring

theorem read_numeral_digit_text (base : Nat) (upper_case : Bool) (value : Nat)
    (hb : 2 ≤ base ∧ base ≤ 16) :
    read_numeral base (digit_text base upper_case value) = value := by
  by_cases h0 : value = 0
  · subst h0
    simp [digit_text, read_numeral]
    decide
  · simp only [digit_text, h0, if_false]
    rw [read_numeral_digits base upper_case _
      (fun d hd => by have := Nat.digits_lt_base (show 1 < base by omega) hd; omega)]
    exact Nat.ofDigits_digits base value

theorem digit_text_head (base : Nat) (upper_case : Bool) (value : Nat)
    (hb : 2 ≤ base) (h0 : value ≠ 0) :
    ∃ d rest, digit_text base upper_case value = digit_char upper_case d :: rest ∧
      0 < d ∧ d < base := by
  have hne : Nat.digits base value ≠ [] := Nat.digits_ne_nil_iff_ne_zero.mpr h0
  have hlast := Nat.getLast_digit_ne_zero base h0
  have hmem := List.getLast_mem hne
  have hlt := Nat.digits_lt_base (show 1 < base by omega) hmem
  refine ⟨(Nat.digits base value).getLast hne,
    (((Nat.digits base value).dropLast).map (digit_char upper_case)).reverse, ?_,
    Nat.pos_of_ne_zero hlast, hlt⟩
  simp only [digit_text, h0, if_false]
  conv_lhs => rw [← List.dropLast_append_getLast hne]
  simp

theorem digit_text_mem (base : Nat) (upper_case : Bool) (value : Nat) (hb : 2 ≤ base) :
    ∀ c ∈ digit_text base upper_case value, ∃ d, d < base ∧ c = digit_char upper_case d := by
  intro c hc
  by_cases h0 : value = 0
  · simp [digit_text, h0] at hc
    subst hc
    exact ⟨0, by omega, by cases upper_case <;> decide⟩
  · simp only [digit_text, h0, if_false, List.mem_reverse, List.mem_map] at hc
    obtain ⟨d, hd, rfl⟩ := hc
    exact ⟨d, Nat.digits_lt_base (show 1 < base by omega) hd, rfl⟩

theorem contents_eq (buffer : DigitBuffer) (xs : List Char)
    (h : ∀ k, k < xs.length → buffer k = some (xs.getD k (Char.ofNat 0))) :
    DigitBuffer.contents buffer xs.length = xs.map some := by
  apply List.ext_getElem
  · simp [DigitBuffer.contents]
  · intro k h1 h2
    simp only [DigitBuffer.contents, List.length_map, List.length_range] at h1
    simp [DigitBuffer.contents, h k h1, List.getD_eq_getElem?_getD, List.getElem?_eq_getElem h1]

/-- C12. For every value below `2^64` and every base in 2..16,
`convert_unsigned_to_string` returns the length of a numeral and leaves that
numeral in the first entries of the buffer, most significant digit first.
Reading the numeral back in the base gives the value; the numeral is `0` for
the value 0 and otherwise starts with a digit other than zero; each of its
characters is the entry of a digit below the base in the table chosen by
`upper_case`, where the digits above 9 are `a`..`f` or `A`..`F`. -/
theorem convert_unsigned_to_string_canonical (value base : Nat) (upper_case : Bool)
    (buffer0 : DigitBuffer) (hv : value < 2 ^ 64) (hb : 2 ≤ base ∧ base ≤ 16) :
    (∃ (buffer : DigitBuffer) (numeral : List Char),
      convert_unsigned_to_string value buffer0 base upper_case =
        .ok (numeral.length, buffer) ∧
      DigitBuffer.contents buffer numeral.length = numeral.map some ∧
      read_numeral base numeral = value ∧
      (value = 0 → numeral = ['0']) ∧
      (value ≠ 0 → ∃ d rest, numeral = digit_char upper_case d :: rest ∧ 0 < d ∧ d < base) ∧
      (∀ c ∈ numeral, ∃ d, d < base ∧ c = digit_char upper_case d)) ∧
    (List.range 16).map (digit_char false) = "0123456789abcdef".toList ∧
    (List.range 16).map (digit_char true) = "0123456789ABCDEF".toList := by
  refine ⟨?_, by decide, by decide⟩
  obtain ⟨buffer, hconv, hbuf⟩ :=
    convert_unsigned_to_string_eq value base upper_case buffer0 hv hb
  refine ⟨buffer, digit_text base upper_case value, hconv, contents_eq _ _ hbuf,
    read_numeral_digit_text base upper_case value hb, ?_,
    digit_text_head base upper_case value hb.1, digit_text_mem base upper_case value hb.1⟩
  intro h0
  simp [digit_text, h0]

/-- Witness of C12: the value 255 in base 16, upper case, into a fresh buffer. -/
theorem convert_unsigned_to_string_canonical_witness :
    (255 < 2 ^ 64 ∧ (2 ≤ 16 ∧ 16 ≤ 16)) ∧
    ((∃ (buffer : DigitBuffer) (numeral : List Char),
      convert_unsigned_to_string 255 DigitBuffer.fresh 16 true =
        .ok (numeral.length, buffer) ∧
      DigitBuffer.contents buffer numeral.length = numeral.map some ∧
      read_numeral 16 numeral = 255 ∧
      (255 = 0 → numeral = ['0']) ∧
      (255 ≠ 0 → ∃ d rest, numeral = digit_char true d :: rest ∧ 0 < d ∧ d < 16) ∧
      (∀ c ∈ numeral, ∃ d, d < 16 ∧ c = digit_char true d)) ∧
    (List.range 16).map (digit_char false) = "0123456789abcdef".toList ∧
    (List.range 16).map (digit_char true) = "0123456789ABCDEF".toList) :=
  ⟨by decide,
    convert_unsigned_to_string_canonical 255 16 true DigitBuffer.fresh (by decide) (by decide)⟩

/-! ## C13: signed integers -/

theorem digit_text_head_ne_minus (base : Nat) (upper_case : Bool) (value : Nat)
    (hb : 2 ≤ base ∧ base ≤ 16) :
    (digit_text base upper_case value).head? ≠ some '-' := by
  intro h
  have hmem : '-' ∈ digit_text base upper_case value := List.mem_of_mem_head? h
  obtain ⟨d, hd, hc⟩ := digit_text_mem base upper_case value hb.1 '-' hmem
  have h1 := digit_value_digit_char upper_case d (by omega)
  rw [← hc] at h1
  have h2 : digit_value '-' = 0 := by decide
  have h3 : d = 0 := by omega
  subst h3
  revert hc
  cases upper_case <;> decide

theorem read_signed_decimal_text (upper_case : Bool) (magnitude : Nat) (is_negative : Bool) :
    read_signed_decimal
        ((if is_negative then ['-'] else []) ++ digit_text 10 upper_case magnitude) =
      if is_negative then -(magnitude : Int) else (magnitude : Int) := by
  cases is_negative
  · have h := digit_text_head_ne_minus 10 upper_case magnitude (by decide)
    simp only [Bool.false_eq_true, if_false, List.nil_append, read_signed_decimal, h,
      read_numeral_digit_text 10 upper_case magnitude (by decide)]
  · simp [read_signed_decimal, read_numeral_digit_text 10 upper_case magnitude (by decide)]

/-- C13. For every value of the `i64` range, the minimum `-2^63` included,
`put_i64` gives what `put_u64` gives for the magnitude `|value|` with
`is_negative = (value < 0)` and the other parameters unchanged.  In base 10
with the sign mode `OnlyIfNeeded` and `min_width` 0 the appended text, read as
a signed decimal, is the value.  The minimum gives `-9223372036854775808`. -/
theorem put_i64_magnitude (builder : StringBuilder) (value : Int) (base : Nat)
    ( use_prefix upper_case zero_pad : Bool) (align : Align) (min_width : Nat) (fill : Char)
    (sign_mode : SignMode) (hv : -(2 ^ 63 : Int) ≤ value ∧ value < 2 ^ 63) :
    put_i64 builder value base use_prefix upper_case zero_pad align min_width fill sign_mode =
      put_u64 builder value.natAbs base use_prefix upper_case zero_pad align min_width fill
        sign_mode (decide (value < 0)) ∧
    value.natAbs < 2 ^ 64 ∧
    (∃ appended, put_i64 builder value 10 use_prefix upper_case zero_pad align 0 fill
        SignMode.OnlyIfNeeded = .ok (builder ++ appended) ∧
      read_signed_decimal appended = value) ∧
    put_i64 [] (-(2 ^ 63 : Int)) 10 false false false Align.Default 0 ' '
        SignMode.OnlyIfNeeded = .ok "-9223372036854775808".toList := by
  have hmag : ((if value < 0 then -value else value) % (2 ^ 64 : Int)).toNat = value.natAbs := by
    split <;> omega
  refine ⟨?_, by omega, ?_, by decide⟩
  · simp only [put_i64, decide_eq_true_eq, hmag]
  · rw [put_i64_eq builder value 10 use_prefix upper_case zero_pad align 0 fill
      SignMode.OnlyIfNeeded (by decide), hmag]
    refine ⟨_, rfl, ?_⟩
    have htext : u64_text value.natAbs 10 use_prefix upper_case zero_pad align 0 fill
        SignMode.OnlyIfNeeded (decide (value < 0)) =
        (if decide (value < 0) then ['-'] else []) ++ digit_text 10 upper_case value.natAbs := by
      have hm : base_marker use_prefix 10 upper_case = [] := by
        cases use_prefix <;> simp [base_marker]
      have hs : sign_text SignMode.OnlyIfNeeded (decide (value < 0)) =
          (if decide (value < 0) then ['-'] else []) := by
        simp [sign_text]
      cases align <;> cases zero_pad <;> simp [u64_text, hm, hs]
    rw [htext, read_signed_decimal_text]
    by_cases hneg : value < 0
    · rw [if_pos (decide_eq_true hneg)]; omega
    · rw [if_neg (by simpa using hneg)]; omega

/-- Witness of C13: the value -42 in base 10 with default parameters. -/
theorem put_i64_magnitude_witness :
    (-(2 ^ 63 : Int) ≤ -42 ∧ (-42 : Int) < 2 ^ 63) ∧
    put_i64 [] (-42) 10 false false false Align.Default 0 ' ' SignMode.OnlyIfNeeded =
      .ok ['-', '4', '2'] ∧
    read_signed_decimal ['-', '4', '2'] = -42 ∧
    (put_i64 [] (-42) 10 false false false Align.Default 0 ' ' SignMode.OnlyIfNeeded =
      put_u64 [] (-42 : Int).natAbs 10 false false false Align.Default 0 ' '
        SignMode.OnlyIfNeeded (decide ((-42 : Int) < 0)) ∧
    (-42 : Int).natAbs < 2 ^ 64 ∧
    (∃ appended, put_i64 [] (-42) 10 false false false Align.Default 0 ' '
        SignMode.OnlyIfNeeded = .ok ([] ++ appended) ∧
      read_signed_decimal appended = -42) ∧
    put_i64 [] (-(2 ^ 63 : Int)) 10 false false false Align.Default 0 ' '
        SignMode.OnlyIfNeeded = .ok "-9223372036854775808".toList) :=
  ⟨by decide, by decide, by decide,
    put_i64_magnitude [] (-42) 10 false false false Align.Default 0 ' '
      SignMode.OnlyIfNeeded (by decide)⟩

/-! ## C18: hex dumps -/

/-- Counterexample to C18 as stated: the four bytes `0x41, 0x42, 0x43, 0x0A`
with width 4 and a blank fill give `4142430a    ABC.`, with nothing between
the bytes, and not `41 42 43 0a    ABC.`. -/
theorem put_hexdump_separator_counterexample :
    put_hexdump [] [0x41, 0x42, 0x43, 0x0A] 4 ' ' = .ok "4142430a    ABC.".toList ∧
    put_hexdump [] [0x41, 0x42, 0x43, 0x0A] 4 ' ' ≠ .ok "41 42 43 0a    ABC.".toList := by
  decide

theorem put_hexdump_byte (builder : StringBuilder) (byte : Nat) (out : List Char)
    (hb : byte < 256)
    (h : put_u64 [] byte 16 false false true Align.Right 2 ' ' SignMode.OnlyIfNeeded false =
      .ok out) :
    put_u64 builder byte 16 false false true Align.Right 2 ' ' SignMode.OnlyIfNeeded false =
      .ok (builder ++ out) := by
  rw [put_u64_eq [] byte 16 false false true Align.Right 2 ' ' SignMode.OnlyIfNeeded false
    (by omega) (by decide)] at h
  rw [put_u64_eq builder byte 16 false false true Align.Right 2 ' ' SignMode.OnlyIfNeeded false
    (by omega) (by decide)]
  simp only [Outcome.ok.injEq, List.nil_append] at h
  rw [h]

/-- C18 (amended). On the four bytes `0x41, 0x42, 0x43, 0x0A` with width 4,
`put_hexdump` appends the single row made of the bytes as two-digit lower-case
hexadecimal numerals with nothing between them, then four fill characters,
then the preview of the bytes with the newline byte shown as `.`; with a blank
fill the row is `4142430a    ABC.`. -/
theorem put_hexdump_row (builder : StringBuilder) (fill : Char) :
    put_hexdump builder [0x41, 0x42, 0x43, 0x0A] 4 fill =
      .ok (builder ++ "4142430a".toList ++ List.replicate 4 fill ++ "ABC.".toList) ∧
    put_hexdump [] [0x41, 0x42, 0x43, 0x0A] 4 ' ' = .ok "4142430a    ABC.".toList := by
  refine ⟨?_, by decide⟩
  simp [put_hexdump, put_hexdump_loop, put_char_view, put_char_view_loop, put_padding_eq,
    put_literal, put_literal_loop,
    put_hexdump_byte _ 0x41 ['4', '1'] (by decide) (by decide),
    put_hexdump_byte _ 0x42 ['4', '2'] (by decide) (by decide),
    put_hexdump_byte _ 0x43 ['4', '3'] (by decide) (by decide),
    put_hexdump_byte _ 0x0A ['0', 'a'] (by decide) (by decide)]

/-! ## C19: the fill character -/

theorem parse_align_fill (self : StandardFormatter) (parser : GenericLexer) :
    (StandardFormatter.parse_align self parser).1.m_fill = self.m_fill := by
  simp only [StandardFormatter.parse_align]
  repeat' split
  all_goals rfl

theorem parse_sign_fill (self : StandardFormatter) (parser : GenericLexer) :
    (StandardFormatter.parse_sign self parser).1.m_fill = self.m_fill := by
  simp only [StandardFormatter.parse_sign]
  repeat' split
  all_goals rfl

theorem parse_alternative_form_fill (self : StandardFormatter) (parser : GenericLexer) :
    (StandardFormatter.parse_alternative_form self parser).1.m_fill = self.m_fill := by
  simp only [StandardFormatter.parse_alternative_form]
  split <;> rfl

theorem parse_zero_pad_fill (self : StandardFormatter) (parser : GenericLexer) :
    (StandardFormatter.parse_zero_pad self parser).1.m_fill = self.m_fill := by
  simp only [StandardFormatter.parse_zero_pad]
  split <;> rfl

theorem parse_precision_fill {V : Type} (to_size : V → Outcome Nat)
    (self : StandardFormatter) (params : TypeErasedFormatParams V) (parser : GenericLexer)
    (r : StandardFormatter × TypeErasedFormatParams V × GenericLexer)
    (h : StandardFormatter.parse_precision to_size self params parser = .ok r) :
    r.1.m_fill = self.m_fill := by
  simp only [StandardFormatter.parse_precision] at h
  split at h
  · split at h
    · simp only [Outcome.ok.injEq] at h
      rw [← h]
    · simp at h
    · simp at h
  · simp only [Outcome.ok.injEq] at h
    rw [← h]

theorem parse_tokens_fill {V : Type} (to_size : V → Outcome Nat)
    (self : StandardFormatter) (params : TypeErasedFormatParams V) (parser : GenericLexer)
    (r : StandardFormatter × TypeErasedFormatParams V × GenericLexer)
    (h : StandardFormatter.parse_tokens to_size self params parser = .ok r) :
    ∃ r1, StandardFormatter.parse_fill self parser = .ok r1 ∧ r.1.m_fill = r1.1.m_fill := by
  simp only [StandardFormatter.parse_tokens] at h
  split at h
  · rename_i self1 parser1 h1
    refine ⟨_, h1, ?_⟩
    try simp only at h
    split at h
    · rename_i width params1 parser2 h2
      split at h
      · rename_i self3 params2 parser3 h3
        have e3 := parse_precision_fill to_size _ _ _ _ h3
        simp only at e3
        simp only [Outcome.ok.injEq] at h
        rw [← h]
        simp only
        rw [e3, parse_zero_pad_fill, parse_alternative_form_fill, parse_sign_fill,
          parse_align_fill]
      · simp at h
      · simp at h
    · simp at h
    · simp at h
  · simp at h
  · simp at h

theorem peek_align_not_eof (parser : GenericLexer)
    (h : ['<', '^', '>'].contains (parser.peek 1) = true) : parser.is_eof = false := by
  simp only [GenericLexer.is_eof, decide_eq_false_iff_not, not_le]
  by_contra hc
  have : parser.peek 1 = Char.ofNat 0 := by
    simp only [GenericLexer.peek]
    rw [List.getD_eq_default]
    omega
  rw [this] at h
  revert h
  decide

/-- Counterexample to C19 as stated: in the options `{<` the character after
the first one is `<`, yet the first character does not become the fill:
`parse` aborts. -/
theorem parse_fill_brace_counterexample :
    (⟨['{', '<'], 0⟩ : GenericLexer).peek 1 = '<' ∧
    StandardFormatter.parse integer_to_size StandardFormatter.initial
      (VariadicFormatParams []) ⟨['{', '<'], 0⟩ = .abort := by
  decide

/-- C19 (amended). `StandardFormatter::parse` takes the first character of the
options as the fill exactly when the character immediately after it is one of
`<`, `^`, `>` and the first character is not a brace: the fill step then sets
the fill to that character and moves past it.  When the character after the
first one is such a marker and the first character is a brace, `parse` aborts.
Otherwise the fill step changes neither the directive nor the position, so the
first character is offered to the later tokens.  On every normal return of
`parse` the fill is the first character when the character after it is such a
marker, and is unchanged otherwise.  The options `*^10` give fill `*`, `Center`, width
10; `<5` gives the default fill, `Left`, width 5; `<<` gives fill `<`, `Left`. -/
theorem parse_fill_rule {V : Type} (to_size : V → Outcome Nat) (self : StandardFormatter)
    (params : TypeErasedFormatParams V) (parser : GenericLexer) :
    (['<', '^', '>'].contains (parser.peek 1) = true → is_brace (parser.peek 0) = false →
      StandardFormatter.parse_fill self parser =
        .ok ({ self with m_fill := parser.peek 0 },
          { parser with m_index := parser.m_index + 1 })) ∧
    (['<', '^', '>'].contains (parser.peek 1) = true → is_brace (parser.peek 0) = true →
      StandardFormatter.parse_fill self parser = .abort ∧
      StandardFormatter.parse to_size self params parser = .abort) ∧
    (['<', '^', '>'].contains (parser.peek 1) = false →
      StandardFormatter.parse_fill self parser = .ok (self, parser)) ∧
    (∀ self1 params1 parser1,
      StandardFormatter.parse to_size self params parser = .ok (self1, params1, parser1) →
        self1.m_fill =
          if ['<', '^', '>'].contains (parser.peek 1) = true then parser.peek 0
          else self.m_fill) ∧
    StandardFormatter.parse integer_to_size StandardFormatter.initial (VariadicFormatParams [])
        ⟨['*', '^', '1', '0'], 0⟩ =
      .ok (⟨Align.Center, SignMode.OnlyIfNeeded, Mode.Default, false, '*', false, some 10, none⟩,
        VariadicFormatParams [], ⟨['*', '^', '1', '0'], 4⟩) ∧
    StandardFormatter.parse integer_to_size StandardFormatter.initial (VariadicFormatParams [])
        ⟨['<', '5'], 0⟩ =
      .ok (⟨Align.Left, SignMode.OnlyIfNeeded, Mode.Default, false, ' ', false, some 5, none⟩,
        VariadicFormatParams [], ⟨['<', '5'], 2⟩) ∧
    StandardFormatter.parse integer_to_size StandardFormatter.initial (VariadicFormatParams [])
        ⟨['<', '<'], 0⟩ =
      .ok (⟨Align.Left, SignMode.OnlyIfNeeded, Mode.Default, false, '<', false, none, none⟩,
        VariadicFormatParams [], ⟨['<', '<'], 2⟩) := by
  have hyes : ['<', '^', '>'].contains (parser.peek 1) = true →
      is_brace (parser.peek 0) = false →
      StandardFormatter.parse_fill self parser =
        .ok ({ self with m_fill := parser.peek 0 },
          { parser with m_index := parser.m_index + 1 }) := by
    intro h1 h2
    have h3 := peek_align_not_eof parser h1
    simp only [StandardFormatter.parse_fill, h1, h2, GenericLexer.consume, h3, if_true]
    simp
  have hbrace : ['<', '^', '>'].contains (parser.peek 1) = true →
      is_brace (parser.peek 0) = true → StandardFormatter.parse_fill self parser = .abort := by
    intro h1 h2
    simp only [StandardFormatter.parse_fill, h1, h2, if_true]
  have hno : ['<', '^', '>'].contains (parser.peek 1) = false →
      StandardFormatter.parse_fill self parser = .ok (self, parser) := by
    intro h1
    simp only [StandardFormatter.parse_fill, h1]
    simp
  refine ⟨hyes, ?_, hno, ?_, by decide, by decide, by decide⟩
  · intro h1 h2
    refine ⟨hbrace h1 h2, ?_⟩
    simp only [StandardFormatter.parse, StandardFormatter.parse_tokens, hbrace h1 h2]
  · intro self1 params1 parser1 h
    simp only [StandardFormatter.parse] at h
    split at h
    · rename_i s p l ht
      obtain ⟨r1, hf, hm⟩ := parse_tokens_fill to_size self params parser _ ht
      split at h
      · simp only [Outcome.ok.injEq, Prod.mk.injEq] at h
        rw [← h.1]
        simp only at hm
        rw [hm]
        cases h1 : ['<', '^', '>'].contains (parser.peek 1)
        · rw [hno h1] at hf
          simp only [Outcome.ok.injEq] at hf
          rw [← hf]
          simp
        · cases h2 : is_brace (parser.peek 0)
          · rw [hyes h1 h2] at hf
            simp only [Outcome.ok.injEq] at hf
            rw [← hf]
            simp
          · rw [hbrace h1 h2] at hf
            simp at hf
      · simp at h
    · simp at h
    · simp at h

/-! ## The text of the fractional digits -/

theorem digit_text_length_le_pow (upper_case : Bool) (value n : Nat) (hn : 0 < n)
    (hv : value < 10 ^ n) : (digit_text 10 upper_case value).length ≤ n := by
  by_cases h0 : value = 0
  · simp [digit_text, h0]; omega
  · simp only [digit_text, h0, if_false, List.length_reverse, List.length_map]
    rw [Nat.digits_len 10 value (by omega) h0]
    have := Nat.log_lt_of_lt_pow h0 hv
    omega

theorem read_numeral_zeros (base : Nat) (xs : List Char) : ∀ (n : Nat),
    read_numeral base (List.replicate n '0' ++ xs) = read_numeral base xs := by
  intro n
  induction n with
  | zero => simp
  | succ n ih =>
    simp only [read_numeral, List.replicate_succ, List.cons_append, List.foldl_cons] at ih ⊢
    have : 0 * base + digit_value '0' = 0 := by
      have : digit_value '0' = 0 := by decide
      omega
    rw [this]
    exact ih

theorem u64_text_fraction (upper_case : Bool) (scaled width : Nat) :
    u64_text scaled 10 false upper_case true Align.Right width ' ' SignMode.OnlyIfNeeded false =
      List.replicate (width - (digit_text 10 upper_case scaled).length) '0' ++
        digit_text 10 upper_case scaled := by
  have hm : max (digit_text 10 upper_case scaled).length width -
      (digit_text 10 upper_case scaled).length =
      width - (digit_text 10 upper_case scaled).length := by
    rcases le_total (digit_text 10 upper_case scaled).length width with h | h
    · rw [max_eq_right h]
    · rw [max_eq_left h]; omega
  simp only [u64_text, sign_text, base_marker]
  simp [hm]

theorem u64_text_zeros (width : Nat) (hw : 0 < width) :
    u64_text 0 10 false false true Align.Right width ' ' SignMode.OnlyIfNeeded false =
      List.replicate width '0' := by
  rw [u64_text_fraction]
  have : digit_text 10 false 0 = ['0'] := by simp [digit_text]
  rw [this]
  obtain ⟨w, rfl⟩ : ∃ w, width = w + 1 := ⟨width - 1, by omega⟩
  simp [List.replicate_succ']

theorem u64_text_whole (upper_case : Bool) (whole : Nat) (sign_mode : SignMode)
    (is_negative : Bool) :
    u64_text whole 10 false upper_case false Align.Right 0 ' ' sign_mode is_negative =
      sign_text sign_mode is_negative ++ digit_text 10 upper_case whole := by
  simp [u64_text, base_marker]

/-! ## A template of one field -/

theorem vformat_impl_at_end {V : Type} (f : FormatterFn V) (fuel : Nat)
    (params : TypeErasedFormatParams V) (builder : StringBuilder) (parser : GenericLexer)
    (hend : parser.is_eof = true) :
    vformat_impl f (fuel + 1) params builder parser = .ok (params, builder, parser) := by
  have hlen : parser.m_input.length ≤ parser.m_index := by
    simpa [GenericLexer.is_eof] using hend
  have hpeek : parser.peek 0 = Char.ofNat 0 := by
    simp only [GenericLexer.peek]
    rw [List.getD_eq_default]
    omega
  have hlit : consume_literal parser = .ok ([], parser) := by
    simp only [consume_literal, consume_literal_loop, hend, if_true, GenericLexer.tell]
    rw [List.drop_eq_nil_of_le hlen]
  have hput : put_literal builder [] = .ok builder := by
    simp [put_literal, put_literal_loop]
  have hspec : consume_specifier parser = .ok (none, parser) := by
    simp only [consume_specifier, GenericLexer.consume_specific, hpeek]
    simp
  simp only [vformat_impl, hlit, hput, hspec, hend, if_true]

theorem vformat_one_field {V : Type} (f g : FormatterFn V) (fmtstr : List Char)
    (value : V) (specifier : FormatSpecifier) (parser1 : GenericLexer)
    (hlit : consume_literal ⟨fmtstr, 0⟩ = .ok ([], ⟨fmtstr, 0⟩))
    (hfield : consume_specifier ⟨fmtstr, 0⟩ = .ok (some specifier, parser1))
    (hend : parser1.is_eof = true)
    (hindex : specifier.index = use_next_index)
    (hfg : f ⟨[value], 1⟩ [] ⟨specifier.flags, 0⟩ value =
      g ⟨[value], 1⟩ [] ⟨specifier.flags, 0⟩ value) :
    vformat f [] fmtstr (VariadicFormatParams [value]) =
      vformat g [] fmtstr (VariadicFormatParams [value]) := by
  have h2 : put_literal [] [] = .ok [] := by decide
  cases fmtstr with
  | nil => simp [consume_specifier, GenericLexer.peek, GenericLexer.consume_specific] at hfield
  | cons c rest =>
    have hmod : (0 + 1) % SIZE_MOD = 1 := by decide
    have hstep : ∀ (h : FormatterFn V),
        h ⟨[value], 1⟩ [] ⟨specifier.flags, 0⟩ value =
          g ⟨[value], 1⟩ [] ⟨specifier.flags, 0⟩ value →
        vformat h [] (c :: rest) (VariadicFormatParams [value]) =
          match g ⟨[value], 1⟩ [] ⟨specifier.flags, 0⟩ value with
          | .ok (_, builder2) => .ok builder2
          | .abort => .abort
          | .nofuel => .nofuel := by
      intro h hh
      simp only [vformat, List.length_cons]
      rw [vformat_impl]
      simp only [hlit, h2, hfield, hindex, VariadicFormatParams,
        TypeErasedFormatParams.take_next_index, if_true, hmod, List.get?_cons_zero, hh]
      cases hg : g ⟨[value], 1⟩ [] ⟨specifier.flags, 0⟩ value with
      | ok r =>
        obtain ⟨params2, builder2⟩ := r
        simp only
        rw [vformat_impl_at_end h _ _ _ _ hend]
      | abort => rfl
      | nofuel => rfl
    rw [hstep f hfg, hstep g rfl]

/-! ## Parsing the text of the option tokens -/

theorem lexer_at_consume_specific_ne (pre rest : List Char) (c : Char)
    (h : rest.getD 0 (Char.ofNat 0) ≠ c) : (lexer_at pre rest).consume_specific c = none := by
  have hp := lexer_at_peek pre rest 0
  simp only [GenericLexer.consume_specific, hp]
  rw [if_neg h]

theorem parse_align_text (self : StandardFormatter) (pre rest : List Char) (a : Option Align)
    (ha : a ≠ some Align.Default)
    (hrest : a = none → ['<', '^', '>'].contains (rest.getD 0 (Char.ofNat 0)) = false) :
    StandardFormatter.parse_align self (lexer_at pre (align_text a ++ rest)) =
      ({ self with m_align := a.getD self.m_align }, lexer_at (pre ++ align_text a) rest) := by
  rcases a with _ | a
  · have h := hrest rfl
    simp only [List.contains_cons, List.contains_nil, Bool.or_false, Bool.or_eq_false_iff,
      beq_eq_false_iff_ne, ne_eq] at h
    simp only [StandardFormatter.parse_align, align_text, List.nil_append,
      lexer_at_consume_specific_ne pre rest '<' h.1,
      lexer_at_consume_specific_ne pre rest '^' h.2.1,
      lexer_at_consume_specific_ne pre rest '>' h.2.2]
    simp
  · cases a
    · exact absurd rfl ha
    · simp only [StandardFormatter.parse_align, align_text, List.cons_append, List.nil_append,
        lexer_at_consume_specific_hit]
      simp
    · simp only [StandardFormatter.parse_align, align_text, List.cons_append, List.nil_append,
        lexer_at_consume_specific_hit,
        lexer_at_consume_specific_miss pre '<' '>' rest (by decide),
        lexer_at_consume_specific_miss pre '^' '>' rest (by decide)]
      simp
    · simp only [StandardFormatter.parse_align, align_text, List.cons_append, List.nil_append,
        lexer_at_consume_specific_hit,
        lexer_at_consume_specific_miss pre '<' '^' rest (by decide)]
      simp

theorem parse_sign_text (self : StandardFormatter) (pre rest : List Char)
    (s : Option SignMode)
    (hrest : s = none → ['-', '+', ' '].contains (rest.getD 0 (Char.ofNat 0)) = false) :
    StandardFormatter.parse_sign self (lexer_at pre (sign_mode_text s ++ rest)) =
      ({ self with m_sign_mode := s.getD self.m_sign_mode },
        lexer_at (pre ++ sign_mode_text s) rest) := by
  rcases s with _ | s
  · have h := hrest rfl
    simp only [List.contains_cons, List.contains_nil, Bool.or_false, Bool.or_eq_false_iff,
      beq_eq_false_iff_ne, ne_eq] at h
    simp only [StandardFormatter.parse_sign, sign_mode_text, List.nil_append,
      lexer_at_consume_specific_ne pre rest '-' h.1,
      lexer_at_consume_specific_ne pre rest '+' h.2.1,
      lexer_at_consume_specific_ne pre rest ' ' h.2.2]
    simp
  · cases s
    · simp only [StandardFormatter.parse_sign, sign_mode_text, List.cons_append,
        List.nil_append, lexer_at_consume_specific_hit]
      simp
    · simp only [StandardFormatter.parse_sign, sign_mode_text, List.cons_append,
        List.nil_append, lexer_at_consume_specific_hit,
        lexer_at_consume_specific_miss pre '-' '+' rest (by decide)]
      simp
    · simp only [StandardFormatter.parse_sign, sign_mode_text, List.cons_append,
        List.nil_append, lexer_at_consume_specific_hit,
        lexer_at_consume_specific_miss pre '-' ' ' rest (by decide),
        lexer_at_consume_specific_miss pre '+' ' ' rest (by decide)]
      simp

theorem parse_alternative_form_text (self : StandardFormatter) (pre rest : List Char)
    (flag : Bool) (hrest : flag = false → rest.getD 0 (Char.ofNat 0) ≠ '#') :
    StandardFormatter.parse_alternative_form self (lexer_at pre (flag_text flag '#' ++ rest)) =
      ({ self with m_alternative_form := flag || self.m_alternative_form },
        lexer_at (pre ++ flag_text flag '#') rest) := by
  cases flag
  · simp only [StandardFormatter.parse_alternative_form, flag_text, List.nil_append, Bool.false_eq_true, if_false,
      lexer_at_consume_specific_ne pre rest '#' (hrest rfl)]
    simp
  · simp only [StandardFormatter.parse_alternative_form, flag_text, List.cons_append, if_true,
      List.nil_append, lexer_at_consume_specific_hit]
    simp

theorem parse_zero_pad_text (self : StandardFormatter) (pre rest : List Char)
    (flag : Bool) (hrest : flag = false → rest.getD 0 (Char.ofNat 0) ≠ '0') :
    StandardFormatter.parse_zero_pad self (lexer_at pre (flag_text flag '0' ++ rest)) =
      ({ self with m_zero_pad := flag || self.m_zero_pad },
        lexer_at (pre ++ flag_text flag '0') rest) := by
  cases flag
  · simp only [StandardFormatter.parse_zero_pad, flag_text, List.nil_append, Bool.false_eq_true, if_false,
      lexer_at_consume_specific_ne pre rest '0' (hrest rfl)]
    simp
  · simp only [StandardFormatter.parse_zero_pad, flag_text, List.cons_append, if_true,
      List.nil_append, lexer_at_consume_specific_hit]
    simp

theorem parse_fill_text (self : StandardFormatter) (pre rest : List Char) (f : Option Char)
    (hsome : ∀ c, f = some c →
      is_brace c = false ∧ ['<', '^', '>'].contains (rest.getD 0 (Char.ofNat 0)) = true)
    (hnone : f = none → ['<', '^', '>'].contains (rest.getD 1 (Char.ofNat 0)) = false) :
    StandardFormatter.parse_fill self (lexer_at pre (f.toList ++ rest)) =
      .ok ({ self with m_fill := f.getD self.m_fill }, lexer_at (pre ++ f.toList) rest) := by
  rcases f with _ | c
  · simp only [StandardFormatter.parse_fill, Option.toList, List.nil_append, lexer_at_peek,
      hnone rfl]
    simp
  · obtain ⟨h1, h2⟩ := hsome c rfl
    simp only [StandardFormatter.parse_fill, Option.toList, List.cons_append, List.nil_append,
      lexer_at_peek, List.getD_cons_succ, List.getD_cons_zero, h1, h2, lexer_at_consume]
    simp

theorem consume_replacement_field_text (pre : List Char) (idx : Option Nat)
    (rest : List Char) :
    consume_replacement_field (lexer_at pre ('{' :: (index_text idx ++ '}' :: rest))) =
      .ok (some (match idx with
          | none => use_next_index
          | some n => n % SIZE_MOD),
        lexer_at (pre ++ '{' :: (index_text idx ++ ['}'])) rest) := by
  obtain ⟨hall, _, hempty, hval⟩ := index_text_spec idx
  have hnum := consume_number_digits (pre ++ ['{']) (index_text idx) ('}' :: rest) hall
    (by rw [List.getD_cons_zero]; decide)
  simp only [consume_replacement_field, lexer_at_consume_specific_hit, hnum, hempty, hval]
  cases idx <;> simp

theorem consume_replacement_field_miss (pre rest : List Char)
    (h : rest.getD 0 (Char.ofNat 0) ≠ '{') :
    consume_replacement_field (lexer_at pre rest) = .ok (none, lexer_at pre rest) := by
  simp only [consume_replacement_field, lexer_at_consume_specific_ne pre rest '{' h]

theorem toDigits_first_digit (n : Nat) :
    is_ascii_digit ((Nat.toDigits 10 n).getD 0 (Char.ofNat 0)) = true := by
  obtain ⟨hne, hall, _⟩ := toDigits_spec n
  cases h : Nat.toDigits 10 n with
  | nil => exact absurd h hne
  | cons c t =>
    rw [List.getD_cons_zero]
    exact hall c (by simp [h])

theorem parse_size_text {V : Type} (to_size : V → Outcome Nat)
    (params : TypeErasedFormatParams V) (pre rest : List Char) (token : SizeToken)
    (current : Option Nat) (hwf : token.well_formed = true)
    (hrest : is_ascii_digit (rest.getD 0 (Char.ofNat 0)) = false) :
    StandardFormatter.parse_size to_size params (lexer_at pre (token.text ++ rest)) current =
      match resolve_size to_size params token with
      | .ok (size, params1) => .ok (some size, params1, lexer_at (pre ++ token.text) rest)
      | .abort => .abort
      | .nofuel => .nofuel := by
  cases token with
  | literal value =>
    obtain ⟨hne, hall, hval⟩ := toDigits_spec value
    have hfirst := toDigits_first_digit value
    have hmiss : ((Nat.toDigits 10 value) ++ rest).getD 0 (Char.ofNat 0) ≠ '{' := by
      cases h : Nat.toDigits 10 value with
      | nil => exact absurd h hne
      | cons c t =>
        rw [h] at hfirst
        simp only [List.cons_append, List.getD_cons_zero] at hfirst ⊢
        intro hc; subst hc; revert hfirst; decide
    have hnum := consume_number_digits pre (Nat.toDigits 10 value) rest hall hrest
    have hlt : value < SIZE_MOD := by simpa [SizeToken.well_formed] using hwf
    have hnonempty : (!(Nat.toDigits 10 value).isEmpty) = true := by
      cases h : Nat.toDigits 10 value with
      | nil => exact absurd h hne
      | cons c t => rfl
    simp only [StandardFormatter.parse_size, SizeToken.text,
      consume_replacement_field_miss pre _ hmiss, hnum, hnonempty, hval, resolve_size,
      Nat.mod_eq_of_lt hlt]
  | nested idx =>
    simp only [StandardFormatter.parse_size, SizeToken.text, List.cons_append,
      List.append_assoc, List.singleton_append, consume_replacement_field_text]
    cases idx with
    | none =>
      simp only [if_true, resolve_size, TypeErasedFormatParams.take_next_index]
      cases h1 : params.m_parameters.get? params.m_next_index with
      | none => rfl
      | some parameter =>
        simp only
        cases h2 : to_size parameter <;> simp [index_text]
    | some n =>
      have hlt : n < use_next_index := by simpa [SizeToken.well_formed] using hwf
      have hmod : n % SIZE_MOD = n := Nat.mod_eq_of_lt (by
        simp only [use_next_index] at hlt; simp only [SIZE_MOD]; omega)
      have hne : n ≠ use_next_index := by omega
      simp only [hmod, hne, if_false, resolve_size]
      cases h1 : params.m_parameters.get? n with
      | none => rfl
      | some parameter =>
        simp only
        cases h2 : to_size parameter <;> simp [index_text]

theorem parse_size_absent {V : Type} (to_size : V → Outcome Nat)
    (params : TypeErasedFormatParams V) (pre rest : List Char) (current : Option Nat)
    (hbrace : rest.getD 0 (Char.ofNat 0) ≠ '{')
    (hdigit : is_ascii_digit (rest.getD 0 (Char.ofNat 0)) = false) :
    StandardFormatter.parse_size to_size params (lexer_at pre rest) current =
      .ok (current, params, lexer_at pre rest) := by
  have hnum := consume_number_digits pre [] rest (by simp) hdigit
  simp only [List.nil_append, List.append_nil] at hnum
  simp only [StandardFormatter.parse_size, consume_replacement_field_miss pre rest hbrace, hnum]
  simp

theorem parse_precision_text {V : Type} (to_size : V → Outcome Nat)
    (self : StandardFormatter) (params : TypeErasedFormatParams V) (pre rest : List Char)
    (token : Option SizeToken)
    (hwf : ∀ s, token = some s → s.well_formed = true)
    (hrest : is_ascii_digit (rest.getD 0 (Char.ofNat 0)) = false)
    (hnone : token = none → rest.getD 0 (Char.ofNat 0) ≠ '.') :
    StandardFormatter.parse_precision to_size self params
        (lexer_at pre (size_text ['.'] token ++ rest)) =
      match resolve_optional to_size params self.m_precision token with
      | .ok (precision, params1) =>
        .ok ({ self with m_precision := precision }, params1,
          lexer_at (pre ++ size_text ['.'] token) rest)
      | .abort => .abort
      | .nofuel => .nofuel := by
  cases token with
  | none =>
    simp only [StandardFormatter.parse_precision, size_text, List.nil_append, List.append_nil,
      lexer_at_consume_specific_ne pre rest '.' (hnone rfl), resolve_optional]
  | some s =>
    have h := parse_size_text to_size params (pre ++ ['.']) rest s self.m_precision
      (hwf s rfl) hrest
    simp only [StandardFormatter.parse_precision, size_text, List.cons_append, List.nil_append,
      lexer_at_consume_specific_hit, h, resolve_optional]
    cases resolve_size to_size params s with
    | ok r => obtain ⟨size, params1⟩ := r; simp
    | abort => rfl
    | nofuel => rfl

theorem parse_width_text {V : Type} (to_size : V → Outcome Nat)
    (params : TypeErasedFormatParams V) (pre rest : List Char) (current : Option Nat)
    (token : Option SizeToken)
    (hwf : ∀ s, token = some s → s.well_formed = true)
    (hrest : is_ascii_digit (rest.getD 0 (Char.ofNat 0)) = false)
    (hnone : token = none → rest.getD 0 (Char.ofNat 0) ≠ '{') :
    StandardFormatter.parse_size to_size params (lexer_at pre (size_text [] token ++ rest))
        current =
      match resolve_optional to_size params current token with
      | .ok (width, params1) => .ok (width, params1, lexer_at (pre ++ size_text [] token) rest)
      | .abort => .abort
      | .nofuel => .nofuel := by
  cases token with
  | none =>
    simp only [size_text, List.nil_append, List.append_nil, resolve_optional,
      parse_size_absent to_size params pre rest current (hnone rfl) hrest]
  | some s =>
    have h := parse_size_text to_size params pre rest s current (hwf s rfl) hrest
    simp only [size_text, List.nil_append, h, resolve_optional]
    cases resolve_size to_size params s with
    | ok r => obtain ⟨size, params1⟩ := r; simp
    | abort => rfl
    | nofuel => rfl

theorem lexer_at_consume_keyword (pre : List Char) :
    (lexer_at pre ['h', 'e', 'x', '-', 'd', 'u', 'm', 'p']).consume_specific_str
        ['h', 'e', 'x', '-', 'd', 'u', 'm', 'p'] =
      some (lexer_at (pre ++ ['h', 'e', 'x', '-', 'd', 'u', 'm', 'p']) []) := by
  simp [GenericLexer.consume_specific_str, GenericLexer.next_is_str, lexer_at_peek,
    List.range_succ]
  simp [lexer_at]

theorem lexer_at_consume_keyword_nil (pre : List Char) :
    (lexer_at pre []).consume_specific_str ['h', 'e', 'x', '-', 'd', 'u', 'm', 'p'] = none := by
  simp [GenericLexer.consume_specific_str, GenericLexer.next_is_str, lexer_at_peek,
    List.range_succ]

theorem parse_mode_text (pre : List Char) (current : Mode) (m : Option Mode)
    (hm : m ≠ some Mode.Default) :
    StandardFormatter.parse_mode (lexer_at pre (mode_text m)) current =
      (m.getD current, lexer_at (pre ++ mode_text m) []) := by
  rcases m with _ | m
  · simp only [StandardFormatter.parse_mode, mode_text,
      lexer_at_consume_specific_nil pre _ (show 'b' ≠ Char.ofNat 0 by decide),
      lexer_at_consume_specific_nil pre _ (show 'B' ≠ Char.ofNat 0 by decide),
      lexer_at_consume_specific_nil pre _ (show 'd' ≠ Char.ofNat 0 by decide),
      lexer_at_consume_specific_nil pre _ (show 'o' ≠ Char.ofNat 0 by decide),
      lexer_at_consume_specific_nil pre _ (show 'x' ≠ Char.ofNat 0 by decide),
      lexer_at_consume_specific_nil pre _ (show 'X' ≠ Char.ofNat 0 by decide),
      lexer_at_consume_specific_nil pre _ (show 'c' ≠ Char.ofNat 0 by decide),
      lexer_at_consume_specific_nil pre _ (show 's' ≠ Char.ofNat 0 by decide),
      lexer_at_consume_specific_nil pre _ (show 'p' ≠ Char.ofNat 0 by decide),
      lexer_at_consume_specific_nil pre _ (show 'f' ≠ Char.ofNat 0 by decide),
      lexer_at_consume_specific_nil pre _ (show 'a' ≠ Char.ofNat 0 by decide),
      lexer_at_consume_specific_nil pre _ (show 'A' ≠ Char.ofNat 0 by decide),
      lexer_at_consume_keyword_nil]
    simp
  · have hmissk : ∀ (c : Char), 'h' ≠ c →
        (lexer_at pre ['h', 'e', 'x', '-', 'd', 'u', 'm', 'p']).consume_specific c = none :=
      fun c h => lexer_at_consume_specific_miss pre c 'h' _ h
    have hkey : ∀ (d : Char), d ≠ 'h' →
        (lexer_at pre [d]).consume_specific_str ['h', 'e', 'x', '-', 'd', 'u', 'm', 'p'] =
          none := by
      intro d hd
      simp [GenericLexer.consume_specific_str, GenericLexer.next_is_str, lexer_at_peek,
        List.range_succ, hd]
    cases m
    case Default => exact absurd rfl hm
    case HexDump =>
      simp only [StandardFormatter.parse_mode, mode_text,
        hmissk 'b' (by decide), hmissk 'B' (by decide), hmissk 'd' (by decide),
        hmissk 'o' (by decide), hmissk 'x' (by decide), hmissk 'X' (by decide),
        hmissk 'c' (by decide), hmissk 's' (by decide), hmissk 'p' (by decide),
        hmissk 'f' (by decide), hmissk 'a' (by decide), hmissk 'A' (by decide),
        lexer_at_consume_keyword]
      simp
    all_goals
      simp [StandardFormatter.parse_mode, mode_text, lexer_at_consume_specific_hit,
        lexer_at_consume_specific_miss, hkey]

theorem getD_zero_append (a b : List Char) :
    (a ++ b).getD 0 (Char.ofNat 0) =
      if a = [] then b.getD 0 (Char.ofNat 0) else a.getD 0 (Char.ofNat 0) := by
  cases a <;> simp

theorem toDigitsCore_lead : ∀ (fuel n : Nat) (acc : List Char), n < fuel → n ≠ 0 →
    ∃ k X, Nat.toDigitsCore 10 fuel n acc = Nat.digitChar k :: (X ++ acc) ∧ 1 ≤ k ∧ k < 10 := by
  intro fuel
  induction fuel with
  | zero => intro n acc h; omega
  | succ fuel ih =>
    intro n acc h hn
    by_cases h0 : n / 10 = 0
    · refine ⟨n % 10, [], ?_, by omega, by omega⟩
      simp [Nat.toDigitsCore, h0]
    · obtain ⟨k, X, hX, hk⟩ := ih (n / 10) (Nat.digitChar (n % 10) :: acc) (by omega) h0
      refine ⟨k, X ++ [Nat.digitChar (n % 10)], ?_, hk⟩
      simp [Nat.toDigitsCore, h0, hX]

theorem toDigits_lead (n : Nat) (hn : n ≠ 0) :
    Nat.toDigits 10 n ≠ [] ∧
      (Nat.toDigits 10 n).getD 0 (Char.ofNat 0) ∈ ['1', '2', '3', '4', '5', '6', '7', '8', '9'] := by
  obtain ⟨k, X, hX, hk1, hk2⟩ := toDigitsCore_lead (n + 1) n [] (by omega) hn
  simp only [Nat.toDigits, hX, List.getD_cons_zero]
  refine ⟨by simp, ?_⟩
  interval_cases k <;> decide

theorem mode_text_head (m : Option Mode) :
    (mode_text m).getD 0 (Char.ofNat 0) ∈ mode_heads := by
  rcases m with _ | m
  · decide
  · cases m <;> decide

theorem precision_text_head (p : Option SizeToken) (m : Option Mode) :
    (size_text ['.'] p ++ mode_text m).getD 0 (Char.ofNat 0) ∈ precision_heads := by
  cases p with
  | none =>
    simp only [size_text, List.nil_append, precision_heads]
    exact List.mem_cons_of_mem _ (mode_text_head m)
  | some s => simp [size_text, precision_heads]

theorem width_text_head (w p : Option SizeToken) (m : Option Mode)
    (hw : w ≠ some (SizeToken.literal 0)) :
    (size_text [] w ++ (size_text ['.'] p ++ mode_text m)).getD 0 (Char.ofNat 0) ∈
      width_heads := by
  cases w with
  | none =>
    simp only [size_text, List.nil_append, width_heads]
    exact List.mem_append_right _ (precision_text_head p m)
  | some s =>
    cases s with
    | literal value =>
      have hv : value ≠ 0 := by
        intro h; subst h; exact hw rfl
      obtain ⟨hne, hmem⟩ := toDigits_lead value hv
      simp only [size_text, SizeToken.text, List.nil_append, getD_zero_append, hne, if_false,
        width_heads]
      exact List.mem_append_left _ (List.mem_append_left _ hmem)
    | nested idx => simp [size_text, SizeToken.text, width_heads]

theorem zero_pad_text_head (z : Bool) (rest : List Char)
    (h : rest.getD 0 (Char.ofNat 0) ∈ width_heads) :
    (flag_text z '0' ++ rest).getD 0 (Char.ofNat 0) ∈ zero_pad_heads := by
  cases z
  · simp only [flag_text, Bool.false_eq_true, if_false, List.nil_append, zero_pad_heads]
    exact List.mem_cons_of_mem _ h
  · simp [flag_text, zero_pad_heads]

theorem alternative_form_text_head (z : Bool) (rest : List Char)
    (h : rest.getD 0 (Char.ofNat 0) ∈ zero_pad_heads) :
    (flag_text z '#' ++ rest).getD 0 (Char.ofNat 0) ∈ alternative_form_heads := by
  cases z
  · simp only [flag_text, Bool.false_eq_true, if_false, List.nil_append, alternative_form_heads]
    exact List.mem_cons_of_mem _ h
  · simp [flag_text, alternative_form_heads]

theorem sign_text_head (s : Option SignMode) (rest : List Char)
    (h : rest.getD 0 (Char.ofNat 0) ∈ alternative_form_heads) :
    (sign_mode_text s ++ rest).getD 0 (Char.ofNat 0) ∈ sign_heads := by
  rcases s with _ | s
  · simp only [sign_mode_text, List.nil_append, sign_heads]
    exact List.mem_append_right _ h
  · cases s <;> simp [sign_mode_text, sign_heads]

theorem digit_not_align (c : Char) (h : is_ascii_digit c = true) :
    ['<', '^', '>'].contains c = false := by
  by_contra hc
  simp only [Bool.not_eq_false, List.contains_cons, List.contains_nil, Bool.or_false,
    Bool.or_eq_true, beq_iff_eq] at hc
  rcases hc with rfl | rfl | rfl <;> revert h <;> decide

theorem size_text_no_align (lead : List Char) (token : Option SizeToken)
    (hlead : ∀ c ∈ lead, ['<', '^', '>'].contains c = false) :
    ∀ c ∈ size_text lead token, ['<', '^', '>'].contains c = false := by
  intro c hc
  cases token with
  | none => simp [size_text] at hc
  | some s =>
    simp only [size_text, List.mem_append] at hc
    rcases hc with hc | hc
    · exact hlead c hc
    · cases s with
      | literal value =>
        exact digit_not_align c ((toDigits_spec value).2.1 c hc)
      | nested idx =>
        simp only [SizeToken.text, List.mem_cons, List.mem_append, List.mem_singleton,
          List.not_mem_nil, or_false] at hc
        rcases hc with rfl | hc | rfl
        · decide
        · exact digit_not_align c ((index_text_spec idx).1 c hc)
        · decide

theorem options_tail_no_align (t : OptionTokens) :
    ∀ c ∈ sign_mode_text t.sign ++ (flag_text t.alternative_form '#' ++
      (flag_text t.zero_pad '0' ++ t.size_mode_text)),
      ['<', '^', '>'].contains c = false := by
  intro c hc
  simp only [OptionTokens.size_mode_text, List.mem_append] at hc
  rcases hc with hc | hc | hc | hc | hc | hc
  · revert hc
    rcases t.sign with _ | s
    · simp [sign_mode_text]
    · cases s <;> simp [sign_mode_text] <;> rintro rfl <;> decide
  · revert hc
    cases t.alternative_form <;> simp [flag_text]
    rintro rfl; decide
  · revert hc
    cases t.zero_pad <;> simp [flag_text]
    rintro rfl; decide
  · exact size_text_no_align [] t.width (by simp) c hc
  · exact size_text_no_align ['.'] t.precision (by simp) c hc
  · revert hc
    rcases t.mode with _ | m
    · simp [mode_text]
    · cases m <;> simp [mode_text] <;>
        (try rintro (rfl | rfl | rfl | rfl | rfl | rfl | rfl | rfl)) <;> decide

theorem getD_no_align (l : List Char) (k : Nat)
    (h : ∀ c ∈ l, ['<', '^', '>'].contains c = false) :
    ['<', '^', '>'].contains (l.getD k (Char.ofNat 0)) = false := by
  by_cases hk : k < l.length
  · rw [List.getD_eq_getElem l _ hk]
    exact h _ (List.getElem_mem hk)
  · rw [List.getD_eq_default _ _ (by omega)]
    decide

theorem well_formed_parts (t : OptionTokens) (hwf : t.well_formed = true) :
    (∀ c, t.fill = some c → is_brace c = false ∧ t.align.isSome = true) ∧
    t.align ≠ some Align.Default ∧ t.mode ≠ some Mode.Default ∧
    (∀ s, t.width = some s → s.well_formed = true) ∧
    t.width ≠ some (SizeToken.literal 0) ∧
    (∀ s, t.precision = some s → s.well_formed = true) := by
  simp only [OptionTokens.well_formed, Bool.and_eq_true, Bool.not_eq_true', beq_eq_false_iff_ne,
    ne_eq] at hwf
  obtain ⟨⟨⟨⟨h1, h2⟩, h3⟩, h4⟩, h5⟩ := hwf
  refine ⟨?_, h2, h3, ?_, ?_, ?_⟩
  · intro c hc
    rw [hc] at h1
    simpa using h1
  · intro s hs
    rw [hs] at h4
    simp only [Bool.and_eq_true] at h4
    exact h4.1
  · intro hs
    rw [hs] at h4
    simp at h4
  · intro s hs
    rw [hs] at h5
    exact h5

theorem parse_tokens_text {V : Type} (to_size : V → Outcome Nat) (self : StandardFormatter)
    (params : TypeErasedFormatParams V) (pre : List Char) (t : OptionTokens)
    (hwf : t.well_formed = true) :
    StandardFormatter.parse_tokens to_size self params (lexer_at pre t.text) =
      match read_options to_size self params t with
      | .ok (directive, params1) => .ok (directive, params1, lexer_at (pre ++ t.text) [])
      | .abort => .abort
      | .nofuel => .nofuel := by
  obtain ⟨hfill, halign, hmode, hwidth, hwidth0, hprecision⟩ := well_formed_parts t hwf
  have hS6 := mode_text_head t.mode
  have hS5 := precision_text_head t.precision t.mode
  have hS4 := width_text_head t.width t.precision t.mode hwidth0
  have hS3 := zero_pad_text_head t.zero_pad _ hS4
  have hS2 := alternative_form_text_head t.alternative_form _ hS3
  have htail := options_tail_no_align t
  -- the fill
  have h1 := parse_fill_text self pre
    (align_text t.align ++ (sign_mode_text t.sign ++ (flag_text t.alternative_form '#' ++
      (flag_text t.zero_pad '0' ++ t.size_mode_text)))) t.fill
    (by
      intro c hc
      obtain ⟨hb, ha⟩ := hfill c hc
      refine ⟨hb, ?_⟩
      rcases hal : t.align with _ | a
      · rw [hal] at ha; simp at ha
      · rw [hal] at halign
        cases a
        · exact absurd rfl halign
        all_goals simp [align_text])
    (by
      intro _
      rcases hal : t.align with _ | a
      · simp only [align_text, List.nil_append]
        exact getD_no_align _ 1 htail
      · rw [hal] at halign
        cases a
        · exact absurd rfl halign
        all_goals
          simp only [align_text, List.cons_append, List.nil_append, List.getD_cons_succ]
          exact getD_no_align _ 0 htail)
  have h2 := parse_align_text { self with m_fill := t.fill.getD self.m_fill }
    (pre ++ t.fill.toList)
    (sign_mode_text t.sign ++ (flag_text t.alternative_form '#' ++
      (flag_text t.zero_pad '0' ++ t.size_mode_text))) t.align halign
    (fun _ => getD_no_align _ 0 htail)
  have h3 := parse_sign_text
    { self with m_fill := t.fill.getD self.m_fill, m_align := t.align.getD self.m_align }
    (pre ++ t.fill.toList ++ align_text t.align)
    (flag_text t.alternative_form '#' ++ (flag_text t.zero_pad '0' ++ t.size_mode_text)) t.sign
    (by
      intro _
      have : ∀ c ∈ alternative_form_heads, ['-', '+', ' '].contains c = false := by decide
      exact this _ hS2)
  have h4 := parse_alternative_form_text
    { self with m_fill := t.fill.getD self.m_fill, m_align := t.align.getD self.m_align,
                m_sign_mode := t.sign.getD self.m_sign_mode }
    (pre ++ t.fill.toList ++ align_text t.align ++ sign_mode_text t.sign)
    (flag_text t.zero_pad '0' ++ t.size_mode_text) t.alternative_form
    (by
      intro _
      have : ∀ c ∈ zero_pad_heads, c ≠ '#' := by decide
      exact this _ hS3)
  have h5 := parse_zero_pad_text
    { self with m_fill := t.fill.getD self.m_fill, m_align := t.align.getD self.m_align,
                m_sign_mode := t.sign.getD self.m_sign_mode,
                m_alternative_form := t.alternative_form || self.m_alternative_form }
    (pre ++ t.fill.toList ++ align_text t.align ++ sign_mode_text t.sign ++
      flag_text t.alternative_form '#')
    t.size_mode_text t.zero_pad
    (by
      intro _
      have : ∀ c ∈ width_heads, c ≠ '0' := by decide
      exact this _ hS4)
  have h6 := parse_width_text to_size params
    (pre ++ t.fill.toList ++ align_text t.align ++ sign_mode_text t.sign ++
      flag_text t.alternative_form '#' ++ flag_text t.zero_pad '0')
    (size_text ['.'] t.precision ++ mode_text t.mode) self.m_width t.width hwidth
    (by
      have : ∀ c ∈ precision_heads, is_ascii_digit c = false := by decide
      exact this _ hS5)
    (by
      intro _
      have : ∀ c ∈ precision_heads, c ≠ '{' := by decide
      exact this _ hS5)
  have h7 : ∀ (self1 : StandardFormatter) (params1 : TypeErasedFormatParams V), _ :=
    fun self1 params1 => parse_precision_text to_size self1 params1
      (pre ++ t.fill.toList ++ align_text t.align ++ sign_mode_text t.sign ++
        flag_text t.alternative_form '#' ++ flag_text t.zero_pad '0' ++ size_text [] t.width)
      (mode_text t.mode) t.precision hprecision
      (by
        have : ∀ c ∈ mode_heads, is_ascii_digit c = false := by decide
        exact this _ hS6)
      (by
        intro _
        have : ∀ c ∈ mode_heads, c ≠ '.' := by decide
        exact this _ hS6)
  have h8 := fun (pre1 : List Char) (current : Mode) =>
    parse_mode_text pre1 current t.mode hmode
  simp only [StandardFormatter.parse_tokens, OptionTokens.text, h1, h2, h3, h4, h5]
  simp only [OptionTokens.size_mode_text, h6, read_options]
  cases hw : resolve_optional to_size params self.m_width t.width with
  | abort => rfl
  | nofuel => rfl
  | ok r =>
    obtain ⟨width, params1⟩ := r
    simp only [h7]
    cases hp : resolve_optional to_size params1 self.m_precision t.precision with
    | abort => rfl
    | nofuel => rfl
    | ok r2 =>
      obtain ⟨precision, params2⟩ := r2
      simp only [h8, OptionTokens.directive, List.append_assoc]

theorem parse_text {V : Type} (to_size : V → Outcome Nat) (self : StandardFormatter)
    (params : TypeErasedFormatParams V) (t : OptionTokens) (hwf : t.well_formed = true) :
    StandardFormatter.parse to_size self params ⟨t.text, 0⟩ =
      parse_result t.text (read_options to_size self params t) := by
  have h := parse_tokens_text to_size self params [] t hwf
  have hl : (⟨t.text, 0⟩ : GenericLexer) = lexer_at [] t.text := by simp [lexer_at]
  simp only [StandardFormatter.parse, hl, h]
  cases read_options to_size self params t with
  | ok r =>
    obtain ⟨directive, params1⟩ := r
    simp only [parse_result]
    rw [if_pos (by rw [lexer_at_is_eof]; rfl)]
    simp [lexer_at]
  | abort => rfl
  | nofuel => rfl

theorem resolve_optional_parameters {V : Type} (to_size : V → Outcome Nat)
    (params : TypeErasedFormatParams V) (current : Option Nat) (token : Option SizeToken)
    (size : Option Nat) (params1 : TypeErasedFormatParams V)
    (h : resolve_optional to_size params current token = .ok (size, params1)) :
    params1.m_parameters = params.m_parameters := by
  cases token with
  | none =>
    simp only [resolve_optional, Outcome.ok.injEq, Prod.mk.injEq] at h
    rw [← h.2]
  | some s =>
    simp only [resolve_optional] at h
    cases s with
    | literal value =>
      simp only [resolve_size, Outcome.ok.injEq, Prod.mk.injEq] at h
      rw [← h.2]
    | nested idx =>
      cases idx with
      | none =>
        simp only [resolve_size] at h
        split at h
        · rename_i sz p1 hres
          split at hres
          · split at hres
            · simp only [Outcome.ok.injEq, Prod.mk.injEq] at hres h
              rw [← h.2, ← hres.2]
              rfl
            · simp at hres
            · simp at hres
          · simp at hres
        · simp at h
        · simp at h
      | some n =>
        simp only [resolve_size] at h
        split at h
        · rename_i sz p1 hres
          split at hres
          · split at hres
            · simp only [Outcome.ok.injEq, Prod.mk.injEq] at hres h
              rw [← h.2, ← hres.2]
            · simp at hres
            · simp at hres
          · simp at hres
        · simp at h
        · simp at h

theorem well_formed_width (t : OptionTokens) (s : SizeToken) (hwf : t.well_formed = true)
    (hs : s.well_formed = true) (h0 : s ≠ SizeToken.literal 0) :
    ({ t with width := some s } : OptionTokens).well_formed = true := by
  obtain ⟨h1, h2, h3, _, _, h6⟩ := well_formed_parts t hwf
  simp only [OptionTokens.well_formed, Bool.and_eq_true, Bool.not_eq_true', beq_eq_false_iff_ne,
    ne_eq] at hwf ⊢
  exact ⟨⟨⟨⟨hwf.1.1.1.1, h2⟩, h3⟩, hs, h0⟩, hwf.2⟩

theorem well_formed_precision (t : OptionTokens) (s : SizeToken) (hwf : t.well_formed = true)
    (hs : s.well_formed = true) :
    ({ t with precision := some s } : OptionTokens).well_formed = true := by
  simp only [OptionTokens.well_formed, Bool.and_eq_true, Bool.not_eq_true', beq_eq_false_iff_ne,
    ne_eq] at hwf ⊢
  exact ⟨hwf.1, hs⟩

/-- C20. A width or a precision written as the nested field `{n}` is
resolved against the argument store when the options are parsed.  Let the
tokens of an options span be well formed and let argument `n` convert to the
size `w`, with `1 ≤ w < 2^64`, the store holding fewer than `2^64` arguments.  Then
`StandardFormatter::parse` on the span with the width `{n}` and on the same
span with the width `w` in decimal gives the same result: the same directive
and the same store (or both fail alike when the precision cannot be resolved),
each with the parser at the end of its span; a directive so returned has the
width `w`.  The same holds for the precision.  For `{}` the index is the
one that `take_next_index` returns: when the argument at the cursor converts to
`w1`, the result is that of the span with `w1` in decimal against the store
after `take_next_index`. -/
theorem parse_nested_size {V : Type} (to_size : V → Outcome Nat) (self : StandardFormatter)
    (params : TypeErasedFormatParams V) (t : OptionTokens) (n w : Nat) (parameter : V)
    (hwf : t.well_formed = true) (hlen : params.m_parameters.length < SIZE_MOD)
    (harg : params.m_parameters.get? n = some parameter) (hsize : to_size parameter = .ok w)
    (hw : 1 ≤ w ∧ w < SIZE_MOD) :
    (∃ result,
      StandardFormatter.parse to_size self params
          ⟨({ t with width := some (.nested (some n)) } : OptionTokens).text, 0⟩ =
        parse_result ({ t with width := some (.nested (some n)) } : OptionTokens).text result ∧
      StandardFormatter.parse to_size self params
          ⟨({ t with width := some (.literal w) } : OptionTokens).text, 0⟩ =
        parse_result ({ t with width := some (.literal w) } : OptionTokens).text result ∧
      ∀ directive params1, result = .ok (directive, params1) → directive.m_width = some w) ∧
    (∃ result,
      StandardFormatter.parse to_size self params
          ⟨({ t with precision := some (.nested (some n)) } : OptionTokens).text, 0⟩ =
        parse_result ({ t with precision := some (.nested (some n)) } : OptionTokens).text
          result ∧
      StandardFormatter.parse to_size self params
          ⟨({ t with precision := some (.literal w) } : OptionTokens).text, 0⟩ =
        parse_result ({ t with precision := some (.literal w) } : OptionTokens).text result ∧
      ∀ directive params1, result = .ok (directive, params1) →
        directive.m_precision = some w) ∧
    (∀ parameter1 w1, params.m_parameters.get? params.take_next_index.1 = some parameter1 →
      to_size parameter1 = .ok w1 → 1 ≤ w1 ∧ w1 < SIZE_MOD →
      StandardFormatter.parse to_size self params
          ⟨({ t with width := some (.nested none) } : OptionTokens).text, 0⟩ =
        parse_result ({ t with width := some (.nested none) } : OptionTokens).text
          (read_options to_size self params.take_next_index.2
            { t with width := some (.literal w1) })) := by
  have hn : n < use_next_index := by
    have h1 : n < params.m_parameters.length := by
      by_contra hc
      rw [List.get?_eq_none.mpr (by omega)] at harg
      simp at harg
    simp only [SIZE_MOD] at hlen
    simp only [use_next_index]
    omega
  have hnested : (SizeToken.nested (some n)).well_formed = true := by
    simpa [SizeToken.well_formed] using hn
  have hliteral : (SizeToken.literal w).well_formed = true := by
    simpa [SizeToken.well_formed] using hw.2
  have hne : SizeToken.literal w ≠ SizeToken.literal 0 := by
    intro h
    simp only [SizeToken.literal.injEq] at h
    omega
  refine ⟨⟨read_options to_size self params { t with width := some (.literal w) }, ?_, ?_, ?_⟩,
    ⟨read_options to_size self params { t with precision := some (.literal w) }, ?_, ?_, ?_⟩,
    ?_⟩
  · rw [parse_text to_size self params _
      (well_formed_width t _ hwf hnested (by simp))]
    congr 1
    simp only [read_options, resolve_optional, resolve_size, harg, hsize, OptionTokens.directive]
  · exact parse_text to_size self params _ (well_formed_width t _ hwf hliteral hne)
  · intro directive params1 h
    simp only [read_options, resolve_optional, resolve_size] at h
    split at h
    · simp only [Outcome.ok.injEq, Prod.mk.injEq] at h
      rw [← h.1]
      simp [OptionTokens.directive]
    · simp at h
    · simp at h
  · rw [parse_text to_size self params _ (well_formed_precision t _ hwf hnested)]
    congr 1
    simp only [read_options]
    cases hr : resolve_optional to_size params self.m_width t.width with
    | ok r =>
      obtain ⟨width, params1⟩ := r
      have hp := resolve_optional_parameters to_size params _ _ _ _ hr
      rw [← hp] at harg
      simp only [resolve_optional, resolve_size, harg, hsize, OptionTokens.directive]
    | abort => rfl
    | nofuel => rfl
  · exact parse_text to_size self params _ (well_formed_precision t _ hwf hliteral)
  · intro directive params1 h
    simp only [read_options, resolve_optional, resolve_size] at h
    split at h
    · simp only [Outcome.ok.injEq, Prod.mk.injEq] at h
      rw [← h.1]
      simp [OptionTokens.directive]
    · simp at h
    · simp at h
  · intro parameter1 w1 harg1 hsize1 hw1
    have hlit1 : (SizeToken.literal w1).well_formed = true := by
      simpa [SizeToken.well_formed] using hw1.2
    rw [parse_text to_size self params _ (well_formed_width t _ hwf (by rfl) (by simp))]
    congr 1
    simp only [TypeErasedFormatParams.take_next_index] at harg1
    simp only [read_options, resolve_optional, resolve_size, harg1, hsize1,
      OptionTokens.directive, TypeErasedFormatParams.take_next_index]

/-- Witness of C20: the tokens `*^`, precision 3 and mode `x` with the
arguments 7 and 12: the width `{1}` is the width 12, and the width
`{}` is argument 0, the width 7, with the cursor moved to 1. -/
theorem parse_nested_size_witness :
    ((⟨some '*', some Align.Center, none, false, false, none, some (.literal 3),
        some Mode.Hexadecimal⟩ : OptionTokens).well_formed = true ∧
      (VariadicFormatParams [(7 : Int), 12]).m_parameters.length < SIZE_MOD ∧
      (VariadicFormatParams [(7 : Int), 12]).m_parameters.get? 1 = some 12 ∧
      integer_to_size 12 = .ok 12 ∧ (1 ≤ 12 ∧ 12 < SIZE_MOD)) ∧
    StandardFormatter.parse integer_to_size StandardFormatter.initial
        (VariadicFormatParams [7, 12]) ⟨['*', '^', '{', '1', '}', '.', '3', 'x'], 0⟩ =
      .ok (⟨Align.Center, SignMode.OnlyIfNeeded, Mode.Hexadecimal, false, '*', false, some 12,
          some 3⟩, VariadicFormatParams [7, 12], ⟨['*', '^', '{', '1', '}', '.', '3', 'x'], 8⟩) ∧
    StandardFormatter.parse integer_to_size StandardFormatter.initial
        (VariadicFormatParams [7, 12]) ⟨['*', '^', '1', '2', '.', '3', 'x'], 0⟩ =
      .ok (⟨Align.Center, SignMode.OnlyIfNeeded, Mode.Hexadecimal, false, '*', false, some 12,
          some 3⟩, VariadicFormatParams [7, 12], ⟨['*', '^', '1', '2', '.', '3', 'x'], 7⟩) ∧
    StandardFormatter.parse integer_to_size StandardFormatter.initial
        (VariadicFormatParams [7, 12]) ⟨['*', '^', '{', '}', '.', '3', 'x'], 0⟩ =
      .ok (⟨Align.Center, SignMode.OnlyIfNeeded, Mode.Hexadecimal, false, '*', false, some 7,
          some 3⟩, ⟨[7, 12], 1⟩, ⟨['*', '^', '{', '}', '.', '3', 'x'], 7⟩) ∧
    ((∃ result,
      StandardFormatter.parse integer_to_size StandardFormatter.initial
          (VariadicFormatParams [7, 12])
          ⟨(⟨some '*', some Align.Center, none, false, false, some (.nested (some 1)),
              some (.literal 3), some Mode.Hexadecimal⟩ : OptionTokens).text, 0⟩ =
        parse_result
          (⟨some '*', some Align.Center, none, false, false, some (.nested (some 1)),
              some (.literal 3), some Mode.Hexadecimal⟩ : OptionTokens).text
          result ∧
      StandardFormatter.parse integer_to_size StandardFormatter.initial
          (VariadicFormatParams [7, 12])
          ⟨(⟨some '*', some Align.Center, none, false, false, some (.literal 12),
              some (.literal 3), some Mode.Hexadecimal⟩ : OptionTokens).text, 0⟩ =
        parse_result
          (⟨some '*', some Align.Center, none, false, false, some (.literal 12),
              some (.literal 3), some Mode.Hexadecimal⟩ : OptionTokens).text
          result ∧
      ∀ directive params1, result = .ok (directive, params1) → directive.m_width = some 12) ∧
    (∃ result,
      StandardFormatter.parse integer_to_size StandardFormatter.initial
          (VariadicFormatParams [7, 12])
          ⟨(⟨some '*', some Align.Center, none, false, false, none,
              some (.nested (some 1)), some Mode.Hexadecimal⟩ : OptionTokens).text, 0⟩ =
        parse_result
          (⟨some '*', some Align.Center, none, false, false, none,
              some (.nested (some 1)), some Mode.Hexadecimal⟩ : OptionTokens).text
          result ∧
      StandardFormatter.parse integer_to_size StandardFormatter.initial
          (VariadicFormatParams [7, 12])
          ⟨(⟨some '*', some Align.Center, none, false, false, none,
              some (.literal 12), some Mode.Hexadecimal⟩ : OptionTokens).text, 0⟩ =
        parse_result
          (⟨some '*', some Align.Center, none, false, false, none,
              some (.literal 12), some Mode.Hexadecimal⟩ : OptionTokens).text
          result ∧
      ∀ directive params1, result = .ok (directive, params1) →
        directive.m_precision = some 12) ∧
    (∀ parameter1 w1,
      (VariadicFormatParams [(7 : Int), 12]).m_parameters.get?
        (VariadicFormatParams [(7 : Int), 12]).take_next_index.1 = some parameter1 →
      integer_to_size parameter1 = .ok w1 → 1 ≤ w1 ∧ w1 < SIZE_MOD →
      StandardFormatter.parse integer_to_size StandardFormatter.initial
          (VariadicFormatParams [7, 12])
          ⟨(⟨some '*', some Align.Center, none, false, false, some (.nested none),
              some (.literal 3), some Mode.Hexadecimal⟩ : OptionTokens).text, 0⟩ =
        parse_result
          (⟨some '*', some Align.Center, none, false, false, some (.nested none),
              some (.literal 3), some Mode.Hexadecimal⟩ : OptionTokens).text
          (read_options integer_to_size StandardFormatter.initial
            (VariadicFormatParams [(7 : Int), 12]).take_next_index.2
            (⟨some '*', some Align.Center, none, false, false, some (.literal w1),
              some (.literal 3), some Mode.Hexadecimal⟩ : OptionTokens)))) :=
  ⟨by decide, by decide, by decide, by decide,
    parse_nested_size integer_to_size StandardFormatter.initial (VariadicFormatParams [7, 12])
      ⟨some '*', some Align.Center, none, false, false, none, some (.literal 3),
        some Mode.Hexadecimal⟩ 1 12 12 (by decide) (by decide) (by decide) (by decide)
      (by decide)⟩

/-! ## C23: the default alignment of integers -/

/-- C23. For every call of `put_u64`, and so for every call of `put_i64`, the
alignment `Default` gives exactly the result of the alignment `Right` with all
other parameters equal; the value 5 in a field of width 3 gives two blanks and
then `5` under both. -/
theorem put_u64_default_is_right (builder : StringBuilder) (value base : Nat)
    ( use_prefix upper_case zero_pad : Bool) (min_width : Nat) (fill : Char)
    (sign_mode : SignMode) (is_negative : Bool) (signed : Int) :
    put_u64 builder value base use_prefix upper_case zero_pad Align.Default min_width fill
        sign_mode is_negative =
      put_u64 builder value base use_prefix upper_case zero_pad Align.Right min_width fill
        sign_mode is_negative ∧
    put_i64 builder signed base use_prefix upper_case zero_pad Align.Default min_width fill
        sign_mode =
      put_i64 builder signed base use_prefix upper_case zero_pad Align.Right min_width fill
        sign_mode ∧
    put_u64 [] 5 10 false false false Align.Default 3 ' ' SignMode.OnlyIfNeeded false =
      .ok [' ', ' ', '5'] ∧
    put_u64 [] 5 10 false false false Align.Right 3 ' ' SignMode.OnlyIfNeeded false =
      .ok [' ', ' ', '5'] := by
  have h : ∀ (v : Nat) (neg : Bool),
      put_u64 builder v base use_prefix upper_case zero_pad Align.Default min_width fill
          sign_mode neg =
        put_u64 builder v base use_prefix upper_case zero_pad Align.Right min_width fill
          sign_mode neg := by
    intro v neg
    simp [put_u64]
  exact ⟨h value is_negative, by simp only [put_i64]; exact h _ _, by decide, by decide⟩

/-! ## C27: fill padding around the whole field -/

/-- C27. In every call of `put_u64` other than the alignment `Right` or
`Default` with `zero_pad` set, for a value below `2^64` and a base in 2..16,
the appended text is `L` fill characters, the sign, the base marker, the
digits and `R` fill characters, where `pad = max(min_width, s + m + d) -
(s + m + d)` for the lengths `s`, `m`, `d` of the sign, the marker and the
digits, and `(L, R)` is `(0, pad)` for `Left`, `(pad / 2, ceil_div pad 2)` for
`Center` and `(pad, 0)` for `Right` and `Default`.  No `0` is emitted as
padding: with `Left` or `Center`, `zero_pad` changes nothing. -/
theorem put_u64_fill_layout (builder : StringBuilder) (value base : Nat)
    ( use_prefix upper_case zero_pad : Bool) (align : Align) (min_width : Nat) (fill : Char)
    (sign_mode : SignMode) (is_negative : Bool) (hv : value < 2 ^ 64)
    (hb : 2 ≤ base ∧ base ≤ 16)
    (hcase : ¬ ((align = Align.Right ∨ align = Align.Default) ∧ zero_pad = true)) :
    (∃ (pad left right : Nat),
      pad = max min_width
          ((sign_text sign_mode is_negative).length +
            (base_marker use_prefix base upper_case).length +
            (digit_text base upper_case value).length) -
        ((sign_text sign_mode is_negative).length +
          (base_marker use_prefix base upper_case).length +
          (digit_text base upper_case value).length) ∧
      (left, right) =
        (match align with
          | Align.Left => (0, pad)
          | Align.Center => (pad / 2, ceil_div pad 2)
          | Align.Right => (pad, 0)
          | Align.Default => (pad, 0)) ∧
      put_u64 builder value base use_prefix upper_case zero_pad align min_width fill sign_mode
          is_negative =
        .ok (builder ++ List.replicate left fill ++ sign_text sign_mode is_negative ++
          base_marker use_prefix base upper_case ++ digit_text base upper_case value ++
          List.replicate right fill)) ∧
    put_u64 builder value base use_prefix upper_case zero_pad align min_width fill sign_mode
        is_negative =
      put_u64 builder value base use_prefix upper_case false align min_width fill sign_mode
        is_negative := by
  have heq := put_u64_eq builder value base use_prefix upper_case zero_pad align min_width fill
    sign_mode is_negative hv hb
  have heq0 := put_u64_eq builder value base use_prefix upper_case false align min_width fill
    sign_mode is_negative hv hb
  have hpad : max min_width
        ((sign_text sign_mode is_negative).length +
          (base_marker use_prefix base upper_case).length +
          (digit_text base upper_case value).length) =
      max ((sign_text sign_mode is_negative ++ base_marker use_prefix base upper_case).length +
          (digit_text base upper_case value).length) min_width := by
    rw [List.length_append, max_comm]
  have hlen : (sign_text sign_mode is_negative).length +
        (base_marker use_prefix base upper_case).length +
        (digit_text base upper_case value).length =
      (sign_text sign_mode is_negative ++ base_marker use_prefix base upper_case).length +
        (digit_text base upper_case value).length := by
    rw [List.length_append]
  constructor
  · refine ⟨_, _, _, rfl, rfl, ?_⟩
    rw [heq, hpad, hlen]
    cases align <;> cases zero_pad <;>
      first
        | (exfalso; exact hcase (by decide))
        | simp [u64_text, ceil_div_two]
  · rw [heq, heq0]
    cases align <;> cases zero_pad <;>
      first
        | (exfalso; exact hcase (by decide))
        | rfl

/-- Witness of C27: the value 255 in base 16 with its marker, `Center`
alignment with `zero_pad` set, in a field of width 9 filled with `*`. -/
theorem put_u64_fill_layout_witness :
    (255 < 2 ^ 64 ∧ (2 ≤ 16 ∧ 16 ≤ 16) ∧
      ¬ ((Align.Center = Align.Right ∨ Align.Center = Align.Default) ∧ true = true)) ∧
    put_u64 [] 255 16 true false true Align.Center 9 '*' SignMode.OnlyIfNeeded false =
      .ok ['*', '*', '0', 'x', 'f', 'f', '*', '*', '*'] ∧
    ((∃ (pad left right : Nat),
      pad = max 9
          ((sign_text SignMode.OnlyIfNeeded false).length +
            (base_marker true 16 false).length +
            (digit_text 16 false 255).length) -
        ((sign_text SignMode.OnlyIfNeeded false).length +
          (base_marker true 16 false).length +
          (digit_text 16 false 255).length) ∧
      (left, right) =
        (match Align.Center with
          | Align.Left => (0, pad)
          | Align.Center => (pad / 2, ceil_div pad 2)
          | Align.Right => (pad, 0)
          | Align.Default => (pad, 0)) ∧
      put_u64 [] 255 16 true false true Align.Center 9 '*' SignMode.OnlyIfNeeded false =
        .ok ([] ++ List.replicate left '*' ++ sign_text SignMode.OnlyIfNeeded false ++
          base_marker true 16 false ++ digit_text 16 false 255 ++
          List.replicate right '*')) ∧
    put_u64 [] 255 16 true false true Align.Center 9 '*' SignMode.OnlyIfNeeded false =
      put_u64 [] 255 16 true false false Align.Center 9 '*' SignMode.OnlyIfNeeded false) :=
  ⟨by decide, by decide,
    put_u64_fill_layout [] 255 16 true false true Align.Center 9 '*' SignMode.OnlyIfNeeded false
      (by decide) (by decide) (by decide)⟩

/-! ## C21: the span of a field -/

theorem consume_specifier_loop_balanced : ∀ (opts pre tail : List Char) (fuel d d1 : Nat),
    brace_depth d opts = some d1 → opts.length < fuel →
    consume_specifier_loop fuel (lexer_at pre (opts ++ tail)) (d + 1) =
      consume_specifier_loop (fuel - opts.length) (lexer_at (pre ++ opts) tail) (d1 + 1) := by
  intro opts
  induction opts with
  | nil =>
    intro pre tail fuel d d1 h _
    simp only [brace_depth, Option.some.injEq] at h
    subst h
    simp
  | cons c r ih =>
    intro pre tail fuel d d1 h hfuel
    obtain ⟨fuel, rfl⟩ : ∃ f, fuel = f + 1 := ⟨fuel - 1, by simp at hfuel; omega⟩
    have hfuel1 : r.length < fuel := by simp at hfuel; omega
    have hsub : fuel + 1 - (c :: r).length = fuel - r.length := by simp
    have hpre : pre ++ c :: r = pre ++ [c] ++ r := by simp
    have heof : (lexer_at pre (c :: (r ++ tail))).is_eof = false := by
      rw [lexer_at_is_eof]; rfl
    rw [hsub, hpre]
    simp only [brace_depth] at h
    by_cases hc1 : c = '{'
    · subst hc1
      simp only [if_true] at h
      rw [← ih (pre ++ ['{']) tail fuel (d + 1) d1 h hfuel1]
      simp only [consume_specifier_loop, heof, List.cons_append, lexer_at_consume_specific_hit]
      simp
    · simp only [hc1, if_false] at h
      by_cases hc2 : c = '}'
      · subst hc2
        simp only [if_true] at h
        by_cases hd : d = 0
        · simp [hd] at h
        · simp only [hd, if_false] at h
          have IH := ih (pre ++ ['}']) tail fuel (d - 1) d1 h hfuel1
          rw [show d - 1 + 1 = d by omega] at IH
          rw [← IH]
          simp only [consume_specifier_loop, heof, List.cons_append,
            lexer_at_consume_specific_hit,
            lexer_at_consume_specific_miss pre '{' '}' _ (by decide)]
          simp
      · simp only [hc2, if_false] at h
        rw [← ih (pre ++ [c]) tail fuel d d1 h hfuel1]
        simp only [consume_specifier_loop, heof, List.cons_append,
          lexer_at_consume_specific_miss pre '{' c _ hc1,
          lexer_at_consume_specific_miss pre '}' c _ hc2, lexer_at_consume]
        simp

theorem field_index_eq (idx : List Char) :
    (if (!idx.isEmpty) = true then dec_value idx % SIZE_MOD else use_next_index) =
      field_index idx := by
  cases idx <;> simp [field_index]

/-- C21. For a parser that stands before `{` idx `:` opts `}` rest, where
idx is a run of decimal digits, possibly empty, and opts has balanced braces,
`consume_specifier` returns true with the options span exactly opts, nested
fields included, and leaves the parser before rest; before `{` idx `}` rest
it returns true with the empty options span.  The index is the sentinel
`use_next_index` when idx is empty and the value of idx as a `size_t`
otherwise, which is the value of idx itself when that is below `2^64`. -/
theorem consume_specifier_span (pre idx opts rest : List Char)
    (hidx : ∀ c ∈ idx, is_ascii_digit c = true) (hopts : balanced_braces opts = true) :
    consume_specifier (lexer_at pre ('{' :: (idx ++ ':' :: (opts ++ '}' :: rest)))) =
      .ok (some ⟨opts, field_index idx⟩,
        lexer_at (pre ++ '{' :: (idx ++ ':' :: (opts ++ ['}']))) rest) ∧
    consume_specifier (lexer_at pre ('{' :: (idx ++ '}' :: rest))) =
      .ok (some ⟨[], field_index idx⟩, lexer_at (pre ++ '{' :: (idx ++ ['}'])) rest) ∧
    (idx = [] → field_index idx = use_next_index) ∧
    (idx ≠ [] → dec_value idx < 2 ^ 64 → field_index idx = dec_value idx) := by
  have hbal : brace_depth 0 opts = some 0 := by
    simpa [balanced_braces] using hopts
  refine ⟨?_, ?_, ?_, ?_⟩
  · have hnum := consume_number_digits (pre ++ ['{']) idx (':' :: (opts ++ '}' :: rest)) hidx
      (by rw [List.getD_cons_zero]; decide)
    have hloop := consume_specifier_loop_balanced opts (pre ++ ['{'] ++ idx ++ [':'])
      ('}' :: rest)
      ((lexer_at (pre ++ ['{'] ++ idx ++ [':']) (opts ++ '}' :: rest)).m_input.length -
        (lexer_at (pre ++ ['{'] ++ idx ++ [':']) (opts ++ '}' :: rest)).m_index + 1) 0 0 hbal
      (by simp [lexer_at]; omega)
    have hfuel : (lexer_at (pre ++ ['{'] ++ idx ++ [':']) (opts ++ '}' :: rest)).m_input.length -
        (lexer_at (pre ++ ['{'] ++ idx ++ [':']) (opts ++ '}' :: rest)).m_index + 1 -
          opts.length = rest.length + 1 + 1 := by
      simp [lexer_at]; omega
    rw [hfuel] at hloop
    have hlast : consume_specifier_loop (rest.length + 1 + 1)
        (lexer_at (pre ++ ['{'] ++ idx ++ [':'] ++ opts) ('}' :: rest)) (0 + 1) =
        .ok (lexer_at (pre ++ ['{'] ++ idx ++ [':'] ++ opts ++ ['}']) rest) := by
      have heof : (lexer_at (pre ++ ['{'] ++ idx ++ [':'] ++ opts) ('}' :: rest)).is_eof =
          false := by
        rw [lexer_at_is_eof]; rfl
      simp only [consume_specifier_loop, heof, lexer_at_consume_specific_hit,
        lexer_at_consume_specific_miss _ '{' '}' _ (by decide)]
      simp
    rw [hlast] at hloop
    simp only [consume_specifier, lexer_at_peek, List.getD_cons_zero,
      lexer_at_consume_specific_hit, hnum, field_index_eq]
    rw [if_neg (by decide)]
    simp only [Nat.zero_add] at hloop
    rw [hloop]
    have hsubstr : ∀ (P : List Char),
        substring_view (P ++ opts ++ ['}'] ++ rest) P.length
          ((P ++ opts ++ ['}']).length - P.length - 1) = opts := by
      intro P
      simp only [substring_view, List.append_assoc, List.drop_left, List.length_append,
        List.length_singleton]
      rw [show P.length + (opts.length + 1) - P.length - 1 = opts.length by omega,
        List.take_left]
    have h := hsubstr (pre ++ ['{'] ++ idx ++ [':'])
    simp only [lexer_at, GenericLexer.tell, Outcome.ok.injEq, Prod.mk.injEq, Option.some.injEq,
      FormatSpecifier.mk.injEq, and_true]
    refine ⟨h, ?_⟩
    simp
  · have hnum := consume_number_digits (pre ++ ['{']) idx ('}' :: rest) hidx
      (by rw [List.getD_cons_zero]; decide)
    simp only [consume_specifier, lexer_at_peek, List.getD_cons_zero,
      lexer_at_consume_specific_hit, hnum, field_index_eq,
      lexer_at_consume_specific_miss _ ':' '}' _ (by decide)]
    simp
  · intro h; simp [field_index, h]
  · intro h hlt
    have : idx.isEmpty = false := by cases idx <;> simp at h ⊢
    simp only [field_index, this, Bool.false_eq_true, if_false]
    exact Nat.mod_eq_of_lt (by simpa [SIZE_MOD] using hlt)

/-- Witness of C21: after `a`, the field with index `12` and options `*^{0}`,
followed by `z`. -/
theorem consume_specifier_span_witness :
    ((∀ c ∈ ['1', '2'], is_ascii_digit c = true) ∧
      balanced_braces ['*', '^', '{', '0', '}'] = true) ∧
    consume_specifier ⟨['a', '{', '1', '2', ':', '*', '^', '{', '0', '}', '}', 'z'], 1⟩ =
      .ok (some ⟨['*', '^', '{', '0', '}'], 12⟩,
        ⟨['a', '{', '1', '2', ':', '*', '^', '{', '0', '}', '}', 'z'], 11⟩) ∧
    (consume_specifier
        (lexer_at ['a']
          ('{' :: (['1', '2'] ++ ':' :: (['*', '^', '{', '0', '}'] ++ '}' :: ['z'])))) =
      .ok (some ⟨['*', '^', '{', '0', '}'], field_index ['1', '2']⟩,
        lexer_at (['a'] ++ '{' :: (['1', '2'] ++ ':' :: (['*', '^', '{', '0', '}'] ++ ['}'])))
          ['z']) ∧
    consume_specifier (lexer_at ['a'] ('{' :: (['1', '2'] ++ '}' :: ['z']))) =
      .ok (some ⟨[], field_index ['1', '2']⟩,
        lexer_at (['a'] ++ '{' :: (['1', '2'] ++ ['}'])) ['z']) ∧
    (['1', '2'] = [] → field_index ['1', '2'] = use_next_index) ∧
    (['1', '2'] ≠ [] → dec_value ['1', '2'] < 2 ^ 64 →
      field_index ['1', '2'] = dec_value ['1', '2'])) :=
  ⟨by decide, by decide,
    consume_specifier_span ['a'] ['1', '2'] ['*', '^', '{', '0', '}'] ['z'] (by decide)
      (by decide)⟩

/-! ## C22: reading a number -/

theorem dropWhile_head_not_digit (text : List Char) :
    is_ascii_digit ((text.dropWhile is_ascii_digit).getD 0 (Char.ofNat 0)) = false := by
  induction text with
  | nil => decide
  | cons c r ih =>
    by_cases hc : is_ascii_digit c = true
    · simpa [List.dropWhile, hc] using ih
    · simp only [Bool.not_eq_true] at hc
      simp [List.dropWhile, hc]

theorem lexer_eq_lexer_at (l : GenericLexer) (h : l.m_index ≤ l.m_input.length) :
    l = lexer_at (l.m_input.take l.m_index) l.remaining := by
  obtain ⟨input, index⟩ := l
  simp only [lexer_at, GenericLexer.remaining, List.take_append_drop, List.length_take,
    GenericLexer.mk.injEq, true_and]
  simp only at h
  omega

/-- C22. From every parser position `consume_number` consumes the longest run
of ASCII decimal digits that starts there, and nothing else: what remains
starts with no digit.  It returns true exactly when the run is not empty, and
the value it stores is the decimal value of the run modulo `2^64`: the decimal
value itself when that is below `2^64`, and 0 for the empty run.  On `123abc`
it reads 123 and stops before `a`; on `18446744073709551617` it reads 1; on
`x` it reads nothing and returns false with the value 0. -/
theorem consume_number_longest_run (l : GenericLexer) :
    (∃ run rest, l.remaining = run ++ rest ∧
      run = l.remaining.takeWhile is_ascii_digit ∧
      (∀ c ∈ run, is_ascii_digit c = true) ∧
      is_ascii_digit (rest.getD 0 (Char.ofNat 0)) = false ∧
      consume_number l =
        .ok (!run.isEmpty, dec_value run % SIZE_MOD,
          { l with m_index := l.m_index + run.length }) ∧
      (dec_value run < 2 ^ 64 → dec_value run % SIZE_MOD = dec_value run) ∧
      (run = [] → dec_value run % SIZE_MOD = 0)) ∧
    consume_number ⟨['1', '2', '3', 'a', 'b', 'c'], 0⟩ =
      .ok (true, 123, ⟨['1', '2', '3', 'a', 'b', 'c'], 3⟩) ∧
    consume_number ⟨"18446744073709551617".toList, 0⟩ =
      .ok (true, 1, ⟨"18446744073709551617".toList, 20⟩) ∧
    consume_number ⟨['x'], 0⟩ = .ok (false, 0, ⟨['x'], 0⟩) := by
  refine ⟨?_, by decide, by decide, by decide⟩
  refine ⟨l.remaining.takeWhile is_ascii_digit, l.remaining.dropWhile is_ascii_digit,
    (List.takeWhile_append_dropWhile _ _).symm, rfl, ?_, dropWhile_head_not_digit _, ?_, ?_, ?_⟩
  · intro c hc
    exact List.mem_takeWhile_imp hc
  · by_cases hidx : l.m_index ≤ l.m_input.length
    · have hl := lexer_eq_lexer_at l hidx
      have hsplit : l.remaining =
          l.remaining.takeWhile is_ascii_digit ++ l.remaining.dropWhile is_ascii_digit :=
        (List.takeWhile_append_dropWhile _ _).symm
      have hnum := consume_number_digits (l.m_input.take l.m_index)
        (l.remaining.takeWhile is_ascii_digit) (l.remaining.dropWhile is_ascii_digit)
        (fun c hc => List.mem_takeWhile_imp hc) (dropWhile_head_not_digit _)
      rw [← hsplit, ← hl] at hnum
      rw [hnum]
      simp only [Outcome.ok.injEq, Prod.mk.injEq, true_and]
      obtain ⟨input, index⟩ := l
      simp only [lexer_at, GenericLexer.remaining, GenericLexer.mk.injEq, List.length_append,
        List.length_take] at hidx ⊢
      constructor
      · conv_rhs => rw [← List.take_append_drop index input]
        rw [List.append_assoc, List.takeWhile_append_dropWhile]
      · rw [Nat.min_eq_left hidx]
    · have hrem : l.remaining = [] := by
        simp only [GenericLexer.remaining]
        exact List.drop_eq_nil_of_le (by omega)
      have hpeek : l.peek 0 = Char.ofNat 0 := by
        simp only [GenericLexer.peek]
        rw [List.getD_eq_default]
        omega
      have hfuel : l.m_input.length - l.m_index + 1 = 0 + 1 := by omega
      have hdig : is_ascii_digit (Char.ofNat 0) = false := by decide
      simp only [hrem, List.takeWhile_nil, consume_number, hfuel, consume_number_loop, hpeek,
        hdig]
      simp [dec_value]
  · intro h
    exact Nat.mod_eq_of_lt (by simpa [SIZE_MOD] using h)
  · intro h
    rw [h]
    simp [dec_value]

/-! ## The decimal point in numerals -/

theorem digit_char_ne_point (upper_case : Bool) (d : Nat) (hd : d < 16) :
    digit_char upper_case d ≠ '.' := by
  interval_cases d <;> cases upper_case <;> decide

theorem digit_text_no_point (base : Nat) (upper_case : Bool) (value : Nat)
    (hb : 2 ≤ base ∧ base ≤ 16) : '.' ∉ digit_text base upper_case value := by
  intro h
  obtain ⟨d, hd, hc⟩ := digit_text_mem base upper_case value hb.1 '.' h
  exact digit_char_ne_point upper_case d (by omega) hc.symm

theorem u64_text_no_point (value base : Nat) (upper_case zero_pad : Bool) (width : Nat)
    (sign_mode : SignMode) (is_negative : Bool) (hb : 2 ≤ base ∧ base ≤ 16) :
    '.' ∉ u64_text value base false upper_case zero_pad Align.Right width ' ' sign_mode
      is_negative := by
  have hd := digit_text_no_point base upper_case value hb
  have hs : '.' ∉ sign_text sign_mode is_negative := by
    cases is_negative <;> cases sign_mode <;> simp [sign_text]
  intro h
  cases zero_pad <;>
    simp only [u64_text, base_marker, Bool.false_eq_true, if_false, if_true, List.append_nil,
      List.mem_append, List.mem_replicate] at h
  · rcases h with (⟨_, h⟩ | h) | h
    · exact absurd h (by decide)
    · exact hs h
    · exact hd h
  · rcases h with (h | ⟨_, h⟩) | h
    · exact hs h
    · exact absurd h (by decide)
    · exact hd h

/-! ## The rounding of binary64 -/

theorem bit_length_loop_spec : ∀ (fuel n : Nat), n ≤ fuel →
    n < 2 ^ Double.bit_length_loop fuel n ∧
      (n ≠ 0 → 2 ^ (Double.bit_length_loop fuel n - 1) ≤ n) := by
  intro fuel
  induction fuel with
  | zero =>
    intro n hn
    have : n = 0 := by omega
    subst this
    simp [Double.bit_length_loop]
  | succ fuel ih =>
    intro n hn
    by_cases h0 : n = 0
    · subst h0
      simp [Double.bit_length_loop]
    · simp only [Double.bit_length_loop, h0, if_false, Nat.add_sub_cancel]
      obtain ⟨h1, h2⟩ := ih (n / 2) (by omega)
      constructor
      · rw [pow_succ]; omega
      · intro _
        by_cases h3 : n / 2 = 0
        · have : Double.bit_length_loop fuel (n / 2) = 0 := by
            rw [h3]; cases fuel <;> simp [Double.bit_length_loop]
          rw [this]; simp; omega
        · have h4 := h2 h3
          obtain ⟨b, hb⟩ : ∃ b, Double.bit_length_loop fuel (n / 2) = b + 1 := by
            cases hc : Double.bit_length_loop fuel (n / 2) with
            | zero => rw [hc] at h1; simp at h1; omega
            | succ b => exact ⟨b, rfl⟩
          rw [hb] at h4 ⊢
          simp only [Nat.add_sub_cancel] at h4
          rw [pow_succ]; omega

theorem lt_pow_bit_length (n : Nat) : n < 2 ^ Double.bit_length n :=
  (bit_length_loop_spec n n (le_refl _)).1

theorem pow_bit_length_le (n : Nat) (h : n ≠ 0) : 2 ^ (Double.bit_length n - 1) ≤ n :=
  (bit_length_loop_spec n n (le_refl _)).2 h

theorem bit_length_le_of_lt_pow (n k : Nat) (h : n < 2 ^ k) : Double.bit_length n ≤ k := by
  by_cases h0 : n = 0
  · subst h0; simp [Double.bit_length, Double.bit_length_loop]
  · have h1 := pow_bit_length_le n h0
    by_contra hc
    have : 2 ^ k ≤ 2 ^ (Double.bit_length n - 1) := Nat.pow_le_pow_right (by norm_num) (by omega)
    omega

theorem bit_length_mono (n m : Nat) (h : n ≤ m) : Double.bit_length n ≤ Double.bit_length m :=
  bit_length_le_of_lt_pow n _ (lt_of_le_of_lt h (lt_pow_bit_length m))

theorem bit_length_ge_of_pow_le (n k : Nat) (h : 2 ^ k ≤ n) : k + 1 ≤ Double.bit_length n := by
  by_contra hc
  have h1 := lt_pow_bit_length n
  have : 2 ^ Double.bit_length n ≤ 2 ^ k := Nat.pow_le_pow_right (by norm_num) (by omega)
  omega

theorem ulp_eq (n : Nat) : Double.ulp n = 2 ^ (Double.bit_length n - 53) := by
  simp [Double.ulp, Nat.shiftLeft_eq]

theorem ulp_pos (n : Nat) : 0 < Double.ulp n := by
  rw [ulp_eq]; positivity

theorem ulp_dvd_ulp (n m : Nat) (h : n ≤ m) : Double.ulp n ∣ Double.ulp m := by
  rw [ulp_eq, ulp_eq]
  exact Nat.pow_dvd_pow 2 (Nat.sub_le_sub_right (bit_length_mono n m h) 53)

/-- A magnitude is below `2^53` units in the last place. -/
theorem lt_ulp_mul (n : Nat) : n < 2 ^ 53 * Double.ulp n := by
  rw [ulp_eq, ← pow_add]
  have h1 := lt_pow_bit_length n
  have : 2 ^ Double.bit_length n ≤ 2 ^ (53 + (Double.bit_length n - 53)) :=
    Nat.pow_le_pow_right (by norm_num) (by omega)
  omega

/-- A magnitude with more than 53 binary digits is at least `2^52` units in
the last place. -/
theorem ulp_mul_le (n : Nat) (h : 53 < Double.bit_length n) : 2 ^ 52 * Double.ulp n ≤ n := by
  rw [ulp_eq, ← pow_add]
  have h0 : n ≠ 0 := by
    intro h0; subst h0; simp [Double.bit_length, Double.bit_length_loop] at h
  have h1 := pow_bit_length_le n h0
  have : 52 + (Double.bit_length n - 53) = Double.bit_length n - 1 := by omega
  rw [this]; exact h1

theorem ulp_eq_one (n : Nat) (h : Double.bit_length n ≤ 53) : Double.ulp n = 1 := by
  rw [ulp_eq]
  have : Double.bit_length n - 53 = 0 := by omega
  rw [this]; rfl

theorem round_scaled_one (n : Nat) :
    Double.round_scaled n 1 =
      if Double.ulp n < 2 * (n % Double.ulp n) ∨
          (2 * (n % Double.ulp n) = Double.ulp n ∧ n / Double.ulp n % 2 = 1) then
        (n / Double.ulp n + 1) * Double.ulp n
      else n / Double.ulp n * Double.ulp n := by
  simp [Double.round_scaled]

theorem round_scaled_lower (n : Nat) :
    n / Double.ulp n * Double.ulp n ≤ Double.round_scaled n 1 := by
  rw [round_scaled_one]
  split
  · exact Nat.mul_le_mul_right _ (Nat.le_succ _)
  · exact le_refl _

theorem round_scaled_upper (n : Nat) :
    Double.round_scaled n 1 ≤ (n / Double.ulp n + 1) * Double.ulp n := by
  rw [round_scaled_one]
  split
  · exact le_refl _
  · exact Nat.mul_le_mul_right _ (Nat.le_succ _)

theorem round_scaled_le (n : Nat) : Double.round_scaled n 1 ≤ 2 ^ 53 * Double.ulp n := by
  have h1 := lt_ulp_mul n
  have hu := ulp_pos n
  have hq : n / Double.ulp n < 2 ^ 53 := by
    rw [Nat.div_lt_iff_lt_mul hu]; exact h1
  exact le_trans (round_scaled_upper n) (Nat.mul_le_mul_right _ hq)

theorem round_scaled_ge (n : Nat) (h : 53 < Double.bit_length n) :
    2 ^ 52 * Double.ulp n ≤ Double.round_scaled n 1 := by
  have h1 := ulp_mul_le n h
  have hu := ulp_pos n
  have hq : 2 ^ 52 ≤ n / Double.ulp n := by
    rw [Nat.le_div_iff_mul_le hu]; exact h1
  exact le_trans (Nat.mul_le_mul_right _ hq) (round_scaled_lower n)

theorem round_scaled_exact (n : Nat) (h : Double.ulp n ∣ n) : Double.round_scaled n 1 = n := by
  have hu := ulp_pos n
  have hr : n % Double.ulp n = 0 := Nat.mod_eq_zero_of_dvd h
  rw [round_scaled_one, hr]
  have : ¬(Double.ulp n < 2 * 0 ∨ (2 * 0 = Double.ulp n ∧ n / Double.ulp n % 2 = 1)) := by
    omega
  rw [if_neg this]
  exact Nat.div_mul_cancel h

theorem round_scaled_mono (n m : Nat) (h : n ≤ m) :
    Double.round_scaled n 1 ≤ Double.round_scaled m 1 := by
  by_cases hu : Double.ulp n = Double.ulp m
  · have hpos := ulp_pos m
    have hq : n / Double.ulp m ≤ m / Double.ulp m := Nat.div_le_div_right h
    rcases Nat.lt_or_ge (n / Double.ulp m) (m / Double.ulp m) with hlt | hge
    · calc Double.round_scaled n 1 ≤ (n / Double.ulp n + 1) * Double.ulp n :=
            round_scaled_upper n
        _ = (n / Double.ulp m + 1) * Double.ulp m := by rw [hu]
        _ ≤ m / Double.ulp m * Double.ulp m := Nat.mul_le_mul_right _ hlt
        _ ≤ Double.round_scaled m 1 := round_scaled_lower m
    · have hqe : n / Double.ulp m = m / Double.ulp m := le_antisymm hq hge
      have hn := Nat.div_add_mod n (Double.ulp m)
      have hm := Nat.div_add_mod m (Double.ulp m)
      have hr : n % Double.ulp m ≤ m % Double.ulp m := by
        rw [hqe] at hn
        omega
      rw [round_scaled_one, round_scaled_one, hu, hqe]
      by_cases hup : Double.ulp m < 2 * (n % Double.ulp m) ∨
          (2 * (n % Double.ulp m) = Double.ulp m ∧ m / Double.ulp m % 2 = 1)
      · have hup2 : Double.ulp m < 2 * (m % Double.ulp m) ∨
            (2 * (m % Double.ulp m) = Double.ulp m ∧ m / Double.ulp m % 2 = 1) := by
          rcases hup with h1 | ⟨h1, h2⟩
          · left; omega
          · rcases Nat.lt_or_ge (n % Double.ulp m) (m % Double.ulp m) with h3 | h3
            · left; omega
            · right; exact ⟨by omega, h2⟩
        rw [if_pos hup, if_pos hup2]
      · rw [if_neg hup]
        split
        · exact Nat.mul_le_mul_right _ (Nat.le_succ _)
        · exact le_refl _
  · have hb := bit_length_mono n m h
    have hlt : Double.bit_length n - 53 < Double.bit_length m - 53 := by
      rcases Nat.lt_or_ge (Double.bit_length n - 53) (Double.bit_length m - 53) with h1 | h1
      · exact h1
      · exfalso
        apply hu
        rw [ulp_eq, ulp_eq]
        congr 1
        omega
    have h53 : 53 < Double.bit_length m := by omega
    have h2 : 2 * Double.ulp n ≤ Double.ulp m := by
      rw [ulp_eq, ulp_eq, ← pow_succ']
      exact Nat.pow_le_pow_right (by norm_num) hlt
    calc Double.round_scaled n 1 ≤ 2 ^ 53 * Double.ulp n := round_scaled_le n
      _ = 2 ^ 52 * (2 * Double.ulp n) := by ring
      _ ≤ 2 ^ 52 * Double.ulp m := Nat.mul_le_mul_left _ h2
      _ ≤ Double.round_scaled m 1 := round_scaled_ge m h53

theorem ulp_dvd_round_scaled (n : Nat) :
    Double.ulp (Double.round_scaled n 1) ∣ Double.round_scaled n 1 := by
  have hdvd : Double.ulp n ∣ Double.round_scaled n 1 := by
    rw [round_scaled_one]
    split
    · exact Dvd.intro_left _ rfl
    · exact Dvd.intro_left _ rfl
  have hle := round_scaled_le n
  rcases Nat.lt_or_ge (Double.round_scaled n 1) (2 ^ 53 * Double.ulp n) with hlt | hge
  · have hb : Double.bit_length (Double.round_scaled n 1) ≤ 53 + (Double.bit_length n - 53) := by
      apply bit_length_le_of_lt_pow
      rw [pow_add, ← ulp_eq]
      exact hlt
    have : Double.ulp (Double.round_scaled n 1) ∣ Double.ulp n := by
      rw [ulp_eq, ulp_eq]
      exact Nat.pow_dvd_pow 2 (by omega)
    exact dvd_trans this hdvd
  · have heq : Double.round_scaled n 1 = 2 ^ (53 + (Double.bit_length n - 53)) := by
      rw [pow_add, ← ulp_eq]
      exact le_antisymm hle hge
    have hb : Double.bit_length (Double.round_scaled n 1) ≤ 54 + (Double.bit_length n - 53) := by
      apply bit_length_le_of_lt_pow
      rw [heq]
      exact Nat.pow_lt_pow_right (by norm_num) (by omega)
    rw [ulp_eq]
    nth_rewrite 2 [heq]
    exact Nat.pow_dvd_pow 2 (by omega)

/-- Between a magnitude that a `double` holds and the next one lies no other:
a magnitude below `p + ulp p` is at most `p`. -/
theorem le_of_lt_next (x p : Nat) (hx : Double.ulp x ∣ x) (hp : Double.ulp p ∣ p)
    (h : x < p + Double.ulp p) : x ≤ p := by
  by_contra hc
  have hlt : p < x := by omega
  have hup := ulp_pos p
  -- the next magnitude is at most the next power of two
  have hnext : p + Double.ulp p ≤ 2 ^ 53 * Double.ulp p := by
    obtain ⟨k, hk⟩ := hp
    have h1 := lt_ulp_mul p
    have hk53 : k < 2 ^ 53 := by
      by_contra hk2
      have : 2 ^ 53 * Double.ulp p ≤ k * Double.ulp p := Nat.mul_le_mul_right _ (by omega)
      rw [mul_comm k] at this
      omega
    have : (k + 1) * Double.ulp p ≤ 2 ^ 53 * Double.ulp p := Nat.mul_le_mul_right _ hk53
    calc p + Double.ulp p = (k + 1) * Double.ulp p := by
          nth_rewrite 1 [hk]; ring
      _ ≤ 2 ^ 53 * Double.ulp p := this
  have hb1 : Double.bit_length p ≤ Double.bit_length x := bit_length_mono p x (le_of_lt hlt)
  have hu : Double.ulp x = Double.ulp p := by
    rw [ulp_eq, ulp_eq]
    congr 1
    by_cases h53 : Double.bit_length x ≤ 53
    · omega
    · have hb2 : Double.bit_length x ≤ 53 + (Double.bit_length p - 53) := by
        apply bit_length_le_of_lt_pow
        rw [pow_add, ← ulp_eq]
        omega
      omega
  rw [hu] at hx
  obtain ⟨a, ha⟩ := hx
  obtain ⟨b, hb⟩ := hp
  have hab : b < a := by
    by_contra hn
    have : Double.ulp p * a ≤ Double.ulp p * b := Nat.mul_le_mul_left _ (by omega)
    omega
  have : Double.ulp p * (b + 1) ≤ Double.ulp p * a := Nat.mul_le_mul_left _ hab
  rw [Nat.mul_add, Nat.mul_one] at this
  omega

theorem ONE_eq : Double.ONE = 2 ^ Double.PLACES := by
  unfold Double.ONE
  rw [Nat.shiftLeft_eq, Nat.one_mul]

theorem LIMIT_eq : Double.LIMIT = 2 ^ (Double.PLACES + 1024) := by
  unfold Double.LIMIT
  rw [Nat.shiftLeft_eq, Nat.one_mul]

theorem ONE_pos : 0 < Double.ONE := by
  rw [ONE_eq]; positivity

theorem ulp_dvd_mod (n : Nat) (h : Double.ulp n ∣ n) :
    Double.ulp (n % Double.ONE) ∣ n % Double.ONE := by
  rw [ONE_eq]
  have hle : n % 2 ^ Double.PLACES ≤ n := Nat.mod_le _ _
  have h1 := ulp_dvd_ulp _ _ hle
  rcases Nat.lt_or_ge (Double.bit_length n - 53) Double.PLACES with hlt | hge
  · have h2 : Double.ulp n ∣ 2 ^ Double.PLACES := by
      rw [ulp_eq]; exact Nat.pow_dvd_pow 2 (le_of_lt hlt)
    exact dvd_trans h1 ((Nat.dvd_mod_iff h2).2 h)
  · have h2 : 2 ^ Double.PLACES ∣ n := by
      refine dvd_trans ?_ h
      rw [ulp_eq]; exact Nat.pow_dvd_pow 2 hge
    rw [Nat.mod_eq_zero_of_dvd h2]
    exact dvd_zero _

theorem ulp_dvd_div_mul (n : Nat) (h : Double.ulp n ∣ n) :
    Double.ulp (n / Double.ONE * Double.ONE) ∣ n / Double.ONE * Double.ONE := by
  rw [ONE_eq]
  have hle : n / 2 ^ Double.PLACES * 2 ^ Double.PLACES ≤ n := Nat.div_mul_le_self _ _
  have h1 := ulp_dvd_ulp _ _ hle
  rcases Nat.lt_or_ge (Double.bit_length n - 53) Double.PLACES with hlt | hge
  · have h2 : Double.ulp n ∣ 2 ^ Double.PLACES := by
      rw [ulp_eq]; exact Nat.pow_dvd_pow 2 (le_of_lt hlt)
    exact dvd_trans h1 (dvd_trans h2 (Dvd.intro_left _ rfl))
  · have h2 : 2 ^ Double.PLACES ∣ n := by
      refine dvd_trans ?_ h
      rw [ulp_eq]; exact Nat.pow_dvd_pow 2 hge
    rw [Nat.div_mul_cancel h2]
    exact h

theorem pack_finite (negative : Bool) (scaled : Nat) (h : scaled < Double.LIMIT) :
    Double.pack negative scaled = Double.finite negative scaled := by
  simp [Double.pack, h]

theorem pow_mul_ONE_lt_LIMIT (n : Nat) (h : n ≤ 2 ^ 65) : n * Double.ONE < Double.LIMIT := by
  rw [ONE_eq, LIMIT_eq]
  calc n * 2 ^ Double.PLACES ≤ 2 ^ 65 * 2 ^ Double.PLACES := Nat.mul_le_mul_right _ h
    _ = 2 ^ (65 + Double.PLACES) := by rw [← pow_add]
    _ < 2 ^ (Double.PLACES + 1024) := Nat.pow_lt_pow_right (by norm_num) (by omega)

theorem pow_ten_table : ∀ k, k < 19 →
    Double.pred (10 ^ k * Double.ONE) % Double.ulp (Double.pred (10 ^ k * Double.ONE)) = 0 ∧
    Double.pred (10 ^ k * Double.ONE) + Double.ulp (Double.pred (10 ^ k * Double.ONE)) =
      10 ^ k * Double.ONE ∧
    Double.round_scaled (Double.pred (10 ^ k * Double.ONE) * 10) 1 <
      10 ^ (k + 1) * Double.ONE := by
  decide

theorem round_scaled_zero : Double.round_scaled 0 1 = 0 := by decide

/-- Multiplying a `double` below `10^k` by `10.0` gives a `double` below
`10^(k+1)`, for `k` up to 18: the product of the largest `double` below `10^k`
rounds to less than `10^(k+1)`. -/
theorem mul_ten_below (k : Nat) (negative : Bool) (m : Nat) (hk : k < 19)
    (hm : Double.ulp m ∣ m) (hlt : m < 10 ^ k * Double.ONE) :
    ∃ m1, Double.mul_ten (Double.finite negative m) = Double.finite negative m1 ∧
      Double.ulp m1 ∣ m1 ∧ m1 < 10 ^ (k + 1) * Double.ONE ∧ (m = 0 → m1 = 0) := by
  obtain ⟨h1, h2, h3⟩ := pow_ten_table k hk
  have hle : m ≤ Double.pred (10 ^ k * Double.ONE) :=
    le_of_lt_next m _ hm (Nat.dvd_of_mod_eq_zero h1) (by rw [h2]; exact hlt)
  have hr : Double.round_scaled (m * 10) 1 < 10 ^ (k + 1) * Double.ONE :=
    lt_of_le_of_lt (round_scaled_mono _ _ (Nat.mul_le_mul_right 10 hle)) h3
  have hpow : 10 ^ (k + 1) ≤ 2 ^ 65 := by
    calc 10 ^ (k + 1) ≤ 10 ^ 19 := Nat.pow_le_pow_right (by norm_num) (by omega)
      _ ≤ 2 ^ 65 := by norm_num
  refine ⟨Double.round_scaled (m * 10) 1, ?_, ulp_dvd_round_scaled _, hr, ?_⟩
  · simp only [Double.mul_ten]
    exact pack_finite _ _ (lt_trans hr (pow_mul_ONE_lt_LIMIT _ hpow))
  · intro h0
    subst h0
    exact round_scaled_zero

theorem iterate_mul_ten_below : ∀ (k : Nat) (negative : Bool) (m : Nat), k ≤ 19 →
    Double.ulp m ∣ m → m < Double.ONE →
    ∃ m1, Nat.iterate Double.mul_ten k (Double.finite negative m) = Double.finite negative m1 ∧
      Double.ulp m1 ∣ m1 ∧ m1 < 10 ^ k * Double.ONE ∧ (m = 0 → m1 = 0) := by
  intro k
  induction k with
  | zero =>
    intro negative m _ hm hlt
    exact ⟨m, rfl, hm, by simpa using hlt, fun h => h⟩
  | succ k ih =>
    intro negative m hk hm hlt
    obtain ⟨m1, h1, h2, h3, h4⟩ := ih negative m (by omega) hm hlt
    obtain ⟨m2, g1, g2, g3, g4⟩ := mul_ten_below k negative m1 (by omega) h2 h3
    refine ⟨m2, ?_, g2, g3, fun h => g4 (h4 h)⟩
    rw [Function.iterate_succ_apply', h1, g1]

theorem two63_eq : Double.of_ratio (2 ^ 63) 1 = Double.finite false (2 ^ 63 * Double.ONE) := by
  decide

theorem zero_eq : Double.of_ratio 0 1 = Double.finite false 0 := by
  decide

theorem to_i64_eq (negative : Bool) (m : Nat) (h : m < 2 ^ 63 * Double.ONE) :
    Double.to_i64 (Double.finite negative m) =
      if negative = true then -((m / Double.ONE : Nat) : Int) else ((m / Double.ONE : Nat) : Int) := by
  have hq : m / Double.ONE < 2 ^ 63 := (Nat.div_lt_iff_lt_mul ONE_pos).2 h
  simp only [Double.to_i64]
  generalize m / Double.ONE = q at hq ⊢
  have hrange : (-(2 ^ 63) : Int) ≤ (if negative = true then -(q : Int) else (q : Int)) ∧
      (if negative = true then -(q : Int) else (q : Int)) < 2 ^ 63 := by
    cases negative <;> simp <;> omega
  rw [if_pos hrange]

theorem to_i64_beyond (m : Nat) (h : 2 ^ 63 * Double.ONE ≤ m) :
    Double.to_i64 (Double.finite false m) = -(2 ^ 63) := by
  have hq : 2 ^ 63 ≤ m / Double.ONE := (Nat.le_div_iff_mul_le ONE_pos).2 h
  simp only [Double.to_i64, Bool.false_eq_true, if_false]
  generalize m / Double.ONE = q at hq ⊢
  have hrange : ¬((-(2 ^ 63) : Int) ≤ (q : Int) ∧ (q : Int) < 2 ^ 63) := by omega
  rw [if_neg hrange]

theorem le_two63 (negative : Bool) (m : Nat) :
    Double.le (Double.of_ratio (2 ^ 63) 1) (Double.finite negative m) =
      decide (negative = false ∧ 2 ^ 63 * Double.ONE ≤ m) := by
  have hpos : 0 < 2 ^ 63 * Double.ONE := Nat.mul_pos (by norm_num) ONE_pos
  rw [two63_eq]
  simp only [Double.le, Double.rank, Bool.false_eq_true, if_false]
  generalize 2 ^ 63 * Double.ONE = c at hpos
  cases negative
  · simp only [Bool.false_eq_true, if_false, true_and]
    congr 1
    exact propext Int.ofNat_le
  · simp only [if_true, Bool.true_eq_false, false_and, decide_False, decide_eq_false_iff_not,
      not_le]
    omega

theorem sub_exact (m c : Nat) (hc : c ≤ m) (hd : Double.ulp (m - c) ∣ m - c)
    (hlt : m - c < Double.LIMIT) :
    Double.sub (Double.finite false m) (Double.finite false c) = Double.finite false (m - c) := by
  simp only [Double.sub, Bool.false_eq_true, if_false]
  by_cases hz : ((m : Int) - (c : Int)) = 0
  · rw [if_pos hz]
    have : m - c = 0 := by omega
    rw [this]
    rfl
  · rw [if_neg hz]
    have hnat : ((m : Int) - (c : Int)).natAbs = m - c := by omega
    have hneg : decide ((m : Int) - (c : Int) < 0) = false := by
      simp only [decide_eq_false_iff_not, not_lt]
      omega
    rw [hnat, hneg, round_scaled_exact _ hd]
    exact pack_finite _ _ hlt

theorem sub_two63_lt (m : Nat) (hlt : m < 2 ^ 64 * Double.ONE) :
    m - 2 ^ 63 * Double.ONE < 2 ^ 63 * Double.ONE := by
  have hone := ONE_pos
  have : 2 ^ 64 * Double.ONE = 2 ^ 63 * Double.ONE + 2 ^ 63 * Double.ONE := by ring
  omega

theorem ulp_dvd_sub_two63 (m : Nat) (hm : Double.ulp m ∣ m) (hlt : m < 2 ^ 64 * Double.ONE) :
    Double.ulp (m - 2 ^ 63 * Double.ONE) ∣ m - 2 ^ 63 * Double.ONE := by
  have hb : Double.bit_length m - 53 ≤ 63 + Double.PLACES := by
    have : Double.bit_length m ≤ 64 + Double.PLACES := by
      apply bit_length_le_of_lt_pow
      rw [ONE_eq, ← pow_add] at hlt
      exact hlt
    clear hm hlt
    omega
  have hd0 : Double.ulp m ∣ 2 ^ 63 * Double.ONE := by
    rw [ulp_eq, ONE_eq, ← pow_add]
    exact Nat.pow_dvd_pow 2 hb
  exact dvd_trans (ulp_dvd_ulp _ _ (Nat.sub_le _ _)) (Nat.dvd_sub' hm hd0)

/-- The conversion to `u64` of a non-negative `double` below `2^64` is its
whole part. -/
theorem to_u64_eq (m : Nat) (hm : Double.ulp m ∣ m) (hlt : m < 2 ^ 64 * Double.ONE) :
    Double.to_u64 (Double.finite false m) = m / Double.ONE := by
  have hone := ONE_pos
  have hd2 := ulp_dvd_sub_two63 m hm hlt
  have hdlt := sub_two63_lt m hlt
  clear hm
  rcases Nat.lt_or_ge m (2 ^ 63 * Double.ONE) with h63 | h63
  · have hq : m / Double.ONE < 2 ^ 63 := (Nat.div_lt_iff_lt_mul hone).2 h63
    have hle : ¬(2 ^ 63 * Double.ONE ≤ m) := not_le.2 h63
    simp only [Double.to_u64, le_two63, hle, and_false, decide_False, Bool.false_eq_true,
      if_false, to_i64_eq false m h63]
    clear hd2
    generalize m / Double.ONE = q at hq ⊢
    omega
  · have hsub := sub_exact m (2 ^ 63 * Double.ONE) h63 hd2
      (lt_trans hdlt (pow_mul_ONE_lt_LIMIT _ (by norm_num)))
    have hq : (m - 2 ^ 63 * Double.ONE) / Double.ONE < 2 ^ 63 :=
      (Nat.div_lt_iff_lt_mul hone).2 hdlt
    have hq2 : (m - 2 ^ 63 * Double.ONE) / Double.ONE = m / Double.ONE - 2 ^ 63 := by
      rw [mul_comm]
      exact Nat.sub_mul_div m Double.ONE (2 ^ 63) (by rw [mul_comm]; exact h63)
    have hq3 : 2 ^ 63 ≤ m / Double.ONE := (Nat.le_div_iff_mul_le hone).2 h63
    simp only [Double.to_u64, le_two63, h63, and_self, decide_True, if_true]
    rw [two63_eq, hsub, to_i64_eq false _ hdlt, hq2]
    simp only [Bool.false_eq_true, if_false]
    clear hd2 hsub
    generalize m / Double.ONE = q at hq3 hq hq2 ⊢
    omega

theorem to_u64_negative_zero : Double.to_u64 (Double.finite true 0) = 0 := by
  decide

/-- The conversion to `u64` is a value of `u64`. -/
theorem to_u64_lt (a : Double) : a.to_u64 < 2 ^ 64 := by
  simp only [Double.to_u64]
  split <;> omega

theorem of_i64_whole (n : Nat) (hn : Double.ulp n ∣ n) (hlt : n < 2 ^ 63 * Double.ONE) :
    Double.of_i64 ((n / Double.ONE : Nat) : Int) =
      Double.finite false (n / Double.ONE * Double.ONE) := by
  have hle : n / Double.ONE * Double.ONE ≤ n := Nat.div_mul_le_self _ _
  have h1 : decide (((n / Double.ONE : Nat) : Int) < 0) = false := by
    simp only [decide_eq_false_iff_not, not_lt]
    exact Int.ofNat_nonneg _
  simp only [Double.of_i64, h1, Int.natAbs_ofNat, round_scaled_exact _ (ulp_dvd_div_mul n hn)]
  exact pack_finite _ _ (lt_of_le_of_lt hle (lt_trans hlt (pow_mul_ONE_lt_LIMIT _ (by norm_num))))

/-- The fraction of a non-negative `double` below `2^63` is exact: it is the
magnitude less its whole part. -/
theorem fraction_part_small (negative : Bool) (n : Nat) (hn : Double.ulp n ∣ n)
    (hlt : n < 2 ^ 63 * Double.ONE) (hs : negative = true → n = 0) :
    fraction_part (Double.finite negative n) = Double.finite negative (n % Double.ONE) := by
  cases negative
  · simp only [fraction_part, to_i64_eq false n hlt, Bool.false_eq_true, if_false,
      of_i64_whole n hn hlt]
    have hle : n / Double.ONE * Double.ONE ≤ n := Nat.div_mul_le_self _ _
    have hmod : n - n / Double.ONE * Double.ONE = n % Double.ONE := by
      rw [Nat.mod_def, mul_comm]
    have hd : Double.ulp (n - n / Double.ONE * Double.ONE) ∣ n - n / Double.ONE * Double.ONE := by
      rw [hmod]; exact ulp_dvd_mod n hn
    rw [sub_exact n _ hle hd (lt_of_le_of_lt (Nat.sub_le _ _)
      (lt_trans hlt (pow_mul_ONE_lt_LIMIT _ (by norm_num)))), hmod]
  · have h0 := hs rfl
    subst h0
    decide

theorem round_two64 : Double.round_scaled (2 ^ 64 * Double.ONE) 1 = 2 ^ 64 * Double.ONE := by
  decide

theorem round_two63 : Double.round_scaled (2 ^ 63 * Double.ONE) 1 = 2 ^ 63 * Double.ONE := by
  decide

theorem of_i64_min : Double.of_i64 (-(2 ^ 63)) = Double.finite true (2 ^ 63 * Double.ONE) := by
  decide

theorem two64_le_LIMIT : 2 ^ 64 * Double.ONE ≤ Double.LIMIT :=
  le_of_lt (pow_mul_ONE_lt_LIMIT _ (by norm_num))

theorem sub_negative (n c : Nat) (hpos : 0 < c) :
    Double.sub (Double.finite false n) (Double.finite true c) =
      Double.pack false (Double.round_scaled (n + c) 1) := by
  simp only [Double.sub, Bool.false_eq_true, if_false, if_true]
  have hz : ¬((n : Int) - -(c : Int) = 0) := by omega
  have hneg : decide ((n : Int) - -(c : Int) < 0) = false := by
    simp only [decide_eq_false_iff_not, not_lt]; omega
  have hnat : ((n : Int) - -(c : Int)).natAbs = n + c := by omega
  rw [if_neg hz, hneg, hnat]

/-- The fraction that `put_f64` takes of a `double` of `2^63` or more, where
the conversion to `i64` gives `-2^63`, is `2^64` or more. -/
theorem fraction_part_beyond (n : Nat) (h : 2 ^ 63 * Double.ONE ≤ n) :
    ∃ r, fraction_part (Double.finite false n) = Double.pack false r ∧
      2 ^ 64 * Double.ONE ≤ r := by
  refine ⟨Double.round_scaled (n + 2 ^ 63 * Double.ONE) 1, ?_, ?_⟩
  · unfold fraction_part
    rw [to_i64_beyond n h, of_i64_min]
    exact sub_negative n _ (Nat.mul_pos (by norm_num) ONE_pos)
  · have h2 : 2 ^ 64 * Double.ONE = 2 ^ 63 * Double.ONE + 2 ^ 63 * Double.ONE := by ring
    exact le_trans (le_of_eq round_two64.symm) (round_scaled_mono _ _ (by omega))

theorem mul_ten_beyond (r : Nat) (h : 2 ^ 64 * Double.ONE ≤ r) :
    ∃ r1, Double.mul_ten (Double.pack false r) = Double.pack false r1 ∧
      2 ^ 64 * Double.ONE ≤ r1 := by
  by_cases hlim : r < Double.LIMIT
  · refine ⟨Double.round_scaled (r * 10) 1, ?_, ?_⟩
    · rw [pack_finite _ _ hlim]; rfl
    · exact le_trans (le_of_eq round_two64.symm) (round_scaled_mono _ _ (by omega))
  · refine ⟨r, ?_, h⟩
    simp [Double.pack, hlim, Double.mul_ten]

theorem iterate_mul_ten_beyond : ∀ (k r : Nat), 2 ^ 64 * Double.ONE ≤ r →
    ∃ r1, Nat.iterate Double.mul_ten k (Double.pack false r) = Double.pack false r1 ∧
      2 ^ 64 * Double.ONE ≤ r1 := by
  intro k
  induction k with
  | zero => intro r h; exact ⟨r, rfl, h⟩
  | succ k ih =>
    intro r h
    obtain ⟨r1, h1, h2⟩ := ih r h
    obtain ⟨r2, g1, g2⟩ := mul_ten_beyond r1 h2
    exact ⟨r2, by rw [Function.iterate_succ_apply', h1, g1], g2⟩

theorem to_i64_pack_beyond (y : Nat) (h : 2 ^ 63 * Double.ONE ≤ y) :
    Double.to_i64 (Double.pack false y) = -(2 ^ 63) := by
  by_cases hlim : y < Double.LIMIT
  · rw [pack_finite _ _ hlim]; exact to_i64_beyond y h
  · simp [Double.pack, hlim, Double.to_i64]

/-- The conversion to `u64` of a `double` of `2^64` or more, or of the positive
infinity, gives 0. -/
theorem to_u64_beyond (r : Nat) (h : 2 ^ 64 * Double.ONE ≤ r) :
    Double.to_u64 (Double.pack false r) = 0 := by
  by_cases hlim : r < Double.LIMIT
  · have h2 : 2 ^ 64 * Double.ONE = 2 ^ 63 * Double.ONE + 2 ^ 63 * Double.ONE := by ring
    have h63 : 2 ^ 63 * Double.ONE ≤ r := by omega
    have hpos : 0 < 2 ^ 63 * Double.ONE := Nat.mul_pos (by norm_num) ONE_pos
    have hsub : Double.sub (Double.finite false r) (Double.finite false (2 ^ 63 * Double.ONE)) =
        Double.pack false (Double.round_scaled (r - 2 ^ 63 * Double.ONE) 1) := by
      simp only [Double.sub, Bool.false_eq_true, if_false]
      generalize 2 ^ 63 * Double.ONE = c at hpos h2 h63 h
      have hz : ¬((r : Int) - (c : Int) = 0) := by omega
      have hneg : decide ((r : Int) - (c : Int) < 0) = false := by
        simp only [decide_eq_false_iff_not, not_lt]; omega
      have hnat : ((r : Int) - (c : Int)).natAbs = r - c := by omega
      rw [if_neg hz, hneg, hnat]
    have hy : 2 ^ 63 * Double.ONE ≤ Double.round_scaled (r - 2 ^ 63 * Double.ONE) 1 :=
      le_trans (le_of_eq round_two63.symm) (round_scaled_mono _ _ (by omega))
    rw [pack_finite _ _ hlim]
    simp only [Double.to_u64, le_two63, h63, and_self, decide_True, if_true]
    rw [two63_eq, hsub, to_i64_pack_beyond _ hy]
    decide
  · have : Double.pack false r = Double.infinite false := by simp [Double.pack, hlim]
    rw [this]
    decide

theorem put_f64_epsilon_eq : ∀ (count : Nat) (epsilon : Double),
    put_f64_epsilon count epsilon = Nat.iterate Double.div_ten count epsilon := by
  intro count
  induction count with
  | zero => intro epsilon; rfl
  | succ n ih =>
    intro epsilon
    rw [put_f64_epsilon, ih, Function.iterate_succ_apply]

/-- The digit loop of `put_f64` stops at the first count of iterations after
which the fraction of the value is below the threshold, or after `count`
iterations. -/
theorem put_f64_loop_eq : ∀ (count : Nat) (value epsilon : Double) (k : Nat),
    ∃ j, j ≤ count ∧
      put_f64_loop count value epsilon k = (Nat.iterate Double.mul_ten j value, k + j) ∧
      (j < count →
        (fraction_part (Nat.iterate Double.mul_ten j value)).lt
          (Nat.iterate Double.mul_ten j epsilon) = true) ∧
      (∀ i, i < j →
        (fraction_part (Nat.iterate Double.mul_ten i value)).lt
          (Nat.iterate Double.mul_ten i epsilon) = false) := by
  intro count
  induction count with
  | zero =>
    intro value epsilon k
    exact ⟨0, le_refl _, rfl, by simp, by simp⟩
  | succ n ih =>
    intro value epsilon k
    by_cases hstop : (fraction_part value).lt epsilon = true
    · refine ⟨0, Nat.zero_le _, ?_, fun _ => hstop, by simp⟩
      have hstop2 : (value.sub (Double.of_i64 value.to_i64)).lt epsilon = true := hstop
      simp [put_f64_loop, hstop2]
    · obtain ⟨j, hj, hrun, hlast, hall⟩ := ih value.mul_ten epsilon.mul_ten (k + 1)
      have hstop2 : ¬(value.sub (Double.of_i64 value.to_i64)).lt epsilon = true := hstop
      refine ⟨j + 1, by omega, ?_, ?_, ?_⟩
      · simp only [put_f64_loop, hstop2, if_false, hrun, Function.iterate_succ_apply]
        rw [show k + 1 + j = k + (j + 1) by omega]
        simp
      · intro h
        simpa only [Function.iterate_succ_apply] using hlast (by omega)
      · intro i hi
        cases i with
        | zero => simpa using hstop
        | succ i => simpa only [Function.iterate_succ_apply] using hall i (by omega)

theorem put_u64_base_abort (builder : StringBuilder) (value base : Nat)
    ( use_prefix upper_case zero_pad : Bool) (align : Align) (min_width : Nat) (fill : Char)
    (sign_mode : SignMode) (is_negative : Bool) (hb : ¬(2 ≤ base ∧ base ≤ 16)) :
    put_u64 builder value base use_prefix upper_case zero_pad align min_width fill sign_mode
        is_negative = .abort := by
  have hb2 : ¬(base ≥ 2 ∧ base ≤ 16) := hb
  simp only [put_u64, convert_unsigned_to_string, hb2, if_false]

/-- What `put_f64` appends: with a base in 2..16 the sign and the whole part
of the magnitude, and for a positive precision the decimal point, the
fractional digits in `vp` places and the zeros, where the digit loop completes
`vp` iterations, the first count after which the remaining fraction is below
the threshold; with any other base `put_f64` aborts. -/
theorem put_f64_shape (builder : StringBuilder) (value : Double) (base : Nat)
    (upper_case zero_pad : Bool) (align : Align) (min_width precision : Nat) (fill : Char)
    (sign_mode : SignMode) :
    ∃ vp, vp ≤ precision ∧
      put_f64_loop precision (fraction_part (magnitude value))
          (put_f64_epsilon precision (Double.of_ratio 1 2)) 0 =
        (scaled_fraction (magnitude value) vp, vp) ∧
      (vp < precision →
        (remaining_fraction (magnitude value) vp).lt (stop_threshold precision vp) = true) ∧
      (∀ k, k < vp →
        (remaining_fraction (magnitude value) k).lt (stop_threshold precision k) = false) ∧
      put_f64 builder value base upper_case zero_pad align min_width precision fill sign_mode =
        if 2 ≤ base ∧ base ≤ 16 then
          .ok (put_string builder
            (u64_text (magnitude value).to_u64 base false upper_case false Align.Right 0 ' '
                sign_mode (value.lt (Double.of_ratio 0 1)) ++
              (if 0 < precision ∧ (zero_pad = true ∨ 0 < vp) then ['.'] else []) ++
              (if 0 < vp then
                u64_text (scaled_fraction (magnitude value) vp).to_u64 base false upper_case true
                  Align.Right vp ' ' SignMode.OnlyIfNeeded false
              else []) ++
              (if zero_pad = true ∧ 0 < precision - vp then
                u64_text 0 base false false true Align.Right (precision - vp) ' '
                  SignMode.OnlyIfNeeded false
              else []))
            align min_width SIZE_MAX fill)
        else .abort := by
  obtain ⟨vp, hvp, hrun, hlast, hall⟩ := put_f64_loop_eq precision
    (fraction_part (magnitude value)) (put_f64_epsilon precision (Double.of_ratio 1 2)) 0
  rw [Nat.zero_add] at hrun
  refine ⟨vp, hvp, hrun, ?_, ?_, ?_⟩
  · intro h
    have := hlast h
    rw [put_f64_epsilon_eq] at this
    exact this
  · intro k hk
    have := hall k hk
    rw [put_f64_epsilon_eq] at this
    exact this
  · have hmag : (if value.lt (Double.of_ratio 0 1) = true then value.neg else value) =
        magnitude value := rfl
    have hfrac : (magnitude value).sub (Double.of_i64 (magnitude value).to_i64) =
        fraction_part (magnitude value) := rfl
    have hscaled : Nat.iterate Double.mul_ten vp (fraction_part (magnitude value)) =
        scaled_fraction (magnitude value) vp := rfl
    by_cases hb : 2 ≤ base ∧ base ≤ 16
    · rw [if_pos hb]
      simp only [put_f64, hmag]
      rw [put_u64_eq [] _ base false upper_case false Align.Right 0 ' ' sign_mode _
        (to_u64_lt _) hb]
      simp only [List.nil_append]
      by_cases hp : 0 < precision
      · have hp2 : precision > 0 := hp
        simp only [hp2, hp, if_true, true_and, put_f64_fraction, hfrac, hrun]
        by_cases hv : 0 < vp
        · have hv2 : vp > 0 := hv
          simp only [hv, hv2, if_true, or_true]
          rw [put_u64_eq _ _ base false upper_case true Align.Right vp ' ' SignMode.OnlyIfNeeded
            false (to_u64_lt _) hb]
          simp only [hscaled]
          by_cases hz : zero_pad = true ∧ 0 < precision - vp
          · have hz2 : zero_pad = true ∧ precision - vp > 0 := hz
            rw [if_pos hz2, if_pos hz, put_u64_eq _ 0 base false false true Align.Right
              (precision - vp) ' ' SignMode.OnlyIfNeeded false (by norm_num) hb]
          · have hz2 : ¬(zero_pad = true ∧ precision - vp > 0) := hz
            rw [if_neg hz2, if_neg hz]
            simp only [List.append_assoc, List.append_nil]
        · have hz0 : vp = 0 := by omega
          subst hz0
          simp only [lt_self_iff_false, gt_iff_lt, if_false, or_false, Nat.sub_zero,
            List.append_nil]
          by_cases hzp : zero_pad = true
          · simp only [hzp, if_true, true_and, hp]
            rw [put_u64_eq _ 0 base false false true Align.Right precision ' '
              SignMode.OnlyIfNeeded false (by norm_num) hb]
          · simp only [hzp, Bool.false_eq_true, if_false, false_and, List.append_nil]
      · have hz : precision = 0 := by omega
        subst hz
        have hv0 : vp = 0 := by omega
        subst hv0
        simp
    · rw [if_neg hb]
      simp only [put_f64, hmag]
      rw [put_u64_base_abort [] _ base false upper_case false Align.Right 0 ' ' sign_mode _ hb]

theorem magnitude_of_nonneg (value : Double) (h : (Double.of_ratio 0 1).le value = true) :
    value.lt (Double.of_ratio 0 1) = false ∧ magnitude value = value := by
  have hlt : value.lt (Double.of_ratio 0 1) = false := by
    rw [zero_eq] at h ⊢
    cases value with
    | finite negative scaled =>
      simp only [Double.le, Double.lt, Double.rank, Bool.false_eq_true, if_false,
        decide_eq_true_eq, decide_eq_false_iff_not, not_lt] at h ⊢
      exact h
    | infinite negative =>
      simp only [Double.le, Double.lt, Double.rank, Bool.false_eq_true, if_false,
        decide_eq_true_eq, decide_eq_false_iff_not, not_lt] at h ⊢
      exact h
    | nan => rfl
  exact ⟨hlt, by simp [magnitude, hlt]⟩

/-- The variable `value` of `put_f64` after `k` iterations of the digit loop
converts to a number below `10^k`, for a non-negative `double`. -/
theorem scaled_fraction_lt (value : Double) (k : Nat) (hv : value.is_double = true)
    (h0 : (Double.of_ratio 0 1).le value = true) :
    (scaled_fraction value k).to_u64 < 10 ^ k := by
  have hbeyond : ∀ r, fraction_part value = Double.pack false r → 2 ^ 64 * Double.ONE ≤ r →
      (scaled_fraction value k).to_u64 < 10 ^ k := by
    intro r hr hle
    obtain ⟨r1, h1, h2⟩ := iterate_mul_ten_beyond k r hle
    simp only [scaled_fraction, hr, h1, to_u64_beyond r1 h2]
    positivity
  cases value with
  | nan => simp [Double.le, Double.rank] at h0
  | infinite negative =>
    cases negative
    · exact hbeyond Double.LIMIT (by decide) two64_le_LIMIT
    · exfalso
      revert h0
      decide
  | finite negative n =>
    simp only [Double.is_double, decide_eq_true_eq] at hv
    have hn : Double.ulp n ∣ n := Nat.dvd_of_mod_eq_zero hv.2
    have hs : negative = true → n = 0 := by
      intro hneg
      subst hneg
      rw [zero_eq] at h0
      simp only [Double.le, Double.rank, Bool.false_eq_true, if_false, if_true,
        decide_eq_true_eq] at h0
      omega
    rcases Nat.lt_or_ge n (2 ^ 63 * Double.ONE) with h63 | h63
    · have hfrac := fraction_part_small negative n hn h63 hs
      rcases Nat.lt_or_ge k 20 with hk | hk
      · obtain ⟨m1, h1, h2, h3, h4⟩ := iterate_mul_ten_below k negative (n % Double.ONE)
          (by omega) (ulp_dvd_mod n hn) (Nat.mod_lt _ ONE_pos)
        simp only [scaled_fraction, hfrac, h1]
        cases negative
        · have hlt64 : m1 < 2 ^ 64 * Double.ONE := by
            have : 10 ^ k ≤ 2 ^ 64 := by
              calc 10 ^ k ≤ 10 ^ 19 := Nat.pow_le_pow_right (by norm_num) (by omega)
                _ ≤ 2 ^ 64 := by norm_num
            exact lt_of_lt_of_le h3 (Nat.mul_le_mul_right _ this)
          rw [to_u64_eq m1 h2 hlt64]
          exact (Nat.div_lt_iff_lt_mul ONE_pos).2 h3
        · have hn0 := hs rfl
          subst hn0
          have hm1 : m1 = 0 := h4 (Nat.zero_mod _)
          subst hm1
          rw [to_u64_negative_zero]
          positivity
      · calc (scaled_fraction (Double.finite negative n) k).to_u64 < 2 ^ 64 := to_u64_lt _
          _ ≤ 10 ^ 20 := by norm_num
          _ ≤ 10 ^ k := Nat.pow_le_pow_right (by norm_num) hk
    · have hneg : negative = false := by
        cases negative
        · rfl
        · have := hs rfl
          have hpos : 0 < 2 ^ 63 * Double.ONE := Nat.mul_pos (by norm_num) ONE_pos
          omega
      subst hneg
      obtain ⟨r, hr, hle⟩ := fraction_part_beyond n h63
      exact hbeyond r hr hle

/-- The model of `put_f64` computes as the compiled code does, in binary64:
the `double` nearest `0.047` with precision 3 gives `0.046`, the one nearest
`0.3` with precision 1 gives `0.3`, the one nearest `5e-9` with precision 8
gives `0`, and `2^63` with precision 1 gives `9223372036854775808.0`. -/
theorem put_f64_binary64 :
    put_f64 [] (Double.of_ratio 47 1000) 10 false false Align.Right 0 3 ' '
        SignMode.OnlyIfNeeded = .ok ['0', '.', '0', '4', '6'] ∧
    put_f64 [] (Double.of_ratio 3 10) 10 false false Align.Right 0 1 ' '
        SignMode.OnlyIfNeeded = .ok ['0', '.', '3'] ∧
    put_f64 [] (Double.of_ratio 5 1000000000) 10 false false Align.Right 0 8 ' '
        SignMode.OnlyIfNeeded = .ok ['0'] ∧
    put_f64 [] (Double.of_ratio (2 ^ 63) 1) 10 false false Align.Right 0 1 ' '
        SignMode.OnlyIfNeeded =
      .ok ['9', '2', '2', '3', '3', '7', '2', '0', '3', '6', '8', '5', '4', '7', '7', '5', '8',
        '0', '8', '.', '0'] := by
  decide

/-! ## C16: fractional digits -/

/-- C16. `put_f64` in base 10 with the value 1.5, precision 4 and `min_width`
0 appends `1.5` when `zero_pad` is false and `1.5000` when it is true.  In
general, for a non-negative `double` and a precision `p > 0`, `put_f64` in
base 10 hands to `put_string` the sign, the integer part, a decimal point,
`vp` fractional digits and, with `zero_pad`, `p - vp` zeros, with no other
decimal point.  Here `vp ≤ p` is the first count of digits after which the
remaining fraction is below the threshold (or `p` when there is none), the
fractional digits are the numeral in `vp` places of the fraction multiplied
`vp` times by 10 and truncated, and the decimal point is left out when
`vp = 0` and `zero_pad` is false.  With `zero_pad` exactly `p` characters
follow the decimal point.  The arithmetic is that of the code, binary64. -/
theorem put_f64_fraction_digits (builder : StringBuilder) (value : Double)
    (upper_case zero_pad : Bool) (align : Align) (min_width precision : Nat) (fill : Char)
    (sign_mode : SignMode) (hv : value.is_double = true)
    (h0 : (Double.of_ratio 0 1).le value = true) (hp : 0 < precision) :
    (∃ (vp : Nat) (digits : List Char),
      vp ≤ precision ∧
      (vp < precision →
        (remaining_fraction value vp).lt (stop_threshold precision vp) = true) ∧
      (∀ k, k < vp → (remaining_fraction value k).lt (stop_threshold precision k) = false) ∧
      digits.length = vp ∧
      read_numeral 10 digits = (scaled_fraction value vp).to_u64 ∧
      '.' ∉ sign_text sign_mode false ++ digit_text 10 upper_case value.to_u64 ∧
      '.' ∉ digits ∧
      put_f64 builder value 10 upper_case zero_pad align min_width precision fill sign_mode =
        .ok (put_string builder
          (sign_text sign_mode false ++ digit_text 10 upper_case value.to_u64 ++
            (if zero_pad = true ∨ 0 < vp then ['.'] else []) ++ digits ++
            (if zero_pad = true then List.replicate (precision - vp) '0' else []))
          align min_width SIZE_MAX fill) ∧
      (zero_pad = true → (digits ++ List.replicate (precision - vp) '0').length = precision)) ∧
    put_f64 [] (Double.of_ratio 3 2) 10 false false Align.Right 0 4 ' ' SignMode.OnlyIfNeeded =
      .ok ['1', '.', '5'] ∧
    put_f64 [] (Double.of_ratio 3 2) 10 false true Align.Right 0 4 ' ' SignMode.OnlyIfNeeded =
      .ok ['1', '.', '5', '0', '0', '0'] := by
  refine ⟨?_, by decide, by decide⟩
  obtain ⟨hneg, hmag⟩ := magnitude_of_nonneg value h0
  obtain ⟨vp, hvp, _, hlast, hall, hput⟩ := put_f64_shape builder value 10 upper_case zero_pad
    align min_width precision fill sign_mode
  rw [hmag] at hlast hall hput
  rw [hneg, if_pos (by decide)] at hput
  have hlt := scaled_fraction_lt value vp hv h0
  have hwhole : '.' ∉ sign_text sign_mode false ++ digit_text 10 upper_case value.to_u64 := by
    have := u64_text_no_point value.to_u64 10 upper_case false 0 sign_mode false (by decide)
    rwa [u64_text_whole] at this
  refine ⟨vp,
    if 0 < vp then
      List.replicate
        (vp - (digit_text 10 upper_case (scaled_fraction value vp).to_u64).length) '0' ++
        digit_text 10 upper_case (scaled_fraction value vp).to_u64
    else [], hvp, hlast, hall, ?_, ?_, hwhole, ?_, ?_, ?_⟩
  · by_cases hv0 : 0 < vp
    · have := digit_text_length_le_pow upper_case _ vp hv0 hlt
      simp only [hv0, if_true, List.length_append, List.length_replicate]
      omega
    · simp [hv0]; omega
  · by_cases hv0 : 0 < vp
    · simp only [hv0, if_true, read_numeral_zeros]
      exact read_numeral_digit_text 10 upper_case _ (by decide)
    · have hz : vp = 0 := by omega
      subst hz
      simp only [lt_self_iff_false, if_false, pow_zero, Nat.lt_one_iff] at hlt ⊢
      rw [hlt]
      simp [read_numeral]
  · by_cases hv0 : 0 < vp
    · simp only [hv0, if_true, List.mem_append, List.mem_replicate, not_or]
      exact ⟨fun h => absurd h.2 (by decide), digit_text_no_point 10 upper_case _ (by decide)⟩
    · simp [hv0]
  · rw [hput, u64_text_whole]
    by_cases hz : zero_pad = true ∧ 0 < precision - vp
    · rw [if_pos hz, u64_text_zeros _ hz.2]
      by_cases hv0 : 0 < vp
      · simp [hp, hv0, hz.1, u64_text_fraction]
      · simp [hp, hv0, hz.1]
    · rw [if_neg hz]
      by_cases hzp : zero_pad = true
      · have hpv : precision - vp = 0 := by
          by_contra hc
          exact hz ⟨hzp, by omega⟩
        by_cases hv0 : 0 < vp
        · simp [hp, hv0, hzp, hpv, u64_text_fraction]
        · simp [hp, hv0, hzp, hpv]
      · by_cases hv0 : 0 < vp
        · simp [hp, hv0, hzp, u64_text_fraction]
        · simp [hp, hv0, hzp]
  · intro _
    by_cases hv0 : 0 < vp
    · have := digit_text_length_le_pow upper_case _ vp hv0 hlt
      simp only [hv0, if_true, List.length_append, List.length_replicate]
      omega
    · simp [hv0]; omega

/-- Witness of C16: the `double` nearest `0.1004` with precision 3, where the
digits stop after `0.1` because the remaining fraction, about `0.004`, is
below the threshold, about `0.005`. -/
theorem put_f64_fraction_digits_witness :
    ((Double.of_ratio 1004 10000).is_double = true ∧
      (Double.of_ratio 0 1).le (Double.of_ratio 1004 10000) = true ∧ 0 < 3) ∧
    put_f64 [] (Double.of_ratio 1004 10000) 10 false false Align.Right 0 3 ' '
        SignMode.OnlyIfNeeded = .ok ['0', '.', '1'] ∧
    ((∃ (vp : Nat) (digits : List Char),
      vp ≤ 3 ∧
      (vp < 3 →
        (remaining_fraction (Double.of_ratio 1004 10000) vp).lt (stop_threshold 3 vp) = true) ∧
      (∀ k, k < vp →
        (remaining_fraction (Double.of_ratio 1004 10000) k).lt (stop_threshold 3 k) = false) ∧
      digits.length = vp ∧
      read_numeral 10 digits = (scaled_fraction (Double.of_ratio 1004 10000) vp).to_u64 ∧
      '.' ∉ sign_text SignMode.OnlyIfNeeded false ++
        digit_text 10 false (Double.of_ratio 1004 10000).to_u64 ∧
      '.' ∉ digits ∧
      put_f64 [] (Double.of_ratio 1004 10000) 10 false false Align.Right 0 3 ' '
          SignMode.OnlyIfNeeded =
        .ok (put_string []
          (sign_text SignMode.OnlyIfNeeded false ++
            digit_text 10 false (Double.of_ratio 1004 10000).to_u64 ++
            (if false = true ∨ 0 < vp then ['.'] else []) ++ digits ++
            (if false = true then List.replicate (3 - vp) '0' else []))
          Align.Right 0 SIZE_MAX ' ') ∧
      (false = true → (digits ++ List.replicate (3 - vp) '0').length = 3)) ∧
    put_f64 [] (Double.of_ratio 3 2) 10 false false Align.Right 0 4 ' ' SignMode.OnlyIfNeeded =
      .ok ['1', '.', '5'] ∧
    put_f64 [] (Double.of_ratio 3 2) 10 false true Align.Right 0 4 ' ' SignMode.OnlyIfNeeded =
      .ok ['1', '.', '5', '0', '0', '0']) :=
  ⟨by decide, by decide,
    put_f64_fraction_digits [] (Double.of_ratio 1004 10000) false false Align.Right 0 3 ' '
      SignMode.OnlyIfNeeded (by decide) (by decide) (by decide)⟩

/-! ## C17: a zero after the point -/

theorem format_float_precision (default_precision : Nat)
    (params : TypeErasedFormatParams Double) (builder : StringBuilder) (parser : GenericLexer)
    (value : Double) (directive : StandardFormatter) (params1 : TypeErasedFormatParams Double)
    (parser1 : GenericLexer) (precision : Nat)
    (hparse : StandardFormatter.parse float_to_size StandardFormatter.initial params parser =
      .ok (directive, params1, parser1))
    (hprec : directive.m_precision = some precision) :
    format_float default_precision params builder parser value =
      format_float precision params builder parser value := by
  simp only [format_float, hparse, hprec, Option.getD_some]

/-- Counterexample to C17 as stated: on the options `.04f` the method
`StandardFormatter::parse` leaves the zero-pad flag clear, the `0` being read
as the first digit of the precision, and the template `{:.04f}` renders
1.5 as `1.5`, not as `1.5000`. -/
theorem parse_zero_after_point_counterexample :
    StandardFormatter.parse float_to_size StandardFormatter.initial
        (VariadicFormatParams [Double.of_ratio 3 2]) ⟨['.', '0', '4', 'f'], 0⟩ =
      .ok (⟨Align.Default, SignMode.OnlyIfNeeded, Mode.Float, false, ' ', false, none, some 4⟩,
        VariadicFormatParams [Double.of_ratio 3 2], ⟨['.', '0', '4', 'f'], 4⟩) ∧
    vformat (format_float 6) [] ['{', ':', '.', '0', '4', 'f', '}']
        (VariadicFormatParams [Double.of_ratio 3 2]) = .ok ['1', '.', '5'] ∧
    vformat (format_float 6) [] ['{', ':', '.', '0', '4', 'f', '}']
        (VariadicFormatParams [Double.of_ratio 3 2]) ≠ .ok ['1', '.', '5', '0', '0', '0'] := by
  decide

/-- C17 (amended). On the options `.04f` the method `StandardFormatter::parse`
sets the precision 4 and the mode `Float` and leaves the zero-pad flag clear:
the `0` after the point is the first digit of the precision.  The template
`{:.04f}` therefore renders 1.5 as `1.5`.  The zero-pad flag is the `0`
that precedes the width and the point: on `0.4f` the method sets the flag
together with the precision 4 and the mode `Float`, and `{:0.4f}` renders
1.5 as `1.5000`.  This holds whatever precision the formatter takes when the
options give none. -/
theorem parse_zero_after_point (default_precision : Nat) :
    StandardFormatter.parse float_to_size StandardFormatter.initial
        (VariadicFormatParams [Double.of_ratio 3 2]) ⟨['.', '0', '4', 'f'], 0⟩ =
      .ok (⟨Align.Default, SignMode.OnlyIfNeeded, Mode.Float, false, ' ', false, none, some 4⟩,
        VariadicFormatParams [Double.of_ratio 3 2], ⟨['.', '0', '4', 'f'], 4⟩) ∧
    vformat (format_float default_precision) [] ['{', ':', '.', '0', '4', 'f', '}']
        (VariadicFormatParams [Double.of_ratio 3 2]) = .ok ['1', '.', '5'] ∧
    StandardFormatter.parse float_to_size StandardFormatter.initial
        (VariadicFormatParams [Double.of_ratio 3 2]) ⟨['0', '.', '4', 'f'], 0⟩ =
      .ok (⟨Align.Default, SignMode.OnlyIfNeeded, Mode.Float, false, ' ', true, none, some 4⟩,
        VariadicFormatParams [Double.of_ratio 3 2], ⟨['0', '.', '4', 'f'], 4⟩) ∧
    vformat (format_float default_precision) [] ['{', ':', '0', '.', '4', 'f', '}']
        (VariadicFormatParams [Double.of_ratio 3 2]) = .ok ['1', '.', '5', '0', '0', '0'] := by
  refine ⟨by decide, ?_, by decide, ?_⟩
  · rw [vformat_one_field (format_float default_precision) (format_float 4)
      ['{', ':', '.', '0', '4', 'f', '}'] (Double.of_ratio 3 2)
      ⟨['.', '0', '4', 'f'], use_next_index⟩
      ⟨['{', ':', '.', '0', '4', 'f', '}'], 7⟩ (by decide) (by decide) (by decide) rfl
      (format_float_precision default_precision _ [] _ _
        ⟨Align.Default, SignMode.OnlyIfNeeded, Mode.Float, false, ' ', false, none, some 4⟩
        ⟨[Double.of_ratio 3 2], 1⟩ ⟨['.', '0', '4', 'f'], 4⟩ 4 (by decide) rfl)]
    decide
  · rw [vformat_one_field (format_float default_precision) (format_float 4)
      ['{', ':', '0', '.', '4', 'f', '}'] (Double.of_ratio 3 2)
      ⟨['0', '.', '4', 'f'], use_next_index⟩
      ⟨['{', ':', '0', '.', '4', 'f', '}'], 7⟩ (by decide) (by decide) (by decide) rfl
      (format_float_precision default_precision _ [] _ _
        ⟨Align.Default, SignMode.OnlyIfNeeded, Mode.Float, false, ' ', true, none, some 4⟩
        ⟨[Double.of_ratio 3 2], 1⟩ ⟨['0', '.', '4', 'f'], 4⟩ 4 (by decide) rfl)]
    decide

/-! ## C24: the default alignment of floating-point numbers -/

theorem put_f64_number (value : Double) (base : Nat) (upper_case zero_pad : Bool)
    (precision : Nat) (sign_mode : SignMode) :
    ∃ number : Outcome StringBuilder,
      ∀ (builder : StringBuilder) (align : Align) (min_width : Nat) (fill : Char),
        put_f64 builder value base upper_case zero_pad align min_width precision fill
            sign_mode =
          match number with
          | .ok text => .ok (put_string builder text align min_width SIZE_MAX fill)
          | .abort => .abort
          | .nofuel => .nofuel := by
  simp only [put_f64]
  cases h2 : put_u64 []
      (if value.lt (Double.of_ratio 0 1) = true then value.neg else value).to_u64 base false
      upper_case false Align.Right 0 ' ' sign_mode (value.lt (Double.of_ratio 0 1)) with
  | abort => exact ⟨.abort, fun _ _ _ _ => rfl⟩
  | nofuel => exact ⟨.nofuel, fun _ _ _ _ => rfl⟩
  | ok string_builder =>
    simp only
    exact ⟨if precision > 0 then
        put_f64_fraction string_builder
          (if value.lt (Double.of_ratio 0 1) = true then value.neg else value)
          base upper_case zero_pad precision
      else .ok string_builder, fun _ _ _ _ => rfl⟩

/-- Counterexample to C24 as stated: the value 3 with precision 0 in a field
of width 5 under the alignment `Default` gives `3` followed by four blanks;
the padding comes before the number under `Right` only. -/
theorem put_f64_default_counterexample :
    put_f64 [] (Double.of_ratio 3 1) 10 false false Align.Default 5 0 ' '
        SignMode.OnlyIfNeeded = .ok ['3', ' ', ' ', ' ', ' '] ∧
    put_f64 [] (Double.of_ratio 3 1) 10 false false Align.Default 5 0 ' '
        SignMode.OnlyIfNeeded ≠ .ok [' ', ' ', ' ', ' ', '3'] ∧
    put_f64 [] (Double.of_ratio 3 1) 10 false false Align.Right 5 0 ' '
        SignMode.OnlyIfNeeded = .ok [' ', ' ', ' ', ' ', '3'] := by
  decide

/-- C24 (amended). `put_f64` hands the rendered number to `put_string`, where
the alignment `Default` pads like `Left`: for every value, base, precision,
fill and `min_width`, `put_f64` with `Default` gives the result of `put_f64`
with `Left`, and when the number is rendered it appends the number as rendered
with `min_width` 0 and then all the padding, `min_width` less the length of
the number copies of the fill.  The value 3 with precision 0, `min_width` 5 and
a blank fill gives `3` and four blanks. -/
theorem put_f64_default_is_left (builder : StringBuilder) (value : Double) (base : Nat)
    (upper_case zero_pad : Bool) (min_width precision : Nat) (fill : Char)
    (sign_mode : SignMode) :
    put_f64 builder value base upper_case zero_pad Align.Default min_width precision fill
        sign_mode =
      put_f64 builder value base upper_case zero_pad Align.Left min_width precision fill
        sign_mode ∧
    (∀ number,
      put_f64 [] value base upper_case zero_pad Align.Default 0 precision fill sign_mode =
        .ok number →
      put_f64 builder value base upper_case zero_pad Align.Default min_width precision fill
          sign_mode =
        .ok (builder ++ number ++ List.replicate (min_width - number.length) fill)) ∧
    put_f64 [] (Double.of_ratio 3 1) 10 false false Align.Default 5 0 ' '
        SignMode.OnlyIfNeeded = .ok ['3', ' ', ' ', ' ', ' '] := by
  obtain ⟨r, hr⟩ := put_f64_number value base upper_case zero_pad precision sign_mode
  refine ⟨?_, ?_, by decide⟩
  · rw [hr, hr]
    cases r with
    | ok text => simp [put_string]
    | abort => rfl
    | nofuel => rfl
  · intro number h
    rw [hr] at h ⊢
    cases r with
    | ok text =>
      simp only [Outcome.ok.injEq] at h ⊢
      rw [put_string_eq] at h ⊢
      have hpad0 : max 0 (min SIZE_MAX text.length) - min SIZE_MAX text.length = 0 := by
        rw [max_eq_right (Nat.zero_le _), Nat.sub_self]
      simp only [hpad0, List.replicate_zero, List.append_nil, List.nil_append] at h
      have hlen : number.length = min SIZE_MAX text.length := by
        rw [← h, List.length_take]
        exact min_eq_left (min_le_right _ _)
      have hpad : max min_width (min SIZE_MAX text.length) - min SIZE_MAX text.length =
          min_width - number.length := by
        rw [hlen]
        rcases le_total min_width (min SIZE_MAX text.length) with hle | hle
        · rw [max_eq_right hle, Nat.sub_self, Nat.sub_eq_zero_of_le hle]
        · rw [max_eq_left hle]
      simp only [hpad, h, List.replicate_zero, List.append_nil]
    | abort => simp at h
    | nofuel => simp at h

/-! ## C28: the threshold of the fractional digits -/

/-- Counterexample to C28 as stated: for the precision 4 the threshold that
enters the loop is `0.5` divided four times by 10, which is below `0.5`, and
the fraction `0.25` does not stop at once, as it would against `0.5`: two
iterations are completed, and `put_f64` renders `0.25`. -/
theorem put_f64_epsilon_counterexample :
    put_f64_epsilon 4 (Double.of_ratio 1 2) = Double.of_ratio 5 100000 ∧
    (put_f64_epsilon 4 (Double.of_ratio 1 2)).lt (Double.of_ratio 1 2) = true ∧
    put_f64_loop 4 (Double.of_ratio 1 4) (Double.of_ratio 1 2) 0 = (Double.of_ratio 1 4, 0) ∧
    put_f64_loop 4 (Double.of_ratio 1 4) (put_f64_epsilon 4 (Double.of_ratio 1 2)) 0 =
      (Double.of_ratio 25 1, 2) ∧
    put_f64 [] (Double.of_ratio 1 4) 10 false false Align.Right 0 4 ' ' SignMode.OnlyIfNeeded =
      .ok ['0', '.', '2', '5'] ∧
    put_f64 [] (Double.of_ratio 1 4) 10 false false Align.Right 0 4 ' ' SignMode.OnlyIfNeeded ≠
      .ok ['0'] := by
  decide

/-- C28 (amended). In `put_f64` the threshold `epsilon` is initialised to 0.5
and divided by 10 once per requested precision digit before the loop.  For
every value and every precision the digit loop, entered with the fraction of
the magnitude and with that threshold, ends with `visible_precision` completed
iterations: each completed iteration `k` found the remaining fraction not
below the threshold multiplied `k` times by 10 and multiplied the value and
`epsilon` by 10, and when fewer than `precision` iterations are completed the
remaining fraction is below the threshold multiplied `visible_precision` times
by 10.  With a base in 2..16 `put_f64` then hands to `put_string` the sign and
the whole part, the decimal point, the value of the loop in
`visible_precision` places and the zeros; with any other base it aborts.  The
arithmetic is that of the code, binary64.  The fraction `0.25` with precision
4 completes two iterations and is rendered `0.25`. -/
theorem put_f64_threshold (builder : StringBuilder) (value : Double) (base : Nat)
    (upper_case zero_pad : Bool) (align : Align) (min_width precision : Nat) (fill : Char)
    (sign_mode : SignMode) :
    put_f64_epsilon precision (Double.of_ratio 1 2) =
      Nat.iterate Double.div_ten precision (Double.of_ratio 1 2) ∧
    (∀ k, stop_threshold precision k =
      Nat.iterate Double.mul_ten k (put_f64_epsilon precision (Double.of_ratio 1 2))) ∧
    (∃ visible_precision, visible_precision ≤ precision ∧
      put_f64_loop precision (fraction_part (magnitude value))
          (put_f64_epsilon precision (Double.of_ratio 1 2)) 0 =
        (scaled_fraction (magnitude value) visible_precision, visible_precision) ∧
      (visible_precision < precision →
        (remaining_fraction (magnitude value) visible_precision).lt
          (stop_threshold precision visible_precision) = true) ∧
      (∀ k, k < visible_precision →
        (remaining_fraction (magnitude value) k).lt (stop_threshold precision k) = false) ∧
      put_f64 builder value base upper_case zero_pad align min_width precision fill sign_mode =
        if 2 ≤ base ∧ base ≤ 16 then
          .ok (put_string builder
            (u64_text (magnitude value).to_u64 base false upper_case false Align.Right 0 ' '
                sign_mode (value.lt (Double.of_ratio 0 1)) ++
              (if 0 < precision ∧ (zero_pad = true ∨ 0 < visible_precision) then ['.']
                else []) ++
              (if 0 < visible_precision then
                u64_text (scaled_fraction (magnitude value) visible_precision).to_u64 base false
                  upper_case true Align.Right visible_precision ' ' SignMode.OnlyIfNeeded false
              else []) ++
              (if zero_pad = true ∧ 0 < precision - visible_precision then
                u64_text 0 base false false true Align.Right (precision - visible_precision) ' '
                  SignMode.OnlyIfNeeded false
              else []))
            align min_width SIZE_MAX fill)
        else .abort) ∧
    put_f64_loop 4 (Double.of_ratio 1 4) (put_f64_epsilon 4 (Double.of_ratio 1 2)) 0 =
      (Double.of_ratio 25 1, 2) ∧
    put_f64 [] (Double.of_ratio 1 4) 10 false false Align.Right 0 4 ' ' SignMode.OnlyIfNeeded =
      .ok ['0', '.', '2', '5'] := by
  refine ⟨put_f64_epsilon_eq precision _, ?_, ?_, by decide, by decide⟩
  · intro k
    rw [put_f64_epsilon_eq]
    rfl
  · exact put_f64_shape builder value base upper_case zero_pad align min_width precision fill
      sign_mode

/-! ## C29: the decimal point -/

/-- Counterexample to C29 as stated: the value 3 with precision 0 and
`zero_pad` set is rendered as `3`, without a decimal point. -/
theorem put_f64_point_counterexample :
    put_f64 [] (Double.of_ratio 3 1) 10 false true Align.Right 0 0 ' ' SignMode.OnlyIfNeeded =
      .ok ['3'] ∧
    '.' ∉ ['3'] := by
  decide

/-- C29 (amended). For every value and every precision, with a base in 2..16
`put_f64` hands to `put_string` the sign and the integer part, then the
decimal point exactly when the precision is positive and `zero_pad` was
requested or `visible_precision > 0`, then the fractional digits and zeros; no
other decimal point occurs.  With any other base `put_f64` aborts.  With
precision 0 the number has no decimal point whatever `zero_pad` is: the value
3 with `zero_pad` set gives `3` for precision 0 and `3.00` for precision 2,
and without `zero_pad` it gives `3` for precision 2. -/
theorem put_f64_point (builder : StringBuilder) (value : Double) (base : Nat)
    (upper_case zero_pad : Bool) (align : Align) (min_width precision : Nat) (fill : Char)
    (sign_mode : SignMode) :
    (∃ (visible_precision : Nat) (whole tail : List Char),
      visible_precision ≤ precision ∧
      put_f64_loop precision (fraction_part (magnitude value))
          (put_f64_epsilon precision (Double.of_ratio 1 2)) 0 =
        (scaled_fraction (magnitude value) visible_precision, visible_precision) ∧
      '.' ∉ whole ∧ '.' ∉ tail ∧
      put_f64 builder value base upper_case zero_pad align min_width precision fill sign_mode =
        (if 2 ≤ base ∧ base ≤ 16 then
          .ok (put_string builder
            (whole ++
              (if 0 < precision ∧ (zero_pad = true ∨ 0 < visible_precision) then ['.']
                else []) ++
              tail)
            align min_width SIZE_MAX fill)
        else .abort) ∧
      (precision = 0 → tail = [])) ∧
    put_f64 [] (Double.of_ratio 3 1) 10 false true Align.Right 0 0 ' ' SignMode.OnlyIfNeeded =
      .ok ['3'] ∧
    put_f64 [] (Double.of_ratio 3 1) 10 false true Align.Right 0 2 ' ' SignMode.OnlyIfNeeded =
      .ok ['3', '.', '0', '0'] ∧
    put_f64 [] (Double.of_ratio 3 1) 10 false false Align.Right 0 2 ' ' SignMode.OnlyIfNeeded =
      .ok ['3'] ∧
    put_f64 [] (Double.of_ratio 3 2).neg 10 false false Align.Right 0 3 ' '
        SignMode.OnlyIfNeeded = .ok ['-', '1', '.', '5'] := by
  refine ⟨?_, by decide, by decide, by decide, by decide⟩
  obtain ⟨vp, hvp, hrun, _, _, hput⟩ := put_f64_shape builder value base upper_case zero_pad
    align min_width precision fill sign_mode
  by_cases hb : 2 ≤ base ∧ base ≤ 16
  · refine ⟨vp,
      u64_text (magnitude value).to_u64 base false upper_case false Align.Right 0 ' ' sign_mode
        (value.lt (Double.of_ratio 0 1)),
      (if 0 < vp then
        u64_text (scaled_fraction (magnitude value) vp).to_u64 base false upper_case true
          Align.Right vp ' ' SignMode.OnlyIfNeeded false
      else []) ++
      (if zero_pad = true ∧ 0 < precision - vp then
        u64_text 0 base false false true Align.Right (precision - vp) ' '
          SignMode.OnlyIfNeeded false
      else []), hvp, hrun,
      u64_text_no_point (magnitude value).to_u64 base upper_case false 0 sign_mode
        (value.lt (Double.of_ratio 0 1)) hb, ?_, ?_, ?_⟩
    · intro h
      simp only [List.mem_append] at h
      rcases h with h | h
      · split at h
        · exact u64_text_no_point _ _ _ _ _ _ _ hb h
        · simp at h
      · split at h
        · exact u64_text_no_point _ _ _ _ _ _ _ hb h
        · simp at h
    · rw [hput, if_pos hb, if_pos hb]
      simp only [List.append_assoc]
    · intro hz
      subst hz
      have hv0 : vp = 0 := by omega
      subst hv0
      simp
  · refine ⟨vp, [], [], hvp, hrun, by simp, by simp, ?_, fun _ => rfl⟩
    rw [hput, if_neg hb, if_neg hb]

/-! ## C25: the buffer is append-only -/

theorem appended_to_append (a b : StringBuilder) (r : Outcome StringBuilder) :
    appended_to a (appended_to b r) = appended_to (a ++ b) r := by
  cases r <;> simp [appended_to]

theorem put_literal_loop_frame (value : List Char) : ∀ (fuel i : Nat) (a b : StringBuilder),
    put_literal_loop value fuel i (a ++ b) = appended_to a (put_literal_loop value fuel i b) := by
  intro fuel
  induction fuel with
  | zero => intro i a b; rfl
  | succ fuel ih =>
    intro i a b
    simp only [put_literal_loop]
    split
    · rw [List.append_assoc, ih]
    · rfl

theorem put_literal_frame (builder : StringBuilder) (value : List Char) :
    put_literal builder value = appended_to builder (put_literal [] value) := by
  have h := put_literal_loop_frame value (value.length + 1) 0 builder []
  simpa [put_literal] using h

theorem put_digits_frame (buffer : DigitBuffer) : ∀ (count i : Nat) (a b : StringBuilder),
    put_digits buffer count i (a ++ b) = appended_to a (put_digits buffer count i b) := by
  intro count
  induction count with
  | zero => intro i a b; rfl
  | succ count ih =>
    intro i a b
    simp only [put_digits]
    cases DigitBuffer.read buffer i with
    | ok c => simp only; rw [List.append_assoc, ih]
    | abort => rfl
    | nofuel => rfl

theorem put_prefix_frame (a b : StringBuilder) (base : Nat) ( use_prefix upper_case : Bool)
    (sign_mode : SignMode) (is_negative : Bool) :
    put_prefix (a ++ b) base use_prefix upper_case sign_mode is_negative =
      a ++ put_prefix b base use_prefix upper_case sign_mode is_negative := by
  rw [put_prefix_eq, put_prefix_eq]
  simp only [List.append_assoc]

theorem put_padding_frame (a b : StringBuilder) (fill : Char) (n : Nat) :
    put_padding (a ++ b) fill n = a ++ put_padding b fill n := by
  rw [put_padding_eq, put_padding_eq]
  simp only [List.append_assoc]

theorem appended_to_ok (a x : StringBuilder) :
    appended_to a (Outcome.ok x) = Outcome.ok (a ++ x) := rfl

theorem put_u64_frame (builder : StringBuilder) (value base : Nat)
    ( use_prefix upper_case zero_pad : Bool) (align : Align) (min_width : Nat) (fill : Char)
    (sign_mode : SignMode) (is_negative : Bool) :
    put_u64 builder value base use_prefix upper_case zero_pad align min_width fill sign_mode
        is_negative =
      appended_to builder
        (put_u64 [] value base use_prefix upper_case zero_pad align min_width fill sign_mode
          is_negative) := by
  have hb : builder = builder ++ [] := (List.append_nil builder).symm
  simp only [put_u64]
  cases convert_unsigned_to_string value DigitBuffer.fresh base upper_case with
  | abort => rfl
  | nofuel => rfl
  | ok r =>
    obtain ⟨used_by_digits, buffer⟩ := r
    simp only
    generalize hpad : (max ((if (if align = Align.Default then Align.Right else align) =
        Align.Right ∧ zero_pad = true then 0
      else
        (if is_negative = true ∨ sign_mode ≠ SignMode.OnlyIfNeeded then 1 else 0) +
          (if use_prefix then
            (if base = 8 then 1 else if base = 16 then 2 else if base = 2 then 2 else 0)
          else 0)) + used_by_digits) min_width -
      ((if (if align = Align.Default then Align.Right else align) =
        Align.Right ∧ zero_pad = true then 0
      else
        (if is_negative = true ∨ sign_mode ≠ SignMode.OnlyIfNeeded then 1 else 0) +
          (if use_prefix then
            (if base = 8 then 1 else if base = 16 then 2 else if base = 2 then 2 else 0)
          else 0)) + used_by_digits)) = pad
    have h1 : ∀ (n : Nat),
        put_digits buffer used_by_digits 0
            ( put_prefix builder base use_prefix upper_case sign_mode is_negative) =
          appended_to builder (put_digits buffer used_by_digits 0
            ( put_prefix [] base use_prefix upper_case sign_mode is_negative)) := by
      intro _
      conv_lhs => rw [hb, put_prefix_frame, put_digits_frame]
    have h2 : ∀ (n : Nat) (c : Char),
        put_digits buffer used_by_digits 0
            ( put_prefix (put_padding builder c n) base use_prefix upper_case sign_mode
              is_negative) =
          appended_to builder (put_digits buffer used_by_digits 0
            ( put_prefix (put_padding [] c n) base use_prefix upper_case sign_mode
              is_negative)) := by
      intro n c
      conv_lhs => rw [hb, put_padding_frame, put_prefix_frame, put_digits_frame]
    have h3 : ∀ (n : Nat) (c : Char),
        put_digits buffer used_by_digits 0
            (put_padding ( put_prefix builder base use_prefix upper_case sign_mode is_negative)
              c n) =
          appended_to builder (put_digits buffer used_by_digits 0
            (put_padding ( put_prefix [] base use_prefix upper_case sign_mode is_negative)
              c n)) := by
      intro n c
      conv_lhs => rw [hb, put_prefix_frame, put_padding_frame, put_digits_frame]
    cases align
    · simp only [if_true, reduceCtorEq, if_false]
      cases zero_pad
      · simp only [Bool.false_eq_true, if_false]
        exact h2 _ _
      · simp only [if_true]
        exact h3 _ _
    · simp only [if_true, reduceCtorEq, if_false, h1 0]
      cases put_digits buffer used_by_digits 0
          ( put_prefix [] base use_prefix upper_case sign_mode is_negative) with
      | ok x => simp only [appended_to_ok, put_padding_frame]
      | abort => rfl
      | nofuel => rfl
    · simp only [if_true, reduceCtorEq, if_false]
      cases zero_pad
      · simp only [Bool.false_eq_true, if_false]
        exact h2 _ _
      · simp only [if_true]
        exact h3 _ _
    · simp only [if_true, reduceCtorEq, if_false, h2]
      cases put_digits buffer used_by_digits 0
          ( put_prefix (put_padding [] fill (pad / 2)) base use_prefix upper_case sign_mode
            is_negative) with
      | ok x => simp only [appended_to_ok, put_padding_frame]
      | abort => rfl
      | nofuel => rfl

theorem put_i64_frame (builder : StringBuilder) (value : Int) (base : Nat)
    ( use_prefix upper_case zero_pad : Bool) (align : Align) (min_width : Nat) (fill : Char)
    (sign_mode : SignMode) :
    put_i64 builder value base use_prefix upper_case zero_pad align min_width fill sign_mode =
      appended_to builder
        (put_i64 [] value base use_prefix upper_case zero_pad align min_width fill sign_mode) := by
  simp only [put_i64]
  exact put_u64_frame _ _ _ _ _ _ _ _ _ _ _

theorem put_char_view_loop_frame (bytes : List Nat) : ∀ (count j : Nat) (a b : StringBuilder),
    put_char_view_loop bytes count j (a ++ b) =
      appended_to a (put_char_view_loop bytes count j b) := by
  intro count
  induction count with
  | zero => intro j a b; rfl
  | succ count ih =>
    intro j a b
    simp only [put_char_view_loop]
    cases bytes.get? j with
    | none => rfl
    | some ch => simp only; rw [List.append_assoc, ih]

theorem put_char_view_frame (bytes : List Nat) (width : Nat) (fill : Char)
    (a b : StringBuilder) (i : Nat) :
    put_char_view bytes width fill (a ++ b) i =
      appended_to a (put_char_view bytes width fill b i) := by
  simp only [put_char_view, put_padding_eq, List.append_assoc, put_char_view_loop_frame]

theorem put_hexdump_loop_frame (bytes : List Nat) (width : Nat) (fill : Char) :
    ∀ (count i : Nat) (a b : StringBuilder),
      put_hexdump_loop bytes width fill count i (a ++ b) =
        appended_to a (put_hexdump_loop bytes width fill count i b) := by
  intro count
  induction count with
  | zero => intro i a b; rfl
  | succ count ih =>
    intro i a b
    have hbyte : ∀ (x : StringBuilder),
        (match bytes.get? i with
          | some byte =>
            match put_u64 (a ++ x) byte 16 false false true Align.Right 2 ' '
                SignMode.OnlyIfNeeded false with
            | .ok builder2 => put_hexdump_loop bytes width fill count (i + 1) builder2
            | .abort => .abort
            | .nofuel => .nofuel
          | none => .abort) =
        appended_to a
          (match bytes.get? i with
          | some byte =>
            match put_u64 x byte 16 false false true Align.Right 2 ' '
                SignMode.OnlyIfNeeded false with
            | .ok builder2 => put_hexdump_loop bytes width fill count (i + 1) builder2
            | .abort => .abort
            | .nofuel => .nofuel
          | none => .abort) := by
      intro x
      cases bytes.get? i with
      | none => rfl
      | some byte =>
        simp only
        rw [put_u64_frame (a ++ x), put_u64_frame x]
        cases put_u64 [] byte 16 false false true Align.Right 2 ' ' SignMode.OnlyIfNeeded
            false with
        | ok y =>
          simp only [appended_to_ok]
          rw [List.append_assoc, ih]
        | abort => rfl
        | nofuel => rfl
    simp only [put_hexdump_loop]
    by_cases hw : width > 0
    · by_cases hi : i % width = 0 ∧ i ≠ 0
      · simp only [hw, hi, if_true, and_self, ne_eq, not_false_eq_true]
        rw [put_char_view_frame]
        cases put_char_view bytes width fill b i with
        | ok x =>
          simp only [appended_to_ok]
          rw [put_literal_frame (a ++ x), put_literal_frame x]
          cases put_literal [] ['\n'] with
          | ok y =>
            simp only [appended_to_ok]
            rw [List.append_assoc]
            exact hbyte (x ++ y)
          | abort => rfl
          | nofuel => rfl
        | abort => rfl
        | nofuel => rfl
      · simp only [hw, hi, if_true, if_false]
        exact hbyte b
    · simp only [hw, if_false]
      exact hbyte b

theorem put_hexdump_frame (builder : StringBuilder) (bytes : List Nat) (width : Nat)
    (fill : Char) :
    put_hexdump builder bytes width fill =
      appended_to builder (put_hexdump [] bytes width fill) := by
  have h := put_hexdump_loop_frame bytes width fill bytes.length 0 builder []
  simp only [List.append_nil] at h
  simp only [put_hexdump, h]
  cases put_hexdump_loop bytes width fill bytes.length 0 [] with
  | abort => rfl
  | nofuel => rfl
  | ok x =>
    simp only [appended_to]
    split
    · rw [put_char_view_frame bytes width fill builder x bytes.length]
      cases put_char_view bytes width fill x bytes.length <;> rfl
    · rfl

theorem formatter_frame {V : Type} (formatter : FormatterFn V)
    (hformatter : ∀ params builder parser value,
      formatter params builder parser value =
        (formatter params [] parser value).map (fun r => (r.1, builder ++ r.2)))
    (params : TypeErasedFormatParams V) (a b : StringBuilder) (parser : GenericLexer)
    (value : V) :
    formatter params (a ++ b) parser value =
      (formatter params b parser value).map (fun r => (r.1, a ++ r.2)) := by
  rw [hformatter params (a ++ b), hformatter params b]
  cases formatter params [] parser value with
  | ok r => simp [Outcome.map]
  | abort => rfl
  | nofuel => rfl

theorem vformat_impl_frame {V : Type} (formatter : FormatterFn V)
    (hformatter : ∀ params builder parser value,
      formatter params builder parser value =
        (formatter params [] parser value).map (fun r => (r.1, builder ++ r.2))) :
    ∀ (fuel : Nat) (params : TypeErasedFormatParams V) (a b : StringBuilder)
      (parser : GenericLexer),
      vformat_impl formatter fuel params (a ++ b) parser =
        (vformat_impl formatter fuel params b parser).map
          (fun r => (r.1, a ++ r.2.1, r.2.2)) := by
  intro fuel
  induction fuel with
  | zero => intro params a b parser; rfl
  | succ fuel ih =>
    intro params a b parser
    simp only [vformat_impl]
    cases consume_literal parser with
    | abort => rfl
    | nofuel => rfl
    | ok r =>
      obtain ⟨literal, parser1⟩ := r
      simp only
      rw [put_literal_frame (a ++ b), put_literal_frame b]
      cases put_literal [] literal with
      | abort => rfl
      | nofuel => rfl
      | ok x =>
        simp only [appended_to_ok]
        cases consume_specifier parser1 with
        | abort => rfl
        | nofuel => rfl
        | ok s =>
          obtain ⟨specifier, parser2⟩ := s
          cases specifier with
          | none =>
            simp only
            split
            · simp [Outcome.map]
            · rfl
          | some specifier =>
            simp only
            cases (if specifier.index = use_next_index then params.take_next_index
                else (specifier.index, params)).2.m_parameters.get?
                (if specifier.index = use_next_index then params.take_next_index
                  else (specifier.index, params)).1 with
            | none => rfl
            | some parameter =>
              simp only
              rw [List.append_assoc, formatter_frame formatter hformatter]
              cases formatter (if specifier.index = use_next_index then params.take_next_index
                  else (specifier.index, params)).2 (b ++ x) ⟨specifier.flags, 0⟩ parameter with
              | abort => rfl
              | nofuel => rfl
              | ok r2 =>
                obtain ⟨params2, builder2⟩ := r2
                simp only [Outcome.map]
                exact ih params2 a builder2 parser2

theorem vformat_frame {V : Type} (formatter : FormatterFn V)
    (hformatter : ∀ params builder parser value,
      formatter params builder parser value =
        (formatter params [] parser value).map (fun r => (r.1, builder ++ r.2)))
    (builder : StringBuilder) (fmtstr : List Char) (params : TypeErasedFormatParams V) :
    vformat formatter builder fmtstr params =
      appended_to builder (vformat formatter [] fmtstr params) := by
  have h := vformat_impl_frame formatter hformatter (fmtstr.length + 1) params builder []
    ⟨fmtstr, 0⟩
  simp only [List.append_nil] at h
  simp only [vformat, h]
  cases vformat_impl formatter (fmtstr.length + 1) params [] ⟨fmtstr, 0⟩ with
  | ok r => rfl
  | abort => rfl
  | nofuel => rfl

theorem format_integer_frame (params : TypeErasedFormatParams Int) (builder : StringBuilder)
    (parser : GenericLexer) (value : Int) :
    format_integer params builder parser value =
      (format_integer params [] parser value).map (fun r => (r.1, builder ++ r.2)) := by
  simp only [format_integer]
  cases StandardFormatter.parse integer_to_size StandardFormatter.initial params parser with
  | abort => rfl
  | nofuel => rfl
  | ok r =>
    obtain ⟨directive, params1, parser1⟩ := r
    simp only
    cases integer_base directive.m_mode with
    | none => rfl
    | some bu =>
      obtain ⟨base, upper_case⟩ := bu
      simp only
      rw [put_i64_frame builder]
      cases put_i64 [] value base directive.m_alternative_form upper_case directive.m_zero_pad
          directive.m_align (directive.m_width.getD 0) directive.m_fill
          directive.m_sign_mode with
      | ok x => rfl
      | abort => rfl
      | nofuel => rfl

/-- C25. The buffer is append-only: for `put_padding`, `put_literal`,
`put_string`, `put_u64`, `put_i64`, `put_hexdump` and `vformat`, a call on the
buffer `builder` returns normally exactly when the same call on the empty
buffer does, and the buffer is then `builder` followed by what the call appends
to the empty buffer.  For `vformat` the render capabilities are taken to be
append-only themselves. -/
theorem buffer_append_only {V : Type} (formatter : FormatterFn V)
    (hformatter : ∀ params builder parser value,
      formatter params builder parser value =
        (formatter params [] parser value).map (fun r => (r.1, builder ++ r.2)))
    (builder : StringBuilder) (fill : Char) (amount : Nat) (literal text : List Char)
    (align : Align) (min_width max_width value base : Nat)
    ( use_prefix upper_case zero_pad : Bool) (sign_mode : SignMode) (is_negative : Bool)
    (signed : Int) (bytes : List Nat) (width : Nat) (fmtstr : List Char)
    (params : TypeErasedFormatParams V) :
    put_padding builder fill amount = builder ++ put_padding [] fill amount ∧
    put_literal builder literal = appended_to builder (put_literal [] literal) ∧
    put_string builder text align min_width max_width fill =
      builder ++ put_string [] text align min_width max_width fill ∧
    put_u64 builder value base use_prefix upper_case zero_pad align min_width fill sign_mode
        is_negative =
      appended_to builder
        (put_u64 [] value base use_prefix upper_case zero_pad align min_width fill sign_mode
          is_negative) ∧
    put_i64 builder signed base use_prefix upper_case zero_pad align min_width fill sign_mode =
      appended_to builder
        (put_i64 [] signed base use_prefix upper_case zero_pad align min_width fill
          sign_mode) ∧
    put_hexdump builder bytes width fill =
      appended_to builder (put_hexdump [] bytes width fill) ∧
    vformat formatter builder fmtstr params =
      appended_to builder (vformat formatter [] fmtstr params) := by
  refine ⟨?_, put_literal_frame _ _, ?_, put_u64_frame _ _ _ _ _ _ _ _ _ _ _,
    put_i64_frame _ _ _ _ _ _ _ _ _ _, put_hexdump_frame _ _ _ _,
    vformat_frame formatter hformatter _ _ _⟩
  · rw [put_padding_eq, put_padding_eq, List.nil_append]
  · rw [put_string_eq, put_string_eq]
    simp only [List.nil_append, List.append_assoc]

/-- Witness of C25: integer arguments rendered by `format_integer`, into a
buffer that holds `ab`. -/
theorem buffer_append_only_witness :
    (∀ params builder parser value,
      format_integer params builder parser value =
        (format_integer params [] parser value).map (fun r => (r.1, builder ++ r.2))) ∧
    vformat format_integer ['a', 'b'] ['x', '{', '}', '{', ':', '#', 'x', '}']
        (VariadicFormatParams [7, 255]) = .ok ['a', 'b', 'x', '7', '0', 'x', 'f', 'f'] ∧
    vformat format_integer [] ['x', '{', '}', '{', ':', '#', 'x', '}']
        (VariadicFormatParams [7, 255]) = .ok ['x', '7', '0', 'x', 'f', 'f'] ∧
    (put_padding ['a', 'b'] '*' 3 = ['a', 'b'] ++ put_padding [] '*' 3 ∧
    put_literal ['a', 'b'] ['{', '{', 'c'] = appended_to ['a', 'b'] (put_literal [] ['{', '{', 'c']) ∧
    put_string ['a', 'b'] ['h', 'i'] Align.Center 5 8 '*' =
      ['a', 'b'] ++ put_string [] ['h', 'i'] Align.Center 5 8 '*' ∧
    put_u64 ['a', 'b'] 255 16 true false true Align.Center 5 '*' SignMode.Always false =
      appended_to ['a', 'b']
        (put_u64 [] 255 16 true false true Align.Center 5 '*' SignMode.Always false) ∧
    put_i64 ['a', 'b'] (-5) 16 true false true Align.Center 5 '*' SignMode.Always =
      appended_to ['a', 'b']
        (put_i64 [] (-5) 16 true false true Align.Center 5 '*' SignMode.Always) ∧
    put_hexdump ['a', 'b'] [65, 10] 5 '*' =
      appended_to ['a', 'b'] (put_hexdump [] [65, 10] 5 '*') ∧
    vformat format_integer ['a', 'b'] ['x', '{', '}', '{', ':', '#', 'x', '}']
        (VariadicFormatParams [7, 255]) =
      appended_to ['a', 'b'] (vformat format_integer [] ['x', '{', '}', '{', ':', '#', 'x', '}']
        (VariadicFormatParams [7, 255]))) :=
  ⟨format_integer_frame, by decide, by decide,
    buffer_append_only format_integer format_integer_frame ['a', 'b'] '*' 3 ['{', '{', 'c']
      ['h', 'i'] Align.Center 5 8 255 16 true false true SignMode.Always false (-5) [65, 10] 5
      ['x', '{', '}', '{', ':', '#', 'x', '}'] (VariadicFormatParams [7, 255])⟩

/-- C26. `vformat` is a function of the template and the argument list: when a
call on `builder` returns the buffer `out1`, there is one text `suffix` with
`out1 = builder ++ suffix` such that a second call with the same template and
arguments, on `out1` or on any other buffer, appends the same `suffix`.  The
store built from the argument list has its cursor at 0 and `vformat` takes it by
value, so the second call runs the driver from cursor 0: with `{}{}` and the
arguments 1, 2 the driver ends the first call with the cursor at 2, the second
call renders `12` again, and the driver started at cursor 2 would abort.  The
render capabilities are taken to be append-only. -/
theorem vformat_pure {V : Type} (formatter : FormatterFn V)
    (hformatter : ∀ params builder parser value,
      formatter params builder parser value =
        (formatter params [] parser value).map (fun r => (r.1, builder ++ r.2)))
    (builder : StringBuilder) (fmtstr : List Char) (args : List V) (out1 : StringBuilder)
    (h1 : vformat formatter builder fmtstr (VariadicFormatParams args) = .ok out1) :
    (VariadicFormatParams args).m_next_index = 0 ∧
    (∃ suffix, out1 = builder ++ suffix ∧
      vformat formatter out1 fmtstr (VariadicFormatParams args) = .ok (out1 ++ suffix) ∧
      ∀ other, vformat formatter other fmtstr (VariadicFormatParams args) =
        .ok (other ++ suffix)) ∧
    (∀ other, vformat formatter other fmtstr (VariadicFormatParams args) =
      (vformat_impl formatter (fmtstr.length + 1) ⟨args, 0⟩ other ⟨fmtstr, 0⟩).map
        (fun r => r.2.1)) ∧
    vformat_impl format_integer 5 (VariadicFormatParams [1, 2]) [] ⟨['{', '}', '{', '}'], 0⟩ =
      .ok (⟨[1, 2], 2⟩, ['1', '2'], ⟨['{', '}', '{', '}'], 4⟩) ∧
    vformat format_integer ['1', '2'] ['{', '}', '{', '}'] (VariadicFormatParams [1, 2]) =
      .ok ['1', '2', '1', '2'] ∧
    vformat_impl format_integer 5 ⟨[1, 2], 2⟩ ['1', '2'] ⟨['{', '}', '{', '}'], 0⟩ = .abort := by
  refine ⟨rfl, ?_, ?_, by decide, by decide, by decide⟩
  · have hframe := vformat_frame formatter hformatter
    rw [hframe builder] at h1
    cases hv : vformat formatter [] fmtstr (VariadicFormatParams args) with
    | abort => rw [hv] at h1; cases h1
    | nofuel => rw [hv] at h1; cases h1
    | ok suffix =>
      rw [hv] at h1
      simp only [appended_to, Outcome.ok.injEq] at h1
      refine ⟨suffix, h1.symm, ?_, ?_⟩
      · rw [hframe out1, hv]; rfl
      · intro other; rw [hframe other, hv]; rfl
  · intro other
    simp only [vformat, VariadicFormatParams]
    cases vformat_impl formatter (fmtstr.length + 1) ⟨args, 0⟩ other ⟨fmtstr, 0⟩ with
    | ok r => rfl
    | abort => rfl
    | nofuel => rfl

/-- Witness of C26: `{}-{}` with the arguments 7 and 8 on a buffer that
holds `a`. -/
theorem vformat_pure_witness :
    (∀ params builder parser value,
      format_integer params builder parser value =
        (format_integer params [] parser value).map (fun r => (r.1, builder ++ r.2))) ∧
    vformat format_integer ['a'] ['{', '}', '-', '{', '}'] (VariadicFormatParams [7, 8]) =
      .ok ['a', '7', '-', '8'] ∧
    ∃ suffix, ['a', '7', '-', '8'] = ['a'] ++ suffix ∧
      vformat format_integer ['a', '7', '-', '8'] ['{', '}', '-', '{', '}']
        (VariadicFormatParams [7, 8]) = .ok (['a', '7', '-', '8'] ++ suffix) ∧
      ∀ other, vformat format_integer other ['{', '}', '-', '{', '}']
        (VariadicFormatParams [7, 8]) = .ok (other ++ suffix) :=
  ⟨format_integer_frame, by decide,
    (vformat_pure format_integer format_integer_frame ['a'] ['{', '}', '-', '{', '}'] [7, 8]
      ['a', '7', '-', '8'] (by decide)).2.1⟩

theorem u64_text_hex_byte (byte : Nat) (hb : byte < 256) :
    u64_text byte 16 false false true Align.Right 2 ' ' SignMode.OnlyIfNeeded false =
      hex_byte byte := by
  have h0c : digit_char false 0 = '0' := by decide
  by_cases h0 : byte = 0
  · subst h0
    simp [u64_text, digit_text, hex_byte, sign_text, base_marker, h0c]
  · by_cases h16 : byte < 16
    · have hd := Nat.digits_of_lt 16 byte h0 h16
      have h1 : byte / 16 = 0 := Nat.div_eq_of_lt h16
      have h2 : byte % 16 = byte := Nat.mod_eq_of_lt h16
      simp [u64_text, digit_text, hex_byte, sign_text, base_marker, h0, hd, h1, h2, h0c]
    · have hd := Nat.digits_def' (show 1 < 16 by omega) (Nat.pos_of_ne_zero h0)
      have hq0 : byte / 16 ≠ 0 := by omega
      have hq : byte / 16 < 16 := by omega
      have hd2 := Nat.digits_of_lt 16 (byte / 16) hq0 hq
      rw [hd2] at hd
      simp [u64_text, digit_text, hex_byte, sign_text, base_marker, h0, hd]

theorem put_u64_hex_byte (builder : StringBuilder) (byte : Nat) (hb : byte < 256) :
    put_u64 builder byte 16 false false true Align.Right 2 ' ' SignMode.OnlyIfNeeded false =
      .ok (builder ++ hex_byte byte) := by
  rw [put_u64_eq builder byte 16 false false true Align.Right 2 ' ' SignMode.OnlyIfNeeded false
    (by omega) (by decide), u64_text_hex_byte byte hb]

theorem put_char_view_loop_eq (bytes : List Nat) :
    ∀ (count j : Nat) (builder : StringBuilder), j + count ≤ bytes.length →
      put_char_view_loop bytes count j builder =
        .ok (builder ++ ((bytes.drop j).take count).map preview_char) := by
  intro count
  induction count with
  | zero => intro j builder _; simp [put_char_view_loop]
  | succ count ih =>
    intro j builder h
    have hj : j < bytes.length := by omega
    rw [put_char_view_loop, List.get?_eq_getElem?, List.getElem?_eq_getElem hj]
    simp only
    rw [ih (j + 1) _ (by omega), List.drop_eq_getElem_cons hj, List.take_succ_cons,
      List.map_cons, List.append_assoc]
    rfl

theorem put_char_view_eq (bytes : List Nat) (width : Nat) (fill : Char)
    (builder : StringBuilder) (i : Nat) (hw : width ≤ i) (hi : i ≤ bytes.length) :
    put_char_view bytes width fill builder i =
      .ok (builder ++ List.replicate 4 fill ++
        ((bytes.drop (i - width)).take width).map preview_char) := by
  have h1 : i - (i - width) = width := by omega
  rw [put_char_view, h1, put_char_view_loop_eq bytes width (i - width) _ (by omega),
    put_padding_eq]

theorem put_hexdump_loop_run (bytes : List Nat) (width : Nat) (fill : Char)
    (hbytes : ∀ b ∈ bytes, b < 256) :
    ∀ (m c i : Nat) (builder : StringBuilder), i + m ≤ bytes.length →
      (width = 0 ∨ ∀ j, i ≤ j → j < i + m → j % width ≠ 0) →
      put_hexdump_loop bytes width fill (m + c) i builder =
        put_hexdump_loop bytes width fill c (i + m)
          (builder ++ ((bytes.drop i).take m).flatMap hex_byte) := by
  intro m
  induction m with
  | zero => intro c i builder _ _; simp
  | succ m ih =>
    intro c i builder h hrun
    have hi : i < bytes.length := by omega
    have hb : bytes[i] < 256 := hbytes _ (List.getElem_mem hi)
    have hcond : ¬(width > 0 ∧ (i % width = 0 ∧ i ≠ 0)) := by
      rcases hrun with h0 | hj
      · omega
      · intro hc
        exact hj i (le_refl i) (by omega) hc.2.1
    have hstep : put_hexdump_loop bytes width fill (m + c + 1) i builder =
        put_hexdump_loop bytes width fill (m + c) (i + 1) (builder ++ hex_byte bytes[i]) := by
      rw [put_hexdump_loop]
      by_cases hw : width > 0
      · have hc2 : ¬(i % width = 0 ∧ i ≠ 0) := fun hc => hcond ⟨hw, hc⟩
        simp only [hw, if_true, hc2, if_false]
        rw [List.get?_eq_getElem?, List.getElem?_eq_getElem hi]
        simp only
        rw [put_u64_hex_byte builder _ hb]
      · simp only [hw, if_false]
        rw [List.get?_eq_getElem?, List.getElem?_eq_getElem hi]
        simp only
        rw [put_u64_hex_byte builder _ hb]
    have he : m + 1 + c = m + c + 1 := by omega
    rw [he, hstep, ih c (i + 1) _ (by omega)
      (by
        rcases hrun with h0 | hj
        · exact Or.inl h0
        · exact Or.inr (fun j h1 h2 => hj j (by omega) (by omega))),
      List.drop_eq_getElem_cons hi, List.take_succ_cons, List.flatMap_cons, List.append_assoc]
    have he2 : i + 1 + m = i + (m + 1) := by omega
    rw [he2]

theorem row_index_mod (width i j : Nat) (hi : i % width = 0) (h1 : i < j)
    (h2 : j < i + width) : j % width ≠ 0 := by
  intro hj
  have hdi : width ∣ i := Nat.dvd_of_mod_eq_zero hi
  have hdj : width ∣ j := Nat.dvd_of_mod_eq_zero hj
  have hd : width ∣ j - i := Nat.dvd_sub' hdj hdi
  have := Nat.le_of_dvd (by omega) hd
  omega

theorem put_hexdump_loop_row (bytes : List Nat) (width : Nat) (fill : Char)
    (hbytes : ∀ b ∈ bytes, b < 256) (hw : 0 < width) (m c i : Nat) (builder : StringBuilder)
    (hi : i % width = 0) (hm : m < width) (hlen : i + (m + 1) ≤ bytes.length) :
    put_hexdump_loop bytes width fill (m + 1 + c) i builder =
      put_hexdump_loop bytes width fill c (i + (m + 1))
        (builder ++
          (if i = 0 then []
            else List.replicate 4 fill ++
              ((bytes.drop (i - width)).take width).map preview_char ++ ['\n']) ++
          ((bytes.drop i).take (m + 1)).flatMap hex_byte) := by
  have hilt : i < bytes.length := by omega
  have hb : bytes[i] < 256 := hbytes _ (List.getElem_mem hilt)
  have hstep : put_hexdump_loop bytes width fill (m + c + 1) i builder =
      put_hexdump_loop bytes width fill (m + c) (i + 1)
        (builder ++
          (if i = 0 then []
            else List.replicate 4 fill ++
              ((bytes.drop (i - width)).take width).map preview_char ++ ['\n']) ++
          hex_byte bytes[i]) := by
    rw [put_hexdump_loop]
    have hw2 : width > 0 := hw
    by_cases h0 : i = 0
    · subst h0
      have hc2 : ¬(0 % width = 0 ∧ 0 ≠ 0) := fun hc => hc.2 rfl
      simp only [hw2, if_true, hc2, if_false, List.append_nil]
      rw [List.get?_eq_getElem?, List.getElem?_eq_getElem hilt]
      simp only
      rw [put_u64_hex_byte builder _ hb]
    · have hc2 : i % width = 0 ∧ i ≠ 0 := ⟨hi, h0⟩
      have hwi : width ≤ i := Nat.le_of_dvd (by omega) (Nat.dvd_of_mod_eq_zero hi)
      simp only [hw2, if_true, hc2, h0, if_false, and_self, ne_eq, not_false_eq_true]
      rw [put_char_view_eq bytes width fill builder i hwi (by omega)]
      simp only
      have hlit : ∀ b : StringBuilder, put_literal b ['\n'] = .ok (b ++ ['\n']) := by
        intro b
        simp [put_literal, put_literal_loop]
      rw [hlit]
      simp only
      rw [List.get?_eq_getElem?, List.getElem?_eq_getElem hilt]
      simp only
      rw [put_u64_hex_byte _ _ hb]
      simp only [List.append_assoc]
  have he : m + 1 + c = m + c + 1 := by omega
  rw [he, hstep, put_hexdump_loop_run bytes width fill hbytes m c (i + 1) _ (by omega)
    (Or.inr (fun j h1 h2 => row_index_mod width i j hi (by omega) (by omega))),
    List.drop_eq_getElem_cons hilt, List.take_succ_cons, List.flatMap_cons]
  have he2 : i + 1 + m = i + (m + 1) := by omega
  rw [he2]
  simp only [List.append_assoc]
theorem hexdump_rows_nil (width fuel : Nat) : hexdump_rows width fuel [] = [] := by
  cases fuel <;> rfl

theorem hexdump_rows_cons (width fuel : Nat) (bytes : List Nat) (h : bytes ≠ []) :
    hexdump_rows width (fuel + 1) bytes =
      bytes.take width :: hexdump_rows width fuel (bytes.drop width) := by
  cases bytes with
  | nil => exact absurd rfl h
  | cons b r => rfl

theorem intercalate_cons_cons (sep a b : List Char) (l : List (List Char)) :
    List.intercalate sep (a :: b :: l) = a ++ sep ++ List.intercalate sep (b :: l) := by
  simp [List.intercalate, List.intersperse]

theorem intercalate_singleton (sep a : List Char) : List.intercalate sep [a] = a := by
  simp [List.intercalate, List.intersperse]

theorem put_hexdump_rows_eq (bytes : List Nat) (width : Nat) (fill : Char)
    (hbytes : ∀ b ∈ bytes, b < 256) (hw : 0 < width) :
    ∀ (fuel i : Nat) (builder : StringBuilder), i % width = 0 → i < bytes.length →
      bytes.length - i ≤ fuel →
      ∃ builder1,
        put_hexdump_loop bytes width fill (bytes.length - i) i builder = .ok builder1 ∧
        (if width > 0 ∧ bytes.length ≠ 0 ∧ bytes.length % width = 0 then
            put_char_view bytes width fill builder1 bytes.length
          else .ok builder1) =
          .ok (builder ++
            (if i = 0 then []
              else List.replicate 4 fill ++
                ((bytes.drop (i - width)).take width).map preview_char ++ ['\n']) ++
            List.intercalate ['\n']
              ((hexdump_rows width fuel (bytes.drop i)).map (hexdump_row_text width fill))) := by
  intro fuel
  induction fuel with
  | zero => intro i builder _ h1 h2; omega
  | succ fuel ih =>
    intro i builder hi hlt hfuel
    have hne : bytes.drop i ≠ [] := by
      intro h
      have := List.drop_eq_nil_iff.mp h
      omega
    have hlen_row : ((bytes.drop i).take width).length = min width (bytes.length - i) := by
      rw [List.length_take, List.length_drop]
    rw [hexdump_rows_cons width fuel _ hne, List.drop_drop]
    by_cases hlast : bytes.length - i ≤ width
    · -- the last row
      have hrow := put_hexdump_loop_row bytes width fill hbytes hw (bytes.length - i - 1) 0 i
        builder hi (by omega) (by omega)
      have he2 : i + (bytes.length - i) = bytes.length := by omega
      have he3 : bytes.length - i - 1 + 1 = bytes.length - i := by omega
      simp only [Nat.add_zero, he3, he2] at hrow
      have htake1 : (bytes.drop i).take (bytes.length - i) = bytes.drop i :=
        List.take_of_length_le (by rw [List.length_drop])
      have htake2 : (bytes.drop i).take width = bytes.drop i :=
        List.take_of_length_le (by rw [List.length_drop]; exact hlast)
      have hrest : bytes.drop (i + width) = [] := List.drop_eq_nil_of_le (by omega)
      rw [htake1] at hrow
      rw [htake2] at hlen_row
      rw [hrow, hrest, hexdump_rows_nil, htake2]
      refine ⟨_, rfl, ?_⟩
      simp only [List.map_cons, List.map_nil, intercalate_singleton, hexdump_row_text]
      by_cases hfull : bytes.length % width = 0
      · have hd : width ∣ bytes.length - i :=
          Nat.dvd_sub' (Nat.dvd_of_mod_eq_zero hfull) (Nat.dvd_of_mod_eq_zero hi)
        have hle := Nat.le_of_dvd (by omega) hd
        have heq : bytes.length - i = width := by omega
        have hn0 : bytes.length ≠ 0 := by omega
        have hcond : width > 0 ∧ bytes.length ≠ 0 ∧ bytes.length % width = 0 :=
          ⟨hw, hn0, hfull⟩
        have hidx : bytes.length - width = i := by omega
        have hl : (bytes.drop i).length = width := by rw [List.length_drop]; exact heq
        rw [if_pos hcond, put_char_view_eq bytes width fill _ bytes.length (by omega)
          (le_refl _), hidx, htake2, if_pos hl]
        simp only [List.append_assoc]
      · have hcond : ¬(width > 0 ∧ bytes.length ≠ 0 ∧ bytes.length % width = 0) :=
          fun hc => hfull hc.2.2
        have hl : (bytes.drop i).length ≠ width := by
          rw [List.length_drop]
          intro heq
          apply hfull
          have hn : bytes.length = i + width := by omega
          rw [hn, Nat.add_mod_right]
          exact hi
        rw [if_neg hcond, if_neg hl, List.append_nil]
    · -- a full row followed by another row
      have hrow := put_hexdump_loop_row bytes width fill hbytes hw (width - 1)
        (bytes.length - (i + width)) i builder hi (by omega) (by omega)
      have he : width - 1 + 1 + (bytes.length - (i + width)) = bytes.length - i := by omega
      have he3 : width - 1 + 1 = width := by omega
      rw [he, he3] at hrow
      have hi2 : (i + width) % width = 0 := by rw [Nat.add_mod_right]; exact hi
      obtain ⟨builder1, hloop, hfinal⟩ := ih (i + width) _ hi2 (by omega) (by omega)
      rw [← hrow] at hloop
      refine ⟨builder1, hloop, ?_⟩
      rw [hfinal]
      have hne2 : bytes.drop (i + width) ≠ [] := by
        intro h
        have := List.drop_eq_nil_iff.mp h
        omega
      obtain ⟨f2, rfl⟩ : ∃ f2, fuel = f2 + 1 := ⟨fuel - 1, by omega⟩
      rw [hexdump_rows_cons width f2 _ hne2]
      have hl : ((bytes.drop i).take width).length = width := by
        rw [hlen_row]; exact min_eq_left (by omega)
      have hidx : i + width - width = i := by omega
      have hi0 : i + width ≠ 0 := by omega
      simp only [List.map_cons, intercalate_cons_cons, hexdump_row_text, hl, if_true, hidx,
        hi0, if_false, List.append_assoc]

theorem hexdump_rows_flatten (width : Nat) (hw : 0 < width) :
    ∀ (fuel : Nat) (bytes : List Nat), bytes.length ≤ fuel →
      (hexdump_rows width fuel bytes).flatten = bytes ∧
      ∀ row ∈ hexdump_rows width fuel bytes, 0 < row.length ∧ row.length ≤ width := by
  intro fuel
  induction fuel with
  | zero =>
    intro bytes h
    have : bytes = [] := List.length_eq_zero.mp (by omega)
    subst this
    simp [hexdump_rows]
  | succ fuel ih =>
    intro bytes h
    cases hb : bytes with
    | nil => simp [hexdump_rows]
    | cons b r =>
      have hne : bytes ≠ [] := by rw [hb]; simp
      rw [← hb, hexdump_rows_cons width fuel bytes hne]
      have hlen : 0 < bytes.length := List.length_pos.mpr hne
      obtain ⟨h1, h2⟩ := ih (bytes.drop width) (by rw [List.length_drop]; omega)
      refine ⟨?_, ?_⟩
      · rw [List.flatten_cons, h1, List.take_append_drop]
      · intro row hrow
        rcases List.mem_cons.mp hrow with hr | hr
        · rw [hr, List.length_take]
          exact ⟨by omega, by omega⟩
        · exact h2 row hr

/-- C30. On bytes below 256, `put_hexdump` appends `hexdump_text`: for a
positive width the rows of `width` bytes joined by a single newline, a full row
being the two lower-case hexadecimal digits of each byte, then four fill
characters, then one preview character per byte (the byte itself in 32..127,
else `.`), and a last row of fewer than `width` bytes being its hexadecimal
digits alone; for the width 0 the `2 * n` hexadecimal digits alone.  The rows
are non-empty, hold at most `width` bytes and make up the byte sequence. -/
theorem put_hexdump_layout (builder : StringBuilder) (bytes : List Nat) (width : Nat)
    (fill : Char) (hbytes : ∀ b ∈ bytes, b < 256) :
    put_hexdump builder bytes width fill = .ok (builder ++ hexdump_text width fill bytes) ∧
    (width = 0 → hexdump_text width fill bytes = bytes.flatMap hex_byte ∧
      (hexdump_text width fill bytes).length = 2 * bytes.length) ∧
    (0 < width →
      hexdump_text width fill bytes =
        List.intercalate ['\n']
          ((hexdump_rows width bytes.length bytes).map (hexdump_row_text width fill)) ∧
      (hexdump_rows width bytes.length bytes).flatten = bytes ∧
      ∀ row ∈ hexdump_rows width bytes.length bytes, 0 < row.length ∧ row.length ≤ width) := by
  refine ⟨?_, ?_, ?_⟩
  · by_cases hw : width = 0
    · subst hw
      have hrun := put_hexdump_loop_run bytes 0 fill hbytes bytes.length 0 0 builder (by omega)
        (Or.inl rfl)
      simp only [Nat.add_zero, Nat.zero_add, List.drop_zero, List.take_length] at hrun
      simp [put_hexdump, hrun, put_hexdump_loop, hexdump_text]
    · have hw2 : 0 < width := Nat.pos_of_ne_zero hw
      by_cases hn : bytes.length = 0
      · have : bytes = [] := List.length_eq_zero.mp hn
        subst this
        simp [put_hexdump, put_hexdump_loop, hexdump_text, hexdump_rows, hw, List.intercalate]
      · obtain ⟨builder1, hloop, hfinal⟩ := put_hexdump_rows_eq bytes width fill hbytes hw2
          bytes.length 0 builder (Nat.zero_mod _) (by omega) (by omega)
        simp only [Nat.sub_zero, List.drop_zero, if_true, List.append_nil] at hloop hfinal
        simp only [put_hexdump, hloop, hfinal, hexdump_text, hw, if_false]
  · intro hw
    refine ⟨by simp [hexdump_text, hw], ?_⟩
    simp only [hexdump_text, hw, if_true]
    induction bytes with
    | nil => rfl
    | cons b r ih =>
      rw [List.flatMap_cons, List.length_append,
        ih (fun x hx => hbytes x (List.mem_cons_of_mem _ hx))]
      simp [hex_byte]
      omega
  · intro hw
    have hw0 : width ≠ 0 := by omega
    exact ⟨by simp [hexdump_text, hw0],
      hexdump_rows_flatten width hw bytes.length bytes (le_refl _)⟩

/-- Witness of C30: five bytes in rows of two, with the fill `*`. -/
theorem put_hexdump_layout_witness :
    (∀ b ∈ [65, 66, 10, 255, 127], b < 256) ∧
    put_hexdump ['a'] [65, 66, 10, 255, 127] 2 '*' =
      .ok (['a'] ++ hexdump_text 2 '*' [65, 66, 10, 255, 127]) ∧
    hexdump_text 2 '*' [65, 66, 10, 255, 127] = "4142****AB\n0aff****..\n7f".toList ∧
    hexdump_text 2 '*' [65, 66, 10, 255] = "4142****AB\n0aff****..".toList ∧
    hexdump_text 0 '*' [65, 66, 10, 255] = "41420aff".toList :=
  ⟨by decide,
    (put_hexdump_layout ['a'] [65, 66, 10, 255, 127] 2 '*' (by decide)).1,
    by decide, by decide, by decide⟩

/-! ## C38: a brace is never the fill -/

theorem parse_fill_not_brace (self : StandardFormatter) (parser : GenericLexer)
    (r : StandardFormatter × GenericLexer)
    (h : StandardFormatter.parse_fill self parser = .ok r) :
    r.1.m_fill = self.m_fill ∨ is_brace r.1.m_fill = false := by
  cases h1 : ['<', '^', '>'].contains (parser.peek 1)
  · simp only [StandardFormatter.parse_fill, h1] at h
    simp only [Bool.false_eq_true, if_false, Outcome.ok.injEq] at h
    rw [← h]
    exact Or.inl rfl
  · cases h2 : is_brace (parser.peek 0)
    · have h3 := peek_align_not_eof parser h1
      simp only [StandardFormatter.parse_fill, h1, h2, GenericLexer.consume, h3, if_true,
        Bool.false_eq_true, if_false, Outcome.ok.injEq] at h
      rw [← h]
      exact Or.inr h2
    · simp only [StandardFormatter.parse_fill, h1, h2, if_true] at h
      cases h

/-- C38. No options span selects `{` or `}` as the fill character: on every
options span whose first character is a brace and whose second character is one
of `<`, `^`, `>`, the fill step aborts and so `StandardFormatter::parse` aborts,
from every parser position, directive and argument store.  Whenever `parse`
returns normally, the fill of the directive is the one it had before or a
character that is not a brace. -/
theorem parse_brace_fill_aborts {V : Type} (to_size : V → Outcome Nat)
    (self : StandardFormatter) (params : TypeErasedFormatParams V) (pre rest : List Char)
    (c0 c1 : Char) (h0 : c0 = '{' ∨ c0 = '}') (h1 : c1 = '<' ∨ c1 = '^' ∨ c1 = '>') :
    StandardFormatter.parse_fill self (lexer_at pre (c0 :: c1 :: rest)) = .abort ∧
    StandardFormatter.parse to_size self params (lexer_at pre (c0 :: c1 :: rest)) = .abort ∧
    (∀ parser r, StandardFormatter.parse to_size self params parser = .ok r →
      r.1.m_fill = self.m_fill ∨ (r.1.m_fill ≠ '{' ∧ r.1.m_fill ≠ '}')) := by
  have hp1 : ['<', '^', '>'].contains ((lexer_at pre (c0 :: c1 :: rest)).peek 1) = true := by
    rw [lexer_at_peek]
    rcases h1 with h | h | h <;> subst h <;> rfl
  have hp0 : is_brace ((lexer_at pre (c0 :: c1 :: rest)).peek 0) = true := by
    rw [lexer_at_peek]
    rcases h0 with h | h <;> subst h <;> rfl
  have hfill : StandardFormatter.parse_fill self (lexer_at pre (c0 :: c1 :: rest)) = .abort := by
    simp only [StandardFormatter.parse_fill, hp1, hp0, if_true]
  refine ⟨hfill, ?_, ?_⟩
  · simp only [StandardFormatter.parse, StandardFormatter.parse_tokens, hfill]
  · intro parser r h
    simp only [StandardFormatter.parse] at h
    split at h
    · rename_i s p l ht
      obtain ⟨r1, hf, hm⟩ := parse_tokens_fill to_size self params parser _ ht
      split at h
      · simp only [Outcome.ok.injEq] at h
        rw [← h]
        simp only at hm ⊢
        rw [hm]
        rcases parse_fill_not_brace self parser r1 hf with hk | hk
        · exact Or.inl hk
        · refine Or.inr ⟨?_, ?_⟩
          · intro hc
            rw [hc] at hk
            exact absurd hk (by decide)
          · intro hc
            rw [hc] at hk
            exact absurd hk (by decide)
      · cases h
    · cases h
    · cases h

/-- Witness of C38: the options `{<5` and `}^`. -/
theorem parse_brace_fill_aborts_witness :
    StandardFormatter.parse integer_to_size StandardFormatter.initial (VariadicFormatParams [])
      (lexer_at [] ['{', '<', '5']) = .abort ∧
    StandardFormatter.parse integer_to_size StandardFormatter.initial (VariadicFormatParams [])
      (lexer_at [] ['}', '^']) = .abort :=
  ⟨(parse_brace_fill_aborts integer_to_size StandardFormatter.initial (VariadicFormatParams [])
      [] ['5'] '{' '<' (Or.inl rfl) (Or.inl rfl)).2.1, by decide⟩

/-! ## C32: what a literal span emits -/

theorem literal_text_cons (c : Char) (t : List Char) :
    literal_text (c :: t) = c :: literal_text (if is_brace c then t.drop 1 else t) := by
  cases t with
  | nil => cases is_brace c <;> simp [literal_text]
  | cons d r =>
    cases hb : is_brace c <;> simp [literal_text, hb]

theorem literal_text_escape (s : List Char) : literal_text (escape s) = s := by
  induction s with
  | nil => rfl
  | cons c s ih =>
    cases hb : is_brace c
    · simp only [escape, hb, Bool.false_eq_true, if_false]
      rw [literal_text_cons, hb]
      simp [ih]
    · simp only [escape, hb, if_true]
      rw [literal_text_cons, hb]
      simp [ih]

theorem put_literal_loop_text (value : List Char) :
    ∀ (fuel i : Nat) (builder : StringBuilder), value.length - i < fuel →
      put_literal_loop value fuel i builder = .ok (builder ++ literal_text (value.drop i)) := by
  intro fuel
  induction fuel with
  | zero => intro i builder h; omega
  | succ fuel ih =>
    intro i builder h
    rw [put_literal_loop]
    by_cases hi : i < value.length
    · have hget : value.getD i (Char.ofNat 0) = value[i] := by
        rw [List.getD_eq_getElem?_getD, List.getElem?_eq_getElem hi]
        rfl
      simp only [hi, if_true, hget]
      rw [List.drop_eq_getElem_cons hi, literal_text_cons]
      by_cases hb : value[i] = '{' ∨ value[i] = '}'
      · have hbr : is_brace value[i] = true := by
          rcases hb with h1 | h1 <;> rw [h1] <;> rfl
        rw [if_pos hb, ih (i + 1 + 1) _ (by omega), hbr, if_pos rfl, List.drop_drop,
          List.append_assoc]
        rfl
      · have hbr : is_brace value[i] = false := by
          simp only [not_or] at hb
          simp [is_brace, hb.1, hb.2]
        rw [if_neg hb, ih (i + 1) _ (by omega), hbr]
        simp
    · have hd : value.drop i = [] := List.drop_eq_nil_of_le (by omega)
      simp [hi, hd, literal_text]

/-- Counterexample to C32 as stated: in the span `{a}` the character `a`
follows a brace and is skipped although it is no brace, and in `{a` nothing
but the brace is emitted. -/
theorem put_literal_skip_counterexample :
    put_literal [] ['{', 'a', '}'] = .ok ['{', '}'] ∧
    put_literal [] ['{', 'a'] = .ok ['{'] ∧
    put_literal [] ['x', '}', 'y', 'z'] = .ok ['x', '}', 'z'] := by
  decide

/-- C32 (amended). For every span `put_literal` appends `literal_text` of the
span: every character except the one that directly follows a brace it has
appended, whatever that character is.  On the spans that `consume_literal`
returns, which are the lists `escape s`, the skipped character is always the
duplicate of an identical adjacent brace pair and the appended text is `s`.
The span `a{{b}}` gives `a{b}`, and the span `{a}` gives `{}`. -/
theorem put_literal_skips_after_brace (builder : StringBuilder) (value s t : List Char)
    (c : Char) :
    put_literal builder value = .ok (builder ++ literal_text value) ∧
    literal_text [] = [] ∧
    literal_text (c :: t) = c :: literal_text (if is_brace c then t.drop 1 else t) ∧
    put_literal builder (escape s) = .ok (builder ++ s) ∧
    put_literal [] ['a', '{', '{', 'b', '}', '}'] = .ok ['a', '{', 'b', '}'] ∧
    put_literal [] ['{', 'a', '}'] = .ok ['{', '}'] := by
  have h1 : put_literal builder value = .ok (builder ++ literal_text value) := by
    have h := put_literal_loop_text value (value.length + 1) 0 builder (by omega)
    simpa [put_literal] using h
  refine ⟨h1, rfl, literal_text_cons c t, ?_, by decide, by decide⟩
  have h := put_literal_loop_text (escape s) ((escape s).length + 1) 0 builder (by omega)
  simp only [List.drop_zero, literal_text_escape] at h
  simpa [put_literal] using h

/-! ## C31: the span of a literal -/

theorem escape_decomposition : ∀ (fuel : Nat) (text : List Char), text.length ≤ fuel →
    ∃ s rest, text = escape s ++ rest ∧ stops_literal rest = true := by
  intro fuel
  induction fuel with
  | zero =>
    intro text h
    have : text = [] := List.length_eq_zero.mp (by omega)
    subst this
    exact ⟨[], [], rfl, rfl⟩
  | succ fuel ih =>
    intro text h
    cases text with
    | nil => exact ⟨[], [], rfl, rfl⟩
    | cons c r =>
      cases hb : is_brace c
      · obtain ⟨s, rest, hs, hstop⟩ := ih r (by simp at h; omega)
        refine ⟨c :: s, rest, ?_, hstop⟩
        simp [escape, hb, hs]
      · cases r with
        | nil => exact ⟨[], [c], rfl, by simp [stops_literal, hb]⟩
        | cons d r2 =>
          by_cases hd : d = c
          · subst hd
            obtain ⟨s, rest, hs, hstop⟩ := ih r2 (by simp at h; omega)
            refine ⟨d :: s, rest, ?_, hstop⟩
            simp [escape, hb, hs]
          · exact ⟨[], c :: d :: r2, rfl, by simp [stops_literal, hb, hd]⟩

theorem escape_longest : ∀ (s1 t s rest : List Char), escape s1 ++ t = escape s ++ rest →
    stops_literal rest = true → (escape s1).length ≤ (escape s).length := by
  intro s1
  induction s1 with
  | nil => intro t s rest _ _; simp [escape]
  | cons c s1 ih =>
    intro t s rest h hstop
    cases hb : is_brace c
    · simp only [escape, hb, Bool.false_eq_true, if_false, List.cons_append] at h
      cases s with
      | nil =>
        simp only [escape, List.nil_append] at h
        rw [← h] at hstop
        simp [stops_literal, hb] at hstop
      | cons d s2 =>
        cases hd : is_brace d
        · simp only [escape, hd, Bool.false_eq_true, if_false, List.cons_append,
            List.cons.injEq] at h
          have := ih t s2 rest h.2 hstop
          simp only [escape, hb, hd, Bool.false_eq_true, if_false, List.length_cons]
          omega
        · simp only [escape, hd, if_true, List.cons_append, List.cons.injEq] at h
          rw [h.1] at hb
          rw [hb] at hd
          cases hd
    · simp only [escape, hb, if_true, List.cons_append] at h
      cases s with
      | nil =>
        simp only [escape, List.nil_append] at h
        rw [← h] at hstop
        simp [stops_literal] at hstop
      | cons d s2 =>
        cases hd : is_brace d
        · simp only [escape, hd, Bool.false_eq_true, if_false, List.cons_append,
            List.cons.injEq] at h
          rw [h.1] at hb
          rw [hb] at hd
          cases hd
        · simp only [escape, hd, if_true, List.cons_append, List.cons.injEq] at h
          have := ih t s2 rest h.2.2 hstop
          simp only [escape, hb, hd, if_true, List.length_cons]
          omega

theorem escape_brace_pair : ∀ (s : List Char) (i : Nat) (c : Char),
    (escape s)[i]? = some c → is_brace c = true →
    (escape s)[i + 1]? = some c ∨ (0 < i ∧ (escape s)[i - 1]? = some c) := by
  intro s
  induction s with
  | nil => intro i c h _; simp [escape] at h
  | cons d s ih =>
    intro i c h hc
    cases hd : is_brace d
    · simp only [escape, hd, Bool.false_eq_true, if_false] at h ⊢
      cases i with
      | zero =>
        simp only [List.getElem?_cons_zero, Option.some.injEq] at h
        rw [h] at hd
        rw [hd] at hc
        cases hc
      | succ k =>
        simp only [List.getElem?_cons_succ] at h ⊢
        rcases ih k c h hc with h1 | ⟨h1, h2⟩
        · exact Or.inl h1
        · right
          refine ⟨by omega, ?_⟩
          obtain ⟨j, rfl⟩ : ∃ j, k = j + 1 := ⟨k - 1, by omega⟩
          simpa using h2
    · simp only [escape, hd, if_true] at h ⊢
      cases i with
      | zero =>
        simp only [List.getElem?_cons_zero, Option.some.injEq] at h
        left
        simp [h]
      | succ k =>
        cases k with
        | zero =>
          simp only [List.getElem?_cons_succ, List.getElem?_cons_zero, Option.some.injEq] at h
          right
          simp [h]
        | succ j =>
          simp only [List.getElem?_cons_succ] at h ⊢
          rcases ih j c h hc with h1 | ⟨h1, h2⟩
          · exact Or.inl h1
          · right
            refine ⟨by omega, ?_⟩
            obtain ⟨m, rfl⟩ : ∃ m, j = m + 1 := ⟨j - 1, by omega⟩
            simpa using h2

/-- C31. From every parser position `consume_literal` returns normally.  What
remains of the input is `escape s ++ rest` for a text `s`, where `escape s` is
a sequence of non-brace characters and doubled braces and `rest` is empty or
starts with a brace that is not followed by the same brace; the returned span
is `escape s` and the parser is left before `rest`.  The span is the longest
of its kind: every sequence of non-brace characters and doubled braces that
starts the remaining input is at most as long.  Every brace in the span has
the same brace right after it or right before it. -/
theorem consume_literal_longest (l : GenericLexer) :
    ∃ s rest, l.remaining = escape s ++ rest ∧
      stops_literal rest = true ∧
      consume_literal l = .ok (escape s, { l with m_index := l.m_index + (escape s).length }) ∧
      (rest = [] ∨ ∃ c tail, rest = c :: tail ∧ (c = '{' ∨ c = '}') ∧ tail.head? ≠ some c) ∧
      (∀ s1 t, l.remaining = escape s1 ++ t → (escape s1).length ≤ (escape s).length) ∧
      (∀ i c, (escape s)[i]? = some c → (c = '{' ∨ c = '}') →
        (escape s)[i + 1]? = some c ∨ (0 < i ∧ (escape s)[i - 1]? = some c)) := by
  obtain ⟨s, rest, hs, hstop⟩ := escape_decomposition l.remaining.length l.remaining (le_refl _)
  refine ⟨s, rest, hs, hstop, ?_, ?_, ?_, ?_⟩
  · by_cases hl : l.m_index ≤ l.m_input.length
    · have h1 := lexer_eq_lexer_at l hl
      have h2 := consume_literal_escape (l.m_input.take l.m_index) s rest hstop
      rw [← hs, ← h1] at h2
      rw [h2]
      congr 2
      obtain ⟨input, index⟩ := l
      simp only [GenericLexer.remaining] at hs
      simp only at hl
      simp only [lexer_at, GenericLexer.mk.injEq, List.length_append, List.length_take]
      refine ⟨?_, by omega⟩
      rw [List.append_assoc, ← hs, List.take_append_drop]
    · have hrem : l.remaining = [] := by
        simp only [GenericLexer.remaining]
        exact List.drop_eq_nil_of_le (by omega)
      rw [hrem] at hs
      have hs0 : escape s = [] := (List.append_eq_nil.mp hs.symm).1
      have hsub : l.m_input.length - l.m_index = 0 := by omega
      have heof : l.is_eof = true := by
        simp only [GenericLexer.is_eof, decide_eq_true_eq]
        omega
      have hdrop : l.m_input.drop l.tell = [] := by
        simp only [GenericLexer.tell]
        exact List.drop_eq_nil_of_le (by omega)
      simp only [consume_literal, hsub, Nat.zero_add, consume_literal_loop, heof, if_true, hdrop,
        hs0, List.length_nil, Nat.add_zero]
  · cases rest with
    | nil => exact Or.inl rfl
    | cons c tail =>
      right
      simp only [stops_literal, Bool.and_eq_true, Bool.not_eq_true', beq_eq_false_iff_ne,
        ne_eq] at hstop
      refine ⟨c, tail, rfl, ?_, hstop.2⟩
      have hb := hstop.1
      simp only [is_brace, Bool.or_eq_true, beq_iff_eq] at hb
      exact hb
  · intro s1 t h
    exact escape_longest s1 t s rest (h.symm.trans hs) hstop
  · intro i c h hc
    have hb : is_brace c = true := by
      rcases hc with h1 | h1 <;> rw [h1] <;> rfl
    exact escape_brace_pair s i c h hb

/-! ## C34: the digit buffer -/

theorem convert_unsigned_to_string_untouched (value base : Nat) (upper_case : Bool)
    (buffer0 : DigitBuffer) (hv : value < 2 ^ 64) (hb : 2 ≤ base ∧ base ≤ 16) :
    ∃ buffer, convert_unsigned_to_string value buffer0 base upper_case =
        .ok ((digit_text base upper_case value).length, buffer) ∧
      (∀ k, k < (digit_text base upper_case value).length → ∃ c, buffer k = some c) ∧
      ∀ k, (digit_text base upper_case value).length ≤ k → buffer k = buffer0 k := by
  by_cases h0 : value = 0
  · subst h0
    refine ⟨fun j => if j = 0 then some '0' else buffer0 j, ?_, ?_, ?_⟩
    · simp [convert_unsigned_to_string, hb, DigitBuffer.write, DigitBuffer.capacity, digit_text]
    · intro k hk
      simp [digit_text] at hk
      subst hk
      exact ⟨'0', by simp⟩
    · intro k hk
      simp [digit_text] at hk
      have : k ≠ 0 := by omega
      simp [this]
  · have hlen := digits_length_le base value hb.1 hv
    have h1 := convert_digits_loop_eq base upper_case hb.1 65 value buffer0 0 (by omega)
      (by simp [DigitBuffer.capacity]; omega)
    simp only [Nat.zero_add, Nat.zero_le, true_and, Nat.sub_zero] at h1
    obtain ⟨buffer, hrun, hval⟩ := convert_swap_loop_eq (Nat.digits base value).length
      (by simp [DigitBuffer.capacity]; omega) ((Nat.digits base value).length / 2) 0
      (fun j =>
        if j < (Nat.digits base value).length then
          some (digit_char upper_case ((Nat.digits base value).getD j 0))
        else buffer0 j)
      (by omega) (by intro j hj; exact ⟨_, if_pos hj⟩)
    have hdl : (digit_text base upper_case value).length = (Nat.digits base value).length := by
      simp [digit_text, h0]
    refine ⟨buffer, ?_, ?_, ?_⟩
    · simp only [convert_unsigned_to_string, hb, h0, h1, hrun, hdl]
      simp
    · intro k hk
      rw [hdl] at hk
      rw [hval k]
      have hk2 : (Nat.digits base value).length - 1 - k < (Nat.digits base value).length := by
        omega
      split
      · exact ⟨_, rfl⟩
      · exact ⟨_, rfl⟩
    · intro k hk
      rw [hdl] at hk
      rw [hval k]
      have hc : ¬((0 ≤ k ∧ k < 0 + (Nat.digits base value).length / 2) ∨
          ((Nat.digits base value).length - 0 - (Nat.digits base value).length / 2 ≤ k ∧
            k < (Nat.digits base value).length - 0)) := by omega
      rw [if_neg hc, if_neg (by omega)]

/-- C34. For every value below `2^64` and every base in 2..16,
`convert_unsigned_to_string` returns normally, so every entry it wrote or
swapped lies inside the 128-entry buffer, with a number `used` of digits that
is at least 1 and at most 64; the entries below `used` are all written and the
entries from `used` on are as they were before the call, and `put_digits` and
so `put_u64`, which read the entries below `used`, return normally.  For a
base outside 2..16 the assertion aborts the call, from every buffer, and
`put_u64` aborts.  The value `2^64 - 1` in base 2 has 64 digits. -/
theorem convert_unsigned_to_string_in_bounds (value base : Nat) (upper_case : Bool)
    (buffer0 : DigitBuffer) (builder : StringBuilder) ( use_prefix zero_pad : Bool)
    (align : Align) (min_width : Nat) (fill : Char) (sign_mode : SignMode) (is_negative : Bool)
    (hv : value < 2 ^ 64) :
    (2 ≤ base ∧ base ≤ 16 →
      ∃ used buffer,
        convert_unsigned_to_string value buffer0 base upper_case = .ok (used, buffer) ∧
        1 ≤ used ∧ used ≤ 64 ∧ used ≤ DigitBuffer.capacity ∧
        (∀ k, k < used → ∃ c, buffer k = some c ∧ DigitBuffer.read buffer k = .ok c) ∧
        (∀ k, used ≤ k → buffer k = buffer0 k) ∧
        (∃ out, put_digits buffer used 0 builder = .ok out) ∧
        ∃ out, put_u64 builder value base use_prefix upper_case zero_pad align min_width fill
          sign_mode is_negative = .ok out) ∧
    (¬(2 ≤ base ∧ base ≤ 16) →
      convert_unsigned_to_string value buffer0 base upper_case = .abort ∧
      put_u64 builder value base use_prefix upper_case zero_pad align min_width fill sign_mode
        is_negative = .abort) ∧
    (convert_unsigned_to_string (2 ^ 64 - 1) DigitBuffer.fresh 2 false).map Prod.fst =
      .ok 64 := by
  refine ⟨?_, ?_, by decide⟩
  · intro hb
    obtain ⟨buffer, hconv, hset, hkeep⟩ :=
      convert_unsigned_to_string_untouched value base upper_case buffer0 hv hb
    obtain ⟨buffer1, hconv1, hbuf1⟩ :=
      convert_unsigned_to_string_eq value base upper_case buffer0 hv hb
    have hlen := digit_text_length_le base value upper_case hb.1 hv
    have hcap : (digit_text base upper_case value).length ≤ DigitBuffer.capacity := by
      simp only [DigitBuffer.capacity]
      omega
    refine ⟨_, buffer, hconv, hlen.2, hlen.1, hcap, ?_, hkeep, ?_, ?_⟩
    · intro k hk
      obtain ⟨c, hc⟩ := hset k hk
      refine ⟨c, hc, ?_⟩
      have hk2 : k < DigitBuffer.capacity := by omega
      simp only [DigitBuffer.read, hk2, if_true, hc]
    · rw [hconv] at hconv1
      simp only [Outcome.ok.injEq, Prod.mk.injEq, true_and] at hconv1
      subst hconv1
      have h := put_digits_eq buffer (digit_text base upper_case value) 0 builder
        (by omega) (by intro k hk; rw [Nat.zero_add]; exact hbuf1 k hk)
      exact ⟨_, h⟩
    · exact ⟨_, put_u64_eq builder value base use_prefix upper_case zero_pad align min_width
        fill sign_mode is_negative hv hb⟩
  · intro hb
    have hc : convert_unsigned_to_string value DigitBuffer.fresh base upper_case = .abort := by
      simp only [convert_unsigned_to_string, ge_iff_le, hb, if_false]
    refine ⟨by simp only [convert_unsigned_to_string, ge_iff_le, hb, if_false], ?_⟩
    simp only [put_u64, hc]

/-- Witness of C34: the value 255 in base 16. -/
theorem convert_unsigned_to_string_in_bounds_witness :
    (255 : Nat) < 2 ^ 64 ∧
    ∃ used buffer,
      convert_unsigned_to_string 255 DigitBuffer.fresh 16 false = .ok (used, buffer) ∧
      1 ≤ used ∧ used ≤ 64 :=
  ⟨by decide,
    match (convert_unsigned_to_string_in_bounds 255 16 false DigitBuffer.fresh [] false false
      Align.Default 0 ' ' SignMode.OnlyIfNeeded false (by decide)).1 ⟨by decide, by decide⟩ with
    | ⟨used, buffer, h1, h2, h3, _⟩ => ⟨used, buffer, h1, h2, h3⟩⟩

/-! ## C35: the driver terminates -/

theorem vformat_impl_fuel {V : Type} (formatter : FormatterFn V) :
    ∀ (fuel k : Nat) (params : TypeErasedFormatParams V) (builder : StringBuilder)
      (parser : GenericLexer),
      vformat_impl formatter fuel params builder parser ≠ .nofuel →
      vformat_impl formatter (fuel + k) params builder parser =
        vformat_impl formatter fuel params builder parser := by
  intro fuel
  induction fuel with
  | zero => intro k params builder parser h; exact absurd rfl h
  | succ fuel ih =>
    intro k params builder parser
    have he : fuel + 1 + k = fuel + k + 1 := by omega
    rw [he]
    simp only [vformat_impl]
    cases consume_literal parser with
    | abort => intro _; rfl
    | nofuel => intro _; rfl
    | ok r =>
      obtain ⟨literal, parser1⟩ := r
      simp only
      cases put_literal builder literal with
      | abort => intro _; rfl
      | nofuel => intro _; rfl
      | ok builder1 =>
        simp only
        cases consume_specifier parser1 with
        | abort => intro _; rfl
        | nofuel => intro _; rfl
        | ok s =>
          obtain ⟨specifier, parser2⟩ := s
          cases specifier with
          | none => intro _; rfl
          | some specifier =>
            simp only
            cases (if specifier.index = use_next_index then params.take_next_index
                else (specifier.index, params)).2.m_parameters.get?
                (if specifier.index = use_next_index then params.take_next_index
                  else (specifier.index, params)).1 with
            | none => intro _; rfl
            | some parameter =>
              simp only
              cases formatter (if specifier.index = use_next_index then params.take_next_index
                  else (specifier.index, params)).2 builder1 ⟨specifier.flags, 0⟩ parameter with
              | abort => intro _; rfl
              | nofuel => intro _; rfl
              | ok r2 =>
                obtain ⟨params2, builder2⟩ := r2
                simp only
                exact ih k params2 builder2 parser2

theorem consume_number_loop_index : ∀ (fuel : Nat) (l : GenericLexer) (value : Nat)
    (flag : Bool) (r : Bool × Nat × GenericLexer),
    consume_number_loop fuel l value flag = .ok r → l.m_index ≤ r.2.2.m_index := by
  intro fuel
  induction fuel with
  | zero => intro l value flag r h; cases h
  | succ fuel ih =>
    intro l value flag r h
    simp only [consume_number_loop] at h
    split at h
    · by_cases heof : l.is_eof = true
      · simp only [GenericLexer.consume, heof, if_true] at h
        cases h
      · simp only [GenericLexer.consume, heof, if_false] at h
        have := ih _ _ _ r h
        simp only at this
        omega
    · simp only [Outcome.ok.injEq] at h
      rw [← h]

theorem consume_specifier_loop_index : ∀ (fuel : Nat) (l : GenericLexer) (level : Nat)
    (l4 : GenericLexer),
    consume_specifier_loop fuel l level = .ok l4 → l.m_index ≤ l4.m_index := by
  intro fuel
  induction fuel with
  | zero => intro l level l4 h; cases h
  | succ fuel ih =>
    intro l level l4 h
    simp only [consume_specifier_loop] at h
    split at h
    · by_cases heof : l.is_eof = true
      · simp only [heof, if_true] at h
        cases h
      · simp only [heof, if_false, GenericLexer.consume_specific, GenericLexer.consume] at h
        by_cases h1 : l.peek 0 = '{'
        · simp only [h1, if_true] at h
          have := ih _ _ _ h
          simp only at this
          omega
        · by_cases h2 : l.peek 0 = '}'
          · have hne : ¬('}' : Char) = '{' := by decide
            simp only [h2, hne, if_true, if_false] at h
            have := ih _ _ _ h
            simp only at this
            omega
          · simp only [h1, h2, if_false] at h
            have := ih _ _ _ h
            simp only at this
            omega
    · simp only [Outcome.ok.injEq] at h
      rw [← h]

theorem consume_specifier_advances (l : GenericLexer) (specifier : FormatSpecifier)
    (l2 : GenericLexer) (h : consume_specifier l = .ok (some specifier, l2)) :
    l.m_index < l2.m_index := by
  simp only [consume_specifier] at h
  split at h
  · cases h
  · split at h
    · simp at h
    · rename_i l1 h1
      have hl1 : l1.m_index = l.m_index + 1 := by
        simp only [GenericLexer.consume_specific] at h1
        split at h1
        · simp only [Option.some.injEq] at h1
          rw [← h1]
        · cases h1
      split at h
      · rename_i consumed value l2a hnum
        have hnum2 := consume_number_loop_index _ _ _ _ _ hnum
        simp only at hnum2
        split at h
        · rename_i l3 h3
          have hl3 : l3.m_index = l2a.m_index + 1 := by
            simp only [GenericLexer.consume_specific] at h3
            split at h3
            · simp only [Option.some.injEq] at h3
              rw [← h3]
            · cases h3
          split at h
          · rename_i l4 h4
            have h5 := consume_specifier_loop_index _ _ _ _ h4
            simp only [Outcome.ok.injEq, Prod.mk.injEq] at h
            rw [← h.2]
            omega
          · cases h
          · cases h
        · split at h
          · cases h
          · rename_i l3 h3
            have hl3 : l3.m_index = l2a.m_index + 1 := by
              simp only [GenericLexer.consume_specific] at h3
              split at h3
              · simp only [Option.some.injEq] at h3
                rw [← h3]
              · cases h3
            simp only [Outcome.ok.injEq, Prod.mk.injEq] at h
            rw [← h.2]
            omega
      · cases h
      · cases h

theorem consume_specifier_loop_step (fuel : Nat) (l : GenericLexer) (level : Nat)
    (hlevel : 0 < level) :
    (l.is_eof = true → consume_specifier_loop (fuel + 1) l level = .abort) ∧
    (l.is_eof = false → ∃ level1,
      consume_specifier_loop (fuel + 1) l level =
        consume_specifier_loop fuel { l with m_index := l.m_index + 1 } level1) := by
  have hl : level > 0 := hlevel
  constructor
  · intro h
    simp only [consume_specifier_loop, hl, if_true, h]
  · intro h
    simp only [consume_specifier_loop, hl, if_true, h, Bool.false_eq_true, if_false,
      GenericLexer.consume_specific, GenericLexer.consume]
    by_cases h1 : l.peek 0 = '{'
    · exact ⟨level + 1, by simp only [h1, if_true]⟩
    · by_cases h2 : l.peek 0 = '}'
      · have hne : ¬('}' : Char) = '{' := by decide
        exact ⟨level - 1, by simp only [h2, hne, if_true, if_false]⟩
      · exact ⟨level, by simp only [h1, h2, if_false]⟩

/-- C35. Let the render capabilities terminate.  From every position of every
template, and for every argument store and buffer, the driver `vformat_impl`
terminates by returning or aborting: whenever the recursion bound exceeds the
number of characters that remain, the result is the same and it is not the
exhaustion of the bound; so `vformat` never runs out of its bound.  Every
recursive call follows a `consume_specifier` that returned true, which has
then consumed at least one character.  The brace-depth loop of
`consume_specifier` aborts at the end of the input, consumes exactly one
character in every other iteration, and terminates. -/
theorem vformat_impl_terminates {V : Type} (formatter : FormatterFn V)
    (hterm : ∀ ps b l v, formatter ps b l v ≠ .nofuel) (pre rest : List Char)
    (params : TypeErasedFormatParams V) (builder : StringBuilder) :
    (∃ r, r ≠ .nofuel ∧ ∀ fuel, rest.length < fuel →
      vformat_impl formatter fuel params builder (lexer_at pre rest) = r) ∧
    vformat formatter builder rest params ≠ .nofuel ∧
    (∀ l specifier l2, consume_specifier l = .ok (some specifier, l2) →
      l.m_index < l2.m_index) ∧
    (∀ fuel l level, 0 < level →
      (l.is_eof = true → consume_specifier_loop (fuel + 1) l level = .abort) ∧
      (l.is_eof = false → ∃ level1,
        consume_specifier_loop (fuel + 1) l level =
          consume_specifier_loop fuel { l with m_index := l.m_index + 1 } level1)) ∧
    (∀ fuel level, 0 < level → rest.length < fuel →
      consume_specifier_loop fuel (lexer_at pre rest) level ≠ .nofuel) := by
  have hscan := (vformat_impl_scan formatter hterm (rest.length + 1) rest pre params builder
    (by omega)).1
  refine ⟨⟨_, hscan, ?_⟩, ?_, consume_specifier_advances, consume_specifier_loop_step, ?_⟩
  · intro fuel hfuel
    obtain ⟨k, rfl⟩ : ∃ k, fuel = rest.length + 1 + k := ⟨fuel - (rest.length + 1), by omega⟩
    exact vformat_impl_fuel formatter _ k params builder _ hscan
  · have h0 := (vformat_impl_scan formatter hterm (rest.length + 1) rest [] params builder
      (by omega)).1
    simp only [lexer_at, List.nil_append, List.length_nil] at h0
    simp only [vformat]
    intro hc
    split at hc
    · cases hc
    · cases hc
    · rename_i hn
      exact h0 hn
  · intro fuel level hlevel hfuel
    rcases consume_specifier_loop_scan fuel rest pre level hlevel hfuel with h | ⟨p, r, h, _⟩
    · rw [h.1]
      exact fun hc => Outcome.noConfusion hc
    · rw [h]
      exact fun hc => Outcome.noConfusion hc

/-- Witness of C35: the render capability that appends nothing, on the
template `a{}b{` whose last field is not closed. -/
theorem vformat_impl_terminates_witness :
    (∀ (ps : TypeErasedFormatParams Unit) (b : StringBuilder) (l : GenericLexer) (v : Unit),
      (fun ps b _ _ => Outcome.ok (ps, b) : FormatterFn Unit) ps b l v ≠ .nofuel) ∧
    vformat (fun ps b _ _ => Outcome.ok (ps, b) : FormatterFn Unit) [] ['a', '{', '}', 'b', '{']
      (VariadicFormatParams [()]) ≠ .nofuel ∧
    vformat (fun ps b _ _ => Outcome.ok (ps, b) : FormatterFn Unit) [] ['a', '{', '}', 'b', '{']
      (VariadicFormatParams [()]) = .abort ∧
    vformat (fun ps b _ _ => Outcome.ok (ps, b) : FormatterFn Unit) [] ['a', '{', '}', 'b']
      (VariadicFormatParams [()]) = .ok ['a', 'b'] :=
  ⟨fun _ _ _ _ h => Outcome.noConfusion h,
    (vformat_impl_terminates (fun ps b _ _ => Outcome.ok (ps, b) : FormatterFn Unit)
      (fun _ _ _ _ h => Outcome.noConfusion h) [] ['a', '{', '}', 'b', '{']
      (VariadicFormatParams [()]) []).2.1, by decide, by decide⟩

/-! ## C39: searching a string -/

theorem string_index_of_loop_spec (string search_value : Utf16View) (from_index : Nat)
    (hlen : search_value.length ≤ string.length) :
    ∀ (fuel i : Nat), string.length - search_value.length + 1 - i < fuel → from_index ≤ i →
      (∀ j, from_index ≤ j → j < i → occurs_at string search_value j = false) →
      ∃ r, string_index_of_loop string search_value string.length search_value.length fuel i =
          .ok r ∧
        (∀ k, r = some k → from_index ≤ k ∧ occurs_at string search_value k = true ∧
          ∀ j, from_index ≤ j → j < k → occurs_at string search_value j = false) ∧
        (r = none → ∀ j, from_index ≤ j → occurs_at string search_value j = false) := by
  intro fuel
  induction fuel with
  | zero => intro i h; omega
  | succ fuel ih =>
    intro i hfuel hfrom hbefore
    rw [string_index_of_loop]
    by_cases hi : i ≤ string.length - search_value.length
    · have hin : i + search_value.length ≤ string.length := by omega
      simp only [hi, if_true, Utf16View.substring_view, hin]
      by_cases hc : (string.drop i).take search_value.length = search_value
      · refine ⟨some i, by simp only [hc, if_true], ?_, by intro h; cases h⟩
        intro k hk
        simp only [Option.some.injEq] at hk
        subst hk
        refine ⟨hfrom, ?_, hbefore⟩
        simp [occurs_at, hin, hc]
      · simp only [hc, if_false]
        apply ih (i + 1) (by omega) (by omega)
        intro j hj1 hj2
        by_cases hji : j = i
        · subst hji
          simp [occurs_at, hc]
        · exact hbefore j hj1 (by omega)
    · refine ⟨none, by simp only [hi, if_false], (by intro k h; cases h), ?_⟩
      intro _ j hj
      by_cases hji : j < i
      · exact hbefore j hj hji
      · have : ¬(j + search_value.length ≤ string.length) := by omega
        simp [occurs_at, this]

theorem string_index_of_spec (string search_value : Utf16View) (from_index : Nat) :
    ∃ r, string_index_of string search_value from_index = .ok r ∧
      (∀ k, r = some k → from_index ≤ k ∧ occurs_at string search_value k = true ∧
        ∀ j, from_index ≤ j → j < k → occurs_at string search_value j = false) ∧
      (r = none → ∀ j, from_index ≤ j → occurs_at string search_value j = false) := by
  simp only [string_index_of, Utf16View.length_in_code_units]
  by_cases h1 : search_value.length = 0 ∧ from_index ≤ string.length
  · refine ⟨some from_index, by simp only [h1, and_self, if_true], ?_, by intro h; cases h⟩
    intro k hk
    simp only [Option.some.injEq] at hk
    subst hk
    have hnil : search_value = [] := List.length_eq_zero.mp h1.1
    refine ⟨le_refl _, ?_, fun j h2 h3 => absurd h3 (by omega)⟩
    subst hnil
    simp [occurs_at, h1.2]
  · by_cases h2 : search_value.length > string.length
    · refine ⟨none, by simp only [h1, h2, if_true, if_false], (by intro k h; cases h), ?_⟩
      intro _ j _
      have : ¬(j + search_value.length ≤ string.length) := by omega
      simp [occurs_at, this]
    · simp only [h1, h2, if_false]
      exact string_index_of_loop_spec string search_value from_index (by omega)
        (string.length + 2) from_index (by omega) (le_refl _)
        (fun j h3 h4 => absurd h4 (by omega))

/-- C39. For every haystack, needle and `from_index`, `string_index_of`
returns, and its result is the least index `i ≥ from_index` at which the needle
occurs in the haystack as a run of code units, and no value exactly when there
is no such index.  A returned index satisfies `i + needle length ≤ haystack
length`, and for the empty needle the result is `from_index` itself when
`from_index ≤ length`.  Searching `[1, 2, 1, 2, 3]` for `[1, 2]` gives 0 from
index 0, 2 from index 1 and no value from index 3. -/
theorem string_index_of_least (string search_value : Utf16View) (from_index : Nat) :
    (∃ r, string_index_of string search_value from_index = .ok r ∧
      (∀ i, r = some i ↔
        (from_index ≤ i ∧ occurs_at string search_value i = true ∧
          ∀ j, from_index ≤ j → j < i → occurs_at string search_value j = false)) ∧
      (r = none ↔ ∀ i, from_index ≤ i → occurs_at string search_value i = false) ∧
      (∀ i, r = some i → i + search_value.length ≤ string.length) ∧
      (search_value = [] → from_index ≤ string.length → r = some from_index)) ∧
    (∀ i, occurs_at string search_value i = true ↔
      (i + search_value.length ≤ string.length ∧
        (string.drop i).take search_value.length = search_value)) ∧
    string_index_of [1, 2, 1, 2, 3] [1, 2] 0 = .ok (some 0) ∧
    string_index_of [1, 2, 1, 2, 3] [1, 2] 1 = .ok (some 2) ∧
    string_index_of [1, 2, 1, 2, 3] [1, 2] 3 = .ok none ∧
    string_index_of [1, 2, 3] [] 3 = .ok (some 3) ∧
    string_index_of [1, 2, 3] [] 4 = .ok none := by
  refine ⟨?_, ?_, by decide, by decide, by decide, by decide, by decide⟩
  · obtain ⟨r, hr, hsome, hnone⟩ := string_index_of_spec string search_value from_index
    refine ⟨r, hr, ?_, ?_, ?_, ?_⟩
    · intro i
      constructor
      · exact hsome i
      · rintro ⟨h1, h2, h3⟩
        cases r with
        | none =>
          have := hnone rfl i h1
          rw [this] at h2
          cases h2
        | some k =>
          obtain ⟨k1, k2, k3⟩ := hsome k rfl
          have hik : ¬ i < k := fun hlt => by
            have := k3 i h1 hlt
            rw [this] at h2
            cases h2
          have hki : ¬ k < i := fun hlt => by
            have := h3 k k1 hlt
            rw [this] at k2
            cases k2
          have : k = i := by omega
          rw [this]
    · constructor
      · exact hnone
      · intro h
        cases r with
        | none => rfl
        | some k =>
          obtain ⟨k1, k2, _⟩ := hsome k rfl
          have := h k k1
          rw [this] at k2
          cases k2
    · intro i hi
      obtain ⟨_, k2, _⟩ := hsome i hi
      simp only [occurs_at, Bool.and_eq_true, decide_eq_true_eq] at k2
      exact k2.1
    · intro hnil hfrom
      subst hnil
      simp only [string_index_of, Utf16View.length_in_code_units, List.length_nil, true_and,
        hfrom, if_true, Outcome.ok.injEq] at hr
      exact hr.symm
  · intro i
    simp only [occurs_at, Bool.and_eq_true, decide_eq_true_eq]

/-! ## C33: parsing undoes printing -/

/-- C33. Let the tokens of an options span be well formed (a fill is not a
brace and comes with an alignment, a width is at least 1, the numbers are below
`2^64`), the width and the precision being written in decimal when present.
On the span that writes the tokens in the order fill, alignment, sign, `#`,
`0`, width, `.` precision, mode, `StandardFormatter::parse` returns normally
with exactly the directive of the tokens, each absent token leaving the member
of the directive as it was, with the argument store unchanged and the parser
at the end of the span.  From the initial directive the options
`*^+#010.3x` give fill `*`, `Center`, `Always`, alternate form, zero padding,
width 10, precision 3 and the hexadecimal mode. -/
theorem parse_undoes_printing {V : Type} (to_size : V → Outcome Nat)
    (self : StandardFormatter) (params : TypeErasedFormatParams V) (t : OptionTokens)
    (w p : Option Nat) (hwf : t.well_formed = true)
    (hw : t.width = w.map SizeToken.literal) (hp : t.precision = p.map SizeToken.literal) :
    StandardFormatter.parse to_size self params ⟨t.text, 0⟩ =
      .ok (⟨t.align.getD self.m_align, t.sign.getD self.m_sign_mode, t.mode.getD self.m_mode,
          t.alternative_form || self.m_alternative_form, t.fill.getD self.m_fill,
          t.zero_pad || self.m_zero_pad, if w.isSome then w else self.m_width,
          if p.isSome then p else self.m_precision⟩,
        params, ⟨t.text, t.text.length⟩) ∧
    t.text =
      t.fill.toList ++ align_text t.align ++ sign_mode_text t.sign ++
        flag_text t.alternative_form '#' ++ flag_text t.zero_pad '0' ++
        (w.map (Nat.toDigits 10)).getD [] ++
        (p.map (fun n => '.' :: Nat.toDigits 10 n)).getD [] ++ mode_text t.mode ∧
    StandardFormatter.parse integer_to_size StandardFormatter.initial (VariadicFormatParams [])
        ⟨"*^+#010.3x".toList, 0⟩ =
      .ok (⟨Align.Center, SignMode.Always, Mode.Hexadecimal, true, '*', true, some 10, some 3⟩,
        VariadicFormatParams [], ⟨"*^+#010.3x".toList, 10⟩) := by
  refine ⟨?_, ?_, by decide⟩
  · rw [parse_text to_size self params t hwf]
    cases w with
    | none =>
      cases p with
      | none =>
        simp only [Option.map_none'] at hw hp
        simp [read_options, hw, hp, resolve_optional, parse_result, OptionTokens.directive]
      | some pv =>
        simp only [Option.map_none', Option.map_some'] at hw hp
        simp [read_options, hw, hp, resolve_optional, resolve_size, parse_result,
          OptionTokens.directive]
    | some wv =>
      cases p with
      | none =>
        simp only [Option.map_none', Option.map_some'] at hw hp
        simp [read_options, hw, hp, resolve_optional, resolve_size, parse_result,
          OptionTokens.directive]
      | some pv =>
        simp only [Option.map_some'] at hw hp
        simp [read_options, hw, hp, resolve_optional, resolve_size, parse_result,
          OptionTokens.directive]
  · cases w <;> cases p <;>
      simp [OptionTokens.text, OptionTokens.size_mode_text, hw, hp, size_text, SizeToken.text]

/-- Witness of C33: the tokens of `*^+#010.3x`. -/
theorem parse_undoes_printing_witness :
    (⟨some '*', some Align.Center, some SignMode.Always, true, true,
        some (SizeToken.literal 10), some (SizeToken.literal 3),
        some Mode.Hexadecimal⟩ : OptionTokens).well_formed = true ∧
    (⟨some '*', some Align.Center, some SignMode.Always, true, true,
        some (SizeToken.literal 10), some (SizeToken.literal 3),
        some Mode.Hexadecimal⟩ : OptionTokens).text = "*^+#010.3x".toList ∧
    StandardFormatter.parse integer_to_size StandardFormatter.initial (VariadicFormatParams [])
        ⟨(⟨some '*', some Align.Center, some SignMode.Always, true, true,
          some (SizeToken.literal 10), some (SizeToken.literal 3),
          some Mode.Hexadecimal⟩ : OptionTokens).text, 0⟩ =
      .ok (⟨Align.Center, SignMode.Always, Mode.Hexadecimal, true, '*', true, some 10, some 3⟩,
        VariadicFormatParams [],
        ⟨(⟨some '*', some Align.Center, some SignMode.Always, true, true,
          some (SizeToken.literal 10), some (SizeToken.literal 3),
          some Mode.Hexadecimal⟩ : OptionTokens).text, 10⟩) :=
  ⟨by decide, by decide,
    (parse_undoes_printing integer_to_size StandardFormatter.initial (VariadicFormatParams [])
      ⟨some '*', some Align.Center, some SignMode.Always, true, true,
        some (SizeToken.literal 10), some (SizeToken.literal 3), some Mode.Hexadecimal⟩
      (some 10) (some 3) (by decide) rfl rfl).1⟩

/-! ## C36: the automatic indices within one field -/

/-- C36. Within one field the automatic indices are taken in the order field
value, then width, then precision.  On the template `{:{}.{}}{}` with a store
whose cursor is at 0 the driver renders argument 0 under the directive whose
width is argument 1 and whose precision is argument 2 as sizes, the options
`{}.{}` being parsed with the cursor at 1 and leaving it at 3; the following
field `{}` then renders argument 3 under the initial directive and leaves the
cursor at 4.  With integer arguments 7, 5, 2 and 9 the output is `7` in a
field of width 5 and then `9`. -/
theorem nested_index_order {V : Type} (to_size : V → Outcome Nat)
    (text : StandardFormatter → V → List Char) (builder : StringBuilder) (a0 a1 a2 a3 : V)
    (more : List V) (w p : Nat) (hw : to_size a1 = .ok w) (hp : to_size a2 = .ok p) :
    StandardFormatter.parse to_size StandardFormatter.initial
        ⟨a0 :: a1 :: a2 :: a3 :: more, 1⟩ ⟨['{', '}', '.', '{', '}'], 0⟩ =
      .ok (⟨Align.Default, SignMode.OnlyIfNeeded, Mode.Default, false, ' ', false, some w,
          some p⟩,
        ⟨a0 :: a1 :: a2 :: a3 :: more, 3⟩, ⟨['{', '}', '.', '{', '}'], 5⟩) ∧
    vformat_impl (standard_formatter to_size (fun d v b => .ok (b ++ text d v))) 11
        (VariadicFormatParams (a0 :: a1 :: a2 :: a3 :: more)) builder
        ⟨['{', ':', '{', '}', '.', '{', '}', '}', '{', '}'], 0⟩ =
      .ok (⟨a0 :: a1 :: a2 :: a3 :: more, 4⟩,
        builder ++
          text ⟨Align.Default, SignMode.OnlyIfNeeded, Mode.Default, false, ' ', false, some w,
            some p⟩ a0 ++
          text StandardFormatter.initial a3,
        ⟨['{', ':', '{', '}', '.', '{', '}', '}', '{', '}'], 10⟩) ∧
    vformat (standard_formatter to_size (fun d v b => .ok (b ++ text d v))) builder
        ['{', ':', '{', '}', '.', '{', '}', '}', '{', '}']
        (VariadicFormatParams (a0 :: a1 :: a2 :: a3 :: more)) =
      .ok (builder ++
        text ⟨Align.Default, SignMode.OnlyIfNeeded, Mode.Default, false, ' ', false, some w,
          some p⟩ a0 ++
        text StandardFormatter.initial a3) ∧
    vformat format_integer [] ['{', ':', '{', '}', '.', '{', '}', '}', '{', '}']
        (VariadicFormatParams [7, 5, 2, 9]) = .ok [' ', ' ', ' ', ' ', '7', '9'] := by
  have hparse : StandardFormatter.parse to_size StandardFormatter.initial
        ⟨a0 :: a1 :: a2 :: a3 :: more, 1⟩ ⟨['{', '}', '.', '{', '}'], 0⟩ =
      .ok (⟨Align.Default, SignMode.OnlyIfNeeded, Mode.Default, false, ' ', false, some w,
          some p⟩,
        ⟨a0 :: a1 :: a2 :: a3 :: more, 3⟩, ⟨['{', '}', '.', '{', '}'], 5⟩) := by
    have h := parse_text to_size StandardFormatter.initial
      (⟨a0 :: a1 :: a2 :: a3 :: more, 1⟩ : TypeErasedFormatParams V)
      ⟨none, none, none, false, false, some (SizeToken.nested none),
        some (SizeToken.nested none), none⟩ (by decide)
    have ht : (⟨none, none, none, false, false, some (SizeToken.nested none),
        some (SizeToken.nested none), none⟩ : OptionTokens).text =
        ['{', '}', '.', '{', '}'] := by decide
    rw [ht] at h
    rw [h]
    have h1 : (1 + 1) % SIZE_MOD = 2 := by decide
    have h2 : (2 + 1) % SIZE_MOD = 3 := by decide
    simp [read_options, resolve_optional, resolve_size, hw, hp,
      TypeErasedFormatParams.take_next_index, h1, h2, parse_result, OptionTokens.directive,
      StandardFormatter.initial]
  have hdriver : vformat_impl (standard_formatter to_size (fun d v b => .ok (b ++ text d v))) 11
        (VariadicFormatParams (a0 :: a1 :: a2 :: a3 :: more)) builder
        ⟨['{', ':', '{', '}', '.', '{', '}', '}', '{', '}'], 0⟩ =
      .ok (⟨a0 :: a1 :: a2 :: a3 :: more, 4⟩,
        builder ++
          text ⟨Align.Default, SignMode.OnlyIfNeeded, Mode.Default, false, ' ', false, some w,
            some p⟩ a0 ++
          text StandardFormatter.initial a3,
        ⟨['{', ':', '{', '}', '.', '{', '}', '}', '{', '}'], 10⟩) := by
    have hl0 : consume_literal ⟨['{', ':', '{', '}', '.', '{', '}', '}', '{', '}'], 0⟩ =
        .ok ([], ⟨['{', ':', '{', '}', '.', '{', '}', '}', '{', '}'], 0⟩) := by decide
    have hs0 : consume_specifier ⟨['{', ':', '{', '}', '.', '{', '}', '}', '{', '}'], 0⟩ =
        .ok (some ⟨['{', '}', '.', '{', '}'], use_next_index⟩,
          ⟨['{', ':', '{', '}', '.', '{', '}', '}', '{', '}'], 8⟩) := by decide
    have hl8 : consume_literal ⟨['{', ':', '{', '}', '.', '{', '}', '}', '{', '}'], 8⟩ =
        .ok ([], ⟨['{', ':', '{', '}', '.', '{', '}', '}', '{', '}'], 8⟩) := by decide
    have hs8 : consume_specifier ⟨['{', ':', '{', '}', '.', '{', '}', '}', '{', '}'], 8⟩ =
        .ok (some ⟨[], use_next_index⟩,
          ⟨['{', ':', '{', '}', '.', '{', '}', '}', '{', '}'], 10⟩) := by decide
    have hl10 : consume_literal ⟨['{', ':', '{', '}', '.', '{', '}', '}', '{', '}'], 10⟩ =
        .ok ([], ⟨['{', ':', '{', '}', '.', '{', '}', '}', '{', '}'], 10⟩) := by decide
    have hs10 : consume_specifier ⟨['{', ':', '{', '}', '.', '{', '}', '}', '{', '}'], 10⟩ =
        .ok (none, ⟨['{', ':', '{', '}', '.', '{', '}', '}', '{', '}'], 10⟩) := by decide
    have he10 : (⟨['{', ':', '{', '}', '.', '{', '}', '}', '{', '}'], 10⟩ :
        GenericLexer).is_eof = true := by decide
    have hput : ∀ b : StringBuilder, put_literal b [] = .ok b := by
      intro b
      simp [put_literal, put_literal_loop]
    have h1 : (0 + 1) % SIZE_MOD = 1 := by decide
    have h4 : (3 + 1) % SIZE_MOD = 4 := by decide
    have hempty := parse_empty to_size StandardFormatter.initial
      (⟨a0 :: a1 :: a2 :: a3 :: more, 4⟩ : TypeErasedFormatParams V)
    simp only [vformat_impl, hl0, hs0, hl8, hs8, hl10, hs10, he10, hput, VariadicFormatParams,
      TypeErasedFormatParams.take_next_index, h1, h4, if_true, standard_formatter, hparse,
      hempty, List.get?_cons_zero, List.get?_cons_succ]
  refine ⟨hparse, hdriver, ?_, by decide⟩
  simp only [vformat, List.length_cons, List.length_nil, Nat.zero_add, Nat.reduceAdd, hdriver]

/-- Witness of C36: integer arguments under a render capability that writes
the width and the precision it was given. -/
theorem nested_index_order_witness :
    integer_to_size 5 = .ok 5 ∧ integer_to_size 2 = .ok 2 ∧
    vformat (standard_formatter integer_to_size
        (fun d v b => .ok (b ++ (fun d v =>
          Nat.toDigits 10 v.toNat ++ ['w'] ++ Nat.toDigits 10 (d.m_width.getD 0) ++ ['p'] ++
            Nat.toDigits 10 (d.m_precision.getD 0) ++ [';']) d v))) []
        ['{', ':', '{', '}', '.', '{', '}', '}', '{', '}']
        (VariadicFormatParams ((7 : Int) :: 5 :: 2 :: 9 :: [])) =
      .ok "7w5p2;9w0p0;".toList :=
  ⟨rfl, rfl,
    (nested_index_order integer_to_size
      (fun d v =>
        Nat.toDigits 10 v.toNat ++ ['w'] ++ Nat.toDigits 10 (d.m_width.getD 0) ++ ['p'] ++
          Nat.toDigits 10 (d.m_precision.getD 0) ++ [';'])
      [] 7 5 2 9 [] 5 2 rfl rfl).2.2.1⟩

/-! ## C37: concatenating templates -/

theorem escape_append (s t : List Char) : escape (s ++ t) = escape s ++ escape t := by
  induction s with
  | nil => rfl
  | cons c s ih =>
    cases hb : is_brace c <;> simp [escape, hb, ih]

theorem consume_specifier_field (pre idx opts rest : List Char)
    (hidx : ∀ c ∈ idx, is_ascii_digit c = true) (hbal : brace_depth 0 opts = some 0) :
    consume_specifier (lexer_at pre ('{' :: (idx ++ ':' :: (opts ++ '}' :: rest)))) =
      .ok (some ⟨opts, field_index idx⟩,
        lexer_at (pre ++ '{' :: (idx ++ ':' :: (opts ++ ['}']))) rest) := by
  have hnum := consume_number_digits (pre ++ ['{']) idx (':' :: (opts ++ '}' :: rest)) hidx
    (by rw [List.getD_cons_zero]; decide)
  have hloop := consume_specifier_loop_balanced opts (pre ++ ['{'] ++ idx ++ [':'])
    ('}' :: rest)
    ((lexer_at (pre ++ ['{'] ++ idx ++ [':']) (opts ++ '}' :: rest)).m_input.length -
      (lexer_at (pre ++ ['{'] ++ idx ++ [':']) (opts ++ '}' :: rest)).m_index + 1) 0 0 hbal
    (by simp [lexer_at]; omega)
  have hfuel : (lexer_at (pre ++ ['{'] ++ idx ++ [':']) (opts ++ '}' :: rest)).m_input.length -
      (lexer_at (pre ++ ['{'] ++ idx ++ [':']) (opts ++ '}' :: rest)).m_index + 1 -
        opts.length = rest.length + 1 + 1 := by
    simp [lexer_at]; omega
  rw [hfuel] at hloop
  have hlast : consume_specifier_loop (rest.length + 1 + 1)
      (lexer_at (pre ++ ['{'] ++ idx ++ [':'] ++ opts) ('}' :: rest)) (0 + 1) =
      .ok (lexer_at (pre ++ ['{'] ++ idx ++ [':'] ++ opts ++ ['}']) rest) := by
    have heof : (lexer_at (pre ++ ['{'] ++ idx ++ [':'] ++ opts) ('}' :: rest)).is_eof =
        false := by
      rw [lexer_at_is_eof]; rfl
    simp only [consume_specifier_loop, heof, lexer_at_consume_specific_hit,
      lexer_at_consume_specific_miss _ '{' '}' _ (by decide)]
    simp
  rw [hlast] at hloop
  simp only [consume_specifier, lexer_at_peek, List.getD_cons_zero,
    lexer_at_consume_specific_hit, hnum, field_index_eq]
  rw [if_neg (by decide)]
  simp only [Nat.zero_add] at hloop
  rw [hloop]
  have hsubstr : ∀ (P : List Char),
      substring_view (P ++ opts ++ ['}'] ++ rest) P.length
        ((P ++ opts ++ ['}']).length - P.length - 1) = opts := by
    intro P
    simp only [substring_view, List.append_assoc, List.drop_left, List.length_append,
      List.length_singleton]
    rw [show P.length + (opts.length + 1) - P.length - 1 = opts.length by omega,
      List.take_left]
  have h := hsubstr (pre ++ ['{'] ++ idx ++ [':'])
  simp only [lexer_at, GenericLexer.tell, Outcome.ok.injEq, Prod.mk.injEq, Option.some.injEq,
    FormatSpecifier.mk.injEq, and_true]
  refine ⟨h, ?_⟩
  simp

theorem consume_specifier_plain (pre idx rest : List Char)
    (hidx : ∀ c ∈ idx, is_ascii_digit c = true) :
    consume_specifier (lexer_at pre ('{' :: (idx ++ '}' :: rest))) =
      .ok (some ⟨[], field_index idx⟩, lexer_at (pre ++ '{' :: (idx ++ ['}'])) rest) := by
  have hnum := consume_number_digits (pre ++ ['{']) idx ('}' :: rest) hidx
    (by rw [List.getD_cons_zero]; decide)
  simp only [consume_specifier, lexer_at_peek, List.getD_cons_zero,
    lexer_at_consume_specific_hit, hnum, field_index_eq,
    lexer_at_consume_specific_miss _ ':' '}' _ (by decide)]
  simp

theorem consume_specifier_loop_closes : ∀ (u : List Char) (fuel : Nat) (p : List Char)
    (d : Nat) (l4 : GenericLexer),
    consume_specifier_loop fuel (lexer_at p u) (d + 1) = .ok l4 →
    ∃ opts r, u = opts ++ '}' :: r ∧ brace_depth d opts = some 0 := by
  intro u
  induction u with
  | nil =>
    intro fuel p d l4 h
    cases fuel with
    | zero => cases h
    | succ fuel =>
      have heof : (lexer_at p []).is_eof = true := by rw [lexer_at_is_eof]; rfl
      simp only [consume_specifier_loop, heof] at h
      simp at h
  | cons c u ih =>
    intro fuel p d l4 h
    cases fuel with
    | zero => cases h
    | succ fuel =>
      have heof : (lexer_at p (c :: u)).is_eof = false := by rw [lexer_at_is_eof]; rfl
      have hpos : d + 1 > 0 := by omega
      simp only [consume_specifier_loop, heof, hpos, if_true, Bool.false_eq_true,
        if_false] at h
      by_cases hc1 : c = '{'
      · subst hc1
        simp only [lexer_at_consume_specific_hit] at h
        obtain ⟨opts, r, hu, hd⟩ := ih fuel _ (d + 1) l4 h
        refine ⟨'{' :: opts, r, by simp [hu], ?_⟩
        simp only [brace_depth, if_true]
        exact hd
      · by_cases hc2 : c = '}'
        · subst hc2
          cases d with
          | zero => exact ⟨[], u, rfl, rfl⟩
          | succ d =>
            simp only [lexer_at_consume_specific_miss p '{' '}' _ (by decide),
              lexer_at_consume_specific_hit] at h
            have h2 : d + 1 + 1 - 1 = d + 1 := by omega
            rw [h2] at h
            obtain ⟨opts, r, hu, hd⟩ := ih fuel _ d l4 h
            refine ⟨'}' :: opts, r, by simp [hu], ?_⟩
            simp [brace_depth, hd]
        · simp only [lexer_at_consume_specific_miss p '{' c _ hc1,
            lexer_at_consume_specific_miss p '}' c _ hc2, lexer_at_consume] at h
          obtain ⟨opts, r, hu, hd⟩ := ih fuel _ d l4 h
          refine ⟨c :: opts, r, by simp [hu], ?_⟩
          simp only [brace_depth, hc1, hc2, if_false]
          exact hd

theorem stops_literal_open (idx tail : List Char) (c : Char) (hc : c ≠ '{')
    (hidx : ∀ x ∈ idx, is_ascii_digit x = true) :
    stops_literal ('{' :: (idx ++ c :: tail)) = true := by
  cases idx with
  | nil => simp [stops_literal, is_brace, hc]
  | cons x idx =>
    have hx := hidx x (List.mem_cons_self _ _)
    have hne : x ≠ '{' := by
      intro h
      rw [h] at hx
      exact absurd hx (by decide)
    simp [stops_literal, is_brace, hne]

theorem consume_specifier_relocate (pre rest : List Char) (specifier : FormatSpecifier)
    (l2 : GenericLexer)
    (h : consume_specifier (lexer_at pre rest) = .ok (some specifier, l2)) :
    ∃ consumed r, rest = consumed ++ r ∧
      (∀ tail, stops_literal (consumed ++ tail) = true) ∧
      ∀ pre1 tail, consume_specifier (lexer_at pre1 (consumed ++ tail)) =
        .ok (some specifier, lexer_at (pre1 ++ consumed) tail) := by
  cases rest with
  | nil =>
    rw [consume_specifier_at_end] at h
    simp at h
  | cons c r =>
    by_cases hc : c = '{'
    · subst hc
      have hsplit : r = r.takeWhile is_ascii_digit ++ r.dropWhile is_ascii_digit :=
        (List.takeWhile_append_dropWhile _ _).symm
      have hidx : ∀ x ∈ r.takeWhile is_ascii_digit, is_ascii_digit x = true :=
        fun x hx => List.mem_takeWhile_imp hx
      have hhead := dropWhile_head_not_digit r
      generalize r.takeWhile is_ascii_digit = idx at hsplit hidx
      generalize r.dropWhile is_ascii_digit = tail0 at hsplit hhead
      subst hsplit
      have hnum := consume_number_digits (pre ++ ['{']) idx tail0 hidx hhead
      cases tail0 with
      | nil =>
        simp only [consume_specifier, lexer_at_peek, List.getD_cons_zero,
          lexer_at_consume_specific_hit, hnum,
          lexer_at_consume_specific_nil _ ':' (by decide),
          lexer_at_consume_specific_nil _ '}' (by decide)] at h
        rw [if_neg (by decide)] at h
        simp at h
      | cons e u =>
        by_cases he1 : e = ':'
        · subst he1
          have hcase : (∃ opts r2, u = opts ++ '}' :: r2 ∧ brace_depth 0 opts = some 0) := by
            simp only [consume_specifier, lexer_at_peek, List.getD_cons_zero,
              lexer_at_consume_specific_hit, hnum] at h
            rw [if_neg (by decide)] at h
            split at h
            · rename_i l4 h4
              exact consume_specifier_loop_closes u _ _ 0 l4 h4
            · cases h
            · cases h
          obtain ⟨opts, r2, hu, hbal⟩ := hcase
          subst hu
          have hfield := consume_specifier_field pre idx opts r2 hidx hbal
          rw [hfield] at h
          simp only [Outcome.ok.injEq, Prod.mk.injEq, Option.some.injEq] at h
          refine ⟨'{' :: (idx ++ ':' :: (opts ++ ['}'])), r2, by simp, ?_, ?_⟩
          · intro tail
            have := stops_literal_open idx (opts ++ ['}'] ++ tail) ':' (by decide) hidx
            simpa using this
          · intro pre1 tail
            have h5 := consume_specifier_field pre1 idx opts tail hidx hbal
            rw [← h.1]
            simpa using h5
        · by_cases he2 : e = '}'
          · subst he2
            have hfield := consume_specifier_plain pre idx u hidx
            rw [hfield] at h
            simp only [Outcome.ok.injEq, Prod.mk.injEq, Option.some.injEq] at h
            refine ⟨'{' :: (idx ++ ['}']), u, by simp, ?_, ?_⟩
            · intro tail
              have := stops_literal_open idx tail '}' (by decide) hidx
              simpa using this
            · intro pre1 tail
              have h5 := consume_specifier_plain pre1 idx tail hidx
              rw [← h.1]
              simpa using h5
          · simp only [consume_specifier, lexer_at_peek, List.getD_cons_zero,
              lexer_at_consume_specific_hit, hnum,
              lexer_at_consume_specific_miss _ ':' e _ he1,
              lexer_at_consume_specific_miss _ '}' e _ he2] at h
            rw [if_neg (by decide)] at h
            simp at h
    · by_cases hc2 : c = '}'
      · subst hc2
        simp only [consume_specifier, lexer_at_peek, List.getD_cons_zero, if_true] at h
        cases h
      · simp only [consume_specifier, lexer_at_peek, List.getD_cons_zero, hc2, if_false,
          lexer_at_consume_specific_miss pre '{' c _ hc] at h
        simp at h

theorem consume_specifier_none (l l2 : GenericLexer)
    (h : consume_specifier l = .ok (none, l2)) : l2 = l := by
  simp only [consume_specifier] at h
  split at h
  · cases h
  · split at h
    · simp only [Outcome.ok.injEq, Prod.mk.injEq, true_and] at h
      exact h.symm
    · split at h
      · split at h
        · split at h
          · simp at h
          · cases h
          · cases h
        · split at h
          · cases h
          · simp at h
      · cases h
      · cases h

theorem vformat_impl_literal_merge {V : Type} (formatter : FormatterFn V) (fuel : Nat)
    (params : TypeErasedFormatParams V) (builder : StringBuilder) (pre s t : List Char) :
    vformat_impl formatter fuel params builder (lexer_at pre (escape s ++ t)) =
      vformat_impl formatter fuel params (builder ++ s) (lexer_at (pre ++ escape s) t) := by
  cases fuel with
  | zero => rfl
  | succ fuel =>
    obtain ⟨s2, rest2, ht, hstop⟩ := escape_decomposition t.length t (le_refl _)
    subst ht
    have h1 := consume_literal_escape pre (s ++ s2) rest2 hstop
    rw [escape_append, List.append_assoc] at h1
    have h2 := consume_literal_escape (pre ++ escape s) s2 rest2 hstop
    have h3 : put_literal builder (escape s ++ escape s2) = .ok (builder ++ (s ++ s2)) := by
      rw [← escape_append]
      exact put_literal_escape _ _
    simp only [vformat_impl, h1, h2, h3, put_literal_escape, List.append_assoc]

theorem vformat_impl_at_end_ok {V : Type} (formatter : FormatterFn V) (fuel : Nat)
    (params : TypeErasedFormatParams V) (builder : StringBuilder) (pre : List Char) :
    vformat_impl formatter (fuel + 1) params builder (lexer_at pre []) =
      .ok (params, builder, lexer_at pre []) := by
  have h1 := consume_literal_escape pre [] [] rfl
  simp only [escape, List.append_nil, List.nil_append] at h1
  have h2 : put_literal builder [] = .ok builder := by
    simp [put_literal, put_literal_loop]
  have h3 : (lexer_at pre []).is_eof = true := by rw [lexer_at_is_eof]; rfl
  simp only [vformat_impl, h1, h2, consume_specifier_at_end, h3, if_true]

theorem vformat_impl_continue {V : Type} (formatter : FormatterFn V) :
    ∀ (fuel : Nat) (pre rest : List Char) (params : TypeErasedFormatParams V)
      (builder : StringBuilder) (params1 : TypeErasedFormatParams V) (builder1 : StringBuilder)
      (l1 : GenericLexer),
      vformat_impl formatter (fuel + 1) params builder (lexer_at pre rest) =
        .ok (params1, builder1, l1) →
      ∀ (pre1 t2 : List Char) (g : Nat)
        (r : Outcome (TypeErasedFormatParams V × StringBuilder × GenericLexer)),
        vformat_impl formatter g params1 builder1 (lexer_at (pre1 ++ rest) t2) = r →
        r ≠ .nofuel →
        vformat_impl formatter (fuel + g) params builder (lexer_at pre1 (rest ++ t2)) = r := by
  intro fuel
  induction fuel with
  | zero =>
    intro pre rest params builder params1 builder1 l1 h pre1 t2 g r hr hne
    obtain ⟨s, rest1, hrest, hstop⟩ := escape_decomposition rest.length rest (le_refl _)
    subst hrest
    simp only [vformat_impl, consume_literal_escape pre s rest1 hstop, put_literal_escape] at h
    cases rest1 with
    | nil =>
      have heof : (lexer_at (pre ++ escape s) []).is_eof = true := by
        rw [lexer_at_is_eof]; rfl
      simp only [consume_specifier_at_end, heof, if_true, Outcome.ok.injEq,
        Prod.mk.injEq] at h
      obtain ⟨hp, hb, _⟩ := h
      subst hp
      subst hb
      rw [List.append_nil] at hr ⊢
      rw [vformat_impl_literal_merge, Nat.zero_add]
      exact hr
    | cons c r1 =>
      cases hcs : consume_specifier (lexer_at (pre ++ escape s) (c :: r1)) with
      | abort => rw [hcs] at h; cases h
      | nofuel => rw [hcs] at h; cases h
      | ok x =>
        obtain ⟨specifier, l2⟩ := x
        rw [hcs] at h
        cases specifier with
        | none =>
          have := consume_specifier_none _ _ hcs
          subst this
          have heof : (lexer_at (pre ++ escape s) (c :: r1)).is_eof = false := by
            rw [lexer_at_is_eof]; rfl
          simp only [heof] at h
          simp at h
        | some specifier =>
          try simp only at h
          split at h
          · cases h
          · split at h
            · cases h
            · cases h
            · cases h
  | succ fuel ih =>
    intro pre rest params builder params1 builder1 l1 h pre1 t2 g r hr hne
    obtain ⟨s, rest1, hrest, hstop⟩ := escape_decomposition rest.length rest (le_refl _)
    subst hrest
    simp only [vformat_impl, consume_literal_escape pre s rest1 hstop, put_literal_escape] at h
    cases rest1 with
    | nil =>
      have heof : (lexer_at (pre ++ escape s) []).is_eof = true := by
        rw [lexer_at_is_eof]; rfl
      simp only [consume_specifier_at_end, heof, if_true, Outcome.ok.injEq,
        Prod.mk.injEq] at h
      obtain ⟨hp, hb, _⟩ := h
      subst hp
      subst hb
      rw [List.append_nil] at hr ⊢
      rw [vformat_impl_literal_merge, Nat.add_comm (fuel + 1) g,
        vformat_impl_fuel formatter g (fuel + 1) _ _ _ (by rw [hr]; exact hne)]
      exact hr
    | cons c r1 =>
      cases hcs : consume_specifier (lexer_at (pre ++ escape s) (c :: r1)) with
      | abort => rw [hcs] at h; cases h
      | nofuel => rw [hcs] at h; cases h
      | ok x =>
        obtain ⟨specifier, l2⟩ := x
        rw [hcs] at h
        cases specifier with
        | none =>
          have := consume_specifier_none _ _ hcs
          subst this
          have heof : (lexer_at (pre ++ escape s) (c :: r1)).is_eof = false := by
            rw [lexer_at_is_eof]; rfl
          simp only [heof] at h
          simp at h
        | some specifier =>
          obtain ⟨consumed, r2, hsplit, hstops, hreloc⟩ :=
            consume_specifier_relocate _ _ _ _ hcs
          rw [hsplit] at hcs hr ⊢
          rw [hreloc (pre ++ escape s) r2] at hcs
          simp only [Outcome.ok.injEq, Prod.mk.injEq, true_and] at hcs
          subst hcs
          try simp only at h
          have he : fuel + 1 + g = fuel + g + 1 := by omega
          have hlit := consume_literal_escape pre1 s (consumed ++ (r2 ++ t2)) (hstops _)
          rw [he]
          simp only [vformat_impl, List.append_assoc, hlit, put_literal_escape,
            hreloc (pre1 ++ escape s) (r2 ++ t2)]
          cases hget : (if specifier.index = use_next_index then params.take_next_index
              else (specifier.index, params)).2.m_parameters.get?
              (if specifier.index = use_next_index then params.take_next_index
                else (specifier.index, params)).1 with
          | none => rw [hget] at h; cases h
          | some parameter =>
            rw [hget] at h
            try simp only at h ⊢
            cases hfmt : formatter (if specifier.index = use_next_index then
                params.take_next_index else (specifier.index, params)).2 (builder ++ s)
                ⟨specifier.flags, 0⟩ parameter with
            | abort => rw [hfmt] at h; cases h
            | nofuel => rw [hfmt] at h; cases h
            | ok x2 =>
              obtain ⟨params2, builder2⟩ := x2
              rw [hfmt] at h
              try simp only at h ⊢
              have := ih (pre ++ escape s ++ consumed) r2 params2 builder2 params1 builder1 l1 h
                (pre1 ++ escape s ++ consumed) t2 g r
                (by simpa [List.append_assoc] using hr) hne
              simpa [List.append_assoc] using this

/-- Counterexample to C37 as stated: the template `{18446744073709551615}` has
no `{}` field and no nested reference, and `vformat` returns normally on it with
the single argument 5; yet its explicit index is the sentinel of the automatic
index, the field takes the cursor, and on the template followed by itself
`vformat` aborts. -/
theorem vformat_concat_counterexample :
    vformat format_integer [] ('{' :: ("18446744073709551615".toList ++ ['}']))
        (VariadicFormatParams [5]) = .ok ['5'] ∧
    vformat format_integer []
        (('{' :: ("18446744073709551615".toList ++ ['}'])) ++
          ('{' :: ("18446744073709551615".toList ++ ['}'])))
        (VariadicFormatParams [5]) = .abort ∧
    vformat_impl format_integer 23 (VariadicFormatParams [5]) []
        ⟨'{' :: ("18446744073709551615".toList ++ ['}']), 0⟩ =
      .ok (⟨[5], 1⟩, ['5'], ⟨'{' :: ("18446744073709551615".toList ++ ['}']), 22⟩) := by
  decide

/-- C37 (amended). Rendering distributes over the concatenation of templates
when the first one leaves the argument store as it found it.  Let the render
capabilities be append-only.  If on the template `t1` the driver returns
normally with the output `out1` and with the store it was given, so that no
field and no nested reference of `t1` took the automatic index, and if
`vformat` on `t2` returns normally with the output `out2` for the same store,
then `vformat` on `t1` followed by `t2` returns normally and appends `out1`
followed by `out2`. -/
theorem vformat_concat {V : Type} (formatter : FormatterFn V)
    (hformatter : ∀ params builder parser value,
      formatter params builder parser value =
        (formatter params [] parser value).map (fun r => (r.1, builder ++ r.2)))
    (t1 t2 : List Char) (params : TypeErasedFormatParams V)
    (builder out1 out2 : StringBuilder) (l1 : GenericLexer)
    (h1 : vformat_impl formatter (t1.length + 1) params [] ⟨t1, 0⟩ = .ok (params, out1, l1))
    (h2 : vformat formatter [] t2 params = .ok out2) :
    vformat formatter builder (t1 ++ t2) params = .ok (builder ++ out1 ++ out2) ∧
    vformat formatter builder t1 params = .ok (builder ++ out1) ∧
    vformat formatter builder t2 params = .ok (builder ++ out2) := by
  have hl1 : (⟨t1, 0⟩ : GenericLexer) = lexer_at [] t1 := by simp [lexer_at]
  have hl2 : (⟨t2, 0⟩ : GenericLexer) = lexer_at [] t2 := by simp [lexer_at]
  have hl12 : (⟨t1 ++ t2, 0⟩ : GenericLexer) = lexer_at [] (t1 ++ t2) := by simp [lexer_at]
  have hv1 : vformat formatter [] t1 params = .ok out1 := by
    simp only [vformat, h1]
  simp only [vformat] at h2
  cases hv2 : vformat_impl formatter (t2.length + 1) params [] ⟨t2, 0⟩ with
  | abort => rw [hv2] at h2; cases h2
  | nofuel => rw [hv2] at h2; cases h2
  | ok x =>
    obtain ⟨p2, o2, l2⟩ := x
    rw [hv2] at h2
    simp only [Outcome.ok.injEq] at h2
    subst h2
    rw [hl2] at hv2
    have hmove := vformat_impl_continue formatter t2.length [] t2 params [] p2 o2 l2 hv2 t1 []
      1 (.ok (p2, o2, lexer_at (t1 ++ t2) []))
      (vformat_impl_at_end_ok formatter 0 p2 o2 (t1 ++ t2)) (fun hc => Outcome.noConfusion hc)
    rw [List.append_nil] at hmove
    have hframe := vformat_impl_frame formatter hformatter (t2.length + 1) params out1 []
      (lexer_at t1 t2)
    rw [hmove, List.append_nil] at hframe
    simp only [Outcome.map] at hframe
    rw [hl1] at h1
    have hall := vformat_impl_continue formatter t1.length [] t1 params [] params out1 l1 h1
      [] t2 (t2.length + 1) (.ok (p2, out1 ++ o2, lexer_at (t1 ++ t2) []))
      (by rw [List.nil_append]; exact hframe) (fun hc => Outcome.noConfusion hc)
    have hlen : (t1 ++ t2).length + 1 = t1.length + (t2.length + 1) := by
      rw [List.length_append]; omega
    have hv12 : vformat formatter [] (t1 ++ t2) params = .ok (out1 ++ o2) := by
      simp only [vformat, hl12, hlen, hall]
    have hv2b : vformat formatter [] t2 params = .ok o2 := by
      simp only [vformat, hl2, hv2]
    refine ⟨?_, ?_, ?_⟩
    · rw [vformat_frame formatter hformatter builder, hv12]
      simp [appended_to]
    · rw [vformat_frame formatter hformatter builder, hv1]
      rfl
    · rw [vformat_frame formatter hformatter builder, hv2b]
      rfl

/-- Witness of C37: `a{0}` followed by `{}b{0}` with the integer arguments 7
and 8. -/
theorem vformat_concat_witness :
    (∀ params builder parser value,
      format_integer params builder parser value =
        (format_integer params [] parser value).map (fun r => (r.1, builder ++ r.2))) ∧
    vformat_impl format_integer 5 (VariadicFormatParams [7, 8]) [] ⟨['a', '{', '0', '}'], 0⟩ =
      .ok (VariadicFormatParams [7, 8], ['a', '7'], ⟨['a', '{', '0', '}'], 4⟩) ∧
    vformat format_integer [] ['{', '}', 'b', '{', '0', '}'] (VariadicFormatParams [7, 8]) =
      .ok ['7', 'b', '7'] ∧
    vformat format_integer ['x'] (['a', '{', '0', '}'] ++ ['{', '}', 'b', '{', '0', '}'])
        (VariadicFormatParams [7, 8]) = .ok (['x'] ++ ['a', '7'] ++ ['7', 'b', '7']) :=
  ⟨format_integer_frame, by decide, by decide,
    (vformat_concat format_integer format_integer_frame ['a', '{', '0', '}']
      ['{', '}', 'b', '{', '0', '}'] (VariadicFormatParams [7, 8]) ['x'] ['a', '7']
      ['7', 'b', '7'] ⟨['a', '{', '0', '}'], 4⟩ (by decide) (by decide)).1⟩

end Base
